import Mathlib

/-! meta-scallop: bridging core, graph reviser and combined graphs

A shallow embedding of the pair-bridging code of meta-scallop
(`src/bridge/bridge_solver.cc`, `src/rnacore/essential.cc`), of the graph reviser
(`src/rnacore/graph_reviser.cc`) and of the combining of graphs
(`src/meta/combined_graph.cc`), and theorems about them.

Conventions of the embedding

* C++ `int` / `int32_t` values are `Int` and arithmetic is exact: signed overflow is
  undefined in the source, so the theorems speak of coordinates and weights for which
  the 32-bit operations of the source do not overflow.
* Vertex indices and container positions are `Nat`; the located vertices of a
  fragment and the trace pointers of a table entry may be `-1` and are `Int`.
* A failed `assert` aborts the run.  Functions that contain assertions return
  `Option`, with `none` for the aborted run.
* Declarations of the repository that are not under `src/` (the classes `entry`,
  `splice_graph`, `undirected_graph`, `pier`, `pereads_cluster`, `phase_set`,
  `parameters`, and the templates of util.h) are modelled from the spec and from the
  use the code under `src/` makes of them; the doc comments of these definitions say
  so.
* `double` weights are rationals and compared exactly; the solver only sees edge
  weights through the `(int)` cast, which truncates toward zero.
* A splice graph has its two sentinels, vertex `0` and vertex `num_vertices() - 1`;
  `num_vertices() - 1` is computed in `Nat`.
* A `std::set` of edge descriptors or of integers is the list of its elements; where
  the source walks such a set (in pointer order), the embedding walks the list in
  insertion order.  A `while(true)` loop is a function of the number of passes left.
-/

namespace MetaScallop

/-! ## update_stack (bridge_solver.cc 399-412) -/

/-- The `for(int i = 0, j = 0; i < v.size() && j < v.size(); i++, j++)` loop of
`bridge_solver::update_stack`; `fuel` bounds the number of iterations (`i` grows
by one each time, so `v.size()` iterations suffice).  `List.set` leaves the list
unchanged when the position is not below its length: a write to
`stack[v.size()]` does not land in the vector. -/
def update_stack_loop (v : List Int) (s : Int) : Nat → Nat → Nat → List Int → List Int
  | 0, _, _, stack => stack
  | fuel + 1, i, j, stack =>
    if i < v.length ∧ j < v.length then
      if i = j ∧ v.getD i 0 > s then
        update_stack_loop v s fuel (i + 1) (j + 1 + 1) ((stack.set j s).set (j + 1) (v.getD i 0))
      else
        update_stack_loop v s fuel (i + 1) (j + 1) (stack.set j (v.getD i 0))
    else stack

/-- The function `bridge_solver::update_stack(v, s)`: `vector<int> stack(v.size(), 0)`
followed by the loop. -/
def update_stack (v : List Int) (s : Int) : List Int :=
  update_stack_loop v s v.length 0 0 (List.replicate v.length 0)

/-! ## entry and entry_compare (bridge_solver.cc 15-24) -/

/-- Modelled from the spec: the class `entry` is declared in bridge_solver.h, outside
`src/`.  The spec: "Entry: `{stack: [int; S], length: int, trace1: vertex, trace2: int}`";
these are the members bridge_solver.cc reads and writes. -/
structure entry where
  stack : List Int
  length : Int
  trace1 : Int
  trace2 : Int
  deriving DecidableEq

/-- The loop of `entry_compare` over the positions present in both stacks, followed
by the comparison of the lengths. -/
def entry_compare_from : List Int → List Int → Int → Int → Bool
  | a :: x, b :: y, lx, ly =>
    if a > b then true
    else if a < b then false
    else entry_compare_from x y lx ly
  | _, _, lx, ly => decide (lx < ly)

/-- The comparator `entry_compare(x, y)`. -/
def entry_compare (x y : entry) : Bool :=
  entry_compare_from x.stack y.stack x.length y.length

/-- What the loop of `update_stack` computes, read off the source: `s` goes in front
of the first element greater than `s`, the later elements move one place to the
right and the last one is lost; without such an element the vector is copied. -/
def stack_insert (s : Int) : List Int → List Int
  | [] => []
  | x :: xs => if x > s then s :: (x :: xs).dropLast else x :: stack_insert s xs

/-! ## std::sort -/

/-- The library call `sort(first, last, comp)`.  The embedding is insertion sort with
`comp` as the strict order: an element is put in front of the first element that
`comp` does not rank before it.  The result is a rearrangement of the input in which
no element is ranked by `comp` before an element standing earlier (for a strict weak
order).  C++ leaves the relative order of equivalent elements open; this embedding
keeps their input order, which is one of the results the library call may give.  The
theorems on sorted data use that the result is a rearrangement in order, and
`dp_rows_ok` states the rows of the dynamic program for an arbitrary such result. -/
def std_sort {α : Type} (comp : α → α → Bool) (l : List α) : List α :=
  List.insertionSort (fun a b => comp b a = false) l

/-! ## splice graph

The class `splice_graph` is declared outside `src/`.  The embedding keeps what the
bridging code reads: the vertex intervals, and the edges with their weights. -/

/-- Modelled from the spec: `vertex_info` is declared outside `src/`.  The spec:
"VertexInfo — `{lpos, rpos: GenomicPos, length, count: int, stddev: float}`"; the
bridging code reads `lpos` and `rpos`, the ends of the interval `[lpos, rpos)`, and
the reviser also reads `stddev`. -/
structure vertex_info where
  lpos : Int
  rpos : Int
  stddev : ℚ := 0
  deriving DecidableEq

/-- Modelled from the spec: the edge class is declared outside `src/`.  The code reads
`source()`, `target()` and, through the graph, the `double` weight of an edge.  An
`edge_descriptor` of the source is a pointer: `id` stands for the identity of the
edge object, so that two edges with the same ends and weight can be told apart;
`add_edge` gives a new edge an `id` that no edge of the graph has. -/
structure edge_base where
  source : Nat
  target : Nat
  weight : ℚ
  id : Nat := 0
  deriving DecidableEq

/-- Modelled from the spec: the class `splice_graph` is declared outside `src/`.  Vertex
`k` has info `vinf[k]` and weight `vwrt[k]`; vertex `0` and the last vertex are the
sentinels.  The order of `edges` fixes the iteration order of `edges()`, `in_edges`
and `out_edges`, which the spec leaves open. -/
structure splice_graph where
  vinf : List vertex_info
  edges : List edge_base
  vwrt : List ℚ := []
  deriving DecidableEq

/-- Modelled from the spec: the call `gr.num_vertices()`. -/
def splice_graph.num_vertices (gr : splice_graph) : Nat := gr.vinf.length

/-- Modelled from the spec: the accessor `gr.get_vertex_info(k)`; reads outside the
vertex range are undefined in the source and give a zero interval here. -/
def splice_graph.get_vertex_info (gr : splice_graph) (k : Nat) : vertex_info :=
  gr.vinf.getD k { lpos := 0, rpos := 0 }

/-- Modelled from the spec: the call `gr.in_edges(k)`, the edges whose target is `k`. -/
def splice_graph.in_edges (gr : splice_graph) (k : Nat) : List edge_base :=
  gr.edges.filter (fun e => e.target = k)

/-- Modelled from the spec: the accessor `gr.get_edge_weight(e)`. -/
def splice_graph.get_edge_weight (_gr : splice_graph) (e : edge_base) : ℚ := e.weight

/-- The conversion `(int)(w)` of a `double`: truncation toward zero. -/
def int_of_double (w : ℚ) : Int := w.num.tdiv w.den

/-- Modelled from the spec: `splice_graph::locate_vertex` is defined outside `src/`.
The spec: "returns the unique internal vertex whose `[lpos, rpos)` contains `pos`,
else −1".  The scan runs over the internal vertices `1 .. N-2` from vertex `k`
with `m` vertices left. -/
def locate_vertex_from (gr : splice_graph) (pos : Int) : Nat → Nat → Int
  | 0, _ => -1
  | m + 1, k =>
    if (gr.get_vertex_info k).lpos ≤ pos ∧ pos < (gr.get_vertex_info k).rpos then (k : Int)
    else locate_vertex_from gr pos m (k + 1)

/-- Modelled from the spec: see `locate_vertex_from`. -/
def splice_graph.locate_vertex (gr : splice_graph) (pos : Int) : Int :=
  locate_vertex_from gr pos (gr.num_vertices - 2) 1

/-! ## chains (essential.cc) -/

/-- The loop of `get_total_length_of_introns` over the pairs `(chain[2k], chain[2k+1])`,
with the running sum `x`; `none` when `assert(p < q)` fails. -/
def get_total_length_of_introns_loop : List Int → Int → Option Int
  | p :: q :: rest, x =>
    if p < q then get_total_length_of_introns_loop rest (x + (q - p)) else none
  | _, x => some x

/-- The function `get_total_length_of_introns(chain)` (essential.cc 91-103); `none`
when one of its assertions fails. -/
def get_total_length_of_introns (chain : List Int) : Option Int :=
  if chain.length % 2 = 0 then get_total_length_of_introns_loop chain 0 else none

/-- The function `build_intron_coordinates_from_path(gr, v, vv)` (essential.cc 145-159),
returning `vv`: for each consecutive pair of `v` the pair `(rpos, lpos)` is appended
unless the two are equal.  `none` when `assert(pp <= qq)` fails, and on the empty
path, where the unsigned bound `v.size() - 1` wraps around and the loop reads
outside `v`. -/
def build_intron_coordinates_from_path (gr : splice_graph) : List Nat → Option (List Int)
  | [] => none
  | [_] => some []
  | a :: b :: rest =>
    if (gr.get_vertex_info a).rpos ≤ (gr.get_vertex_info b).lpos then
      if (gr.get_vertex_info a).rpos = (gr.get_vertex_info b).lpos then
        build_intron_coordinates_from_path gr (b :: rest)
      else
        (build_intron_coordinates_from_path gr (b :: rest)).map
          (fun vv => (gr.get_vertex_info a).rpos :: (gr.get_vertex_info b).lpos :: vv)
    else none

/-- The function `merge_intron_chains(x, y, xy)` (essential.cc 384-393), returning the
flag and `xy`.  The template `merge_two_sorted_sequences` (util.h) is outside `src/`
and is the parameter `mts`. -/
def merge_intron_chains (mts : List Int → List Int → Bool × List Int)
    (x y : List Int) : Bool × List Int :=
  if x.length ≥ 1 ∧ y.length ≥ 1 ∧ x.headD 0 > y.headD 0 then (false, [])
  else if (mts x y).1 = false then (false, (mts x y).2)
  else if ((x.length : Int) + y.length - (mts x y).2.length) % 2 ≠ 0 then (false, (mts x y).2)
  else (true, (mts x y).2)

/-- Modelled from the spec: `check_increasing_sequence` (util.h) is outside `src/`.
The spec reads the assertions that call it as "strictly increasing". -/
def check_increasing_sequence : List Int → Bool
  | a :: b :: l => decide (a < b) && check_increasing_sequence (b :: l)
  | _ => true

/-! ## the dynamic program (bridge_solver.cc 353-397) -/

/-- Modelled from the spec: the class `parameters` is declared outside `src/`.  The
first two are the configuration values read by the bridging code, `K` and `S` of the
spec; the other three are read by `revise_splice_graph_full`, and a configuration
written for the bridging code alone leaves them at zero. -/
structure parameters where
  bridge_dp_solution_size : Nat
  bridge_dp_stack_size : Nat
  min_exon_length : Int := 0
  min_surviving_edge_weight : ℚ := 0
  max_intron_contamination_coverage : ℚ := 0
  deriving DecidableEq

/-- The table after the initialisation of `dynamic_programming`: `n` empty rows, row
`k1` holding the single start entry. -/
def dp_init (gr : splice_graph) (cfg : parameters) (k1 : Nat) : List (List entry) :=
  (List.replicate gr.num_vertices []).set k1
    [{ stack := List.replicate cfg.bridge_dp_stack_size 999999,
       length := (gr.get_vertex_info k1).rpos - (gr.get_vertex_info k1).lpos,
       trace1 := -1, trace2 := -1 }]

/-- The body of the loop over the in-edges of `k` for one edge `e`: the entries
pushed to `v`, one for each entry of row `table[j]`, `j` the source of `e`. -/
def dp_extend (gr : splice_graph) (table : List (List entry)) (k1 : Nat) (len : Int)
    (e : edge_base) : List entry :=
  if e.source < k1 then []
  else if (table.getD e.source []).length = 0 then []
  else (table.getD e.source []).enum.map (fun ix =>
    { stack := update_stack ix.2.stack (int_of_double (gr.get_edge_weight e)),
      length := ix.2.length + len,
      trace1 := (e.source : Int),
      trace2 := (ix.1 : Int) })

/-- The vector `v` of iteration `k` before it is sorted. -/
def dp_candidates (gr : splice_graph) (table : List (List entry)) (k1 k : Nat) : List entry :=
  (gr.in_edges k).flatMap
    (dp_extend gr table k1 ((gr.get_vertex_info k).rpos - (gr.get_vertex_info k).lpos))

/-- The row stored in `table[k]` by iteration `k`: `v` sorted by `entry_compare` and cut
to `bridge_dp_solution_size` entries. -/
def dp_row (gr : splice_graph) (cfg : parameters) (table : List (List entry)) (k1 k : Nat) :
    List entry :=
  if (std_sort entry_compare (dp_candidates gr table k1 k)).length > cfg.bridge_dp_solution_size
  then (std_sort entry_compare (dp_candidates gr table k1 k)).take cfg.bridge_dp_solution_size
  else std_sort entry_compare (dp_candidates gr table k1 k)

/-- The loop `for(int k = k1 + 1; k <= k2; k++)` of `dynamic_programming`, from the
initialised table. -/
def dp_fill (gr : splice_graph) (cfg : parameters) (k1 k2 : Nat) : List (List entry) :=
  (List.range' (k1 + 1) (k2 - k1)).foldl
    (fun table k => table.set k (dp_row gr cfg table k1 k)) (dp_init gr cfg k1)

/-- The function `bridge_solver::dynamic_programming(k1, k2, table)`, returning the table;
`none` when one of the two range assertions fails. -/
def dynamic_programming (gr : splice_graph) (cfg : parameters) (k1 k2 : Int) :
    Option (List (List entry)) :=
  if 0 ≤ k1 ∧ k1 < gr.num_vertices ∧ 0 ≤ k2 ∧ k2 < gr.num_vertices then
    some (dp_fill gr cfg k1.toNat k2.toNat)
  else none

/-! ## trace_back (bridge_solver.cc 414-434) -/

/-- The read `table[p][q]`; `none` for a position outside the table. -/
def table_at (table : List (List entry)) (p q : Int) : Option entry :=
  if 0 ≤ p ∧ 0 ≤ q then (table.getD p.toNat [])[q.toNat]? else none

/-- The `while(true)` loop of `trace_back`, `v` holding the vertices pushed so far.
`fuel` bounds the number of iterations; `none` when it runs out or when the loop
reads outside the table. -/
def trace_back_walk (table : List (List entry)) : Nat → Int → Int → List Nat → Option (List Nat)
  | 0, _, _, _ => none
  | fuel + 1, p, q, v =>
    match table_at table p q with
    | none => none
    | some e =>
      if e.trace1 < 0 then some (v ++ [p.toNat])
      else trace_back_walk table fuel e.trace1 e.trace2 (v ++ [p.toNat])

/-- The function `bridge_solver::trace_back(k, table)`: one reversed walk for each entry of
row `k`.  A walk from row `k` of a table filled by `dynamic_programming` moves to a
smaller row at every step, so `k + 1` iterations are allowed. -/
def trace_back (k : Nat) (table : List (List entry)) : Option (List (List Nat)) :=
  (List.range (table.getD k []).length).mapM
    (fun i => (trace_back_walk table (k + 1) k i []).map List.reverse)

/-! ## bridge paths, piers and fragments -/

/-- The class `bridge_path` (bridge_path.h); `score` is a `double` in the source that only
ever holds integer values here (a stack value or 10).  The members `count`, `strand`
and `choices` are not touched by the code under `src/`. -/
structure bridge_path where
  type : Int
  count : Int := 0
  strand : Int := 0
  choices : Int := 0
  score : Int
  v : List Nat
  chain : List Int
  whole : List Int
  stack : List Int
  deriving DecidableEq

/-- Modelled from the spec: a default-constructed `bridge_path`.  The constructor body
is outside `src/`; the four vectors are empty on construction, the scalars are taken
as `0`. -/
def bridge_path.init : bridge_path :=
  { type := 0, score := 0, v := [], chain := [], whole := [], stack := [] }

/-- Modelled from the spec: `compare_bridge_path_stack` is declared in bridge_path.h; its
body is outside `src/`.  The spec: a pier's bridges are sorted "by
`compare_bridge_path_stack` (same lex rule)", the rule of `entry_compare`:
"lexicographically by stack (descending — larger stack entry wins)". -/
def compare_stack : List Int → List Int → Bool
  | a :: x, b :: y =>
    if a > b then true
    else if a < b then false
    else compare_stack x y
  | _, _ => false

/-- Modelled from the spec: see `compare_stack`. -/
def compare_bridge_path_stack (p1 p2 : bridge_path) : Bool :=
  compare_stack p1.stack p2.stack

/-- Modelled from the spec: the class `pier` is declared outside `src/`.  The spec:
"Pier — `{bs, bt: vertex, bridges: ordered list of BridgePath}`". -/
structure pier where
  bs : Int
  bt : Int
  bridges : List bridge_path
  deriving DecidableEq

/-- Modelled from the spec: `pier::operator<` is defined outside `src/`.  The spec:
"Group piers by source `bs`"; `nominate` takes the target of the last pier of a
group as the upper end of the table, so piers are ordered by `bs`, then `bt`. -/
def pier_lt (p q : pier) : Bool :=
  decide (p.bs < q.bs) || (decide (p.bs = q.bs) && decide (p.bt < q.bt))

/-- Modelled from the spec: the class `pereads_cluster` is declared outside `src/`.  The
spec: "Fragment — `{bounds: [b0,b1,b2,b3], extend: [e0..e3], chain1, chain2, count}`";
`bounds[i]` is the field `boundsi`, `extend[i]` the field `extendi`. -/
structure pereads_cluster where
  bounds0 : Int
  bounds1 : Int
  bounds2 : Int
  bounds3 : Int
  extend0 : Int
  extend1 : Int
  extend2 : Int
  extend3 : Int
  chain1 : List Int
  chain2 : List Int
  count : Int
  deriving DecidableEq

/-! ## bridging vertices and piers (bridge_solver.cc 37-111) -/

/-- The function `bridge_solver::build_bridging_vertices`, returning `vpairs`. -/
def build_bridging_vertices (gr : splice_graph) (vc : List pereads_cluster) : List (Int × Int) :=
  vc.map (fun pc => (gr.locate_vertex (pc.bounds1 - 1), gr.locate_vertex (pc.bounds2 - 0)))

/-- One iteration of the loop of `build_piers`: the state is the set `ss` and the piers
pushed so far. -/
def build_piers_step (st : List (Int × Int) × List pier) (p : Int × Int) :
    List (Int × Int) × List pier :=
  if p.1 < 0 then st
  else if p.2 < 0 then st
  else if p.1 ≥ p.2 then st
  else if p ∈ st.1 then st
  else (p :: st.1, st.2 ++ [{ bs := p.1, bt := p.2, bridges := [] }])

/-- The function `bridge_solver::build_piers`, returning `piers`; `none` when
`assert(vc.size() == vpairs.size())` fails. -/
def build_piers (vc : List pereads_cluster) (vpairs : List (Int × Int)) : Option (List pier) :=
  if vc.length = vpairs.length then some (vpairs.foldl build_piers_step ([], [])).2 else none

/-- The lookup `pindex.find(PI(ss, tt))` in the index made by `build_piers_index`:
the position of the first pier with that source and target (`map::insert` keeps the
first entry of a key). -/
def pindex_find (piers : List pier) (ss tt : Int) : Option Nat :=
  let k := piers.findIdx (fun p => decide (p.bs = ss) && decide (p.bt = tt))
  if k < piers.length then some k else none

/-- The read `piers[k]`. -/
def pier_at (piers : List pier) (k : Nat) : pier :=
  piers.getD k { bs := 0, bt := 0, bridges := [] }

/-! ## nominate (bridge_solver.cc 113-171) -/

/-- The vector `bounds` of `nominate`: first and last position of every run of piers
with one source. -/
def nominate_bounds (piers : List pier) : List Nat :=
  [0] ++ (List.range' 1 (piers.length - 1)).flatMap
      (fun i => if (pier_at piers i).bs ≠ (pier_at piers (i - 1)).bs then [i - 1, i] else [])
    ++ [piers.length - 1]

/-- The bridges made from row `bt` of the table (the loop over `j`, lines 147-157);
`none` when `trace_back` or `build_intron_coordinates_from_path` fails or a stack is
empty (`front()` of an empty vector). -/
def nominate_bridges (gr : splice_graph) (table : List (List entry)) (bt : Int) :
    Option (List bridge_path) :=
  if 0 ≤ bt then
    match trace_back bt.toNat table with
    | none => none
    | some pb =>
      pb.enum.mapM (fun jv =>
        match (table.getD bt.toNat [])[jv.1]? with
        | none => none
        | some e =>
          match e.stack.head?, build_intron_coordinates_from_path gr jv.2 with
          | some sc, some ch =>
            some { bridge_path.init with score := sc, stack := e.stack, v := jv.2, chain := ch }
          | _, _ => none)
  else none

/-- The body of the loop over `b` (lines 143-168): the new bridges are pushed to
`piers[b].bridges`, which is then sorted by `compare_bridge_path_stack`. -/
def nominate_pier (gr : splice_graph) (table : List (List entry)) (piers : List pier) (b : Nat) :
    Option (List pier) :=
  match nominate_bridges gr table (pier_at piers b).bt with
  | none => none
  | some br =>
    some (piers.set b { pier_at piers b with
      bridges := std_sort compare_bridge_path_stack ((pier_at piers b).bridges ++ br) })

/-- The body of the loop over the groups (lines 135-168) for the group `b1 .. b2`. -/
def nominate_group (gr : splice_graph) (cfg : parameters) (piers : List pier) (b1 b2 : Nat) :
    Option (List pier) :=
  if (pier_at piers b1).bs = (pier_at piers b2).bs then
    match dynamic_programming gr cfg (pier_at piers b2).bs (pier_at piers b2).bt with
    | none => none
    | some table =>
      (List.range' b1 (b2 + 1 - b1)).foldlM (fun ps b => nominate_pier gr table ps b) piers
  else none

/-- The function `bridge_solver::nominate`, returning `piers`; `none` when the run aborts. -/
def nominate (gr : splice_graph) (cfg : parameters) (piers : List pier) : Option (List pier) :=
  if piers.length ≤ 0 then some piers
  else
    (List.range ((nominate_bounds (std_sort pier_lt piers)).length / 2)).foldlM
      (fun ps k =>
        nominate_group gr cfg ps
          ((nominate_bounds (std_sort pier_lt piers)).getD (k * 2 + 0) 0)
          ((nominate_bounds (std_sort pier_lt piers)).getD (k * 2 + 1) 0))
      (std_sort pier_lt piers)

/-! ## vote (bridge_solver.cc 173-255) -/

/-- Position `e` of the three vectors `chains`, `wholes`, `scores` of `vote`. -/
structure candidate where
  chain : List Int
  whole : List Int
  score : Int
  deriving DecidableEq

/-- The construction of the candidates (lines 194-224): the value of `type` and the
candidate vectors; `none` when `assert(b == true)` (line 203) or the assertion of line
212 fails. -/
def vote_candidates (mts : List Int → List Int → Bool × List Int) (piers : List pier)
    (ss tt : Int) (pc : pereads_cluster) : Option (Int × List candidate) :=
  if ss ≥ tt then
    if (merge_intron_chains mts pc.chain1 pc.chain2).1 = true then
      some (1, [{ chain := [], whole := (merge_intron_chains mts pc.chain1 pc.chain2).2,
                  score := 10 }])
    else none
  else
    match pindex_find piers ss tt with
    | some k =>
      if pc.chain1.length ≥ 1 ∧ pc.chain2.length ≥ 1 ∧
          ¬ (pc.chain1.getLastD 0 < pc.chain2.headD 0) then none
      else
        some (2, (pier_at piers k).bridges.map (fun b =>
          { chain := b.chain, whole := pc.chain1 ++ b.chain ++ pc.chain2, score := b.score }))
    | none => some (0, [])

/-- The six assertions at the head of the candidate loop (lines 232-237). -/
def vote_asserts (pc : pereads_cluster) (c : candidate) : Bool :=
  check_increasing_sequence c.whole &&
  check_increasing_sequence c.chain &&
  (if c.whole.length ≥ 1 then decide (c.whole.headD 0 > pc.bounds0) else true) &&
  (if c.whole.length ≥ 1 then decide (c.whole.getLastD 0 < pc.bounds3) else true) &&
  (if pc.chain1.length > 0 ∧ c.chain.length > 0
    then decide (pc.chain1.getLastD 0 < c.chain.headD 0) else true) &&
  (if pc.chain2.length > 0 ∧ c.chain.length > 0
    then decide (pc.chain2.headD 0 > c.chain.getLastD 0) else true)

/-- The candidate loop (lines 229-245), returning the selected candidate (`be`), or
`some none` for `be = -1`; `none` when an assertion fails. -/
def vote_select (low high : Int) (pc : pereads_cluster) : List candidate → Option (Option candidate)
  | [] => some none
  | c :: rest =>
    if vote_asserts pc c then
      match get_total_length_of_introns c.whole with
      | none => none
      | some intron =>
        if pc.bounds3 - pc.bounds0 - intron < low then vote_select low high pc rest
        else if pc.bounds3 - pc.bounds0 - intron > high then vote_select low high pc rest
        else some (some c)
    else none

/-- The end of `vote` (lines 247-252): with `be < 0` only `type = -1` has been written;
otherwise type, score, chain and whole are written from the selected candidate. -/
def vote_result (bbp : bridge_path) (type : Int) : Option candidate → bridge_path
  | none => { bbp with type := -1 }
  | some c => { bbp with type := type, score := c.score, chain := c.chain, whole := c.whole }

/-- The function `bridge_solver::vote(r, bbp)` for the fragment `pc = vc[r]` with
`vpair = vpairs[r]`, returning `bbp`; `none` when an assertion fails. -/
def vote (mts : List Int → List Int → Bool × List Int) (low high : Int) (piers : List pier)
    (vpair : Int × Int) (pc : pereads_cluster) (bbp : bridge_path) : Option bridge_path :=
  if vpair.1 < 0 ∨ vpair.2 < 0 then some { bbp with type := -1 }
  else
    match vote_candidates mts piers vpair.1 vpair.2 pc with
    | none => none
    | some (type, cands) =>
      if cands.length = 0 then some { bbp with type := -1 }
      else
        match vote_select low high pc cands with
        | none => none
        | some be => some (vote_result bbp type be)

/-- The function `bridge_solver::vote()`: `opt` is resized to `vc.size()` and fragment `i`
is voted into `opt[i]`, in order; the first failed assertion aborts the run. -/
def vote_all (mts : List Int → List Int → Bool × List Int) (low high : Int) (piers : List pier)
    (vpairs : List (Int × Int)) (vc : List pereads_cluster) : Option (List bridge_path) :=
  (vpairs.zip vc).mapM (fun x => vote mts low high piers x.1 x.2 bridge_path.init)

/-- Modelled from the spec: the class `bridge_solver` is declared in bridge_solver.h,
outside `src/`.  These are the members written by its constructor. -/
structure bridge_solver where
  vpairs : List (Int × Int)
  piers : List pier
  opt : List bridge_path
  deriving DecidableEq

/-- The constructor `bridge_solver::bridge_solver(g, v, c, low, high)` (lines 26-35). -/
def bridge_solver.make (mts : List Int → List Int → Bool × List Int) (gr : splice_graph)
    (vc : List pereads_cluster) (cfg : parameters) (low high : Int) : Option bridge_solver :=
  match build_piers vc (build_bridging_vertices gr vc) with
  | none => none
  | some piers0 =>
    match nominate gr cfg piers0 with
    | none => none
    | some piers =>
      match vote_all mts low high piers (build_bridging_vertices gr vc) vc with
      | none => none
      | some opt => some { vpairs := build_bridging_vertices gr vc, piers := piers, opt := opt }

/-! ## phases (bridge_solver.cc 268-315) -/

/-- Modelled from the spec: the class `phase_set` is outside `src/`.  The spec: a
"multiset of `IntronChain → int count`"; `add(chain, count)` is "multiset add".  The
chains are kept in the order of their first insertion, each with its summed count. -/
def phase_set_add : List (List Int × Int) → List Int → Int → List (List Int × Int)
  | [], v, c => [(v, c)]
  | (u, n) :: ps, v, c => if u = v then (u, n + c) :: ps else (u, n) :: phase_set_add ps v c

/-- The function `add_phases_from_bridged_pereads_cluster(pc, bbp, ps)`, returning `ps`;
`none` when one of its two assertions fails. -/
def add_phases_from_bridged_pereads_cluster (pc : pereads_cluster) (bbp : bridge_path)
    (ps : List (List Int × Int)) : Option (List (List Int × Int)) :=
  if bbp.type ≥ 0 then
    if check_increasing_sequence ([pc.extend0] ++ bbp.whole ++ [pc.extend3]) then
      some (phase_set_add ps ([pc.extend0] ++ bbp.whole ++ [pc.extend3]) pc.count)
    else none
  else none

/-- The function `add_phases_from_unbridged_pereads_cluster(pc, ps)`, returning `ps`;
`none` when one of its two assertions fails. -/
def add_phases_from_unbridged_pereads_cluster (pc : pereads_cluster)
    (ps : List (List Int × Int)) : Option (List (List Int × Int)) :=
  if check_increasing_sequence ([pc.extend0] ++ pc.chain1 ++ [pc.extend1]) then
    if check_increasing_sequence ([pc.extend2] ++ pc.chain2 ++ [pc.extend3]) then
      some (phase_set_add
        (phase_set_add ps ([pc.extend0] ++ pc.chain1 ++ [pc.extend1]) pc.count)
        ([pc.extend2] ++ pc.chain2 ++ [pc.extend3]) pc.count)
    else none
  else none

/-- The loop of `build_phase_set` over the fragments and their results. -/
def build_phase_set_loop :
    List (pereads_cluster × bridge_path) → List (List Int × Int) → Option (List (List Int × Int))
  | [], ps => some ps
  | (pc, bbp) :: rest, ps =>
    if bbp.type ≥ 0 then
      match add_phases_from_bridged_pereads_cluster pc bbp ps with
      | none => none
      | some ps1 => build_phase_set_loop rest ps1
    else
      match add_phases_from_unbridged_pereads_cluster pc ps with
      | none => none
      | some ps1 => build_phase_set_loop rest ps1

/-- The function `bridge_solver::build_phase_set(ps)` on the members `vc` and `opt`,
returning `ps`; `none` when `assert(opt.size() == vc.size())` or an assertion of the
two helpers fails. -/
def build_phase_set (vc : List pereads_cluster) (opt : List bridge_path)
    (ps : List (List Int × Int)) : Option (List (List Int × Int)) :=
  if opt.length = vc.length then build_phase_set_loop (vc.zip opt) ps else none

/-! ## Notions used to state the theorems on vote -/

/-- The fragment insert length of a candidate `whole` lies in the window: the value
`bounds[3] - bounds[0] - get_total_length_of_introns(whole)` is computed and is neither
below `low` nor above `high`. -/
def in_window (low high : Int) (pc : pereads_cluster) (whole : List Int) : Bool :=
  match get_total_length_of_introns whole with
  | some intron =>
    decide (low ≤ pc.bounds3 - pc.bounds0 - intron) &&
      decide (pc.bounds3 - pc.bounds0 - intron ≤ high)
  | none => false

/-- No assertion fails while the candidate loop examines `c`. -/
def candidate_ok (pc : pereads_cluster) (c : candidate) : Bool :=
  vote_asserts pc c && (get_total_length_of_introns c.whole).isSome

/-- The candidates of the pier `(ss, tt)` for the fragment `pc`, in the pier's bridge
order; empty when there is no such pier. -/
def pier_candidates (piers : List pier) (ss tt : Int) (pc : pereads_cluster) : List candidate :=
  match pindex_find piers ss tt with
  | some k => (pier_at piers k).bridges.map (fun b =>
      { chain := b.chain, whole := pc.chain1 ++ b.chain ++ pc.chain2, score := b.score })
  | none => []

/-- The merging loop on two sorted sequences, with the number of steps left: the
smaller head is written, and a value at the head of both sequences is written once.
It is the loop of the standard `std::set_union`, and the spec's reading of
`merge_two_sorted_sequences`. -/
def merge_sorted_steps : Nat → List Int → List Int → List Int
  | 0, x, y => x ++ y
  | _ + 1, [], y => y
  | _ + 1, a :: x, [] => a :: x
  | n + 1, a :: x, b :: y =>
    if a < b then a :: merge_sorted_steps n x (b :: y)
    else if b < a then b :: merge_sorted_steps n (a :: x) y
    else a :: merge_sorted_steps n x y

/-- Modelled from the spec: `merge_two_sorted_sequences` (util.h) is outside `src/`.
The spec calls it a "sorted merge" whose result is shorter than `|x| + |y|` by the
shared elements: a value at the head of both sequences is written once. -/
def merge_two_sorted_sequences (x y : List Int) : Bool × List Int :=
  (true, merge_sorted_steps (x.length + y.length) x y)

/-! ## The graph and the fragments of the end-to-end scenarios -/

/-- The graph of the scenarios 1-3: vertices `0..4`, internal intervals `[100,200)`,
`[200,300)`, `[300,400)`, edges `(0,1),(1,2),(2,3),(3,4)` of weight 100. -/
def scenario_graph : splice_graph :=
  { vinf := [{ lpos := 100, rpos := 100 }, { lpos := 100, rpos := 200 },
             { lpos := 200, rpos := 300 }, { lpos := 300, rpos := 400 },
             { lpos := 400, rpos := 400 }],
    edges := [{ source := 0, target := 1, weight := 100 },
              { source := 1, target := 2, weight := 100 },
              { source := 2, target := 3, weight := 100 },
              { source := 3, target := 4, weight := 100 }] }

/-- The fragment of scenario 1: `bounds = (120,180,220,280)`, empty chains, count 1. -/
def scenario1_fragment : pereads_cluster :=
  { bounds0 := 120, bounds1 := 180, bounds2 := 220, bounds3 := 280,
    extend0 := 120, extend1 := 180, extend2 := 220, extend3 := 280,
    chain1 := [], chain2 := [], count := 1 }

/-- The fragment of scenario 2: `bounds = (120,260,240,280)`, empty chains. -/
def scenario2_fragment : pereads_cluster :=
  { bounds0 := 120, bounds1 := 260, bounds2 := 240, bounds3 := 280,
    extend0 := 120, extend1 := 260, extend2 := 240, extend3 := 280,
    chain1 := [], chain2 := [], count := 1 }

/-- The pier `(1,2)` of scenario 1 after `nominate`: one bridge over the edge `(1,2)`. -/
def scenario1_piers : List pier :=
  [{ bs := 1, bt := 2,
     bridges := [{ type := 0, score := 100, v := [1, 2], chain := [], whole := [],
                   stack := [100, 999999, 999999, 999999, 999999] }] }]

/-- The configuration used on the scenarios: ten solutions, stacks of five. -/
def scenario_cfg : parameters := { bridge_dp_solution_size := 10, bridge_dp_stack_size := 5 }

/-- A fragment whose mates overlap and disagree: mate 1 covers `[120,280]` with the
intron `(250,260)`, mate 2 covers `[140,290]` with the intron `(150,160)`. -/
def mismatch_fragment : pereads_cluster :=
  { bounds0 := 120, bounds1 := 280, bounds2 := 140, bounds3 := 290,
    extend0 := 120, extend1 := 280, extend2 := 140, extend3 := 290,
    chain1 := [250, 260], chain2 := [150, 160], count := 1 }

/-- A graph with one intron: internal intervals `[100,200)` and `[300,400)`, joined by
the edge `(1,2)` of weight 100 across the gap `(200,300)`. -/
def gap_graph : splice_graph :=
  { vinf := [{ lpos := 100, rpos := 100 }, { lpos := 100, rpos := 200 },
             { lpos := 300, rpos := 400 }, { lpos := 400, rpos := 400 }],
    edges := [{ source := 0, target := 1, weight := 100 },
              { source := 1, target := 2, weight := 100 },
              { source := 2, target := 3, weight := 100 }] }

/-- A fragment with `b0 = b1`: `bounds = (200,200,320,380)`, empty chains.  It satisfies
`b0 ≤ b1 ≤ b2 ≤ b3`; its first mate ends where vertex 1 of `gap_graph` ends. -/
def empty_mate_fragment : pereads_cluster :=
  { bounds0 := 200, bounds1 := 200, bounds2 := 320, bounds3 := 380,
    extend0 := 200, extend1 := 200, extend2 := 320, extend3 := 380,
    chain1 := [], chain2 := [], count := 1 }

/-- The pier `(1,2)` of `gap_graph` after `nominate`: one bridge with the intron
chain `[200,300]`. -/
def gap_piers : List pier :=
  [{ bs := 1, bt := 2,
     bridges := [{ type := 0, score := 100, v := [1, 2], chain := [200, 300], whole := [],
                   stack := [100, 999999, 999999, 999999, 999999] }] }]

/-- The calls of `phase_set::add` that `build_phase_set` makes for one fragment `x.1`
with result `x.2`: the chain and the count of each call, in order. -/
def phases_of_fragment (x : pereads_cluster × bridge_path) : List (List Int × Int) :=
  if x.2.type ≥ 0 then [([x.1.extend0] ++ x.2.whole ++ [x.1.extend3], x.1.count)]
  else [([x.1.extend0] ++ x.1.chain1 ++ [x.1.extend1], x.1.count),
        ([x.1.extend2] ++ x.1.chain2 ++ [x.1.extend3], x.1.count)]

/-- Vertex `k` is an internal vertex of `gr` (not a sentinel). -/
def splice_graph.internal (gr : splice_graph) (k : Nat) : Prop :=
  1 ≤ k ∧ k + 2 ≤ gr.num_vertices

/-! ## Notions used to state the theorems on the table and the bridges -/

/-- The stack `x` is lexicographically greater than or equal to the stack `y`: position
0 is compared first and the larger value wins; positions present in only one of the
two stacks are not compared. -/
def stack_ge : List Int → List Int → Prop
  | a :: x, b :: y => a > b ∨ (a = b ∧ stack_ge x y)
  | _, _ => True

/-- The pair `(stack, length)` is the entry of a path from `k1` to `k`: the path with the
single vertex `k1` has the entry written by the initialisation of
`dynamic_programming`, and a path is extended over an edge of the graph the way the
transition forms the new entry. -/
inductive path_entry (gr : splice_graph) (cfg : parameters) (k1 : Nat) :
    Nat → List Int → Int → Prop
  | start : path_entry gr cfg k1 k1 (List.replicate cfg.bridge_dp_stack_size 999999)
      ((gr.get_vertex_info k1).rpos - (gr.get_vertex_info k1).lpos)
  | step (e : edge_base) (st : List Int) (len : Int) :
      e ∈ gr.edges → path_entry gr cfg k1 e.source st len →
      path_entry gr cfg k1 e.target
        (update_stack st (int_of_double (gr.get_edge_weight e)))
        (len + ((gr.get_vertex_info e.target).rpos - (gr.get_vertex_info e.target).lpos))

/-- A graph with an exon-skipping edge: internal intervals `[100,200)`, `[200,300)`,
`[300,400)`, `[400,500)`; the edges `(1,2)` and `(2,3)` have weight 5, the skipping
edge `(1,3)` has weight 3 and the edge `(3,4)` has weight 2. -/
def skip_graph : splice_graph :=
  { vinf := [{ lpos := 100, rpos := 100 }, { lpos := 100, rpos := 200 },
             { lpos := 200, rpos := 300 }, { lpos := 300, rpos := 400 },
             { lpos := 400, rpos := 500 }, { lpos := 500, rpos := 500 }],
    edges := [{ source := 0, target := 1, weight := 10 },
              { source := 1, target := 2, weight := 5 },
              { source := 2, target := 3, weight := 5 },
              { source := 1, target := 3, weight := 3 },
              { source := 3, target := 4, weight := 2 },
              { source := 4, target := 5, weight := 10 }] }

/-- A configuration that keeps one solution with a stack of one value. -/
def single_cfg : parameters := { bridge_dp_solution_size := 1, bridge_dp_stack_size := 1 }

/-- The bridges of a pier are in the order of `compare_bridge_path_stack` and carry
stacks of the configured size. -/
def pier_sorted (cfg : parameters) (p : pier) : Prop :=
  (∀ b ∈ p.bridges, b.stack.length = cfg.bridge_dp_stack_size) ∧
  p.bridges.Pairwise (fun a b => compare_bridge_path_stack b a = false)

/-- The vertex path `v` of every bridge of the pier starts at the source vertex of the
pier and ends at its target vertex. -/
def pier_paths (p : pier) : Prop :=
  ∀ b ∈ p.bridges, b.v.head? = some p.bs.toNat ∧ b.v.getLast? = some p.bt.toNat

/-- Source and target of a pier. -/
def pier_key (p : pier) : Int × Int := (p.bs, p.bt)

/-- The part of the vector `bounds` of `nominate` that is pushed from position `s` of
the loop on, `m` positions being left. -/
def bounds_tail (L : List pier) (s m : Nat) : List Nat :=
  (List.range' s m).flatMap
      (fun i => if (pier_at L i).bs ≠ (pier_at L (i - 1)).bs then [i - 1, i] else [])
    ++ [s + m - 1]

/-- Every pair `(X[2k], X[2k+1])` delimits piers with the source of pier `X[2k+1]`. -/
def bounds_pairs_ok (L : List pier) (X : List Nat) : Prop :=
  ∀ k, k * 2 + 1 < X.length → ∀ b, X.getD (k * 2 + 0) 0 ≤ b → b ≤ X.getD (k * 2 + 1) 0 →
    (pier_at L b).bs = (pier_at L (X.getD (k * 2 + 1) 0)).bs

/-- A fragment on `skip_graph` whose mates lie in the vertices 1 and 3:
`bounds = (120,180,320,380)`, empty chains. -/
def skip_fragment : pereads_cluster :=
  { bounds0 := 120, bounds1 := 180, bounds2 := 320, bounds3 := 380,
    extend0 := 120, extend1 := 180, extend2 := 320, extend3 := 380,
    chain1 := [], chain2 := [], count := 1 }

/-- The pier `(1,3)` of `skip_graph` after `nominate`: the bridge over the vertices
`1,2,3` with stack `[5,5,..]` comes before the bridge `1,3` with stack `[3,..]`. -/
def skip_piers : List pier :=
  [{ bs := 1, bt := 3,
     bridges := [{ type := 0, score := 5, v := [1, 2, 3], chain := [], whole := [],
                   stack := [5, 5, 999999, 999999, 999999] },
                 { type := 0, score := 3, v := [1, 3], chain := [200, 300], whole := [],
                   stack := [3, 999999, 999999, 999999, 999999] }] }]

/-! ## consistent_intron_chains (essential.cc 395-399) and std::set_union -/

/-- The function `consistent_intron_chains(x, y)` (essential.cc 395-399): the flag of
`merge_intron_chains` on a scratch output vector. -/
def consistent_intron_chains (mts : List Int → List Int → Bool × List Int)
    (x y : List Int) : Bool :=
  (merge_intron_chains mts x y).1

/-- The standard `std::set_union(first1, last1, first2, last2, out)` on two sorted
ranges: the written range.  The loop runs at most `|x| + |y|` steps. -/
def std_set_union (x y : List Int) : List Int :=
  merge_sorted_steps (x.length + y.length) x y

/-! ## combined_graph: combine and combine_children (combined_graph.cc 180-325) -/

/-- The class `combined_graph` (combined_graph.h), with the members that `combine`,
`combine_children` and the `get_reliable_*` methods read or write: `regions` and
`junctions` are vectors of `((l, r), (weight, count))`, `sbounds` and `tbounds`
vectors of `(position, (weight, count))`, `smap` and `tmap` the
`std::map<int32_t, int32_t>` of the boundary groups, as lists of entries. -/
structure combined_graph where
  num_combined : Int
  chrm : String
  strand : Char
  regions : List ((Int × Int) × (ℚ × Int))
  junctions : List ((Int × Int) × (ℚ × Int))
  sbounds : List (Int × (ℚ × Int))
  tbounds : List (Int × (ℚ × Int))
  splices : List Int
  children : List combined_graph
  smap : List (Int × Int) := []
  tmap : List (Int × Int) := []

/-- The constructor `combined_graph::combined_graph()` (combined_graph.cc 9-13):
`num_combined = 0`, `strand = '?'`, empty string and vectors. -/
def combined_graph.init : combined_graph :=
  { num_combined := 0, chrm := "", strand := '?', regions := [], junctions := [],
    sbounds := [], tbounds := [], splices := [], children := [] }

/-- The method `combined_graph::combine(gt)` (combined_graph.cc 180-201) on the object
`this`; `none` when `assert(gt.chrm == chrm)` or `assert(gt.strand == strand)` fails.
`gt` is an object other than `this`. -/
def combined_graph.combine (this gt : combined_graph) : Option combined_graph :=
  let children1 := if this.children.length = 0 then this.children ++ [this] else this.children
  let children2 :=
    if gt.children.length = 0 then children1 ++ [gt] else children1 ++ gt.children
  let chrm := if this.chrm = "" then gt.chrm else this.chrm
  let strand := if this.strand = '?' then gt.strand else this.strand
  if gt.chrm ≠ chrm then none
  else if gt.strand ≠ strand then none
  else some { this with
                children := children2
                chrm := chrm
                strand := strand
                num_combined := this.num_combined + gt.num_combined
                splices := std_set_union gt.splices this.splices }

/-- The lookup-then-insert-or-add step on a `std::map<K, DI>` shared by
`combine_junctions`, `combine_start_bounds` and `combine_end_bounds`
(combined_graph.cc 261-325); the map is its list of entries in increasing key order,
`lt` the order of the keys. -/
def map_accumulate {K : Type} (lt : K → K → Bool) :
    List (K × (ℚ × Int)) → K → ℚ × Int → List (K × (ℚ × Int))
  | [], p, d => [(p, d)]
  | (k, v) :: m, p, d =>
    if lt p k then (p, d) :: (k, v) :: m
    else if lt k p then (k, v) :: map_accumulate lt m p d
    else (k, (v.1 + d.1, v.2 + d.2)) :: m

/-- The order of `std::pair<int32_t, int32_t>` keys. -/
def pair_lt (a b : Int × Int) : Bool :=
  decide (a.1 < b.1) || (decide (a.1 = b.1) && decide (a.2 < b.2))

/-- The function `combine_junctions(m, gt)` (combined_graph.cc 261-281). -/
def combine_junctions (m : List ((Int × Int) × (ℚ × Int))) (gt : combined_graph) :
    List ((Int × Int) × (ℚ × Int)) :=
  gt.junctions.foldl (fun m j => map_accumulate pair_lt m j.1 j.2) m

/-- The function `combine_start_bounds(m, gt)` (combined_graph.cc 283-303). -/
def combine_start_bounds (m : List (Int × (ℚ × Int))) (gt : combined_graph) :
    List (Int × (ℚ × Int)) :=
  gt.sbounds.foldl (fun m j => map_accumulate (fun a b => decide (a < b)) m j.1 j.2) m

/-- The function `combine_end_bounds(m, gt)` (combined_graph.cc 305-325). -/
def combine_end_bounds (m : List (Int × (ℚ × Int))) (gt : combined_graph) :
    List (Int × (ℚ × Int)) :=
  gt.tbounds.foldl (fun m j => map_accumulate (fun a b => decide (a < b)) m j.1 j.2) m

/-- The additions `imap += make_pair(ROI(l, r), w)` that `combine_regions`
(combined_graph.cc 250-259) makes for the child `gt`, in order, with
`w = (int)weight`. -/
def combine_regions (gt : combined_graph) : List ((Int × Int) × Int) :=
  gt.regions.map (fun r => (r.1, int_of_double r.2.1))

/-- The method `combined_graph::combine_children()` (combined_graph.cc 210-248);
`none` when `assert(num == num_combined)` fails.  The `split_interval_map` is a
library type outside `src/`: `sim` maps the additions made to the map, in order, to
the `(interval, value)` entries read back from it in increasing order. -/
def combined_graph.combine_children
    (sim : List ((Int × Int) × Int) → List ((Int × Int) × Int))
    (this : combined_graph) : Option combined_graph :=
  if this.children.length = 0 then some this
  else
    let imap := sim (this.children.flatMap combine_regions)
    let mj := this.children.foldl combine_junctions []
    let ms := this.children.foldl combine_start_bounds []
    let mt := this.children.foldl combine_end_bounds []
    let num := this.children.foldl (fun n gt => n + gt.num_combined) 0
    if num ≠ this.num_combined then none
    else some { this with
                  regions := imap.map (fun r => (r.1, ((r.2 : ℚ), 1)))
                  junctions := mj
                  sbounds := ms
                  tbounds := mt }

/-- The graphs of the combined-count law: default-constructed ones, freshly built
ones (`build` sets `num_combined = 1` on an object without children), and the results
of `combine` calls on such graphs. -/
inductive combined_graph.reachable : combined_graph → Prop
  | init : combined_graph.reachable combined_graph.init
  | built (g : combined_graph) (hn : g.num_combined = 1) (hc : g.children = []) :
      combined_graph.reachable g
  | combine (a b r : combined_graph) (ha : combined_graph.reachable a)
      (hb : combined_graph.reachable b) (hr : a.combine b = some r) :
      combined_graph.reachable r

/-- A freshly built graph with splice sites `sp` and one junction per pair of `js`. -/
def sample_built (sp : List Int) (js : List ((Int × Int) × (ℚ × Int))) : combined_graph :=
  { num_combined := 1, chrm := "chr1", strand := '+', regions := [((100, 200), (3, 1))],
    junctions := js, sbounds := [(100, (2, 1))], tbounds := [(200, (2, 1))], splices := sp,
    children := [] }

/-- The result of `combine` on two freshly built graphs with splice sites
`[150, 300]` and `[150, 400, 500]`. -/
def sample_combined : combined_graph :=
  { sample_built [150, 300, 400, 500] [] with
      num_combined := 2
      children := [sample_built [150, 300] [], sample_built [150, 400, 500] []] }

/-! ## The graph interface used by the reviser -/

/-- Modelled from the spec: the call `gr.out_edges(k)`, the edges whose source is `k`. -/
def splice_graph.out_edges (gr : splice_graph) (k : Nat) : List edge_base :=
  gr.edges.filter (fun e => e.source = k)

/-- Modelled from the spec: the call `gr.in_degree(k)`. -/
def splice_graph.in_degree (gr : splice_graph) (k : Nat) : Nat := (gr.in_edges k).length

/-- Modelled from the spec: the call `gr.out_degree(k)`. -/
def splice_graph.out_degree (gr : splice_graph) (k : Nat) : Nat := (gr.out_edges k).length

/-- Modelled from the spec: the call `gr.degree(k)`, in-degree plus out-degree. -/
def splice_graph.degree (gr : splice_graph) (k : Nat) : Nat :=
  gr.in_degree k + gr.out_degree k

/-- Modelled from the spec: the accessor `gr.get_vertex_weight(k)`; zero outside the
vertex range, where the source is undefined. -/
def splice_graph.get_vertex_weight (gr : splice_graph) (k : Nat) : ℚ := gr.vwrt.getD k 0

/-- Modelled from the spec: the call `gr.add_edge(s, t)`: a new edge object, of weight
zero until `set_edge_weight`, last in the iteration order; the result is the graph and
the descriptor of the new edge. -/
def splice_graph.add_edge (gr : splice_graph) (s t : Nat) : splice_graph × edge_base :=
  ({ gr with edges := gr.edges ++
      [{ source := s, target := t, weight := 0,
         id := (gr.edges.map (fun e => e.id)).foldl max 0 + 1 }] },
   { source := s, target := t, weight := 0,
     id := (gr.edges.map (fun e => e.id)).foldl max 0 + 1 })

/-- Modelled from the spec: the call `gr.set_edge_weight(e, w)`. -/
def splice_graph.set_edge_weight (gr : splice_graph) (e : edge_base) (w : ℚ) : splice_graph :=
  { gr with edges := gr.edges.map (fun x => if x = e then { x with weight := w } else x) }

/-- Modelled from the spec: the call `gr.remove_edge(e)`. -/
def splice_graph.remove_edge (gr : splice_graph) (e : edge_base) : splice_graph :=
  { gr with edges := gr.edges.erase e }

/-- Modelled from the spec: the call `gr.clear_vertex(v)`, which "removes all incident
edges". -/
def splice_graph.clear_vertex (gr : splice_graph) (v : Nat) : splice_graph :=
  { gr with edges := gr.edges.filter (fun e => e.source ≠ v ∧ e.target ≠ v) }

/-- Modelled from the spec: the call `gr.edge(s, t)`, "(descriptor, present?)": the
first edge from `s` to `t` in the iteration order, `none` when `.second` is false. -/
def splice_graph.edge (gr : splice_graph) (s t : Nat) : Option edge_base :=
  gr.edges.find? (fun e => e.source = s ∧ e.target = t)

/-- Modelled from the spec: the choice of `max_in_edge` / `max_out_edge` among the
edges `l`: "returns the edge of maximum weight; fails when none exist".  Among edges
of the same maximal weight the last one in the iteration order is taken; `none` is the
`null_edge`. -/
def max_edge (l : List edge_base) : Option edge_base :=
  l.foldl (fun best e =>
    match best with
    | none => some e
    | some b => if e.weight < b.weight then some b else some e) none

/-- Modelled from the spec: the call `gr.max_in_edge(v)`. -/
def splice_graph.max_in_edge (gr : splice_graph) (v : Nat) : Option edge_base :=
  max_edge (gr.in_edges v)

/-- Modelled from the spec: the call `gr.max_out_edge(v)`. -/
def splice_graph.max_out_edge (gr : splice_graph) (v : Nat) : Option edge_base :=
  max_edge (gr.out_edges v)

/-- A loop `for(int i = ...; ...; i++) { if(!guard) continue; gr.clear_vertex(i); flag = true; }`
over the vertices `ks`, the guard being read on the current graph: the graph after the
loop and the vertices on which `clear_vertex` was called, in order (`flag` is true
when there is one). -/
def clear_loop (guard : splice_graph → Nat → Bool) :
    List Nat → splice_graph → List Nat → splice_graph × List Nat
  | [], gr, tr => (gr, tr)
  | i :: ks, gr, tr =>
    if guard gr i then clear_loop guard ks (gr.clear_vertex i) (tr ++ [i])
    else clear_loop guard ks gr tr

/-- The vertices `1 .. num_vertices() - 2` visited by
`for(int i = 1; i < gr.num_vertices() - 1; i++)`. -/
def splice_graph.inner_range (gr : splice_graph) : List Nat :=
  List.range' 1 (gr.num_vertices - 2)

/-! ## refine_splice_graph (graph_reviser.cc 899-914) -/

/-- The condition under which the loop body of `refine_splice_graph` reaches
`gr.clear_vertex(i)`. -/
def refine_guard (gr : splice_graph) (i : Nat) : Bool :=
  !(gr.degree i == 0) && !(decide (gr.in_degree i ≥ 1) && decide (gr.out_degree i ≥ 1))

/-- The `while(true)` loop of `refine_splice_graph`, with the number of passes left. -/
def refine_loop : Nat → splice_graph → splice_graph
  | 0, gr => gr
  | fuel + 1, gr =>
    if (clear_loop refine_guard gr.inner_range gr []).2.isEmpty
    then (clear_loop refine_guard gr.inner_range gr []).1
    else refine_loop fuel (clear_loop refine_guard gr.inner_range gr []).1

/-- The function `refine_splice_graph(gr)` (graph_reviser.cc 899-914).  A pass that
clears a vertex removes an edge, so the loop ends within `|edges| + 1` passes. -/
def refine_splice_graph (gr : splice_graph) : splice_graph :=
  refine_loop (gr.edges.length + 1) gr

/-- The state in which `refine_splice_graph` stops: no internal vertex passes the
guard of its loop body. -/
def splice_graph.refined (gr : splice_graph) : Prop :=
  ∀ i ∈ gr.inner_range, refine_guard gr i = false

/-! ## extend_boundaries (graph_reviser.cc 80-123) -/

/-- The condition under which the loop body of `extend_boundaries` passes all its
`continue` statements for the edge `e`. -/
def extend_boundaries_cond (gr : splice_graph) (e : edge_base) : Bool :=
  !decide ((gr.get_vertex_info e.target).lpos - (gr.get_vertex_info e.source).rpos ≤ 0) &&
  !decide (e.source = 0) &&
  !decide (e.target = gr.num_vertices - 1) &&
  ((decide (gr.out_degree e.source = 1) &&
      decide (gr.get_vertex_weight e.source ≥ 10 * e.weight * e.weight + 10)) ||
   (decide (gr.in_degree e.target = 1) &&
      decide (gr.get_vertex_weight e.target ≥ 10 * e.weight * e.weight + 10)))

/-- The statements of `extend_boundaries` after `if(b == false) continue;` for the edge
`e` (graph_reviser.cc 104-118). -/
def extend_boundaries_apply (gr : splice_graph) (e : edge_base) : splice_graph :=
  let g1 :=
    if gr.out_degree e.source = 1 then
      (gr.add_edge e.source (gr.num_vertices - 1)).1.set_edge_weight
        (gr.add_edge e.source (gr.num_vertices - 1)).2 (gr.get_vertex_weight e.source)
    else gr
  let g2 :=
    if g1.in_degree e.target = 1 then
      (g1.add_edge 0 e.target).1.set_edge_weight
        (g1.add_edge 0 e.target).2 (gr.get_vertex_weight e.target)
    else g1
  g2.remove_edge e

/-- The function `extend_boundaries(gr)` (graph_reviser.cc 80-123): the graph after the
call and the returned flag.  The loop changes the graph only for the first edge that
passes the tests, and returns there. -/
def extend_boundaries (gr : splice_graph) : splice_graph × Bool :=
  match gr.edges.find? (extend_boundaries_cond gr) with
  | none => (gr, false)
  | some e => (extend_boundaries_apply gr e, true)

/-! ## compute_maximal_edges (graph_reviser.cc 125-172) -/

/-- The body of the second loop of `compute_maximal_edges` for the edge `e`, on the
pair `(x, sc)`; `none` when `assert(c1 == c2)` fails.  `vv` is the vector of component
numbers. -/
def compute_maximal_edges_step (gr : splice_graph) (vv : List Int)
    (st : List edge_base × List Int) (e : edge_base) : Option (List edge_base × List Int) :=
  if e.source = 0 then some st
  else if e.target = gr.num_vertices then some st
  else if vv.getD e.source 0 ≠ vv.getD e.target 0 then none
  else if vv.getD e.source 0 ∈ st.2 then some st
  else some (st.1 ++ [e], vv.getD e.source 0 :: st.2)

/-- The edges `ve` of `compute_maximal_edges`: those not leaving vertex `0` and not
entering the last vertex, in iteration order. -/
def inner_edges (gr : splice_graph) : List edge_base :=
  gr.edges.filter (fun e => !decide (e.source = 0) && !decide (e.target = gr.num_vertices - 1))

/-- The function `compute_maximal_edges(gr)` (graph_reviser.cc 125-172); `none` when
`assert(c1 == c2)` fails.  The class `undirected_graph` is outside `src/`: `acc n es` is
the result of `assign_connected_components()` on the graph with `n` vertices and the
edges `es`.  `std::sort` orders the pairs by weight (pairs of the same weight stay in
iteration order here; the source compares pointers); the assertion that `ve` is
ascending after the sort cannot fail.  The second loop runs from the heaviest edge
and stops at the first weight below `1.5`. -/
def compute_maximal_edges (acc : Nat → List (Nat × Nat) → List Int) (gr : splice_graph) :
    Option (List edge_base) :=
  (((std_sort (fun a b => decide (a.weight < b.weight)) (inner_edges gr)).reverse.takeWhile
      (fun e => !decide (e.weight < 3 / 2))).foldlM
    (compute_maximal_edges_step gr
      (acc gr.num_vertices ((inner_edges gr).map (fun e => (e.source, e.target)))))
    ([], [])).map (fun st => st.1)

/-! ## remove_small_exons (graph_reviser.cc 191-231) -/

/-- The condition under which the loop body of `remove_small_exons` reaches
`gr.clear_vertex(i)`.  The two inner loops leave `b` true exactly when no in-edge has
a source `s != 0` with `s.rpos == p1` and no out-edge a target `t != N-1` with
`t.lpos == p2`. -/
def remove_small_exons_guard (min_exon : Int) (gr : splice_graph) (i : Nat) : Bool :=
  !decide ((gr.get_vertex_info i).rpos - (gr.get_vertex_info i).lpos ≥ min_exon) &&
  !decide (gr.degree i ≤ 0) &&
  (gr.in_edges i).all (fun e =>
    !(!decide (e.source = 0) &&
      decide ((gr.get_vertex_info e.source).rpos = (gr.get_vertex_info i).lpos))) &&
  (gr.out_edges i).all (fun e =>
    !(!decide (e.target = gr.num_vertices - 1) &&
      decide ((gr.get_vertex_info e.target).lpos = (gr.get_vertex_info i).rpos))) &&
  !((gr.edge 0 i).isNone && (gr.edge i (gr.num_vertices - 1)).isNone)

/-- The function `remove_small_exons(gr, min_exon)` (graph_reviser.cc 191-231): the
graph after the call and the returned flag. -/
def remove_small_exons (gr : splice_graph) (min_exon : Int) : splice_graph × Bool :=
  ((clear_loop (remove_small_exons_guard min_exon) gr.inner_range gr []).1,
   !(clear_loop (remove_small_exons_guard min_exon) gr.inner_range gr []).2.isEmpty)

/-! ## remove_small_junctions (graph_reviser.cc 233-312) -/

/-- The value of `ws` after the first inner loop of `remove_small_junctions` at
vertex `i`: the largest vertex weight among the sources `s != 0` with
`s.rpos == p1`, zero when there is none above zero. -/
def small_junctions_ws (gr : splice_graph) (i : Nat) : ℚ :=
  (gr.in_edges i).foldl (fun ws e =>
    if e.source = 0 then ws
    else if (gr.get_vertex_info e.source).rpos ≠ (gr.get_vertex_info i).lpos then ws
    else if gr.get_vertex_weight e.source < ws then ws
    else gr.get_vertex_weight e.source) 0

/-- The value of `wt` after the third inner loop of `remove_small_junctions` at
vertex `i` (graph_reviser.cc 272-283). -/
def small_junctions_wt (gr : splice_graph) (i : Nat) : ℚ :=
  (gr.out_edges i).foldl (fun wt e =>
    if e.target = gr.num_vertices - 1 then wt
    else if (gr.get_vertex_info e.target).lpos ≠ (gr.get_vertex_info i).rpos then wt
    else if gr.get_vertex_weight e.target < wt then wt
    else gr.get_vertex_weight e.target) 0

/-- The edges that the loop body of `remove_small_junctions` inserts into `se` at
vertex `i`, in order: in-edges (graph_reviser.cc 260-270), then out-edges
(graph_reviser.cc 286-297).  Both tests read `ws`. -/
def small_junctions_at (gr : splice_graph) (i : Nat) : List edge_base :=
  if gr.degree i ≤ 0 then []
  else
    (gr.in_edges i).filter (fun e =>
      !decide (e.source = 0) &&
      !decide ((gr.get_vertex_info e.source).rpos = (gr.get_vertex_info i).lpos) &&
      !decide (small_junctions_ws gr i < 2 * e.weight * e.weight + 18) &&
      !decide (gr.get_vertex_weight i < 2 * e.weight * e.weight + 18)) ++
    (gr.out_edges i).filter (fun e =>
      !decide (e.target = gr.num_vertices - 1) &&
      !decide ((gr.get_vertex_info e.target).lpos = (gr.get_vertex_info i).rpos) &&
      !decide (small_junctions_ws gr i < 2 * e.weight * e.weight + 18) &&
      !decide (gr.get_vertex_weight i < 2 * e.weight * e.weight + 18))

/-- The call `se.insert(e)` on a `std::set` of edge descriptors, kept as the list of
its elements in insertion order. -/
def edge_set_insert (se : List edge_base) (e : edge_base) : List edge_base :=
  if e ∈ se then se else se ++ [e]

/-- The function `remove_small_junctions(gr)` (graph_reviser.cc 233-312): the graph
after the call and the returned flag. -/
def remove_small_junctions (gr : splice_graph) : splice_graph × Bool :=
  if (gr.inner_range.foldl (fun se i => (small_junctions_at gr i).foldl edge_set_insert se)
        []).length ≤ 0
  then (gr, false)
  else ((gr.inner_range.foldl (fun se i => (small_junctions_at gr i).foldl edge_set_insert se)
          []).foldl splice_graph.remove_edge gr, true)

/-! ## remove_inner_boundaries (graph_reviser.cc 314-347) -/

/-- The condition under which the loop body of `remove_inner_boundaries` reaches
`gr.clear_vertex(i)`; `e1` and `e2` are the first in-edge and the first out-edge. -/
def remove_inner_boundaries_guard (gr : splice_graph) (i : Nat) : Bool :=
  match gr.in_edges i, gr.out_edges i with
  | [e1], [e2] =>
    !(!decide (e1.source = 0) && !decide (e2.target = gr.num_vertices - 1)) &&
    !(!decide (e1.source = 0) && decide (gr.out_degree e1.source = 1)) &&
    !(!decide (e2.target = gr.num_vertices - 1) && decide (gr.in_degree e2.target = 1)) &&
    !decide ((gr.get_vertex_info i).stddev ≥ 1 / 100)
  | _, _ => false

/-- The function `remove_inner_boundaries(gr)` (graph_reviser.cc 314-347): the graph
after the call and the returned flag. -/
def remove_inner_boundaries (gr : splice_graph) : splice_graph × Bool :=
  ((clear_loop remove_inner_boundaries_guard gr.inner_range gr []).1,
   !(clear_loop remove_inner_boundaries_guard gr.inner_range gr []).2.isEmpty)

/-! ## remove_intron_contamination (graph_reviser.cc 349-389) -/

/-- The condition under which the loop body of `remove_intron_contamination` reaches
`gr.clear_vertex(i)`. -/
def remove_intron_contamination_guard (ratio : ℚ) (gr : splice_graph) (i : Nat) : Bool :=
  match gr.in_edges i, gr.out_edges i with
  | [e1], [e2] =>
    !decide (e1.source = 0) &&
    !decide (e2.target = gr.num_vertices - 1) &&
    !decide ((gr.get_vertex_info e1.source).rpos ≠ (gr.get_vertex_info i).lpos) &&
    !decide ((gr.get_vertex_info e2.target).lpos ≠ (gr.get_vertex_info i).rpos) &&
    (match gr.edge e1.source e2.target with
     | none => false
     | some ee => !decide (gr.get_vertex_weight i > ee.weight) &&
                  !decide (gr.get_vertex_weight i > ratio))
  | _, _ => false

/-- The function `remove_intron_contamination(gr, ratio)` (graph_reviser.cc 349-389):
the graph after the call and the returned flag.  Its loop is
`for(int i = 1; i < gr.num_vertices(); i++)` and visits the last vertex. -/
def remove_intron_contamination (gr : splice_graph) (ratio : ℚ) : splice_graph × Bool :=
  ((clear_loop (remove_intron_contamination_guard ratio)
      (List.range' 1 (gr.num_vertices - 1)) gr []).1,
   !(clear_loop (remove_intron_contamination_guard ratio)
      (List.range' 1 (gr.num_vertices - 1)) gr []).2.isEmpty)

/-! ## keep_surviving_edges (graph_reviser.cc 391-469) -/

/-- The sets `se`, `sv1` and `sv2` of `keep_surviving_edges`; `se` is the list of its
elements in insertion order, which is also the order in which the augmentation loop
visits them here (the source visits them in pointer order). -/
structure surviving_state where
  se : List edge_base
  sv1 : List Nat
  sv2 : List Nat
  deriving DecidableEq

/-- The statements `se.insert(e); sv1.insert(e->target()); sv2.insert(e->source());` of
the first two loops of `keep_surviving_edges`. -/
def surviving_state.add (st : surviving_state) (e : edge_base) : surviving_state :=
  { se := edge_set_insert st.se e, sv1 := e.target :: st.sv1, sv2 := e.source :: st.sv2 }

/-- The first `if` of the augmentation loop body for the edge `e`
(graph_reviser.cc 431-440): the state after it and whether it set `b`; `none` when one
of its two assertions fails. -/
def surviving_visit_in (gr : splice_graph) (st : surviving_state) (e : edge_base) :
    Option (surviving_state × Bool) :=
  if e.source ∉ st.sv1 ∧ e.source ≠ 0 then
    match gr.max_in_edge e.source with
    | none => none
    | some ee =>
      if ee ∈ st.se then none
      else some ({ se := st.se ++ [ee], sv1 := e.source :: st.sv1,
                   sv2 := ee.source :: st.sv2 }, true)
  else some (st, false)

/-- The second `if` of the augmentation loop body for the edge `e`
(graph_reviser.cc 441-450). -/
def surviving_visit_out (gr : splice_graph) (st : surviving_state) (e : edge_base) :
    Option (surviving_state × Bool) :=
  if e.target ∉ st.sv2 ∧ e.target ≠ gr.num_vertices - 1 then
    match gr.max_out_edge e.target with
    | none => none
    | some ee =>
      if ee ∈ st.se then none
      else some ({ se := st.se ++ [ee], sv1 := ee.target :: st.sv1,
                   sv2 := e.target :: st.sv2 }, true)
  else some (st, false)

/-- The body of the `for` loop over `se` in the augmentation loop, for the edge `e`:
the state after it and the value of `b`. -/
def surviving_visit (gr : splice_graph) (st : surviving_state) (e : edge_base) :
    Option (surviving_state × Bool) :=
  match surviving_visit_in gr st e with
  | none => none
  | some (st1, b1) =>
    match surviving_visit_out gr st1 e with
    | none => none
    | some (st2, b2) => some (st2, b1 || b2)

/-- The `for` loop over `se` in the augmentation loop, on the elements `l` still to
visit: it leaves at the first edge whose body sets `b`. -/
def surviving_scan (gr : splice_graph) (st : surviving_state) :
    List edge_base → Option (surviving_state × Bool)
  | [] => some (st, false)
  | e :: l =>
    match surviving_visit gr st e with
    | none => none
    | some (st1, true) => some (st1, true)
    | some (_, false) => surviving_scan gr st l

/-- The `while(true)` augmentation loop of `keep_surviving_edges`, with the number of
passes left; `none` when an assertion fails (or no pass is left). -/
def surviving_loop (gr : splice_graph) : Nat → surviving_state → Option surviving_state
  | 0, _ => none
  | fuel + 1, st =>
    match surviving_scan gr st st.se with
    | none => none
    | some (st1, true) => surviving_loop gr fuel st1
    | some (_, false) => some st

/-- The function `keep_surviving_edges(gr, surviving)` (graph_reviser.cc 391-469): the
graph after the call and the returned flag; `none` when an assertion fails.  Each pass
of the augmentation loop that goes on adds an edge of the graph to `se`, so
`|edges| + 1` passes are allowed for. -/
def keep_surviving_edges (acc : Nat → List (Nat × Nat) → List Int) (gr : splice_graph)
    (surviving : ℚ) : Option (splice_graph × Bool) :=
  match compute_maximal_edges acc gr with
  | none => none
  | some me =>
    match surviving_loop gr (gr.edges.length + 1)
        (me.foldl surviving_state.add
          ((gr.edges.filter (fun e => !decide (e.weight < surviving))).foldl
            surviving_state.add { se := [], sv1 := [], sv2 := [] })) with
    | none => none
    | some st =>
      some ((gr.edges.filter (fun e => !decide (e ∈ st.se))).foldl splice_graph.remove_edge gr,
            decide ((gr.edges.filter (fun e => !decide (e ∈ st.se))).length ≥ 1))

/-! ## revise_splice_graph_full (graph_reviser.cc 20-58) -/

/-- The loop body of `revise_splice_graph_full` from the call of
`remove_intron_contamination` (graph_reviser.cc 50-53): the graph after it and whether
the pass ends in `continue` (true) or `break` (false). -/
def revise_from_contamination (cfg : parameters) (gr : splice_graph) :
    Option (splice_graph × Bool) :=
  some ((remove_intron_contamination gr cfg.max_intron_contamination_coverage).1,
        (remove_intron_contamination gr cfg.max_intron_contamination_coverage).2)

/-- The loop body of `revise_splice_graph_full` from the call of
`keep_surviving_edges` (graph_reviser.cc 46-53); `none` when an assertion of
`keep_surviving_edges` fails. -/
def revise_from_surviving (acc : Nat → List (Nat × Nat) → List Int) (cfg : parameters)
    (gr : splice_graph) : Option (splice_graph × Bool) :=
  match keep_surviving_edges acc gr cfg.min_surviving_edge_weight with
  | none => none
  | some (g1, true) => some (refine_splice_graph g1, true)
  | some (g1, false) => revise_from_contamination cfg g1

/-- The loop body of `revise_splice_graph_full` from the call of
`remove_small_junctions` (graph_reviser.cc 42-53). -/
def revise_from_junctions (acc : Nat → List (Nat × Nat) → List Int) (cfg : parameters)
    (gr : splice_graph) : Option (splice_graph × Bool) :=
  if (remove_small_junctions gr).2 = true then
    some (refine_splice_graph (remove_small_junctions gr).1, true)
  else revise_from_surviving acc cfg (remove_small_junctions gr).1

/-- The loop body of `revise_splice_graph_full` from the call of `remove_small_exons`
(graph_reviser.cc 38-53). -/
def revise_from_exons (acc : Nat → List (Nat × Nat) → List Int) (cfg : parameters)
    (gr : splice_graph) : Option (splice_graph × Bool) :=
  if (remove_small_exons gr cfg.min_exon_length).2 = true then
    some (refine_splice_graph (remove_small_exons gr cfg.min_exon_length).1, true)
  else revise_from_junctions acc cfg (remove_small_exons gr cfg.min_exon_length).1

/-- The loop body of `revise_splice_graph_full` from the call of
`remove_inner_boundaries` (graph_reviser.cc 35-53). -/
def revise_from_inner (acc : Nat → List (Nat × Nat) → List Int) (cfg : parameters)
    (gr : splice_graph) : Option (splice_graph × Bool) :=
  if (remove_inner_boundaries gr).2 = true then some ((remove_inner_boundaries gr).1, true)
  else revise_from_exons acc cfg (remove_inner_boundaries gr).1

/-- One pass of the `while(true)` loop of `revise_splice_graph_full`
(graph_reviser.cc 26-55): the graph after it and whether the pass ended in `continue`
(true) or `break` (false); `none` when an assertion of `keep_surviving_edges` fails. -/
def revise_pass (acc : Nat → List (Nat × Nat) → List Int) (cfg : parameters)
    (gr : splice_graph) : Option (splice_graph × Bool) :=
  if (extend_boundaries gr).2 = true then some ((extend_boundaries gr).1, true)
  else revise_from_inner acc cfg (extend_boundaries gr).1

/-- The `while(true)` loop of `revise_splice_graph_full`, with the number of passes
left; `none` when an assertion fails or no pass is left. -/
def revise_loop (acc : Nat → List (Nat × Nat) → List Int) (cfg : parameters) :
    Nat → splice_graph → Option splice_graph
  | 0, _ => none
  | fuel + 1, gr =>
    match revise_pass acc cfg gr with
    | none => none
    | some (g1, true) => revise_loop acc cfg fuel g1
    | some (g1, false) => some g1

/-- The function `revise_splice_graph_full(gr, cfg)` (graph_reviser.cc 20-58) with at
most `fuel` passes of its loop: the graph after the call. -/
def revise_splice_graph_full (acc : Nat → List (Nat × Nat) → List Int) (cfg : parameters)
    (fuel : Nat) (gr : splice_graph) : Option splice_graph :=
  (revise_loop acc cfg fuel (refine_splice_graph gr)).map refine_splice_graph

/-- Modelled from the spec: `undirected_graph::assign_connected_components()` is outside
`src/`.  One round of the labelling below: every vertex takes the smallest label among
its own and those of its neighbours. -/
def component_round (es : List (Nat × Nat)) (lab : List Int) : List Int :=
  lab.enum.map (fun p =>
    es.foldl (fun m e =>
      if e.1 = p.1 then min m (lab.getD e.2 0)
      else if e.2 = p.1 then min m (lab.getD e.1 0)
      else m) p.2)

/-- Modelled from the spec: `undirected_graph::assign_connected_components()` is outside
`src/`; the spec speaks of the "connected component" of an edge.  Vertex `v` gets the
smallest vertex index of its component, found by `n` rounds of relabelling from the
labelling `v ↦ v`. -/
def assign_connected_components (n : Nat) (es : List (Nat × Nat)) : List Int :=
  Nat.iterate (component_round es) n ((List.range n).map (fun v => (v : Int)))

/-- Every edge of `gr` goes from a vertex to a later vertex of `gr`. -/
def splice_graph.forward (gr : splice_graph) : Prop :=
  ∀ e ∈ gr.edges, e.source < e.target ∧ e.target < gr.num_vertices

/-- The graph `g1` is `g` with some edges removed: same vertices, infos and weights,
and the edges of `g1` are a sublist of those of `g`. -/
def splice_graph.subgraph_of (g1 g : splice_graph) : Prop :=
  g1.edges.Sublist g.edges ∧ g1.vinf = g.vinf ∧ g1.vwrt = g.vwrt

/-! ## Graphs and a configuration for the reviser -/

/-- A configuration for the reviser: `min_exon_length = 5`,
`min_surviving_edge_weight = 2`, `max_intron_contamination_coverage = 2`. -/
def reviser_cfg : parameters :=
  { bridge_dp_solution_size := 1, bridge_dp_stack_size := 1, min_exon_length := 5,
    min_surviving_edge_weight := 2, max_intron_contamination_coverage := 2 }

/-- Two exons `[100,200)` and `[300,400)` of weight 50 between the sentinels, joined by
an edge of weight 1 that crosses the gap: edges `(0,1)`, `(1,2)`, `(2,3)`. -/
def gap_reviser_graph : splice_graph :=
  { vinf := [{ lpos := 0, rpos := 0 }, { lpos := 100, rpos := 200 },
             { lpos := 300, rpos := 400 }, { lpos := 400, rpos := 400 }],
    edges := [{ source := 0, target := 1, weight := 1, id := 1 },
              { source := 1, target := 2, weight := 1, id := 2 },
              { source := 2, target := 3, weight := 1, id := 3 }],
    vwrt := [0, 50, 50, 0] }

/-- The chain of scenario 6 between the sentinels `0` and `5`: exons `[100,200)`,
`[200,300)`, `[300,400)`, `[400,500)` of weight 5, edges `(0,1)` of weight 1,
`(1,2)` of weight 0.5, `(2,3)` of weight 3, `(3,4)` of weight 0.4, `(4,5)` of
weight 1. -/
def chain_reviser_graph : splice_graph :=
  { vinf := [{ lpos := 0, rpos := 0 }, { lpos := 100, rpos := 200 },
             { lpos := 200, rpos := 300 }, { lpos := 300, rpos := 400 },
             { lpos := 400, rpos := 500 }, { lpos := 500, rpos := 500 }],
    edges := [{ source := 0, target := 1, weight := 1, id := 1 },
              { source := 1, target := 2, weight := 1 / 2, id := 2 },
              { source := 2, target := 3, weight := 3, id := 3 },
              { source := 3, target := 4, weight := 2 / 5, id := 4 },
              { source := 4, target := 5, weight := 1, id := 5 }],
    vwrt := [0, 5, 5, 5, 5, 0] }

/-- Three adjacent exons `[100,200)`, `[200,300)`, `[300,400)` between the sentinels,
the middle one of weight 1 under an edge `(1,3)` of weight 5: edges `(0,1)`, `(1,2)`,
`(2,3)`, `(1,3)`, `(3,4)`. -/
def retained_intron_graph : splice_graph :=
  { vinf := [{ lpos := 0, rpos := 0 }, { lpos := 100, rpos := 200 },
             { lpos := 200, rpos := 300 }, { lpos := 300, rpos := 400 },
             { lpos := 400, rpos := 400 }],
    edges := [{ source := 0, target := 1, weight := 6, id := 1 },
              { source := 1, target := 2, weight := 1, id := 2 },
              { source := 2, target := 3, weight := 1, id := 3 },
              { source := 1, target := 3, weight := 5, id := 4 },
              { source := 3, target := 4, weight := 6, id := 5 }],
    vwrt := [0, 6, 1, 6, 0] }

/-- How an edge can come to be in the set `se` of `keep_surviving_edges`: its weight
is not below the threshold, or `compute_maximal_edges` returned it, or it is the
`max_in_edge` of its target or the `max_out_edge` of its source. -/
def surviving_origin (acc : Nat → List (Nat × Nat) → List Int) (gr : splice_graph)
    (surviving : ℚ) (e : edge_base) : Prop :=
  ¬ (e.weight < surviving) ∨
  (∃ me, compute_maximal_edges acc gr = some me ∧ e ∈ me) ∨
  gr.max_in_edge e.target = some e ∨ gr.max_out_edge e.source = some e

/-- The invariant of the three sets of `keep_surviving_edges`: the elements of `se`
are edges of `gr` with the property `P`, `sv1` holds targets and `sv2` sources of
elements of `se`. -/
def surviving_inv (P : edge_base → Prop) (gr : splice_graph) (st : surviving_state) : Prop :=
  (∀ e ∈ st.se, e ∈ gr.edges ∧ P e) ∧
  (∀ v ∈ st.sv1, ∃ x ∈ st.se, x.target = v) ∧
  (∀ v ∈ st.sv2, ∃ x ∈ st.se, x.source = v)

/-- The chain of scenario 6 with one more edge `(1,3)` of weight 0.1. -/
def chord_reviser_graph : splice_graph :=
  { chain_reviser_graph with
      edges := chain_reviser_graph.edges ++
        [{ source := 1, target := 3, weight := 1 / 10, id := 6 }] }

/-- The vector `vv` of component numbers that `compute_maximal_edges` gets from
`assign_connected_components()` on the undirected graph of the inner edges. -/
def component_numbers (acc : Nat → List (Nat × Nat) → List Int) (gr : splice_graph) :
    List Int :=
  acc gr.num_vertices ((inner_edges gr).map (fun e => (e.source, e.target)))

/-- The `id` that `add_edge` gives to a new edge of `gr`. -/
def splice_graph.fresh_id (gr : splice_graph) : Nat :=
  (gr.edges.map (fun e => e.id)).foldl max 0 + 1

/-- The graph `gap_reviser_graph` with weight 5 on the second exon. -/
def light_gap_graph : splice_graph :=
  { gap_reviser_graph with vwrt := [0, 50, 5, 0] }

/-- Two exons `[100,200)` and `[300,400)`, each joined to both sentinels: edges
`(0,1)`, `(1,3)`, `(0,2)`, `(2,3)`. -/
def boundary_pair_graph : splice_graph :=
  { vinf := [{ lpos := 0, rpos := 0 }, { lpos := 100, rpos := 200 },
             { lpos := 300, rpos := 400 }, { lpos := 400, rpos := 400 }],
    edges := [{ source := 0, target := 1, weight := 1, id := 1 },
              { source := 1, target := 3, weight := 1, id := 2 },
              { source := 0, target := 2, weight := 1, id := 3 },
              { source := 2, target := 3, weight := 1, id := 4 }],
    vwrt := [0, 5, 5, 0] }

/-- The graph of scenario 4: an exon `[100,103)` of length 3 whose sole predecessor is
vertex `0`, followed after a gap by the exon `[200,300)`: edges `(0,1)`, `(1,2)`,
`(0,2)`, `(2,3)`. -/
def small_exon_graph : splice_graph :=
  { vinf := [{ lpos := 0, rpos := 0 }, { lpos := 100, rpos := 103 },
             { lpos := 200, rpos := 300 }, { lpos := 300, rpos := 300 }],
    edges := [{ source := 0, target := 1, weight := 1, id := 1 },
              { source := 1, target := 2, weight := 1, id := 2 },
              { source := 0, target := 2, weight := 1, id := 3 },
              { source := 2, target := 3, weight := 1, id := 4 }],
    vwrt := [0, 5, 5, 0] }

/-! ## filter_junctions (graph_reviser.cc 836-862) -/

/-- The function `filter_junctions(gr, js, surviving)` (graph_reviser.cc 836-862): the
graph after the call.  `js` is the set of whitelisted positions.  The first loop
collects in `ve` the edges that pass none of its three `continue` tests, the second
removes them, and `refine_splice_graph` follows. -/
def filter_junctions (gr : splice_graph) (js : List Int) (surviving : ℚ) : splice_graph :=
  refine_splice_graph
    ((gr.edges.filter (fun e =>
        !decide ((gr.get_vertex_info e.source).rpos ≤ (gr.get_vertex_info e.target).lpos) &&
        !decide (e.weight ≥ surviving) &&
        !(decide ((gr.get_vertex_info e.source).rpos ∈ js) &&
          !decide ((gr.get_vertex_info e.target).lpos ∈ js)))).foldl
      splice_graph.remove_edge gr)

/-- Exons `[100,200)`, `[200,300)`, `[400,500)` of weight 100 between the sentinels;
vertex 1 has the adjacent successor 2 and the crossing out-edge `(1,3)` of weight 1:
edges `(0,1)`, `(1,2)`, `(1,3)`, `(2,4)`, `(3,4)`. -/
def junction_graph : splice_graph :=
  { vinf := [{ lpos := 0, rpos := 0 }, { lpos := 100, rpos := 200 },
             { lpos := 200, rpos := 300 }, { lpos := 400, rpos := 500 },
             { lpos := 500, rpos := 500 }],
    edges := [{ source := 0, target := 1, weight := 100, id := 1 },
              { source := 1, target := 2, weight := 100, id := 2 },
              { source := 1, target := 3, weight := 1, id := 3 },
              { source := 2, target := 4, weight := 100, id := 4 },
              { source := 3, target := 4, weight := 1, id := 5 }],
    vwrt := [0, 100, 100, 100, 0] }

/-! ## group_start_boundaries (graph_reviser.cc 916-995, combined_graph.cc 337-416) -/

/-- Modelled from the spec: the call `gr.set_vertex_weight(k, w)`. -/
def splice_graph.set_vertex_weight (gr : splice_graph) (k : Nat) (w : ℚ) : splice_graph :=
  { gr with vwrt := gr.vwrt.set k w }

/-- The function `check_continuous_vertices(gr, x, y)` (essential.cc 282-292). -/
def check_continuous_vertices (gr : splice_graph) (x y : Nat) : Bool :=
  if x ≥ y then true
  else (List.range' x (y - x)).all (fun i =>
    (gr.edge i (i + 1)).isSome &&
    decide ((gr.get_vertex_info i).rpos = (gr.get_vertex_info (i + 1)).lpos))

/-- The call `m.insert(pair(k, v))` on a `std::map<int32_t, int32_t>`, kept as the list
of its entries in increasing key order: an entry whose key is present is left as it
is. -/
def int_map_insert : List (Int × Int) → Int → Int → List (Int × Int)
  | [], k, v => [(k, v)]
  | (a, b) :: m, k, v =>
    if k < a then (k, v) :: (a, b) :: m
    else if a < k then (a, b) :: int_map_insert m k v
    else (a, b) :: m

/-- A held edge descriptor `d` after `set_edge_weight(e, w)`: the descriptor of `e`
now names the edge with the new weight. -/
def descriptor_after (e : edge_base) (w : ℚ) (d : edge_base) : edge_base :=
  if d = e then { d with weight := w } else d

/-- The variables of the main loop of `group_start_boundaries`: the graph, `smap`,
`p1`, `p2`, `k1`, `k2`, the descriptor `pa.first` and `wa`.  The `edge_info` records
that the loop also updates are not part of the embedding. -/
structure group_state where
  gr : splice_graph
  smap : List (Int × Int)
  p1 : Int
  p2 : Int
  k1 : Nat
  k2 : Nat
  pa : edge_base
  wa : ℚ

/-- The body of `for(int j = k1; j < v[i]; j++)` in `group_start_boundaries`
(graph_reviser.cc 968-980) for one `j`, on the graph and the held descriptors `pa`
and `pb`; `none` when `assert(pc.second == true)` fails. -/
def group_chain_step (wb : ℚ) (st : splice_graph × edge_base × edge_base) (j : Nat) :
    Option (splice_graph × edge_base × edge_base) :=
  match st.1.edge j (j + 1) with
  | none => none
  | some pc =>
    some (((st.1.set_vertex_weight j (st.1.get_vertex_weight j + wb)).set_edge_weight pc
              (pc.weight + wb),
           descriptor_after pc (pc.weight + wb) st.2.1,
           descriptor_after pc (pc.weight + wb) st.2.2))

/-- The body of the main loop of `group_start_boundaries` (graph_reviser.cc 942-993)
for the vertex `vi = v[i]`; `none` when an assertion fails. -/
def group_start_step (maxd : Int) (st : group_state) (vi : Nat) : Option group_state :=
  match st.gr.edge 0 vi with
  | none => none
  | some pb =>
    if (st.gr.get_vertex_info vi).lpos < st.p2 then none
    else if check_continuous_vertices st.gr st.k2 vi = false ∨
        (st.gr.get_vertex_info vi).lpos - st.p2 > maxd then
      some { st with
               p1 := (st.gr.get_vertex_info vi).lpos
               p2 := (st.gr.get_vertex_info vi).lpos
               k1 := vi
               k2 := vi
               pa := pb
               wa := pb.weight }
    else
      match (List.range' st.k1 (vi - st.k1)).foldlM (group_chain_step pb.weight)
          (st.gr, st.pa, pb) with
      | none => none
      | some (g1, pa1, pb1) =>
        some { st with
                 gr := (g1.set_edge_weight pa1 (st.wa + pb.weight)).remove_edge
                         (descriptor_after pa1 (st.wa + pb.weight) pb1)
                 smap := int_map_insert st.smap (st.gr.get_vertex_info vi).lpos st.p1
                 pa := { pa1 with weight := st.wa + pb.weight }
                 wa := st.wa + pb.weight
                 k2 := vi
                 p2 := (st.gr.get_vertex_info vi).lpos }

/-- The function `group_start_boundaries(gr, smap, max_group_boundary_distance)`
(graph_reviser.cc 916-995): the graph and `smap` after the call; `none` when an
assertion fails.  The method `combined_graph::group_start_boundaries`
(combined_graph.cc 337-416) has the same statements, on the member `smap` and the
configuration value `max_group_boundary_distance`. -/
def group_start_boundaries (gr : splice_graph) (maxd : Int) :
    Option (splice_graph × List (Int × Int)) :=
  match std_sort (fun a b => decide (a < b)) ((gr.out_edges 0).map (fun e => e.target)) with
  | [] => some (gr, [])
  | [_] => some (gr, [])
  | v0 :: rest =>
    match gr.edge 0 v0 with
    | none => none
    | some pa =>
      (rest.foldlM (group_start_step maxd)
        { gr := gr, smap := [], p1 := (gr.get_vertex_info v0).lpos,
          p2 := (gr.get_vertex_info v0).lpos, k1 := v0, k2 := v0, pa := pa,
          wa := pa.weight }).map (fun st => (st.gr, st.smap))

/-- The graph of scenario 5: start-boundary vertices with `lpos` 1000, 1005 and 1020,
the exons `[1000,1005)`, `[1005,1020)`, `[1020,1100)` joined by unit adjacencies:
edges `(0,1)` of weight 10, `(0,2)` of weight 3, `(0,3)` of weight 7, `(1,2)`, `(2,3)`,
`(3,4)`. -/
def boundary_group_graph : splice_graph :=
  { vinf := [{ lpos := 1000, rpos := 1000 }, { lpos := 1000, rpos := 1005 },
             { lpos := 1005, rpos := 1020 }, { lpos := 1020, rpos := 1100 },
             { lpos := 1100, rpos := 1100 }],
    edges := [{ source := 0, target := 1, weight := 10, id := 1 },
              { source := 0, target := 2, weight := 3, id := 2 },
              { source := 0, target := 3, weight := 7, id := 3 },
              { source := 1, target := 2, weight := 10, id := 4 },
              { source := 2, target := 3, weight := 13, id := 5 },
              { source := 3, target := 4, weight := 20, id := 6 }],
    vwrt := [0, 10, 13, 20, 0] }

/-- The sum of the weights of the entries of `l` with key `k`. -/
def key_weight {K : Type} [DecidableEq K] (l : List (K × (ℚ × Int))) (k : K) : ℚ :=
  ((l.filter (fun e => e.1 = k)).map (fun e => e.2.1)).sum

/-- The sum of the counts of the entries of `l` with key `k`. -/
def key_count {K : Type} [DecidableEq K] (l : List (K × (ℚ × Int))) (k : K) : Int :=
  ((l.filter (fun e => e.1 = k)).map (fun e => e.2.2)).sum

/-- The map built from the entries `l` by the lookup-then-insert-or-add step, as in the
loops of `combine_junctions`, `combine_start_bounds` and `combine_end_bounds`. -/
def accumulate_all {K : Type} (lt : K → K → Bool) (l : List (K × (ℚ × Int))) :
    List (K × (ℚ × Int)) :=
  l.foldl (fun m j => map_accumulate lt m j.1 j.2) []

/-- Two freshly built graphs combined, with junctions `(150,300)` in both and
`(120,140)` in the second. -/
def junction_parent : combined_graph :=
  { sample_combined with
      children := [sample_built [150, 300] [((150, 300), (2, 1))],
                   sample_built [120, 140, 150, 300]
                     [((150, 300), (5 / 2, 3)), ((120, 140), (1, 1))]] }

/-! ## get_reliable_start_boundaries (combined_graph.cc 815-859) -/

/-- The position `q` that `get_reliable_start_boundaries` takes for the position `p`:
`smap[p]` when `smap.find(p) != smap.end()`, else `p`. -/
def group_position (smap : List (Int × Int)) (p : Int) : Int :=
  match smap.lookup p with
  | some q => q
  | none => p

/-- The call `s.insert(p)` on a `std::set<int32_t>`, kept as the list of its elements
in increasing order. -/
def int_set_insert : List Int → Int → List Int
  | [], p => [p]
  | a :: s, p =>
    if p < a then p :: a :: s
    else if a < p then a :: int_set_insert s p
    else a :: s

/-- The set `s` of `get_reliable_start_boundaries`: the keys of the map `m` of summed
`(weight, count)` per group position that pass `if(w < weight && c < samples) continue;`. -/
def reliable_groups (this : combined_graph) (samples : Int) (weight : ℚ) : List Int :=
  ((accumulate_all (fun a b => decide (a < b))
      (this.sbounds.map (fun e => (group_position this.smap e.1, e.2)))).filter
    (fun e => !(decide (e.2.1 < weight) && decide (e.2.2 < samples)))).map Prod.fst

/-- The method `combined_graph::get_reliable_start_boundaries(samples, weight)`
(combined_graph.cc 815-859): the returned set. -/
def combined_graph.get_reliable_start_boundaries (this : combined_graph) (samples : Int)
    (weight : ℚ) : List Int :=
  this.sbounds.foldl (fun ss e =>
    if group_position this.smap e.1 ∈ reliable_groups this samples weight
    then int_set_insert ss e.1 else ss) []

/-- A combined graph with start bounds at 1000, 1005, 1020 and 1200 and
`smap = {1005 -> 1000}`. -/
def bounds_sample : combined_graph :=
  { sample_built [] [] with
      sbounds := [(1000, (3, 1)), (1005, (2, 1)), (1020, (1, 1)), (1200, (1, 3))]
      smap := [(1005, 1000)] }

/-! ## The split interval map of combine_children -/

/-- An entry of the interval map over `[lo, hi)` with value `val`, unless the value is
zero: the map does not store zero values. -/
def imap_piece (lo hi val : Int) : List ((Int × Int) × Int) :=
  if val = 0 then [] else [((lo, hi), val)]

/-- Modelled from the spec: the type `split_interval_map` (interval_map.h, a boost
interval container) is outside `src/`; the spec calls it "a map keyed by half-open
intervals that fragments on overlap" and "sums weights over each resulting
sub-interval".  This is `imap += make_pair(ROI(l, r), w)` for `l < r` and `w != 0`
on the list of entries in increasing order: entries are split at `l` and `r`, `w` is
added on the overlap, and the parts of `[l, r)` not covered before get the value `w`. -/
def split_interval_map_add :
    List ((Int × Int) × Int) → Int → Int → Int → List ((Int × Int) × Int)
  | [], l, r, w => [((l, r), w)]
  | ((a, b), v) :: rest, l, r, w =>
    if r ≤ a then ((l, r), w) :: ((a, b), v) :: rest
    else if b ≤ l then ((a, b), v) :: split_interval_map_add rest l r w
    else
      (if l < a then [((l, a), w)] else if a < l then [((a, l), v)] else []) ++
      (if r < b then
        imap_piece (if l < a then a else l) r (v + w) ++ ((r, b), v) :: rest
       else if r = b then imap_piece (if l < a then a else l) b (v + w) ++ rest
       else imap_piece (if l < a then a else l) b (v + w) ++
              split_interval_map_add rest b r w)

/-- Modelled from the spec: the entries read back from a `split_interval_map` after
the additions `adds`, in order; an addition over an empty interval or of the value
zero leaves the map as it is. -/
def split_interval_map (adds : List ((Int × Int) × Int)) : List ((Int × Int) × Int) :=
  adds.foldl (fun m x =>
    if x.1.1 < x.1.2 ∧ x.2 ≠ 0 then split_interval_map_add m x.1.1 x.1.2 x.2 else m) []

/-- The sum of the values of the entries of `segs` whose interval holds `x`. -/
def imap_value (segs : List ((Int × Int) × Int)) (x : Int) : Int :=
  (segs.map (fun s => if s.1.1 ≤ x ∧ x < s.1.2 then s.2 else 0)).sum

/-- Two children with overlapping regions `[100,200)` of weight 2.5 and `[150,300)`
of weight 3. -/
def region_parent : combined_graph :=
  { sample_combined with
      children :=
        [{ sample_built [] [] with regions := [((100, 200), (5 / 2, 1))] },
         { sample_built [] [] with regions := [((150, 300), (3, 1))] }] }

/-- A parent whose single child has the region `[100,200)` of weight 2.5. -/
def region_single : combined_graph :=
  { sample_built [] [] with
      children := [{ sample_built [] [] with regions := [((100, 200), (5 / 2, 1))] }] }

/-- The sum over the regions of the children that hold the position `x` of the
region's weight after the cast `(int)` of `combine_regions`. -/
def truncated_cover (children : List combined_graph) (x : Int) : Int :=
  ((children.flatMap (fun c => c.regions)).map
    (fun r => if r.1.1 ≤ x ∧ x < r.1.2 then int_of_double r.2.1 else 0)).sum

/-- The sum over the regions of the children that hold the position `x` of the
region's weight. -/
def region_weight_sum (children : List combined_graph) (x : Int) : ℚ :=
  ((children.flatMap (fun c => c.regions)).map
    (fun r => if r.1.1 ≤ x ∧ x < r.1.2 then r.2.1 else 0)).sum

/-- The vertex path `v` of every bridge of the pier follows edges of `gr`, and the chain
of the bridge is the chain of intron coordinates of that path. -/
def pier_chains (gr : splice_graph) (p : pier) : Prop :=
  ∀ b ∈ p.bridges,
    List.Chain' (fun x y => ∃ e ∈ gr.edges, e.source = x ∧ e.target = y) b.v ∧
    build_intron_coordinates_from_path gr b.v = some b.chain

/-- A fragment on `gap_graph` whose mates lie in the vertices 1 and 2:
`bounds = (150,190,320,380)`, empty chains. -/
def gap_fragment : pereads_cluster :=
  { bounds0 := 150, bounds1 := 190, bounds2 := 320, bounds3 := 380,
    extend0 := 150, extend1 := 190, extend2 := 320, extend3 := 380,
    chain1 := [], chain2 := [], count := 1 }

/-- A fragment with `b2 = b3`: `bounds = (150,190,300,300)`, empty chains.  It satisfies
`b0 ≤ b1 ≤ b2 ≤ b3`; its second mate starts where vertex 2 of `gap_graph` starts. -/
def late_mate_fragment : pereads_cluster :=
  { bounds0 := 150, bounds1 := 190, bounds2 := 300, bounds3 := 300,
    extend0 := 150, extend1 := 190, extend2 := 300, extend3 := 300,
    chain1 := [], chain2 := [], count := 1 }

/-! ## The element writes of update_stack -/

/-- The element writes `stack[j] = ...` that the loop of `bridge_solver::update_stack`
performs, in order, each as the pair of the index written and the value; `fuel`
bounds the number of iterations as in `update_stack_loop`. -/
def update_stack_writes_loop (v : List Int) (s : Int) : Nat → Nat → Nat → List (Nat × Int)
  | 0, _, _ => []
  | fuel + 1, i, j =>
    if i < v.length ∧ j < v.length then
      if i = j ∧ v.getD i 0 > s then
        (j, s) :: (j + 1, v.getD i 0) :: update_stack_writes_loop v s fuel (i + 1) (j + 1 + 1)
      else
        (j, v.getD i 0) :: update_stack_writes_loop v s fuel (i + 1) (j + 1)
    else []

/-- The element writes of `bridge_solver::update_stack(v, s)`, in order. -/
def update_stack_writes (v : List Int) (s : Int) : List (Nat × Int) :=
  update_stack_writes_loop v s v.length 0 0

/-! ## group_junctions (combined_graph.cc 489-529) -/

/-- The body of the inner loop of `group_junctions` for the junction `x` at position
`i` and the junction `jy.2` at position `jy.1`; `fb` is the set of flagged positions
(`List.insert` adds a position that is not present).  `maxd` is the configuration
value `max_group_junction_distance`, declared outside `src/`. -/
def group_junctions_pair (maxd : ℚ) (i : Nat) (x : (Int × Int) × (ℚ × Int))
    (fb : List Nat) (jy : Nat × ((Int × Int) × (ℚ × Int))) : List Nat :=
  if jy.1 ∈ fb then fb
  else if ((|x.1.1 - jy.2.1.1| : Int) : ℚ) + ((|x.1.2 - jy.2.1.2| : Int) : ℚ) ≥ maxd then fb
  else
    let fb1 :=
      if 10 * x.2.1 < jy.2.2.1 ∧ x.2.2 < jy.2.2.2 ∧ x.2.2 ≤ 2 ∧ jy.2.2.1 ≤ 100
      then List.insert i fb else fb
    if x.2.1 > 10 * jy.2.2.1 ∧ x.2.2 > jy.2.2.2 ∧ jy.2.2.2 ≤ 2 ∧ jy.2.2.1 ≤ 100
    then List.insert jy.1 fb1 else fb1

/-- The set `fb` after the two nested loops of `group_junctions`. -/
def group_junctions_flags (js : List ((Int × Int) × (ℚ × Int))) (maxd : ℚ) : List Nat :=
  js.enum.foldl (fun fb ix =>
    if ix.1 ∈ fb then fb
    else (js.enum.drop (ix.1 + 1)).foldl (group_junctions_pair maxd ix.1 ix.2) fb) []

/-- The method `combined_graph::group_junctions()` on the member `junctions`: the
junctions whose position is not flagged, in their order. -/
def group_junctions (js : List ((Int × Int) × (ℚ × Int))) (maxd : ℚ) :
    List ((Int × Int) × (ℚ × Int)) :=
  (js.enum.filter (fun ix => !decide (ix.1 ∈ group_junctions_flags js maxd))).map
    (fun ix => ix.2)

/-! ## group_end_boundaries (graph_reviser.cc 997-1066, combined_graph.cc 418-487) -/

/-- The body of `for(int j = v[i]; j < k1; j++)` in `group_end_boundaries`
(graph_reviser.cc 1047-1055) for one `j`, on the graph and the held descriptors `pa`
and `pb`; `none` when `assert(pc.second == true)` fails.  The weight of the vertex
`j + 1` is set to `wc + wb`, `wc` the weight of the edge `(j, j + 1)`. -/
def group_end_chain_step (wb : ℚ) (st : splice_graph × edge_base × edge_base) (j : Nat) :
    Option (splice_graph × edge_base × edge_base) :=
  match st.1.edge j (j + 1) with
  | none => none
  | some pc =>
    some (((st.1.set_edge_weight pc (pc.weight + wb)).set_vertex_weight (j + 1)
              (pc.weight + wb),
           descriptor_after pc (pc.weight + wb) st.2.1,
           descriptor_after pc (pc.weight + wb) st.2.2))

/-- The body of the main loop of `group_end_boundaries` (graph_reviser.cc 1023-1064)
for the vertex `vi = v[i]`; the field `smap` of the state holds `tmap`.  `none` when an
assertion fails. -/
def group_end_step (maxd : Int) (st : group_state) (vi : Nat) : Option group_state :=
  match st.gr.edge vi (st.gr.num_vertices - 1) with
  | none => none
  | some pb =>
    if (st.gr.get_vertex_info vi).rpos > st.p2 then none
    else if check_continuous_vertices st.gr vi st.k2 = false ∨
        st.p2 - (st.gr.get_vertex_info vi).rpos > maxd then
      some { st with
               p1 := (st.gr.get_vertex_info vi).rpos
               p2 := (st.gr.get_vertex_info vi).rpos
               k1 := vi
               k2 := vi
               pa := pb
               wa := pb.weight }
    else
      match (List.range' vi (st.k1 - vi)).foldlM (group_end_chain_step pb.weight)
          (st.gr, st.pa, pb) with
      | none => none
      | some (g1, pa1, pb1) =>
        some { st with
                 gr := (g1.set_edge_weight pa1 (st.wa + pb.weight)).remove_edge
                         (descriptor_after pa1 (st.wa + pb.weight) pb1)
                 smap := int_map_insert st.smap (st.gr.get_vertex_info vi).rpos st.p1
                 pa := { pa1 with weight := st.wa + pb.weight }
                 wa := st.wa + pb.weight
                 k2 := vi
                 p2 := (st.gr.get_vertex_info vi).rpos }

/-- The function `group_end_boundaries(gr, tmap, max_group_boundary_distance)`
(graph_reviser.cc 997-1066): the graph and `tmap` after the call; `none` when an
assertion fails.  The method `combined_graph::group_end_boundaries`
(combined_graph.cc 418-487) has the same statements. -/
def group_end_boundaries (gr : splice_graph) (maxd : Int) :
    Option (splice_graph × List (Int × Int)) :=
  match std_sort (fun a b => decide (a > b))
      ((gr.in_edges (gr.num_vertices - 1)).map (fun e => e.source)) with
  | [] => some (gr, [])
  | [_] => some (gr, [])
  | v0 :: rest =>
    match gr.edge v0 (gr.num_vertices - 1) with
    | none => none
    | some pa =>
      (rest.foldlM (group_end_step maxd)
        { gr := gr, smap := [], p1 := (gr.get_vertex_info v0).rpos,
          p2 := (gr.get_vertex_info v0).rpos, k1 := v0, k2 := v0, pa := pa,
          wa := pa.weight }).map (fun st => (st.gr, st.smap))

/-- End-boundary vertices with `rpos` 1080, 1095 and 1100: the exons `[1000,1080)`,
`[1080,1095)`, `[1095,1100)` of weights 20, 13, 10 joined by the adjacency edges
`(1,2)` of weight 12 and `(2,3)` of weight 9; sink edges `(1,4)` of weight 7, `(2,4)` of
weight 3 and `(3,4)` of weight 10. -/
def end_group_graph : splice_graph :=
  { vinf := [{ lpos := 1000, rpos := 1000 }, { lpos := 1000, rpos := 1080 },
             { lpos := 1080, rpos := 1095 }, { lpos := 1095, rpos := 1100 },
             { lpos := 1100, rpos := 1100 }],
    edges := [{ source := 0, target := 1, weight := 20, id := 1 },
              { source := 1, target := 2, weight := 12, id := 2 },
              { source := 2, target := 3, weight := 9, id := 3 },
              { source := 1, target := 4, weight := 7, id := 4 },
              { source := 2, target := 4, weight := 3, id := 5 },
              { source := 3, target := 4, weight := 10, id := 6 }],
    vwrt := [0, 20, 13, 10, 0] }

/-- Start-boundary vertices with `lpos` 1000, 1008 and 1016: the exons `[1000,1008)`,
`[1008,1016)`, `[1016,1100)` joined by unit adjacencies; edges `(0,1)` of weight 10,
`(0,2)` of weight 3, `(0,3)` of weight 7, `(1,2)`, `(2,3)`, `(3,4)`. -/
def chain_group_graph : splice_graph :=
  { vinf := [{ lpos := 1000, rpos := 1000 }, { lpos := 1000, rpos := 1008 },
             { lpos := 1008, rpos := 1016 }, { lpos := 1016, rpos := 1100 },
             { lpos := 1100, rpos := 1100 }],
    edges := [{ source := 0, target := 1, weight := 10, id := 1 },
              { source := 0, target := 2, weight := 3, id := 2 },
              { source := 0, target := 3, weight := 7, id := 3 },
              { source := 1, target := 2, weight := 10, id := 4 },
              { source := 2, target := 3, weight := 13, id := 5 },
              { source := 3, target := 4, weight := 20, id := 6 }],
    vwrt := [0, 10, 13, 20, 0] }

/-! ## Walks and their stacks -/

/-- The edges `es`, in order, lead from vertex `a` to vertex `b` in `gr`. -/
def is_walk (gr : splice_graph) : Nat → Nat → List edge_base → Bool
  | a, b, [] => decide (a = b)
  | a, b, e :: es => decide (e ∈ gr.edges) && decide (e.source = a) && is_walk gr e.target b es

/-- The weights `(int)(gr.get_edge_weight(e))` of the edges of a walk, in order. -/
def walk_weights (gr : splice_graph) (es : List edge_base) : List Int :=
  es.map (fun e => int_of_double (gr.get_edge_weight e))

/-- The stack that `dynamic_programming` forms along a walk: the initial stack of
`bridge_dp_stack_size` values 999999, updated with the weight of each edge in turn. -/
def walk_stack (gr : splice_graph) (cfg : parameters) (es : List edge_base) : List Int :=
  (walk_weights gr es).foldl update_stack (List.replicate cfg.bridge_dp_stack_size 999999)

/-- The smallest of 999999 and the weights of the edges of a walk. -/
def bottleneck (gr : splice_graph) (es : List edge_base) : Int :=
  (walk_weights gr es).foldl min 999999

/-- The state of the table of `dynamic_programming` from `k1` before iteration `m`:
the rows below `k1` and from `m` on are empty; every entry of a row `j` other than `k1`
points to an entry of a row `trace1` with `k1 <= trace1 < j`; the entries of row `k1`
have no predecessor. -/
def table_traced (k1 m : Nat) (t : List (List entry)) : Prop :=
  (∀ j, (j < k1 ∨ m ≤ j) → t.getD j [] = []) ∧
  (∀ j, j ≠ k1 → ∀ c ∈ t.getD j [],
    (k1 : Int) ≤ c.trace1 ∧ c.trace1 < j ∧ 0 ≤ c.trace2 ∧
      c.trace2 < ((t.getD c.trace1.toNat []).length : Int)) ∧
  (∀ c ∈ t.getD k1 [], c.trace1 < 0)

/-- Every element of `se` is an edge of `gr` whose target is in `sv1` and whose source
is in `sv2`, and `se` has no element twice. -/
def surviving_closed (gr : splice_graph) (st : surviving_state) : Prop :=
  (∀ e ∈ st.se, e ∈ gr.edges ∧ e.target ∈ st.sv1 ∧ e.source ∈ st.sv2) ∧ st.se.Nodup

/-! ## The ends of the loops -/

/-- How a `while(true)` loop run with a bound on its passes ends: with a result, at a
failed assertion, or with no pass left. -/
inductive run_result (α : Type) where
  | finished (a : α) : run_result α
  | assertion_failed : run_result α
  | out_of_passes : run_result α

/-- The augmentation loop of `keep_surviving_edges` as in `surviving_loop`, telling a
failed assertion from the end of the passes allowed. -/
def surviving_loop_run (gr : splice_graph) : Nat → surviving_state → run_result surviving_state
  | 0, _ => run_result.out_of_passes
  | fuel + 1, st =>
    match surviving_scan gr st st.se with
    | none => run_result.assertion_failed
    | some (st1, true) => surviving_loop_run gr fuel st1
    | some (_, false) => run_result.finished st

/-- The loop of `revise_splice_graph_full` as in `revise_loop`, telling a failed
assertion from the end of the passes allowed. -/
def revise_loop_run (acc : Nat → List (Nat × Nat) → List Int) (cfg : parameters) :
    Nat → splice_graph → run_result splice_graph
  | 0, _ => run_result.out_of_passes
  | fuel + 1, gr =>
    match revise_pass acc cfg gr with
    | none => run_result.assertion_failed
    | some (g1, true) => revise_loop_run acc cfg fuel g1
    | some (g1, false) => run_result.finished g1

/-- Twice the number of edges not incident to a sentinel plus the number of edges. -/
def revise_measure (gr : splice_graph) : Nat :=
  2 * (inner_edges gr).length + gr.edges.length

/-- The component numbers that `acc` gives for the graph `g` agree on the two ends of
every edge that `compute_maximal_edges` adds to the undirected graph. -/
def components_agree (acc : Nat → List (Nat × Nat) → List Int) (g : splice_graph) : Prop :=
  ∀ e ∈ inner_edges g,
    (acc g.num_vertices ((inner_edges g).map (fun e => (e.source, e.target)))).getD e.source 0
      = (acc g.num_vertices ((inner_edges g).map (fun e => (e.source, e.target)))).getD
          e.target 0

/-! ## build_path_from_intron_coordinates (essential.cc 213-249) -/

/-- The first loop of `build_path_from_intron_coordinates` on the coordinates still to
read: `none` when an assertion fails, `some none` when the function returns false,
else the pairs `pp`.  The maps `lindex` and `rindex` are members of `splice_graph`,
declared outside `src/`: `lindex q` and `rindex p` are the results of the lookups,
`none` for a position that is not a key. -/
def intron_pairs (lindex rindex : Int → Option Nat) :
    List Int → Option (Option (List (Nat × Nat)))
  | p :: q :: rest =>
    if p ≥ 0 ∧ q ≥ 0 then
      if p ≤ q then
        match rindex p with
        | none => some none
        | some kp =>
          match lindex q with
          | none => some none
          | some kq =>
            (intron_pairs lindex rindex rest).map (Option.map (fun pp => (kp, kq) :: pp))
      else none
    else none
  | _ => some (some [])

/-- The second loop of `build_path_from_intron_coordinates` on the pairs from `pp[k]`
on: the vertices it pushes; `none` when `assert(a <= b)` fails, `some none` when
`check_continuous_vertices` fails. -/
def thread_pairs (gr : splice_graph) : List (Nat × Nat) → Option (Option (List Nat))
  | x :: y :: rest =>
    if x.2 ≤ y.1 then
      if check_continuous_vertices gr x.2 y.1 then
        (thread_pairs gr (y :: rest)).map
          (Option.map (fun t => List.range' x.2 (y.1 - x.2 + 1) ++ t))
      else some none
    else none
  | _ => some (some [])

/-- The function `build_path_from_intron_coordinates(gr, v, vv)` (essential.cc 213-249):
`none` when an assertion fails, `some none` when it returns false, `some (some vv)`
when it returns true. -/
def build_path_from_intron_coordinates (gr : splice_graph) (lindex rindex : Int → Option Nat)
    (v : List Int) : Option (Option (List Nat)) :=
  if v.length % 2 ≠ 0 then none
  else if v.length ≤ 0 then some (some [])
  else
    match intron_pairs lindex rindex v with
    | none => none
    | some none => some none
    | some (some pp) =>
      match thread_pairs gr pp with
      | none => none
      | some none => some none
      | some (some mid) =>
        some (some ([(pp.headD (0, 0)).1] ++ mid ++ [(pp.getLastD (0, 0)).2]))

/-- Three exons `[100,200)`, `[300,400)`, `[400,500)` and a fourth `[600,700)`: the
introns `(200,300)` and `(500,600)`, the second and third exon adjacent. -/
def two_intron_graph : splice_graph :=
  { vinf := [{ lpos := 100, rpos := 100 }, { lpos := 100, rpos := 200 },
             { lpos := 300, rpos := 400 }, { lpos := 400, rpos := 500 },
             { lpos := 600, rpos := 700 }, { lpos := 700, rpos := 700 }],
    edges := [{ source := 0, target := 1, weight := 10 },
              { source := 1, target := 2, weight := 10 },
              { source := 2, target := 3, weight := 10 },
              { source := 3, target := 4, weight := 10 },
              { source := 4, target := 5, weight := 10 }] }

/-- The map `lindex` of `two_intron_graph`. -/
def two_intron_lindex (q : Int) : Option Nat :=
  if q = 100 then some 1 else if q = 300 then some 2 else if q = 400 then some 3
  else if q = 600 then some 4 else none

/-- The map `rindex` of `two_intron_graph`. -/
def two_intron_rindex (p : Int) : Option Nat :=
  if p = 200 then some 1 else if p = 400 then some 2 else if p = 500 then some 3
  else if p = 700 then some 4 else none

/-! ## The paths to a vertex and the rows of the dynamic program -/

/-- The walks of fewer than `fuel` edges from vertex `k1` to vertex `k`, each as the
list of its edges in order: the walk without edges when `k = k1`, and every walk to
the source of an in-edge of `k` followed by that edge.  A walk stands once for each
way of taking its edges from the edge list. -/
def walks_to (gr : splice_graph) (k1 : Nat) : Nat → Nat → List (List edge_base)
  | 0, _ => []
  | fuel + 1, k =>
    (if k = k1 then [[]] else []) ++
      (gr.in_edges k).flatMap (fun e =>
        (walks_to gr k1 fuel e.source).map (fun es => es ++ [e]))

/-- The `K` lexicographically greatest stacks of the list `l`, the greatest first (all
of them when there are fewer): `l` put in the order in which `compare_stack` ranks no
stack before one standing earlier, cut to `K`.  Stacks of one size that this order
does not separate are equal, so the result depends on `l` only as a collection. -/
def best_stacks (K : Nat) (l : List (List Int)) : List (List Int) :=
  (l.insertionSort (fun a b => compare_stack b a = false)).take K

/-- The table `t` is one that the loop of `dynamic_programming(k1, k2, table)` can
leave (bridge_solver.cc 362-395): row `k1` holds the start entry, and every row `k`
with `k1 < k <= k2` is the vector `v` of iteration `k` in some order in which
`entry_compare` ranks no entry before one standing earlier, cut to
`bridge_dp_solution_size` entries.  Nothing is fixed about the order that `sort` gives
to entries that `entry_compare` does not separate. -/
def dp_rows_ok (gr : splice_graph) (cfg : parameters) (k1 k2 : Nat)
    (t : List (List entry)) : Prop :=
  t.getD k1 [] =
    [{ stack := List.replicate cfg.bridge_dp_stack_size 999999,
       length := (gr.get_vertex_info k1).rpos - (gr.get_vertex_info k1).lpos,
       trace1 := -1, trace2 := -1 }] ∧
  ∀ k, k1 < k → k ≤ k2 →
    ∃ v : List entry, List.Perm v (dp_candidates gr t k1 k) ∧
      v.Pairwise (fun a b => entry_compare b a = false) ∧
      t.getD k [] = v.take cfg.bridge_dp_solution_size

/-- Two pairs of exons between the sentinels `0` and `5`: the exons 1 and 2 joined by
the edge `(1,2)` of weight 3, the exons 3 and 4 joined by the edge `(3,4)` of weight 1;
edges `(0,1)`, `(2,5)`, `(0,3)`, `(4,5)` of weight 1.  The undirected projection has
the components `{1,2}` and `{3,4}`. -/
def two_component_graph : splice_graph :=
  { vinf := [{ lpos := 0, rpos := 0 }, { lpos := 100, rpos := 200 },
             { lpos := 300, rpos := 400 }, { lpos := 500, rpos := 600 },
             { lpos := 700, rpos := 800 }, { lpos := 800, rpos := 800 }],
    edges := [{ source := 0, target := 1, weight := 1, id := 1 },
              { source := 1, target := 2, weight := 3, id := 2 },
              { source := 2, target := 5, weight := 1, id := 3 },
              { source := 0, target := 3, weight := 1, id := 4 },
              { source := 3, target := 4, weight := 1, id := 5 },
              { source := 4, target := 5, weight := 1, id := 6 }],
    vwrt := [0, 5, 5, 5, 5, 0] }

/-! # Theorems -/

/-! ## Facts about update_stack -/

theorem getD_append_cons (pre : List Int) (x : Int) (xs : List Int) :
    (pre ++ x :: xs).getD pre.length 0 = x := by
  induction pre with
  | nil => rfl
  | cons a l ih => simpa using ih

theorem update_stack_loop_copy (v : List Int) (s : Int) :
    ∀ (rest pre done : List Int) (fuel : Nat), v = pre ++ rest →
      done.length = pre.length + 1 → rest.length ≤ fuel →
      update_stack_loop v s fuel pre.length (pre.length + 1)
        (done ++ List.replicate (rest.length - 1) 0) = done ++ rest.dropLast := by
  intro rest
  induction rest with
  | nil =>
    intro pre done fuel hv _ _
    cases fuel <;> simp [update_stack_loop, hv]
  | cons x xs ih =>
    intro pre done fuel hv hd hf
    cases fuel with
    | zero => simp at hf
    | succ f =>
      cases xs with
      | nil => simp [update_stack_loop, hv]
      | cons y ys =>
        have hi : pre.length < v.length ∧ pre.length + 1 < v.length := by
          subst hv; simp
        have hx : v.getD pre.length 0 = x := by subst hv; exact getD_append_cons pre x _
        have hset : (done ++ List.replicate ((x :: y :: ys).length - 1) 0).set (pre.length + 1) x
            = (done ++ [x]) ++ List.replicate ((y :: ys).length - 1) 0 := by
          rw [← hd, List.set_append_right _ _ (le_refl _)]
          simp [List.replicate_succ]
        have hrec := ih (pre ++ [x]) (done ++ [x]) f (by simp [hv]) (by simp [hd])
          (by simpa using hf)
        simp only [List.length_append, List.length_singleton] at hrec
        rw [update_stack_loop, if_pos hi, if_neg (by omega), hx, hset, hrec]
        simp

theorem update_stack_loop_scan (v : List Int) (s : Int) :
    ∀ (rest pre : List Int) (fuel : Nat), v = pre ++ rest → rest.length ≤ fuel →
      update_stack_loop v s fuel pre.length pre.length
        (pre ++ List.replicate rest.length 0) = pre ++ stack_insert s rest := by
  intro rest
  induction rest with
  | nil =>
    intro pre fuel hv _
    cases fuel <;> simp [update_stack_loop, hv, stack_insert]
  | cons x xs ih =>
    intro pre fuel hv hf
    cases fuel with
    | zero => simp at hf
    | succ f =>
      have hi : pre.length < v.length ∧ pre.length < v.length := by subst hv; simp
      have hx : v.getD pre.length 0 = x := by subst hv; exact getD_append_cons pre x _
      rw [update_stack_loop, if_pos hi, hx]
      by_cases hxs : x > s
      · rw [if_pos ⟨rfl, hxs⟩]
        have h1 : (pre ++ List.replicate (x :: xs).length 0).set pre.length s
            = (pre ++ [s]) ++ List.replicate xs.length 0 := by
          rw [List.set_append_right _ _ (le_refl _)]
          simp [List.replicate_succ]
        rw [h1]
        cases xs with
        | nil =>
          cases f <;> simp [update_stack_loop, hv, stack_insert, hxs]
        | cons y ys =>
          have h2 : ((pre ++ [s]) ++ List.replicate (y :: ys).length 0).set (pre.length + 1) x
              = (pre ++ [s, x]) ++ List.replicate ((y :: ys).length - 1) 0 := by
            have : pre.length + 1 = (pre ++ [s]).length := by simp
            rw [this, List.set_append_right _ _ (le_refl _)]
            simp [List.replicate_succ]
          have hrec := update_stack_loop_copy v s (y :: ys) (pre ++ [x]) (pre ++ [s, x]) f
            (by simp [hv]) (by simp) (by simpa using hf)
          simp only [List.length_append, List.length_singleton] at hrec
          rw [h2, hrec]
          simp [stack_insert, hxs]
      · rw [if_neg (by simp [hxs])]
        have h1 : (pre ++ List.replicate (x :: xs).length 0).set pre.length x
            = (pre ++ [x]) ++ List.replicate xs.length 0 := by
          rw [List.set_append_right _ _ (le_refl _)]
          simp [List.replicate_succ]
        have hrec := ih (pre ++ [x]) f (by simp [hv]) (by simpa using hf)
        simp only [List.length_append, List.length_singleton] at hrec
        rw [h1, hrec]
        simp [stack_insert, hxs]

/-- The loop of `update_stack` computes `stack_insert`. -/
theorem update_stack_eq (v : List Int) (s : Int) : update_stack v s = stack_insert s v := by
  have h := update_stack_loop_scan v s v [] v.length (by simp) (le_refl _)
  simpa [update_stack] using h

theorem stack_insert_length (s : Int) : ∀ v : List Int, (stack_insert s v).length = v.length
  | [] => rfl
  | x :: xs => by
    by_cases h : x > s
    · simp [stack_insert, h]
    · simp [stack_insert, h, stack_insert_length s xs]

theorem update_stack_length (v : List Int) (s : Int) : (update_stack v s).length = v.length := by
  rw [update_stack_eq, stack_insert_length]

theorem stack_insert_sorted_perm (s : Int) :
    ∀ v : List Int, List.Sorted (· ≤ ·) v →
      List.Sorted (· ≤ ·) (stack_insert s v) ∧
      ∃ d : Int, List.Perm (d :: stack_insert s v) (s :: v) ∧ ∀ x ∈ stack_insert s v, x ≤ d
  | [], _ => ⟨by simp [stack_insert], s, by simp [stack_insert], by simp [stack_insert]⟩
  | x :: xs, hv => by
    have hx : ∀ y ∈ xs, x ≤ y := (List.sorted_cons.mp hv).1
    have hxs : List.Sorted (· ≤ ·) xs := (List.sorted_cons.mp hv).2
    by_cases h : x > s
    · have hne : x :: xs ≠ [] := by simp
      have hsplit : (x :: xs).dropLast ++ [(x :: xs).getLast hne] = x :: xs :=
        List.dropLast_append_getLast hne
      have hpw : List.Pairwise (· ≤ ·) ((x :: xs).dropLast ++ [(x :: xs).getLast hne]) := by
        rw [hsplit]; exact hv
      have hlast : ∀ y ∈ (x :: xs).dropLast, y ≤ (x :: xs).getLast hne := by
        intro y hy
        exact (List.pairwise_append.mp hpw).2.2 y hy _ (by simp)
      have hxlast : x ≤ (x :: xs).getLast hne := by
        have hmem : (x :: xs).getLast hne ∈ x :: xs := List.getLast_mem hne
        rcases List.mem_cons.mp hmem with h1 | h1
        · exact le_of_eq h1.symm
        · exact hx _ h1
      have hsub : List.Sublist (x :: xs).dropLast (x :: xs) := List.dropLast_sublist _
      have hdl : List.Sorted (· ≤ ·) (x :: xs).dropLast := List.Pairwise.sublist hsub hv
      have hmemdl : ∀ y ∈ (x :: xs).dropLast, x ≤ y := by
        intro y hy
        rcases List.mem_cons.mp (hsub.subset hy) with h1 | h1
        · exact le_of_eq h1.symm
        · exact hx _ h1
      refine ⟨?_, (x :: xs).getLast hne, ?_, ?_⟩
      · simp only [stack_insert, if_pos h]
        refine List.sorted_cons.mpr ⟨?_, hdl⟩
        intro y hy
        exact le_trans (le_of_lt h) (hmemdl y hy)
      · simp only [stack_insert, if_pos h]
        have h1 : List.Perm ((x :: xs).getLast hne :: (x :: xs).dropLast) (x :: xs) := by
          have := @List.perm_append_comm Int [(x :: xs).getLast hne] (x :: xs).dropLast
          rw [hsplit] at this
          simpa using this
        exact (List.Perm.swap _ _ _).trans (List.Perm.cons s h1)
      · simp only [stack_insert, if_pos h]
        intro y hy
        rcases List.mem_cons.mp hy with h1 | h1
        · rw [h1]; exact le_trans (le_of_lt h) hxlast
        · exact hlast y h1
    · have hle : x ≤ s := not_lt.mp h
      obtain ⟨hs, d, hperm, hd⟩ := stack_insert_sorted_perm s xs hxs
      have hmem : ∀ y ∈ stack_insert s xs, x ≤ y := by
        intro y hy
        have : y ∈ s :: xs := hperm.subset (List.mem_cons_of_mem _ hy)
        rcases List.mem_cons.mp this with h1 | h1
        · rw [h1]; exact hle
        · exact hx y h1
      have hdmem : d ∈ s :: xs := hperm.subset (List.mem_cons_self _ _)
      refine ⟨?_, d, ?_, ?_⟩
      · simp only [stack_insert, if_neg h]
        exact List.sorted_cons.mpr ⟨hmem, hs⟩
      · simp only [stack_insert, if_neg h]
        exact (List.Perm.swap _ _ _).trans
          (((List.Perm.cons x hperm).trans (List.Perm.swap _ _ _)))
      · simp only [stack_insert, if_neg h]
        intro y hy
        rcases List.mem_cons.mp hy with h1 | h1
        · rw [h1]
          rcases List.mem_cons.mp hdmem with h2 | h2
          · rw [h2]; exact hle
          · exact hx d h2
        · exact hd y h1

/-- C8 (as the code has it): for a vector `v` in ascending (non-decreasing) order and
any `s`, `update_stack(v, s)` has the length of `v`, is again in ascending order, and
holds the `|v|` smallest values of the multiset `v ∪ {s}`: together with one dropped
value `d`, which is at least as large as every value kept, it is a rearrangement of
`s` and `v`. -/
theorem update_stack_ascending (v : List Int) (s : Int) (hv : List.Sorted (· ≤ ·) v) :
    (update_stack v s).length = v.length ∧
    List.Sorted (· ≤ ·) (update_stack v s) ∧
    ∃ d : Int, List.Perm (d :: update_stack v s) (s :: v) ∧ ∀ x ∈ update_stack v s, x ≤ d := by
  refine ⟨update_stack_length v s, ?_⟩
  rw [update_stack_eq]
  exact stack_insert_sorted_perm s v hv

theorem update_stack_ascending_witness :
    List.Sorted (· ≤ ·) [3, 8, 999999] ∧ update_stack [3, 8, 999999] 5 = [3, 5, 8] ∧
    ((update_stack [3, 8, 999999] 5).length = [3, 8, 999999].length ∧
      List.Sorted (· ≤ ·) (update_stack [3, 8, 999999] 5) ∧
      ∃ d : Int, List.Perm (d :: update_stack [3, 8, 999999] 5) (5 :: [3, 8, 999999]) ∧
        ∀ x ∈ update_stack [3, 8, 999999] 5, x ≤ d) :=
  ⟨by decide, by decide, update_stack_ascending [3, 8, 999999] 5 (by decide)⟩

/-- C8 (as stated) fails: on the descending vector `[5, 3, 1]` and `s = 4` the code
returns `[4, 5, 3]`, which is not in descending order; and with `s = 0` it returns
`[0, 5, 3]`, keeping the smallest value `0` and losing `1`, so it does not hold the
three largest values of `{5, 3, 1, 0}`. -/
theorem update_stack_descending_counterexample :
    List.Sorted (· ≥ ·) [5, 3, 1] ∧
    update_stack [5, 3, 1] 4 = [4, 5, 3] ∧
    ¬ List.Sorted (· ≥ ·) (update_stack [5, 3, 1] 4) ∧
    update_stack [5, 3, 1] 0 = [0, 5, 3] ∧
    ¬ List.Perm (update_stack [5, 3, 1] 0) [5, 3, 1] := by
  refine ⟨by decide, by decide, by decide, by decide, by decide⟩

/-! ## Facts about vote -/

theorem vote_select_in_window (low high : Int) (pc : pereads_cluster) :
    ∀ (cands : List candidate) (c : candidate),
      vote_select low high pc cands = some (some c) → in_window low high pc c.whole = true
  | [], c, h => by simp [vote_select] at h
  | d :: rest, c, h => by
    unfold vote_select at h
    by_cases ha : vote_asserts pc d = true
    · rw [if_pos ha] at h
      cases hx : get_total_length_of_introns d.whole with
      | none => simp [hx] at h
      | some intron =>
        simp only [hx] at h
        by_cases h1 : pc.bounds3 - pc.bounds0 - intron < low
        · rw [if_pos h1] at h
          exact vote_select_in_window low high pc rest c h
        · rw [if_neg h1] at h
          by_cases h2 : pc.bounds3 - pc.bounds0 - intron > high
          · rw [if_pos h2] at h
            exact vote_select_in_window low high pc rest c h
          · rw [if_neg h2] at h
            have hc : d = c := by simpa using h
            subst hc
            simp only [in_window, hx, Bool.and_eq_true, decide_eq_true_eq]
            exact ⟨not_lt.mp h1, not_lt.mp h2⟩
    · rw [if_neg ha] at h
      simp at h

theorem vote_select_first_fit (low high : Int) (pc : pereads_cluster) :
    ∀ cands : List candidate,
      (∀ pre c post, cands = pre ++ c :: post →
        (∀ x ∈ pre, in_window low high pc x.whole = false) → candidate_ok pc c = true) →
      vote_select low high pc cands
        = some (cands.find? (fun c => in_window low high pc c.whole))
  | [], _ => by simp [vote_select]
  | d :: rest, hex => by
    have hd : candidate_ok pc d = true := hex [] d rest rfl (by simp)
    simp only [candidate_ok, Bool.and_eq_true] at hd
    obtain ⟨intron, hx⟩ := Option.isSome_iff_exists.mp hd.2
    unfold vote_select
    rw [if_pos hd.1]
    simp only [hx]
    by_cases hw : in_window low high pc d.whole = true
    · have hw1 := hw
      simp only [in_window, hx, Bool.and_eq_true, decide_eq_true_eq] at hw1
      rw [if_neg (not_lt.mpr hw1.1), if_neg (not_lt.mpr hw1.2)]
      simp [List.find?, hw]
    · have hwf : in_window low high pc d.whole = false := by simpa using hw
      have hrest := vote_select_first_fit low high pc rest (by
        intro pre c post hsplit hpre
        refine hex (d :: pre) c post (by simp [hsplit]) ?_
        intro x hxm
        rcases List.mem_cons.mp hxm with h1 | h1
        · rw [h1]; exact hwf
        · exact hpre x h1)
      have hw1 := hwf
      simp only [in_window, hx, Bool.and_eq_false_iff, decide_eq_false_iff_not, not_le] at hw1
      rcases hw1 with h1 | h1
      · rw [if_pos h1, hrest]
        simp [List.find?, hwf]
      · by_cases h0 : pc.bounds3 - pc.bounds0 - intron < low
        · rw [if_pos h0, hrest]
          simp [List.find?, hwf]
        · rw [if_neg h0, if_pos h1, hrest]
          simp [List.find?, hwf]

theorem vote_eq_of_select (mts : List Int → List Int → Bool × List Int) (low high : Int)
    (piers : List pier) (vpair : Int × Int) (pc : pereads_cluster) (bbp : bridge_path)
    (type : Int) (cands : List candidate) (be : Option candidate)
    (h0 : ¬ (vpair.1 < 0 ∨ vpair.2 < 0))
    (hc : vote_candidates mts piers vpair.1 vpair.2 pc = some (type, cands))
    (hs : vote_select low high pc cands = some be) :
    vote mts low high piers vpair pc bbp = some (vote_result bbp type be) := by
  unfold vote
  rw [if_neg h0]
  simp only [hc]
  by_cases hlen : cands.length = 0
  · have hnil := List.length_eq_zero.mp hlen
    subst hnil
    have hbe : be = none := by simpa [vote_select] using hs.symm
    subst hbe
    simp [vote_result]
  · rw [if_neg hlen]
    simp only [hs]

/-- C1: whenever `vote` leaves a bridge_path of type `>= 0` for a fragment, the
insert length `bounds[3] - bounds[0] - get_total_length_of_introns(whole)` of the stored
`whole` is computed without a failed assertion and lies in `[length_low, length_high]`. -/
theorem vote_length_law (mts : List Int → List Int → Bool × List Int) (low high : Int)
    (piers : List pier) (vpair : Int × Int) (pc : pereads_cluster) (bbp r : bridge_path)
    (h : vote mts low high piers vpair pc bbp = some r) (ht : r.type ≥ 0) :
    ∃ intron : Int, get_total_length_of_introns r.whole = some intron ∧
      low ≤ pc.bounds3 - pc.bounds0 - intron ∧ pc.bounds3 - pc.bounds0 - intron ≤ high := by
  have hneg : ∀ b : bridge_path, some { b with type := -1 } = some r → False := by
    intro b hb
    rw [← Option.some.inj hb] at ht
    simp at ht
  unfold vote at h
  split at h
  · exact (hneg bbp h).elim
  · split at h
    · simp at h
    · split at h
      · exact (hneg bbp h).elim
      · split at h
        · simp at h
        · rename_i be hsel
          cases be with
          | none => exact (hneg bbp h).elim
          | some c =>
            have hw := vote_select_in_window low high pc _ c hsel
            have hr : r.whole = c.whole := by
              rw [← Option.some.inj h]
              rfl
            rw [hr]
            unfold in_window at hw
            cases hx : get_total_length_of_introns c.whole with
            | none => simp [hx] at hw
            | some intron =>
              simp only [hx, Bool.and_eq_true, decide_eq_true_eq] at hw
              exact ⟨intron, rfl, hw⟩

theorem vote_length_law_witness :
    vote merge_two_sorted_sequences 50 500 scenario1_piers (1, 2) scenario1_fragment
        bridge_path.init
      = some { type := 2, score := 100, v := [], chain := [], whole := [], stack := [] } ∧
    ∃ intron : Int, get_total_length_of_introns ([] : List Int) = some intron ∧
      (50 : Int) ≤ scenario1_fragment.bounds3 - scenario1_fragment.bounds0 - intron ∧
      scenario1_fragment.bounds3 - scenario1_fragment.bounds0 - intron ≤ 500 :=
  ⟨by decide,
   vote_length_law merge_two_sorted_sequences 50 500 scenario1_piers (1, 2) scenario1_fragment
     bridge_path.init { type := 2, score := 100, v := [], chain := [], whole := [], stack := [] }
     (by decide) (by decide)⟩

/-- C2 (as the code has it): for a fragment with located vertices `0 <= ss < tt`,
provided no assertion fails (line 212, and the assertions of the candidate loop on
the candidates it examines, which are those up to the first one inside the window),
`vote` returns type 2 with chain, whole and score of the first bridge of the pier
`(ss, tt)` whose insert length lies in `[low, high]`, and type -1 when there is no
such bridge (no pier, no bridges, or none inside the window). -/
theorem vote_selection_rule (mts : List Int → List Int → Bool × List Int) (low high : Int)
    (piers : List pier) (ss tt : Int) (pc : pereads_cluster) (bbp : bridge_path)
    (hv : 0 ≤ ss ∧ ss < tt)
    (h212 : (pindex_find piers ss tt).isSome = true → pc.chain1.length ≥ 1 →
      pc.chain2.length ≥ 1 → pc.chain1.getLastD 0 < pc.chain2.headD 0)
    (hex : ∀ pre c post, pier_candidates piers ss tt pc = pre ++ c :: post →
      (∀ x ∈ pre, in_window low high pc x.whole = false) → candidate_ok pc c = true) :
    vote mts low high piers (ss, tt) pc bbp
      = some (match (pier_candidates piers ss tt pc).find?
                (fun c => in_window low high pc c.whole) with
              | some c => { bbp with type := 2, score := c.score, chain := c.chain,
                                     whole := c.whole }
              | none => { bbp with type := -1 }) := by
  have hsel := vote_select_first_fit low high pc (pier_candidates piers ss tt pc) hex
  have h1 : ¬ ((ss, tt).1 < 0 ∨ (ss, tt).2 < 0) := by simp only []; omega
  have h2 : ¬ (ss ≥ tt) := by omega
  have hres : ∀ be : Option candidate, vote_result bbp 2 be
      = (match be with
         | some c => { bbp with type := 2, score := c.score, chain := c.chain,
                                whole := c.whole }
         | none => { bbp with type := -1 }) := by
    intro be; cases be <;> rfl
  rw [← hres]
  cases hp : pindex_find piers ss tt with
  | none =>
    have hcand : vote_candidates mts piers ss tt pc = some (0, pier_candidates piers ss tt pc) := by
      simp [vote_candidates, pier_candidates, h2, hp]
    have := vote_eq_of_select mts low high piers (ss, tt) pc bbp 0 _ _ h1 hcand hsel
    rw [this]
    simp [pier_candidates, hp, vote_result]
  | some k =>
    have h3 : ¬ (pc.chain1.length ≥ 1 ∧ pc.chain2.length ≥ 1 ∧
        ¬ (pc.chain1.getLastD 0 < pc.chain2.headD 0)) := by
      rintro ⟨ha, hb, hc⟩
      exact hc (h212 (by simp [hp]) ha hb)
    have hcand : vote_candidates mts piers ss tt pc = some (2, pier_candidates piers ss tt pc) := by
      unfold vote_candidates pier_candidates
      rw [if_neg h2]
      simp only [hp]
      rw [if_neg h3]
    exact vote_eq_of_select mts low high piers (ss, tt) pc bbp 2 _ _ h1 hcand hsel

theorem vote_selection_rule_witness :
    vote merge_two_sorted_sequences 50 500 scenario1_piers (1, 2) scenario1_fragment
        bridge_path.init
      = some (match (pier_candidates scenario1_piers 1 2 scenario1_fragment).find?
                (fun c => in_window 50 500 scenario1_fragment c.whole) with
              | some c =>
                { bridge_path.init with
                  type := 2, score := c.score, chain := c.chain, whole := c.whole }
              | none => { bridge_path.init with type := -1 }) :=
  vote_selection_rule merge_two_sorted_sequences 50 500 scenario1_piers 1 2 scenario1_fragment
    bridge_path.init (by decide) (by decide) (by
      intro pre c post h _
      have hc : c ∈ pier_candidates scenario1_piers 1 2 scenario1_fragment := by
        rw [h]; simp
      have hall : ∀ d ∈ pier_candidates scenario1_piers 1 2 scenario1_fragment,
          candidate_ok scenario1_fragment d = true := by decide
      exact hall c hc)

/-- C2 (as stated) fails: on `gap_graph` the fragment with `bounds = (200,200,320,380)`
has located vertices `(1,2)`, the pier `(1,2)` has a bridge whose insert length 80 lies
in `[50,500]`, and `vote` does not return type 2: `whole.front() = 200` is not greater
than `bounds[0] = 200`, the assertion of line 234 fails and the run aborts. -/
theorem vote_selection_counterexample :
    build_bridging_vertices gap_graph [empty_mate_fragment] = [(1, 2)] ∧
    nominate gap_graph scenario_cfg [{ bs := 1, bt := 2, bridges := [] }] = some gap_piers ∧
    (pier_candidates gap_piers 1 2 empty_mate_fragment).find?
        (fun c => in_window 50 500 empty_mate_fragment c.whole)
      = some { chain := [200, 300], whole := [200, 300], score := 100 } ∧
    vote merge_two_sorted_sequences 50 500 gap_piers (1, 2) empty_mate_fragment
      bridge_path.init = none ∧
    bridge_solver.make merge_two_sorted_sequences gap_graph [empty_mate_fragment]
      scenario_cfg 50 500 = none := by
  refine ⟨by decide, by decide, by decide, by decide, by decide⟩

/-- C3 (as the code has it): for a fragment with located vertices `ss >= tt >= 0` whose
chains merge (`merge_intron_chains` returns true with result `m`), provided the
assertions of the candidate loop hold for `m`, `vote` emits type 1 with `whole = m`,
empty `chain` and score 10 when the insert length `(b3 - b0) - total_intron_length(m)`
lies in `[low, high]`, and type -1 when it does not. -/
theorem vote_overlapping_mates (mts : List Int → List Int → Bool × List Int) (low high : Int)
    (piers : List pier) (ss tt : Int) (pc : pereads_cluster) (bbp : bridge_path)
    (hv : ss ≥ tt ∧ tt ≥ 0)
    (hm : (merge_intron_chains mts pc.chain1 pc.chain2).1 = true)
    (hok : candidate_ok pc { chain := [], whole := (merge_intron_chains mts pc.chain1 pc.chain2).2,
                             score := 10 } = true) :
    vote mts low high piers (ss, tt) pc bbp
      = some (if in_window low high pc (merge_intron_chains mts pc.chain1 pc.chain2).2 = true
              then { bbp with type := 1, score := 10, chain := [],
                              whole := (merge_intron_chains mts pc.chain1 pc.chain2).2 }
              else { bbp with type := -1 }) := by
  have h1 : ¬ ((ss, tt).1 < 0 ∨ (ss, tt).2 < 0) := by simp only []; omega
  have hcand : vote_candidates mts piers ss tt pc
      = some (1, [{ chain := [], whole := (merge_intron_chains mts pc.chain1 pc.chain2).2,
                    score := 10 }]) := by
    unfold vote_candidates
    rw [if_pos hv.1, if_pos hm]
  have hsel := vote_select_first_fit low high pc
    [{ chain := [], whole := (merge_intron_chains mts pc.chain1 pc.chain2).2, score := 10 }]
    (by
      intro pre c post hsplit _
      cases pre with
      | nil =>
        have hc := (List.cons.inj hsplit).1
        rw [← hc]; exact hok
      | cons a l =>
        have := congrArg List.length hsplit
        simp at this)
  rw [vote_eq_of_select mts low high piers (ss, tt) pc bbp 1 _ _ h1 hcand hsel]
  by_cases hw : in_window low high pc (merge_intron_chains mts pc.chain1 pc.chain2).2 = true
  · simp [List.find?, hw, vote_result]
  · simp [List.find?, hw, vote_result]

theorem vote_overlapping_mates_witness :
    vote merge_two_sorted_sequences 50 500 [] (2, 2) scenario2_fragment bridge_path.init
      = some (if in_window 50 500 scenario2_fragment
                  (merge_intron_chains merge_two_sorted_sequences scenario2_fragment.chain1
                    scenario2_fragment.chain2).2 = true
              then { bridge_path.init with
                     type := 1, score := 10, chain := [],
                     whole := (merge_intron_chains merge_two_sorted_sequences
                       scenario2_fragment.chain1 scenario2_fragment.chain2).2 }
              else { bridge_path.init with type := -1 }) :=
  vote_overlapping_mates merge_two_sorted_sequences 50 500 [] 2 2 scenario2_fragment
    bridge_path.init (by decide) (by decide) (by decide)

/-- C3 (as stated) fails: the fragment of scenario 2 has located vertices `(2,2)` and
its chains merge to `[]`, but with the window `[50,100]` its insert length 160 is
rejected and `vote` leaves type -1, not type 1. -/
theorem vote_overlapping_counterexample :
    build_bridging_vertices scenario_graph [scenario2_fragment] = [(2, 2)] ∧
    merge_intron_chains merge_two_sorted_sequences scenario2_fragment.chain1
      scenario2_fragment.chain2 = (true, []) ∧
    (bridge_solver.make merge_two_sorted_sequences scenario_graph [scenario2_fragment]
        scenario_cfg 50 100).map (fun s => s.opt)
      = some [{ type := -1, score := 0, v := [], chain := [], whole := [], stack := [] }] := by
  refine ⟨by decide, by decide, by decide⟩

theorem mapM_none_of_mem {α β : Type} (f : α → Option β) :
    ∀ (l : List α) (a : α), a ∈ l → f a = none → l.mapM f = none
  | [], a, h, _ => by simp at h
  | b :: l, a, h, hf => by
    rw [List.mapM_cons]
    rcases List.mem_cons.mp h with h1 | h1
    · rw [← h1, hf]; rfl
    · rw [mapM_none_of_mem f l a h1 hf]
      cases f b <;> rfl

/-- C5 (as the code has it): when a fragment's mates map to `ss >= tt >= 0` and
`merge_intron_chains(chain1, chain2)` returns false, `assert(b == true)` (line 203)
fails: `vote` aborts for that fragment, no bridge_path is left for it, and the loop of
`bridge_solver::vote()` over the fragments aborts with it, whatever the other
fragments are. -/
theorem vote_chain_mismatch_aborts (mts : List Int → List Int → Bool × List Int)
    (low high : Int) (piers : List pier) (ss tt : Int) (pc : pereads_cluster)
    (hv : ss ≥ tt ∧ tt ≥ 0)
    (hm : (merge_intron_chains mts pc.chain1 pc.chain2).1 = false) :
    (∀ bbp : bridge_path, vote mts low high piers (ss, tt) pc bbp = none) ∧
    ∀ (vpairs : List (Int × Int)) (vc : List pereads_cluster),
      ((ss, tt), pc) ∈ vpairs.zip vc → vote_all mts low high piers vpairs vc = none := by
  have hvote : ∀ bbp : bridge_path, vote mts low high piers (ss, tt) pc bbp = none := by
    intro bbp
    have h1 : ¬ ((ss, tt).1 < 0 ∨ (ss, tt).2 < 0) := by simp only []; omega
    have hcand : vote_candidates mts piers ss tt pc = none := by
      unfold vote_candidates
      rw [if_pos hv.1, if_neg (by simp [hm])]
    unfold vote
    rw [if_neg h1]
    simp only [hcand]
  refine ⟨hvote, ?_⟩
  intro vpairs vc hmem
  unfold vote_all
  exact mapM_none_of_mem _ _ _ hmem (hvote bridge_path.init)

theorem vote_chain_mismatch_aborts_witness :
    (∀ bbp : bridge_path,
      vote merge_two_sorted_sequences 50 500 [] (2, 1) mismatch_fragment bbp = none) ∧
    ∀ (vpairs : List (Int × Int)) (vc : List pereads_cluster),
      (((2 : Int), (1 : Int)), mismatch_fragment) ∈ vpairs.zip vc →
      vote_all merge_two_sorted_sequences 50 500 [] vpairs vc = none :=
  vote_chain_mismatch_aborts merge_two_sorted_sequences 50 500 [] 2 1 mismatch_fragment
    (by decide) (by decide)

/-- C5 (as stated) fails: the mates of `mismatch_fragment` map to the vertices `(2,1)`
of the scenario graph and `merge_intron_chains` returns false on its chains; `vote`
does not leave type -1 for it but aborts, and the run over this fragment followed by
the fragment of scenario 1 aborts as well, so the second fragment is not processed. -/
theorem vote_chain_mismatch_counterexample :
    build_bridging_vertices scenario_graph [mismatch_fragment, scenario1_fragment]
      = [(2, 1), (1, 2)] ∧
    (merge_intron_chains merge_two_sorted_sequences mismatch_fragment.chain1
      mismatch_fragment.chain2).1 = false ∧
    vote merge_two_sorted_sequences 50 500 scenario1_piers (2, 1) mismatch_fragment
      bridge_path.init = none ∧
    bridge_solver.make merge_two_sorted_sequences scenario_graph
      [mismatch_fragment, scenario1_fragment] scenario_cfg 50 500 = none := by
  refine ⟨by decide, by decide, by decide, by decide⟩

/-! ## Facts about build_intron_coordinates_from_path -/

theorem build_intron_coordinates_increasing (gr : splice_graph)
    (hint : ∀ k, gr.internal k → (gr.get_vertex_info k).lpos < (gr.get_vertex_info k).rpos)
    (hedge : ∀ e ∈ gr.edges,
      (gr.get_vertex_info e.source).rpos ≤ (gr.get_vertex_info e.target).lpos) :
    ∀ (a : Nat) (rest : List Nat), (∀ k ∈ rest, gr.internal k) →
      List.Chain (fun x y => ∃ e ∈ gr.edges, e.source = x ∧ e.target = y) a rest →
      ∃ vv, build_intron_coordinates_from_path gr (a :: rest) = some vv ∧
        vv.length % 2 = 0 ∧ List.Sorted (· < ·) vv ∧
        ∀ x ∈ vv, (gr.get_vertex_info a).rpos ≤ x
  | a, [], _, _ => ⟨[], rfl, rfl, by simp, by simp⟩
  | a, b :: rest, hv, hp => by
    have hp' := List.chain_cons.mp hp
    obtain ⟨e, he, hs, ht⟩ := hp'.1
    have hpq : (gr.get_vertex_info a).rpos ≤ (gr.get_vertex_info b).lpos := by
      have := hedge e he
      rwa [hs, ht] at this
    have hb : (gr.get_vertex_info b).lpos < (gr.get_vertex_info b).rpos :=
      hint b (hv b (List.mem_cons_self _ _))
    obtain ⟨vv, hvv, heven, hsorted, hge⟩ :=
      build_intron_coordinates_increasing gr hint hedge b rest
        (fun k hk => hv k (List.mem_cons_of_mem _ hk)) hp'.2
    unfold build_intron_coordinates_from_path
    rw [if_pos hpq]
    by_cases heq : (gr.get_vertex_info a).rpos = (gr.get_vertex_info b).lpos
    · rw [if_pos heq]
      refine ⟨vv, hvv, heven, hsorted, ?_⟩
      intro x hx
      have := hge x hx
      omega
    · rw [if_neg heq, hvv]
      refine ⟨_, rfl, ?_, ?_, ?_⟩
      · simp only [List.length_cons]; omega
      · refine List.sorted_cons.mpr ⟨?_, List.sorted_cons.mpr ⟨?_, hsorted⟩⟩
        · intro x hx
          rcases List.mem_cons.mp hx with h1 | h1
          · rw [h1]; omega
          · have := hge x h1; omega
        · intro x hx
          have := hge x hx; omega
      · intro x hx
        rcases List.mem_cons.mp hx with h1 | h1
        · rw [h1]
        · rcases List.mem_cons.mp h1 with h2 | h2
          · rw [h2]; exact hpq
          · have := hge x h2; omega

/-- C10: on a splice graph whose internal vertices have `lpos < rpos` and whose edges
`(s,t)` have `s.rpos <= t.lpos`, for every path `v` of at least two internal vertices
with an edge between consecutive vertices, `build_intron_coordinates_from_path(gr, v)`
returns (so `assert(pp <= qq)` never fails) a chain of even length that is strictly
increasing. -/
theorem build_intron_coordinates_chain_monotone (gr : splice_graph) (v : List Nat)
    (hint : ∀ k, gr.internal k → (gr.get_vertex_info k).lpos < (gr.get_vertex_info k).rpos)
    (hedge : ∀ e ∈ gr.edges,
      (gr.get_vertex_info e.source).rpos ≤ (gr.get_vertex_info e.target).lpos)
    (hlen : 2 ≤ v.length) (hv : ∀ k ∈ v, gr.internal k)
    (hpath : List.Chain' (fun x y => ∃ e ∈ gr.edges, e.source = x ∧ e.target = y) v) :
    ∃ vv, build_intron_coordinates_from_path gr v = some vv ∧
      vv.length % 2 = 0 ∧ List.Sorted (· < ·) vv := by
  cases v with
  | nil => simp at hlen
  | cons a rest =>
    obtain ⟨vv, h1, h2, h3, _⟩ := build_intron_coordinates_increasing gr hint hedge a rest
      (fun k hk => hv k (List.mem_cons_of_mem _ hk)) hpath
    exact ⟨vv, h1, h2, h3⟩

theorem build_intron_coordinates_chain_monotone_witness :
    build_intron_coordinates_from_path gap_graph [1, 2] = some [200, 300] ∧
    ∃ vv, build_intron_coordinates_from_path gap_graph [1, 2] = some vv ∧
      vv.length % 2 = 0 ∧ List.Sorted (· < ·) vv :=
  ⟨by decide,
   build_intron_coordinates_chain_monotone gap_graph [1, 2]
    (by
      intro k hk
      have hk2 : k = 1 ∨ k = 2 := by
        unfold splice_graph.internal splice_graph.num_vertices gap_graph at hk
        simp only [List.length_cons, List.length_nil] at hk
        omega
      rcases hk2 with h | h <;> subst h <;> decide)
    (by decide) (by decide)
    (by
      intro k hk
      have hk2 : k = 1 ∨ k = 2 := by simpa using hk
      rcases hk2 with h | h <;> subst h <;>
        simp [splice_graph.internal, splice_graph.num_vertices, gap_graph])
    (by
      refine List.chain'_cons.mpr ⟨⟨{ source := 1, target := 2, weight := 100 }, ?_, rfl, rfl⟩,
        List.chain'_singleton _⟩
      decide)⟩

/-! ## Facts about build_phase_set -/

theorem build_phase_set_loop_adds :
    ∀ (l : List (pereads_cluster × bridge_path)) (ps : List (List Int × Int)),
      (∀ x ∈ l, ∀ ph ∈ phases_of_fragment x, check_increasing_sequence ph.1 = true) →
      build_phase_set_loop l ps
        = some ((l.flatMap phases_of_fragment).foldl
            (fun acc ph => phase_set_add acc ph.1 ph.2) ps)
  | [], ps, _ => by simp [build_phase_set_loop]
  | (pc, bbp) :: rest, ps, h => by
    have hx := h (pc, bbp) (List.mem_cons_self _ _)
    have hrest := fun ps1 => build_phase_set_loop_adds rest ps1
      (fun x hxm => h x (List.mem_cons_of_mem _ hxm))
    unfold build_phase_set_loop
    by_cases ht : bbp.type ≥ 0
    · have h1 : check_increasing_sequence ([pc.extend0] ++ bbp.whole ++ [pc.extend3]) = true :=
        hx ([pc.extend0] ++ bbp.whole ++ [pc.extend3], pc.count)
          (by simp [phases_of_fragment, ht])
      rw [if_pos ht]
      simp only [add_phases_from_bridged_pereads_cluster, if_pos ht, h1, if_true, hrest]
      simp [List.flatMap_cons, phases_of_fragment, ht]
    · have h1 : check_increasing_sequence ([pc.extend0] ++ pc.chain1 ++ [pc.extend1]) = true :=
        hx ([pc.extend0] ++ pc.chain1 ++ [pc.extend1], pc.count)
          (by simp [phases_of_fragment, ht])
      have h2 : check_increasing_sequence ([pc.extend2] ++ pc.chain2 ++ [pc.extend3]) = true :=
        hx ([pc.extend2] ++ pc.chain2 ++ [pc.extend3], pc.count)
          (by simp [phases_of_fragment, ht])
      rw [if_neg ht]
      simp only [add_phases_from_unbridged_pereads_cluster, h1, h2, if_true, hrest]
      simp [List.flatMap_cons, phases_of_fragment, ht]

/-- C9 (as the code has it): provided every vector it assembles is strictly increasing
(each is asserted to be; a failed assertion aborts the run), `build_phase_set` makes,
in the order of the fragments, exactly these calls of `ps.add`: for a fragment with
result type `>= 0` the one phase `[extend[0]] ++ whole ++ [extend[3]]`, for a fragment
with type `< 0` the two phases `[extend[0]] ++ chain1 ++ [extend[1]]` and
`[extend[2]] ++ chain2 ++ [extend[3]]`, each with count `pc.count`; nothing else is added. -/
theorem build_phase_set_adds (vc : List pereads_cluster) (opt : List bridge_path)
    (ps : List (List Int × Int)) (hlen : opt.length = vc.length)
    (hinc : ∀ x ∈ vc.zip opt, ∀ ph ∈ phases_of_fragment x,
      check_increasing_sequence ph.1 = true) :
    build_phase_set vc opt ps
      = some (((vc.zip opt).flatMap phases_of_fragment).foldl
          (fun acc ph => phase_set_add acc ph.1 ph.2) ps) := by
  unfold build_phase_set
  rw [if_pos hlen]
  exact build_phase_set_loop_adds _ ps hinc

theorem build_phase_set_adds_witness :
    build_phase_set [scenario1_fragment, scenario1_fragment]
        [{ bridge_path.init with type := 2 }, { bridge_path.init with type := -1 }] []
      = some [([120, 280], 1), ([120, 180], 1), ([220, 280], 1)] ∧
    build_phase_set [scenario1_fragment, scenario1_fragment]
        [{ bridge_path.init with type := 2 }, { bridge_path.init with type := -1 }] []
      = some ((([scenario1_fragment, scenario1_fragment].zip
            [{ bridge_path.init with type := 2 }, { bridge_path.init with type := -1 }]).flatMap
            phases_of_fragment).foldl
          (fun acc ph => phase_set_add acc ph.1 ph.2) []) :=
  ⟨by decide,
   build_phase_set_adds [scenario1_fragment, scenario1_fragment]
    [{ bridge_path.init with type := 2 }, { bridge_path.init with type := -1 }] []
    (by decide) (by decide)⟩

/-- C9 (as stated) fails: the fragment with `bounds = extend = (200,200,320,380)` and
empty chains is left unbridged (type -1) by the solver on the scenario graph with the
window `[50,100]`; `build_phase_set` then adds no phase for it: the vector
`[extend[0]] ++ chain1 ++ [extend[1]] = [200,200]` is not strictly increasing, the
assertion of line 305 fails and the run aborts. -/
theorem build_phase_set_counterexample :
    (bridge_solver.make merge_two_sorted_sequences scenario_graph [empty_mate_fragment]
        scenario_cfg 50 100).map (fun s => s.opt)
      = some [{ type := -1, score := 0, v := [], chain := [], whole := [], stack := [] }] ∧
    build_phase_set [empty_mate_fragment]
      [{ type := -1, score := 0, v := [], chain := [], whole := [], stack := [] }] [] = none := by
  refine ⟨by decide, by decide⟩

/-! ## Facts about std_sort and the comparators -/

theorem std_sort_perm {α : Type} (comp : α → α → Bool) (l : List α) :
    List.Perm (std_sort comp l) l :=
  List.perm_insertionSort _ l

theorem pairwise_orderedInsert_on {α : Type} (r : α → α → Prop) [DecidableRel r]
    (P : α → Prop) (htot : ∀ a b, P a → P b → r a b ∨ r b a)
    (htr : ∀ a b c, P a → P b → P c → r a b → r b c → r a c) (a : α) (ha : P a) :
    ∀ l : List α, (∀ x ∈ l, P x) → l.Pairwise r → (l.orderedInsert r a).Pairwise r
  | [], _, _ => by simp
  | b :: l, hP, hl => by
    have hb : P b := hP b (List.mem_cons_self _ _)
    have hPl : ∀ x ∈ l, P x := fun x hx => hP x (List.mem_cons_of_mem _ hx)
    have hbl : ∀ x ∈ l, r b x := (List.pairwise_cons.mp hl).1
    have hl' : l.Pairwise r := (List.pairwise_cons.mp hl).2
    by_cases hab : r a b
    · rw [List.orderedInsert, if_pos hab]
      refine List.pairwise_cons.mpr ⟨?_, hl⟩
      intro x hx
      rcases List.mem_cons.mp hx with h1 | h1
      · rw [h1]; exact hab
      · exact htr a b x ha hb (hPl x h1) hab (hbl x h1)
    · rw [List.orderedInsert, if_neg hab]
      have hba : r b a := (htot a b ha hb).resolve_left hab
      refine List.pairwise_cons.mpr ⟨?_, pairwise_orderedInsert_on r P htot htr a ha l hPl hl'⟩
      intro x hx
      rcases (List.mem_orderedInsert r).mp hx with h1 | h1
      · rw [h1]; exact hba
      · exact hbl x h1

theorem pairwise_insertionSort_on {α : Type} (r : α → α → Prop) [DecidableRel r]
    (P : α → Prop) (htot : ∀ a b, P a → P b → r a b ∨ r b a)
    (htr : ∀ a b c, P a → P b → P c → r a b → r b c → r a c) :
    ∀ l : List α, (∀ x ∈ l, P x) → (l.insertionSort r).Pairwise r
  | [], _ => by simp
  | a :: l, hP => by
    rw [List.insertionSort]
    refine pairwise_orderedInsert_on r P htot htr a (hP a (List.mem_cons_self _ _)) _ ?_
      (pairwise_insertionSort_on r P htot htr l (fun x hx => hP x (List.mem_cons_of_mem _ hx)))
    intro x hx
    exact hP x (List.mem_cons_of_mem _ ((List.perm_insertionSort r l).subset hx))

/-- The result of `std_sort` is in order: no element is ranked by `comp` before an
element standing earlier, when `comp` is asymmetric and its negation transitive on
the elements sorted (those satisfying `P`). -/
theorem std_sort_pairwise {α : Type} (comp : α → α → Bool) (P : α → Prop)
    (hasym : ∀ a b, P a → P b → comp a b = true → comp b a = false)
    (htr : ∀ a b c, P a → P b → P c → comp b a = false → comp c b = false → comp c a = false)
    (l : List α) (hP : ∀ x ∈ l, P x) :
    (std_sort comp l).Pairwise (fun a b => comp b a = false) := by
  refine pairwise_insertionSort_on (fun a b => comp b a = false) P ?_ htr l hP
  intro a b ha hb
  cases hba : comp b a with
  | false => exact Or.inl hba
  | true => exact Or.inr (hasym b a hb ha hba)

theorem compare_stack_false_iff : ∀ x y : List Int, compare_stack y x = false ↔ stack_ge x y
  | [], [] => by simp [compare_stack, stack_ge]
  | [], _ :: _ => by simp [compare_stack, stack_ge]
  | _ :: _, [] => by simp [compare_stack, stack_ge]
  | a :: x, b :: y => by
    have ih := compare_stack_false_iff x y
    unfold compare_stack stack_ge
    by_cases h1 : b > a
    · simp only [h1, if_true]
      constructor
      · intro h; simp at h
      · intro h; omega
    · by_cases h2 : b < a
      · simp [h1, h2]
      · have hab : a = b := by omega
        subst hab
        simp [ih]

theorem stack_ge_refl : ∀ x : List Int, stack_ge x x
  | [] => trivial
  | _ :: x => Or.inr ⟨rfl, stack_ge_refl x⟩

theorem stack_ge_trans : ∀ x y z : List Int, x.length = y.length → y.length = z.length →
    stack_ge x y → stack_ge y z → stack_ge x z
  | [], _, _, _, _, _, _ => by simp [stack_ge]
  | _ :: _, [], _, h, _, _, _ => by simp at h
  | _ :: _, _ :: _, [], _, h, _, _ => by simp at h
  | a :: x, b :: y, c :: z, h1, h2, hxy, hyz => by
    unfold stack_ge at hxy hyz ⊢
    rcases hxy with h | ⟨h, hr⟩
    · rcases hyz with h' | ⟨h', _⟩
      · exact Or.inl (by omega)
      · exact Or.inl (by omega)
    · rcases hyz with h' | ⟨h', hr'⟩
      · exact Or.inl (by omega)
      · exact Or.inr ⟨by omega, stack_ge_trans x y z (by simpa using h1) (by simpa using h2)
          hr hr'⟩

theorem stack_ge_total : ∀ x y : List Int, stack_ge x y ∨ stack_ge y x
  | [], _ => Or.inl (by simp [stack_ge])
  | _ :: _, [] => Or.inl (by simp [stack_ge])
  | a :: x, b :: y => by
    unfold stack_ge
    rcases lt_trichotomy a b with h | h | h
    · exact Or.inr (Or.inl h)
    · rcases stack_ge_total x y with h' | h'
      · exact Or.inl (Or.inr ⟨h, h'⟩)
      · exact Or.inr (Or.inr ⟨h.symm, h'⟩)
    · exact Or.inl (Or.inl h)

theorem entry_compare_from_asymm : ∀ (x y : List Int) (lx ly : Int),
    entry_compare_from x y lx ly = true → entry_compare_from y x ly lx = false
  | [], [], lx, ly, h => by
    simp only [entry_compare_from, decide_eq_true_eq, decide_eq_false_iff_not] at h ⊢; omega
  | [], _ :: _, lx, ly, h => by
    simp only [entry_compare_from, decide_eq_true_eq, decide_eq_false_iff_not] at h ⊢; omega
  | _ :: _, [], lx, ly, h => by
    simp only [entry_compare_from, decide_eq_true_eq, decide_eq_false_iff_not] at h ⊢; omega
  | a :: x, b :: y, lx, ly, h => by
    unfold entry_compare_from at h ⊢
    by_cases h1 : a > b
    · have h2 : ¬ b > a := by omega
      have h3 : b < a := h1
      simp [h2, h3]
    · by_cases h2 : a < b
      · simp [h1, h2] at h
      · have hab : a = b := by omega
        subst hab
        simp only [h1, h2, if_false] at h ⊢
        exact entry_compare_from_asymm x y lx ly h

theorem entry_compare_from_trans : ∀ (x y z : List Int) (lx ly lz : Int),
    x.length = y.length → y.length = z.length →
    entry_compare_from y x ly lx = false → entry_compare_from z y lz ly = false →
    entry_compare_from z x lz lx = false
  | [], [], [], lx, ly, lz, _, _, h1, h2 => by
    simp only [entry_compare_from, decide_eq_false_iff_not] at h1 h2 ⊢; omega
  | [], [], _ :: _, _, _, _, _, h, _, _ => by simp at h
  | [], _ :: _, _, _, _, _, h, _, _, _ => by simp at h
  | _ :: _, [], _, _, _, _, h, _, _, _ => by simp at h
  | _ :: _, _ :: _, [], _, _, _, _, h, _, _ => by simp at h
  | a :: x, b :: y, c :: z, lx, ly, lz, hl1, hl2, h1, h2 => by
    unfold entry_compare_from at h1 h2 ⊢
    by_cases hba : b > a
    · simp [hba] at h1
    · by_cases hcb : c > b
      · simp [hcb] at h2
      · rw [if_neg hba] at h1
        rw [if_neg hcb] at h2
        have hca : ¬ c > a := by omega
        rw [if_neg hca]
        by_cases hca' : c < a
        · simp [hca']
        · have e1 : a = b := by omega
          have e2 : b = c := by omega
          subst e1 e2
          simp only [lt_self_iff_false, if_false] at h1 h2 ⊢
          exact entry_compare_from_trans x y z lx ly lz (by simpa using hl1) (by simpa using hl2)
            h1 h2

theorem compare_stack_le_entry_compare : ∀ (x y : List Int) (lx ly : Int),
    entry_compare_from x y lx ly = false → compare_stack x y = false
  | [], [], _, _, _ => rfl
  | [], _ :: _, _, _, _ => rfl
  | _ :: _, [], _, _, _ => rfl
  | a :: x, b :: y, lx, ly, h => by
    unfold entry_compare_from at h
    unfold compare_stack
    by_cases h1 : a > b
    · simp [h1] at h
    · rw [if_neg h1] at h ⊢
      by_cases h2 : a < b
      · simp [h2]
      · rw [if_neg h2] at h ⊢
        exact compare_stack_le_entry_compare x y lx ly h

/-! ## Facts about the table of dynamic_programming -/

theorem table_getD_set (t : List (List entry)) (k j : Nat) (r : List entry) :
    (t.set k r).getD j [] = if j = k ∧ k < t.length then r else t.getD j [] := by
  simp only [List.getD_eq_getElem?_getD, List.getElem?_set]
  by_cases hjk : k = j
  · subst hjk
    by_cases hk : k < t.length
    · simp [hk]
    · simp [hk, List.getElem?_eq_none (not_lt.mp hk)]
  · have : ¬ (j = k ∧ k < t.length) := fun h => hjk h.1.symm
    simp [hjk, this]

theorem mem_dp_candidates (gr : splice_graph) (t : List (List entry)) (k1 k : Nat) (c : entry) :
    c ∈ dp_candidates gr t k1 k ↔
      ∃ e ∈ gr.edges, e.target = k ∧ k1 ≤ e.source ∧ ∃ (i : Nat) (x : entry),
        (t.getD e.source [])[i]? = some x ∧
        c = { stack := update_stack x.stack (int_of_double (gr.get_edge_weight e)),
              length := x.length + ((gr.get_vertex_info k).rpos - (gr.get_vertex_info k).lpos),
              trace1 := (e.source : Int), trace2 := (i : Int) } := by
  unfold dp_candidates splice_graph.in_edges
  simp only [List.mem_flatMap, List.mem_filter, decide_eq_true_eq]
  constructor
  · rintro ⟨e, ⟨he, ht⟩, hc⟩
    unfold dp_extend at hc
    by_cases h1 : e.source < k1
    · simp [h1] at hc
    · rw [if_neg h1] at hc
      by_cases h2 : (t.getD e.source []).length = 0
      · rw [if_pos h2] at hc
        simp at hc
      · rw [if_neg h2] at hc
        obtain ⟨ix, hix, hcx⟩ := List.mem_map.mp hc
        refine ⟨e, he, ht, not_lt.mp h1, ix.1, ix.2, List.mem_enum_iff_getElem?.mp hix, ?_⟩
        exact hcx.symm
  · rintro ⟨e, he, ht, h1, i, x, hx, hc⟩
    refine ⟨e, ⟨he, ht⟩, ?_⟩
    unfold dp_extend
    rw [if_neg (not_lt.mpr h1)]
    have hlen : i < (t.getD e.source []).length := by
      by_contra hcon
      rw [List.getElem?_eq_none (not_lt.mp hcon)] at hx
      simp at hx
    rw [if_neg (by omega)]
    refine List.mem_map.mpr ⟨(i, x), List.mem_enum_iff_getElem?.mpr hx, ?_⟩
    exact hc.symm

theorem dp_row_eq_take (gr : splice_graph) (cfg : parameters) (t : List (List entry))
    (k1 k : Nat) :
    dp_row gr cfg t k1 k
      = (std_sort entry_compare (dp_candidates gr t k1 k)).take cfg.bridge_dp_solution_size := by
  unfold dp_row
  split
  · rfl
  · rename_i h
    exact (List.take_of_length_le (not_lt.mp h)).symm

theorem mem_dp_row (gr : splice_graph) (cfg : parameters) (t : List (List entry)) (k1 k : Nat)
    (c : entry) (h : c ∈ dp_row gr cfg t k1 k) : c ∈ dp_candidates gr t k1 k := by
  rw [dp_row_eq_take] at h
  exact (std_sort_perm _ _).subset (List.mem_of_mem_take h)

/-- A property of the rows that the initial table has and every iteration keeps holds
for the table after the loop of `dynamic_programming`. -/
theorem dp_fold_rows (gr : splice_graph) (cfg : parameters) (k1 : Nat)
    (Q : Nat → List entry → Prop)
    (hstep : ∀ t k, (∀ j, Q j (t.getD j [])) → Q k (dp_row gr cfg t k1 k)) :
    ∀ (ks : List Nat) (t : List (List entry)), (∀ j, Q j (t.getD j [])) →
      ∀ j, Q j ((ks.foldl (fun table k => table.set k (dp_row gr cfg table k1 k)) t).getD j [])
  | [], _, h => h
  | k :: ks, t, h => by
    rw [List.foldl_cons]
    apply dp_fold_rows gr cfg k1 Q hstep ks
    intro j
    rw [table_getD_set]
    split
    · rename_i hj
      rw [hj.1]
      exact hstep t k h
    · exact h j

theorem dp_init_getD (gr : splice_graph) (cfg : parameters) (k1 j : Nat) :
    (dp_init gr cfg k1).getD j [] =
      if j = k1 ∧ k1 < gr.num_vertices then
        [{ stack := List.replicate cfg.bridge_dp_stack_size 999999,
           length := (gr.get_vertex_info k1).rpos - (gr.get_vertex_info k1).lpos,
           trace1 := -1, trace2 := -1 }]
      else [] := by
  unfold dp_init
  rw [table_getD_set]
  simp only [List.length_replicate]
  split
  · rfl
  · simp only [List.getD_eq_getElem?_getD]
    by_cases hj : j < gr.num_vertices
    · simp [List.getElem?_replicate, hj]
    · simp [List.getElem?_replicate, hj]

theorem stack_ge_dropLast : ∀ x y : List Int, x.length = y.length → stack_ge x y →
    stack_ge x.dropLast y.dropLast
  | [], _, _, _ => by simp [stack_ge]
  | _ :: _, [], h, _ => by simp at h
  | [_], [_], _, _ => by simp [stack_ge]
  | [_], _ :: _ :: _, h, _ => by simp at h
  | _ :: _ :: _, [_], h, _ => by simp at h
  | a :: a' :: x, b :: b' :: y, h, hge => by
    simp only [List.dropLast_cons₂]
    unfold stack_ge at hge ⊢
    rcases hge with h1 | ⟨h1, h2⟩
    · exact Or.inl h1
    · exact Or.inr ⟨h1, stack_ge_dropLast (a' :: x) (b' :: y) (by simpa using h) h2⟩

theorem stack_insert_head_le (s : Int) : ∀ (x y : List Int) (a : Int), x.length = y.length →
    s < a → stack_ge (a :: x).dropLast (stack_insert s y)
  | [], [], _, _, _ => by simp [stack_insert, stack_ge]
  | [], _ :: _, _, h, _ => by simp at h
  | _ :: _, [], _, h, _ => by simp at h
  | a' :: x, c :: y, a, _, h => by
    simp only [List.dropLast_cons₂]
    unfold stack_insert
    by_cases hc : c > s
    · rw [if_pos hc]
      unfold stack_ge
      exact Or.inl h
    · rw [if_neg hc]
      unfold stack_ge
      exact Or.inl (by omega)

/-- The transition keeps the order of the stacks: if `x` is lexicographically at least
`y`, so is `update_stack(x, s)` compared with `update_stack(y, s)`. -/
theorem stack_insert_mono (s : Int) : ∀ x y : List Int, x.length = y.length → stack_ge x y →
    stack_ge (stack_insert s x) (stack_insert s y)
  | [], _, _, _ => by simp [stack_insert, stack_ge]
  | _ :: _, [], h, _ => by simp at h
  | a :: x, b :: y, h, hge => by
    have hlen : x.length = y.length := by simpa using h
    have hge' := hge
    unfold stack_ge at hge'
    unfold stack_insert
    by_cases ha : a > s
    · rw [if_pos ha]
      by_cases hb : b > s
      · rw [if_pos hb]
        unfold stack_ge
        exact Or.inr ⟨rfl, stack_ge_dropLast (a :: x) (b :: y) h hge⟩
      · rw [if_neg hb]
        unfold stack_ge
        by_cases hsb : s > b
        · exact Or.inl hsb
        · exact Or.inr ⟨by omega, stack_insert_head_le s x y a hlen ha⟩
    · rw [if_neg ha]
      by_cases hb : b > s
      · rcases hge' with h1 | ⟨h1, _⟩ <;> omega
      · rw [if_neg hb]
        unfold stack_ge
        rcases hge' with h1 | ⟨h1, h2⟩
        · exact Or.inl h1
        · exact Or.inr ⟨h1, stack_insert_mono s x y hlen h2⟩

theorem update_stack_mono (s : Int) (x y : List Int) (h : x.length = y.length)
    (hge : stack_ge x y) : stack_ge (update_stack x s) (update_stack y s) := by
  rw [update_stack_eq, update_stack_eq]
  exact stack_insert_mono s x y h hge

theorem path_entry_stack_length (gr : splice_graph) (cfg : parameters) (k1 k : Nat)
    (st : List Int) (len : Int) (h : path_entry gr cfg k1 k st len) :
    st.length = cfg.bridge_dp_stack_size := by
  induction h with
  | start => simp
  | step e st len _ _ ih => rw [update_stack_length]; exact ih

theorem path_entry_source_le (gr : splice_graph) (cfg : parameters) (k1 k : Nat)
    (st : List Int) (len : Int) (hdag : ∀ e ∈ gr.edges, e.source < e.target)
    (h : path_entry gr cfg k1 k st len) : k1 ≤ k := by
  induction h with
  | start => exact le_refl _
  | step e st len he _ ih => exact le_of_lt (lt_of_le_of_lt ih (hdag e he))

theorem dp_table_stack_length (gr : splice_graph) (cfg : parameters) (k1 : Nat)
    (ks : List Nat) (j : Nat) :
    ∀ c ∈ ((ks.foldl (fun table k => table.set k (dp_row gr cfg table k1 k))
        (dp_init gr cfg k1)).getD j []), c.stack.length = cfg.bridge_dp_stack_size := by
  refine dp_fold_rows gr cfg k1
    (fun _ row => ∀ c ∈ row, c.stack.length = cfg.bridge_dp_stack_size) ?_ ks _ ?_ j
  · intro t k hQ c hc
    obtain ⟨e, _, _, _, i, x, hx, hcx⟩ := (mem_dp_candidates gr t k1 k c).mp
      (mem_dp_row gr cfg t k1 k c hc)
    rw [hcx]
    simp only [update_stack_length]
    exact hQ e.source x (List.getElem?_mem hx)
  · intro j c hc
    rw [dp_init_getD] at hc
    split at hc
    · rw [List.mem_singleton.mp hc]; simp
    · simp at hc

theorem dp_table_sound (gr : splice_graph) (cfg : parameters) (k1 : Nat)
    (ks : List Nat) (j : Nat) :
    ∀ c ∈ ((ks.foldl (fun table k => table.set k (dp_row gr cfg table k1 k))
        (dp_init gr cfg k1)).getD j []), path_entry gr cfg k1 j c.stack c.length := by
  refine dp_fold_rows gr cfg k1
    (fun j row => ∀ c ∈ row, path_entry gr cfg k1 j c.stack c.length) ?_ ks _ ?_ j
  · intro t k hQ c hc
    obtain ⟨e, he, ht, _, i, x, hx, hcx⟩ := (mem_dp_candidates gr t k1 k c).mp
      (mem_dp_row gr cfg t k1 k c hc)
    rw [hcx, ← ht]
    exact path_entry.step e x.stack x.length he (hQ e.source x (List.getElem?_mem hx))
  · intro j c hc
    rw [dp_init_getD] at hc
    split at hc
    · rename_i hj
      rw [List.mem_singleton.mp hc, hj.1]
      exact path_entry.start
    · simp at hc

theorem flatMap_congr_mem {α β : Type} (f g : α → List β) :
    ∀ l : List α, (∀ a ∈ l, f a = g a) → l.flatMap f = l.flatMap g
  | [], _ => rfl
  | a :: l, h => by
    rw [List.flatMap_cons, List.flatMap_cons, h a (List.mem_cons_self _ _),
      flatMap_congr_mem f g l (fun b hb => h b (List.mem_cons_of_mem _ hb))]

theorem dp_candidates_congr (gr : splice_graph) (t1 t2 : List (List entry)) (k1 k : Nat)
    (h : ∀ e ∈ gr.edges, e.target = k → k1 ≤ e.source →
      t1.getD e.source [] = t2.getD e.source []) :
    dp_candidates gr t1 k1 k = dp_candidates gr t2 k1 k := by
  unfold dp_candidates
  apply flatMap_congr_mem
  intro e he
  unfold splice_graph.in_edges at he
  have he' := List.mem_filter.mp he
  unfold dp_extend
  by_cases h1 : e.source < k1
  · rw [if_pos h1, if_pos h1]
  · rw [if_neg h1, if_neg h1, h e he'.1 (by simpa using he'.2) (not_lt.mp h1)]

theorem dp_row_congr (gr : splice_graph) (cfg : parameters) (t1 t2 : List (List entry))
    (k1 k : Nat)
    (h : ∀ e ∈ gr.edges, e.target = k → k1 ≤ e.source →
      t1.getD e.source [] = t2.getD e.source []) :
    dp_row gr cfg t1 k1 k = dp_row gr cfg t2 k1 k := by
  unfold dp_row
  rw [dp_candidates_congr gr t1 t2 k1 k h]

theorem dp_fold_length (gr : splice_graph) (cfg : parameters) (k1 : Nat) :
    ∀ (ks : List Nat) (t : List (List entry)),
      (ks.foldl (fun table k => table.set k (dp_row gr cfg table k1 k)) t).length = t.length
  | [], _ => rfl
  | k :: ks, t => by
    rw [List.foldl_cons, dp_fold_length gr cfg k1 ks, List.length_set]

theorem dp_fold_getD_of_not_mem (gr : splice_graph) (cfg : parameters) (k1 j : Nat) :
    ∀ (ks : List Nat) (t : List (List entry)), j ∉ ks →
      (ks.foldl (fun table k => table.set k (dp_row gr cfg table k1 k)) t).getD j []
        = t.getD j []
  | [], _, _ => rfl
  | k :: ks, t, h => by
    rw [List.foldl_cons, dp_fold_getD_of_not_mem gr cfg k1 j ks _
      (fun hm => h (List.mem_cons_of_mem _ hm)), table_getD_set]
    have : ¬ (j = k ∧ k < t.length) := fun hc => h (by rw [hc.1]; exact List.mem_cons_self _ _)
    rw [if_neg this]

/-- On a graph whose edges go from a smaller to a larger vertex, every row filled by the
loop satisfies the transition of the dynamic program read on the final table. -/
theorem dp_fold_recurrence (gr : splice_graph) (cfg : parameters) (k1 : Nat)
    (hdag : ∀ e ∈ gr.edges, e.source < e.target) (t : List (List entry)) (ks : List Nat) :
    ks.Pairwise (· < ·) → ∀ k ∈ ks, k < t.length →
      (ks.foldl (fun table k => table.set k (dp_row gr cfg table k1 k)) t).getD k []
        = dp_row gr cfg (ks.foldl (fun table k => table.set k (dp_row gr cfg table k1 k)) t)
            k1 k := by
  induction ks using List.reverseRecOn with
  | nil => intro _ k hk; simp at hk
  | append_singleton pre k' ih =>
    intro hpw k hk hlt
    have hpw' := List.pairwise_append.mp hpw
    rw [List.foldl_append, List.foldl_cons, List.foldl_nil]
    have hagree : ∀ j, j < k' →
        ((pre.foldl (fun table k => table.set k (dp_row gr cfg table k1 k)) t).set k'
          (dp_row gr cfg (pre.foldl (fun table k => table.set k (dp_row gr cfg table k1 k)) t)
            k1 k')).getD j []
        = (pre.foldl (fun table k => table.set k (dp_row gr cfg table k1 k)) t).getD j [] := by
      intro j hj
      rw [table_getD_set, if_neg (by omega)]
    rcases List.mem_append.mp hk with hkp | hkk
    · have hkk' : k < k' := hpw'.2.2 k hkp k' (List.mem_singleton_self _)
      rw [hagree k hkk', ih hpw'.1 k hkp hlt]
      apply dp_row_congr
      intro e he het _
      have := hdag e he
      exact (hagree e.source (by omega)).symm
    · have hkk' : k = k' := List.mem_singleton.mp hkk
      subst hkk'
      rw [table_getD_set, if_pos ⟨rfl, by rw [dp_fold_length]; exact hlt⟩]
      apply dp_row_congr
      intro e he het _
      have := hdag e he
      exact (hagree e.source (by omega)).symm

theorem entry_compare_sorted (gr : splice_graph) (cfg : parameters) (t : List (List entry))
    (k1 k : Nat) (hlen : ∀ j, ∀ c ∈ t.getD j [], c.stack.length = cfg.bridge_dp_stack_size) :
    (std_sort entry_compare (dp_candidates gr t k1 k)).Pairwise
      (fun a b => entry_compare b a = false) := by
  refine std_sort_pairwise entry_compare
    (fun c => c.stack.length = cfg.bridge_dp_stack_size) ?_ ?_ _ ?_
  · intro a b _ _ h
    exact entry_compare_from_asymm _ _ _ _ h
  · intro a b c ha hb hc h1 h2
    exact entry_compare_from_trans a.stack b.stack c.stack a.length b.length c.length
      (by rw [ha, hb]) (by rw [hb, hc]) h1 h2
  · intro c hc
    obtain ⟨e, _, _, _, i, x, hx, hcx⟩ := (mem_dp_candidates gr t k1 k c).mp hc
    rw [hcx]
    simp only [update_stack_length]
    exact hlen e.source x (List.getElem?_mem hx)

theorem dp_init_length (gr : splice_graph) (cfg : parameters) (k1 : Nat) :
    (dp_init gr cfg k1).length = gr.num_vertices := by
  simp [dp_init]

theorem dp_fill_start_row (gr : splice_graph) (cfg : parameters) (k1 k2 : Nat)
    (hk1 : k1 < gr.num_vertices) :
    (dp_fill gr cfg k1 k2).getD k1 [] =
      [{ stack := List.replicate cfg.bridge_dp_stack_size 999999,
         length := (gr.get_vertex_info k1).rpos - (gr.get_vertex_info k1).lpos,
         trace1 := -1, trace2 := -1 }] := by
  unfold dp_fill
  rw [dp_fold_getD_of_not_mem gr cfg k1 k1 _ _ (by simp [List.mem_range'_1]), dp_init_getD,
    if_pos ⟨rfl, hk1⟩]

theorem dp_fill_recurrence (gr : splice_graph) (cfg : parameters) (k1 k2 k : Nat)
    (hdag : ∀ e ∈ gr.edges, e.source < e.target) (hk2 : k2 < gr.num_vertices)
    (hk : k1 < k ∧ k ≤ k2) :
    (dp_fill gr cfg k1 k2).getD k [] = dp_row gr cfg (dp_fill gr cfg k1 k2) k1 k := by
  unfold dp_fill
  refine dp_fold_recurrence gr cfg k1 hdag _ _ (List.pairwise_lt_range' _ _) k ?_ ?_
  · rw [List.mem_range'_1]; omega
  · rw [dp_init_length]; omega

/-- The first entry of a row has a stack that no path to the vertex of the row beats. -/
theorem dp_fill_optimal (gr : splice_graph) (cfg : parameters) (k1 k2 : Nat)
    (hK : 1 ≤ cfg.bridge_dp_solution_size)
    (hdag : ∀ e ∈ gr.edges, e.source < e.target)
    (hk1 : k1 < gr.num_vertices) (hk2 : k2 < gr.num_vertices) :
    ∀ (k : Nat) (st : List Int) (len : Int), path_entry gr cfg k1 k st len → k ≤ k2 →
      ∃ e0 rest, (dp_fill gr cfg k1 k2).getD k [] = e0 :: rest ∧ stack_ge e0.stack st := by
  intro k st len h
  induction h with
  | start =>
    intro _
    exact ⟨_, [], dp_fill_start_row gr cfg k1 k2 hk1, stack_ge_refl _⟩
  | step e st len he hp ih =>
    intro hk
    have hlt := hdag e he
    obtain ⟨e0, rest, hrow, hge⟩ := ih (by omega)
    have hsrc : k1 ≤ e.source := path_entry_source_le gr cfg k1 e.source st len hdag hp
    have hrec := dp_fill_recurrence gr cfg k1 k2 e.target hdag hk2 ⟨by omega, hk⟩
    have hlenT : ∀ j, ∀ c ∈ (dp_fill gr cfg k1 k2).getD j [],
        c.stack.length = cfg.bridge_dp_stack_size :=
      fun j => dp_table_stack_length gr cfg k1 _ j
    have he0 : e0.stack.length = cfg.bridge_dp_stack_size :=
      hlenT e.source e0 (by rw [hrow]; exact List.mem_cons_self _ _)
    have hst : st.length = cfg.bridge_dp_stack_size :=
      path_entry_stack_length gr cfg k1 e.source st len hp
    have hc : ({ stack := update_stack e0.stack (int_of_double (gr.get_edge_weight e)),
                 length := e0.length +
                   ((gr.get_vertex_info e.target).rpos - (gr.get_vertex_info e.target).lpos),
                 trace1 := (e.source : Int), trace2 := ((0 : Nat) : Int) } : entry)
        ∈ dp_candidates gr (dp_fill gr cfg k1 k2) k1 e.target :=
      (mem_dp_candidates gr _ k1 e.target _).mpr
        ⟨e, he, rfl, hsrc, 0, e0, by rw [hrow]; simp, rfl⟩
    have hperm := std_sort_perm entry_compare (dp_candidates gr (dp_fill gr cfg k1 k2) k1 e.target)
    have hsorted := entry_compare_sorted gr cfg (dp_fill gr cfg k1 k2) k1 e.target hlenT
    rw [dp_row_eq_take] at hrec
    obtain ⟨K, hKeq⟩ : ∃ K, cfg.bridge_dp_solution_size = K + 1 := ⟨_, (Nat.succ_pred_eq_of_pos hK).symm⟩
    cases hs : std_sort entry_compare (dp_candidates gr (dp_fill gr cfg k1 k2) k1 e.target) with
    | nil =>
      rw [hs] at hperm
      have := hperm.symm.subset hc
      simp at this
    | cons m rest' =>
      rw [hs] at hperm hsorted
      rw [hs, hKeq, List.take_succ_cons] at hrec
      have hcm : _ ∈ m :: rest' := hperm.symm.subset hc
      have hmlen : m.stack.length = cfg.bridge_dp_stack_size := by
        obtain ⟨e', _, _, _, i, x, hx, hmx⟩ := (mem_dp_candidates gr _ k1 e.target m).mp
          (hperm.subset (List.mem_cons_self _ _))
        rw [hmx]
        simp only [update_stack_length]
        exact hlenT e'.source x (List.getElem?_mem hx)
      have hmc : stack_ge m.stack
          (update_stack e0.stack (int_of_double (gr.get_edge_weight e))) := by
        rcases List.mem_cons.mp hcm with h1 | h1
        · rw [← h1]; exact stack_ge_refl _
        · have := (List.pairwise_cons.mp hsorted).1 _ h1
          exact (compare_stack_false_iff _ _).mp
            (compare_stack_le_entry_compare _ _ _ _ this)
      refine ⟨m, _, hrec, ?_⟩
      refine stack_ge_trans _ _ _ ?_ ?_ hmc
        (update_stack_mono _ _ _ (by rw [he0, hst]) hge)
      · rw [hmlen, update_stack_length, he0]
      · rw [update_stack_length, update_stack_length, he0, hst]

/-- C7 (as stated) fails: on `skip_graph` with `K = 1` and a stack of one value, row 3
keeps the entry of the path `1,2,3` (stack `[5]`) and drops that of `1,3` (stack `[3]`);
row 4 is then the single entry `([2], 400)` of the path `1,2,3,4`, while the path
`1,3,4` has the entry `([2], 300)`, which `entry_compare` ranks strictly before it. -/
theorem dynamic_programming_counterexample :
    dynamic_programming skip_graph single_cfg 1 4
      = some [[], [{ stack := [999999], length := 100, trace1 := -1, trace2 := -1 }],
              [{ stack := [5], length := 200, trace1 := 1, trace2 := 0 }],
              [{ stack := [5], length := 300, trace1 := 2, trace2 := 0 }],
              [{ stack := [2], length := 400, trace1 := 3, trace2 := 0 }], []] ∧
    path_entry skip_graph single_cfg 1 4 [2] 300 ∧
    entry_compare { stack := [2], length := 300, trace1 := 3, trace2 := 0 }
      { stack := [2], length := 400, trace1 := 3, trace2 := 0 } = true := by
  refine ⟨by decide, ?_, by decide⟩
  have h0 : path_entry skip_graph single_cfg 1 1 [999999] 100 :=
    @path_entry.start skip_graph single_cfg 1
  have h1 : path_entry skip_graph single_cfg 1 3 [3] 200 :=
    @path_entry.step skip_graph single_cfg 1 { source := 1, target := 3, weight := 3 }
      [999999] 100 (by decide) h0
  exact @path_entry.step skip_graph single_cfg 1 { source := 3, target := 4, weight := 2 }
    [3] 200 (by decide) h1

/-! ## Facts about nominate -/

theorem mapM_some_mem {α β : Type} (f : α → Option β) :
    ∀ (l : List α) (r : List β), l.mapM f = some r → ∀ b ∈ r, ∃ a ∈ l, f a = some b
  | [], r, h, b, hb => by
    rw [List.mapM_nil] at h
    have hr : r = [] := (Option.some.inj h).symm
    rw [hr] at hb
    simp at hb
  | a :: l, r, h, b, hb => by
    rw [List.mapM_cons] at h
    cases hfa : f a with
    | none => rw [hfa] at h; simp at h
    | some y =>
      cases hl : l.mapM f with
      | none => rw [hfa, hl] at h; simp at h
      | some ys =>
        rw [hfa, hl] at h
        have hr : r = y :: ys := by simpa using h.symm
        rw [hr] at hb
        rcases List.mem_cons.mp hb with h1 | h1
        · exact ⟨a, List.mem_cons_self _ _, by rw [h1]; exact hfa⟩
        · obtain ⟨a', ha', hfa'⟩ := mapM_some_mem f l ys hl b h1
          exact ⟨a', List.mem_cons_of_mem _ ha', hfa'⟩

theorem foldlM_option_inv {σ α : Type} (f : σ → α → Option σ) (I : σ → Prop)
    (hstep : ∀ s a s', I s → f s a = some s' → I s') :
    ∀ (l : List α) (s s' : σ), I s → l.foldlM f s = some s' → I s'
  | [], s, s', hI, h => by
    have : s = s' := by simpa using h
    rw [← this]; exact hI
  | a :: l, s, s', hI, h => by
    rw [List.foldlM_cons] at h
    cases hfa : f s a with
    | none => rw [hfa] at h; simp at h
    | some s1 =>
      rw [hfa] at h
      exact foldlM_option_inv f I hstep l s1 s' (hstep s a s1 hI hfa) h

theorem nominate_bridges_stack (gr : splice_graph) (cfg : parameters) (k1 k2 : Nat) (bt : Int)
    (br : List bridge_path)
    (h : nominate_bridges gr (dp_fill gr cfg k1 k2) bt = some br) :
    ∀ b ∈ br, b.stack.length = cfg.bridge_dp_stack_size := by
  intro b hb
  unfold nominate_bridges at h
  split at h
  · split at h
    · simp at h
    · rename_i pb _
      obtain ⟨jv, _, hjv⟩ := mapM_some_mem _ _ _ h b hb
      split at hjv
      · simp at hjv
      · rename_i e he
        split at hjv
        · have hbe : b.stack = e.stack := by
            rw [← Option.some.inj hjv]
          rw [hbe]
          exact dp_table_stack_length gr cfg k1 _ bt.toNat e (List.getElem?_mem he)
        · simp at hjv
  · simp at h

theorem compare_bridge_path_stack_sorted (cfg : parameters) (l : List bridge_path)
    (hl : ∀ b ∈ l, b.stack.length = cfg.bridge_dp_stack_size) :
    (std_sort compare_bridge_path_stack l).Pairwise
      (fun a b => compare_bridge_path_stack b a = false) := by
  refine std_sort_pairwise compare_bridge_path_stack
    (fun b => b.stack.length = cfg.bridge_dp_stack_size) ?_ ?_ l hl
  · intro a b _ _ h
    unfold compare_bridge_path_stack at h ⊢
    rcases stack_ge_total a.stack b.stack with h1 | h1
    · exact (compare_stack_false_iff _ _).mpr h1
    · have := (compare_stack_false_iff _ _).mpr h1
      rw [this] at h
      simp at h
  · intro a b c ha hb hc h1 h2
    unfold compare_bridge_path_stack at h1 h2 ⊢
    exact (compare_stack_false_iff _ _).mpr
      (stack_ge_trans _ _ _ (by rw [ha, hb]) (by rw [hb, hc])
        ((compare_stack_false_iff _ _).mp h1) ((compare_stack_false_iff _ _).mp h2))

theorem nominate_pier_sorted (gr : splice_graph) (cfg : parameters) (k1 k2 : Nat)
    (piers piers' : List pier) (b : Nat) (hI : ∀ p ∈ piers, pier_sorted cfg p)
    (h : nominate_pier gr (dp_fill gr cfg k1 k2) piers b = some piers') :
    ∀ p ∈ piers', pier_sorted cfg p := by
  unfold nominate_pier at h
  split at h
  · simp at h
  · rename_i br hbr
    have hnew := nominate_bridges_stack gr cfg k1 k2 _ br hbr
    have hold : ∀ x ∈ (pier_at piers b).bridges, x.stack.length = cfg.bridge_dp_stack_size := by
      unfold pier_at
      simp only [List.getD_eq_getElem?_getD]
      cases hg : piers[b]? with
      | none => simp
      | some q => exact (hI q (List.getElem?_mem hg)).1
    have hall : ∀ x ∈ (pier_at piers b).bridges ++ br,
        x.stack.length = cfg.bridge_dp_stack_size := by
      intro x hx
      rcases List.mem_append.mp hx with h1 | h1
      · exact hold x h1
      · exact hnew x h1
    intro p hp
    rw [← Option.some.inj h] at hp
    rcases List.mem_or_eq_of_mem_set hp with h1 | h1
    · exact hI p h1
    · rw [h1]
      refine ⟨?_, compare_bridge_path_stack_sorted cfg _ hall⟩
      intro x hx
      exact hall x ((std_sort_perm _ _).subset hx)

theorem nominate_sorted (gr : splice_graph) (cfg : parameters) (piers piers' : List pier)
    (h0 : ∀ p ∈ piers, p.bridges = []) (h : nominate gr cfg piers = some piers') :
    ∀ p ∈ piers', pier_sorted cfg p := by
  have hinit : ∀ l : List pier, (∀ p ∈ l, p.bridges = []) → ∀ p ∈ l, pier_sorted cfg p := by
    intro l hl p hp
    unfold pier_sorted
    rw [hl p hp]
    simp
  unfold nominate at h
  split at h
  · rw [← Option.some.inj h]
    exact hinit piers h0
  · refine foldlM_option_inv _ (fun ps => ∀ p ∈ ps, pier_sorted cfg p) ?_ _ _ _
      (hinit _ (fun p hp => h0 p ((std_sort_perm _ _).subset hp))) h
    intro ps k ps' hI hg
    unfold nominate_group at hg
    split at hg
    · split at hg
      · simp at hg
      · rename_i table htab
        unfold dynamic_programming at htab
        split at htab
        · rw [← Option.some.inj htab] at hg
          exact foldlM_option_inv _ (fun qs => ∀ p ∈ qs, pier_sorted cfg p)
            (fun qs b qs' hq hb => nominate_pier_sorted gr cfg _ _ qs qs' b hq hb) _ _ _ hI hg
        · simp at htab
    · simp at hg

/-! ## Facts about the result of the solver -/

theorem mapM_some_getElem {α β : Type} (f : α → Option β) :
    ∀ (l : List α) (r : List β), l.mapM f = some r → ∀ (i : Nat) (y : β), r[i]? = some y →
      ∃ x, l[i]? = some x ∧ f x = some y
  | [], r, h, i, y, hy => by
    rw [List.mapM_nil] at h
    have hr : r = [] := (Option.some.inj h).symm
    rw [hr] at hy
    simp at hy
  | a :: l, r, h, i, y, hy => by
    rw [List.mapM_cons] at h
    cases hfa : f a with
    | none => rw [hfa] at h; simp at h
    | some z =>
      cases hl : l.mapM f with
      | none => rw [hfa, hl] at h; simp at h
      | some zs =>
        rw [hfa, hl] at h
        have hr : r = z :: zs := by simpa using h.symm
        rw [hr] at hy
        cases i with
        | zero =>
          have hzy : z = y := by simpa using hy
          exact ⟨a, by simp, by rw [← hzy]; exact hfa⟩
        | succ i =>
          have hy' : zs[i]? = some y := by simpa using hy
          obtain ⟨x, hx, hfx⟩ := mapM_some_getElem f l zs hl i y hy'
          exact ⟨x, by simpa using hx, hfx⟩

theorem vote_select_mem (low high : Int) (pc : pereads_cluster) :
    ∀ (cands : List candidate) (c : candidate),
      vote_select low high pc cands = some (some c) → c ∈ cands
  | [], c, h => by simp [vote_select] at h
  | d :: rest, c, h => by
    unfold vote_select at h
    split at h
    · split at h
      · simp at h
      · split at h
        · exact List.mem_cons_of_mem _ (vote_select_mem low high pc rest c h)
        · split at h
          · exact List.mem_cons_of_mem _ (vote_select_mem low high pc rest c h)
          · have hc : d = c := by simpa using h
            rw [hc]; exact List.mem_cons_self _ _
    · simp at h

/-- What `vote` writes: it never writes `v` or `stack`; a result of type 2 has chain and
score of a bridge of the pier `(ss, tt)` and `whole = chain1 ++ chain ++ chain2`. -/
theorem vote_writes (mts : List Int → List Int → Bool × List Int) (low high : Int)
    (piers : List pier) (ss tt : Int) (pc : pereads_cluster) (bbp r : bridge_path)
    (h : vote mts low high piers (ss, tt) pc bbp = some r) :
    r.v = bbp.v ∧ r.stack = bbp.stack ∧
    (r.type = 2 → ∃ k b, pindex_find piers ss tt = some k ∧ b ∈ (pier_at piers k).bridges ∧
      r.chain = b.chain ∧ r.score = b.score ∧ r.whole = pc.chain1 ++ b.chain ++ pc.chain2) := by
  have hneg : ∀ x : bridge_path, some ({ bbp with type := -1 } : bridge_path) = some x →
      x.v = bbp.v ∧ x.stack = bbp.stack ∧ x.type = -1 := by
    intro x hx
    rw [← Option.some.inj hx]
    exact ⟨rfl, rfl, rfl⟩
  have hfin : ∀ x : bridge_path, x.v = bbp.v ∧ x.stack = bbp.stack ∧ x.type = -1 →
      x.v = bbp.v ∧ x.stack = bbp.stack ∧
      (x.type = 2 → ∃ k b, pindex_find piers ss tt = some k ∧ b ∈ (pier_at piers k).bridges ∧
        x.chain = b.chain ∧ x.score = b.score ∧ x.whole = pc.chain1 ++ b.chain ++ pc.chain2) := by
    intro x hx
    refine ⟨hx.1, hx.2.1, ?_⟩
    intro h2
    rw [hx.2.2] at h2
    simp at h2
  unfold vote at h
  split at h
  · exact hfin r (hneg r h)
  · split at h
    · simp at h
    · rename_i type cands hcand
      split at h
      · exact hfin r (hneg r h)
      · split at h
        · simp at h
        · rename_i be hsel
          cases be with
          | none => exact hfin r (hneg r h)
          | some c =>
            have hr := Option.some.inj h
            have hc := vote_select_mem low high pc cands c hsel
            refine ⟨by rw [← hr]; rfl, by rw [← hr]; rfl, ?_⟩
            intro h2
            have hty : type = 2 := by
              rw [← hr] at h2
              exact h2
            unfold vote_candidates at hcand
            simp only [] at hcand
            split at hcand
            · split at hcand
              · have := (Prod.mk.inj (Option.some.inj hcand)).1
                omega
              · simp at hcand
            · split at hcand
              · rename_i k hk
                split at hcand
                · simp at hcand
                · have hcs := (Prod.mk.inj (Option.some.inj hcand)).2
                  rw [← hcs] at hc
                  obtain ⟨b, hb, hbc⟩ := List.mem_map.mp hc
                  refine ⟨k, b, hk, hb, ?_, ?_, ?_⟩
                  · rw [← hr, ← hbc]; rfl
                  · rw [← hr, ← hbc]; rfl
                  · rw [← hr, ← hbc]; rfl
              · have := (Prod.mk.inj (Option.some.inj hcand)).1
                omega

/-! ## Facts about trace_back -/

theorem dp_table_trace (gr : splice_graph) (cfg : parameters) (k1 : Nat)
    (ks : List Nat) (j : Nat) :
    ∀ c ∈ ((ks.foldl (fun table k => table.set k (dp_row gr cfg table k1 k))
        (dp_init gr cfg k1)).getD j []), c.trace1 < 0 → j = k1 := by
  refine dp_fold_rows gr cfg k1
    (fun j row => ∀ c ∈ row, c.trace1 < 0 → j = k1) ?_ ks _ ?_ j
  · intro t k _ c hc hneg
    obtain ⟨e, _, _, _, i, x, _, hcx⟩ := (mem_dp_candidates gr t k1 k c).mp
      (mem_dp_row gr cfg t k1 k c hc)
    rw [hcx] at hneg
    simp only [] at hneg
    omega
  · intro j c hc _
    rw [dp_init_getD] at hc
    split at hc
    · rename_i hj
      exact hj.1
    · simp at hc

theorem table_at_mem (table : List (List entry)) (p q : Int) (e : entry)
    (h : table_at table p q = some e) : 0 ≤ p ∧ e ∈ table.getD p.toNat [] := by
  unfold table_at at h
  split at h
  · rename_i hpq
    exact ⟨hpq.1, List.getElem?_mem h⟩
  · simp at h

/-- A completed walk of `trace_back` pushes its start vertex first and stops at a row
that holds an entry without predecessor. -/
theorem trace_back_walk_ends (table : List (List entry)) (k1 : Nat)
    (hrow : ∀ j, ∀ c ∈ table.getD j [], c.trace1 < 0 → j = k1) :
    ∀ (fuel : Nat) (p q : Int) (v w : List Nat),
      trace_back_walk table fuel p q v = some w →
      ∃ u, w = v ++ p.toNat :: u ∧ (p.toNat :: u).getLast? = some k1
  | 0, _, _, _, _, h => by simp [trace_back_walk] at h
  | fuel + 1, p, q, v, w, h => by
    unfold trace_back_walk at h
    split at h
    · simp at h
    · rename_i e he
      have hmem := table_at_mem table p q e he
      split at h
      · rename_i hneg
        refine ⟨[], (Option.some.inj h).symm, ?_⟩
        rw [hrow p.toNat e hmem.2 hneg]
        rfl
      · obtain ⟨u, hw, hlast⟩ := trace_back_walk_ends table k1 hrow fuel e.trace1 e.trace2 _ w h
        refine ⟨e.trace1.toNat :: u, by rw [hw]; simp, ?_⟩
        rw [List.getLast?_cons_cons]
        exact hlast

theorem trace_back_ends (table : List (List entry)) (k1 k : Nat)
    (hrow : ∀ j, ∀ c ∈ table.getD j [], c.trace1 < 0 → j = k1)
    (pb : List (List Nat)) (h : trace_back k table = some pb) :
    ∀ path ∈ pb, path.head? = some k1 ∧ path.getLast? = some k := by
  intro path hpath
  unfold trace_back at h
  obtain ⟨i, _, hi⟩ := mapM_some_mem _ _ _ h path hpath
  cases hw : trace_back_walk table (k + 1) (k : Int) (i : Int) [] with
  | none => rw [hw] at hi; simp at hi
  | some w =>
    rw [hw] at hi
    have hp : path = w.reverse := by simpa using hi.symm
    obtain ⟨u, hwu, hlast⟩ := trace_back_walk_ends table k1 hrow (k + 1) k i [] w hw
    simp only [List.nil_append, Int.toNat_ofNat] at hwu hlast
    rw [hp, hwu]
    constructor
    · rw [List.head?_reverse]; exact hlast
    · rw [List.getLast?_reverse]; rfl

theorem nominate_bridges_path (gr : splice_graph) (cfg : parameters) (k1 k2 : Nat) (bt : Int)
    (br : List bridge_path)
    (h : nominate_bridges gr (dp_fill gr cfg k1 k2) bt = some br) :
    ∀ b ∈ br, b.v.head? = some k1 ∧ b.v.getLast? = some bt.toNat := by
  intro b hb
  unfold nominate_bridges at h
  split at h
  · split at h
    · simp at h
    · rename_i pb hpb
      have hends := trace_back_ends (dp_fill gr cfg k1 k2) k1 bt.toNat
        (fun j => dp_table_trace gr cfg k1 _ j) pb hpb
      obtain ⟨jv, hjv1, hjv⟩ := mapM_some_mem _ _ _ h b hb
      have hjvmem : jv.2 ∈ pb := by
        have := List.mem_enum_iff_getElem?.mp hjv1
        exact List.getElem?_mem this
      split at hjv
      · simp at hjv
      · split at hjv
        · have hbv : b.v = jv.2 := by
            rw [← Option.some.inj hjv]
          rw [hbv]
          exact hends jv.2 hjvmem
        · simp at hjv
  · simp at h

/-! ## Facts about the groups of nominate -/

theorem foldlM_option_inv_mem {σ α : Type} (f : σ → α → Option σ) (I : σ → Prop) :
    ∀ (l : List α) (s s' : σ), (∀ s a s', a ∈ l → I s → f s a = some s' → I s') →
      I s → l.foldlM f s = some s' → I s'
  | [], s, s', _, hI, h => by
    have : s = s' := by simpa using h
    rw [← this]; exact hI
  | a :: l, s, s', hstep, hI, h => by
    rw [List.foldlM_cons] at h
    cases hfa : f s a with
    | none => rw [hfa] at h; simp at h
    | some s1 =>
      rw [hfa] at h
      exact foldlM_option_inv_mem f I l s1 s'
        (fun t b t' hb => hstep t b t' (List.mem_cons_of_mem _ hb))
        (hstep s a s1 (List.mem_cons_self _ _) hI hfa) h

theorem bounds_pairs_ok_cons (L : List pier) (a b' : Nat) (X : List Nat)
    (hab : ∀ b, a ≤ b → b ≤ b' → (pier_at L b).bs = (pier_at L b').bs)
    (hX : bounds_pairs_ok L X) : bounds_pairs_ok L (a :: b' :: X) := by
  intro k hk b hb1 hb2
  cases k with
  | zero => exact hab b hb1 hb2
  | succ k' =>
    have h0 : (a :: b' :: X).getD ((k' + 1) * 2 + 0) 0 = X.getD (k' * 2 + 0) 0 := by
      have : (k' + 1) * 2 + 0 = (k' * 2 + 0) + 1 + 1 := by omega
      rw [this, List.getD_cons_succ, List.getD_cons_succ]
      rfl
    have h1 : (a :: b' :: X).getD ((k' + 1) * 2 + 1) 0 = X.getD (k' * 2 + 1) 0 := by
      have : (k' + 1) * 2 + 1 = (k' * 2 + 1) + 1 + 1 := by omega
      rw [this, List.getD_cons_succ, List.getD_cons_succ]
    rw [h0] at hb1
    rw [h1] at hb2 ⊢
    refine hX k' ?_ b hb1 hb2
    simp only [List.length_cons] at hk
    omega

/-- Every pair `(bounds[2k], bounds[2k+1])` of the vector built by `nominate` delimits
a run of piers with one source. -/
theorem bounds_runs (L : List pier) :
    ∀ (m s0 s : Nat), s0 < s →
      (∀ b, s0 ≤ b → b < s → (pier_at L b).bs = (pier_at L (s - 1)).bs) →
      bounds_pairs_ok L (s0 :: bounds_tail L s m)
  | 0, s0, s, hlt, hinv => by
    have : bounds_tail L s 0 = [s - 1] := by simp [bounds_tail]
    rw [this]
    refine bounds_pairs_ok_cons L s0 (s - 1) [] ?_ ?_
    · intro b h1 h2
      exact hinv b h1 (by omega)
    · intro k hk
      simp at hk
  | m + 1, s0, s, hlt, hinv => by
    have hsm : s + (m + 1) - 1 = (s + 1) + m - 1 := by omega
    by_cases hbrk : (pier_at L s).bs ≠ (pier_at L (s - 1)).bs
    · have : bounds_tail L s (m + 1) = (s - 1) :: s :: bounds_tail L (s + 1) m := by
        unfold bounds_tail
        rw [List.range'_succ, List.flatMap_cons, if_pos hbrk, hsm]
        rfl
      rw [this]
      refine bounds_pairs_ok_cons L s0 (s - 1) _ ?_ ?_
      · intro b h1 h2
        exact hinv b h1 (by omega)
      · refine bounds_runs L m s (s + 1) (Nat.lt_succ_self s) ?_
        intro b h1 h2
        have : b = s := by omega
        rw [this, Nat.add_sub_cancel]
    · have heq : (pier_at L s).bs = (pier_at L (s - 1)).bs := by
        by_contra hc; exact hbrk hc
      have : bounds_tail L s (m + 1) = bounds_tail L (s + 1) m := by
        unfold bounds_tail
        rw [List.range'_succ, List.flatMap_cons, if_neg hbrk, hsm]
        rfl
      rw [this]
      refine bounds_runs L m s0 (s + 1) (by omega) ?_
      intro b h1 h2
      rw [Nat.add_sub_cancel]
      by_cases hb : b < s
      · rw [hinv b h1 hb, heq]
      · have : b = s := by omega
        rw [this]

theorem nominate_bounds_runs (L : List pier) :
    bounds_pairs_ok L (nominate_bounds L) := by
  have : nominate_bounds L = 0 :: bounds_tail L 1 (L.length - 1) := by
    unfold nominate_bounds bounds_tail
    have hn : 1 + (L.length - 1) - 1 = L.length - 1 := by omega
    rw [hn]
    rfl
  rw [this]
  refine bounds_runs L (L.length - 1) 0 1 (by omega) ?_
  intro b _ h2
  have : b = 0 := by omega
  rw [this]

theorem pier_at_key (ps L : List pier) (b : Nat)
    (h : ps.map pier_key = L.map pier_key) :
    pier_key (pier_at ps b) = pier_key (pier_at L b) := by
  have h1 : ∀ l : List pier, pier_key (pier_at l b) = (l.map pier_key).getD b (0, 0) := by
    intro l
    unfold pier_at
    simp only [List.getD_eq_getElem?_getD, List.getElem?_map]
    cases l[b]? <;> rfl
  rw [h1 ps, h1 L, h]

theorem pier_at_paths (ps : List pier) (b : Nat) (hI : ∀ p ∈ ps, pier_paths p) :
    pier_paths (pier_at ps b) := by
  unfold pier_at
  simp only [List.getD_eq_getElem?_getD]
  cases hg : ps[b]? with
  | none =>
    intro x hx
    simp at hx
  | some q => exact hI q (List.getElem?_mem hg)

theorem set_pier_key (ps : List pier) (b : Nat) (br : List bridge_path) :
    (ps.set b { pier_at ps b with bridges := br }).map pier_key = ps.map pier_key := by
  apply List.ext_getElem?
  intro n
  simp only [List.getElem?_map, List.getElem?_set]
  by_cases hbn : b = n
  · subst hbn
    by_cases hb : b < ps.length
    · simp only [hb, if_true, Option.map_some']
      rw [List.getElem?_eq_getElem hb]
      simp only [Option.map_some', pier_at, List.getD_eq_getElem?_getD,
        List.getElem?_eq_getElem hb, Option.getD_some]
      rfl
    · simp [hb, List.getElem?_eq_none (not_lt.mp hb)]
  · simp [hbn]

theorem nominate_pier_paths (gr : splice_graph) (cfg : parameters) (k1 k2 : Nat)
    (ps ps' : List pier) (b : Nat) (hk1 : (pier_at ps b).bs.toNat = k1)
    (hI : ∀ p ∈ ps, pier_paths p)
    (h : nominate_pier gr (dp_fill gr cfg k1 k2) ps b = some ps') :
    (∀ p ∈ ps', pier_paths p) ∧ ps'.map pier_key = ps.map pier_key := by
  unfold nominate_pier at h
  split at h
  · simp at h
  · rename_i br hbr
    have hnew := nominate_bridges_path gr cfg k1 k2 _ br hbr
    have hold := pier_at_paths ps b hI
    rw [← Option.some.inj h]
    refine ⟨?_, set_pier_key ps b _⟩
    intro p hp
    rcases List.mem_or_eq_of_mem_set hp with h1 | h1
    · exact hI p h1
    · rw [h1]
      intro x hx
      have hx' := (std_sort_perm _ _).subset hx
      simp only [] at hx' ⊢
      rcases List.mem_append.mp hx' with h2 | h2
      · exact hold x h2
      · rw [hk1]
        exact hnew x h2

theorem nominate_group_paths (gr : splice_graph) (cfg : parameters) (ps ps' : List pier)
    (b1 b2 : Nat)
    (hG : ∀ b, b1 ≤ b → b ≤ b2 → (pier_at ps b).bs = (pier_at ps b2).bs)
    (hI : ∀ p ∈ ps, pier_paths p)
    (h : nominate_group gr cfg ps b1 b2 = some ps') :
    (∀ p ∈ ps', pier_paths p) ∧ ps'.map pier_key = ps.map pier_key := by
  unfold nominate_group at h
  split at h
  · split at h
    · simp at h
    · rename_i table htab
      unfold dynamic_programming at htab
      split at htab
      · rw [← Option.some.inj htab] at h
        refine foldlM_option_inv_mem _
          (fun qs => (∀ p ∈ qs, pier_paths p) ∧ qs.map pier_key = ps.map pier_key)
          _ _ _ ?_ ⟨hI, rfl⟩ h
        intro qs b qs' hb hq hstep
        have hb' := List.mem_range'_1.mp hb
        have hkey := pier_at_key qs ps b hq.2
        have hbs : (pier_at qs b).bs = (pier_at ps b2).bs := by
          have : (pier_at qs b).bs = (pier_at ps b).bs := congrArg Prod.fst hkey
          rw [this]
          exact hG b hb'.1 (by omega)
        have hres := nominate_pier_paths gr cfg _ _ qs qs' b (by rw [hbs]) hq.1 hstep
        exact ⟨hres.1, hres.2.trans hq.2⟩
      · simp at htab
  · simp at h

/-- After `nominate`, run on piers without bridges, the vertex path of every bridge of a
pier starts at the source of the pier and ends at its target. -/
theorem nominate_paths (gr : splice_graph) (cfg : parameters) (piers piers' : List pier)
    (h0 : ∀ p ∈ piers, p.bridges = []) (h : nominate gr cfg piers = some piers') :
    ∀ p ∈ piers', pier_paths p := by
  have hinit : ∀ l : List pier, (∀ p ∈ l, p.bridges = []) → ∀ p ∈ l, pier_paths p := by
    intro l hl p hp x hx
    rw [hl p hp] at hx
    simp at hx
  unfold nominate at h
  split at h
  · rw [← Option.some.inj h]
    exact hinit piers h0
  · have hruns := nominate_bounds_runs (std_sort pier_lt piers)
    have hfin := foldlM_option_inv_mem _
      (fun ps => (∀ p ∈ ps, pier_paths p) ∧
        ps.map pier_key = (std_sort pier_lt piers).map pier_key)
      _ _ _ ?_ ⟨hinit _ (fun p hp => h0 p ((std_sort_perm _ _).subset hp)), rfl⟩ h
    · exact hfin.1
    · intro ps k ps' hk hI hstep
      have hk' : k < (nominate_bounds (std_sort pier_lt piers)).length / 2 :=
        List.mem_range.mp hk
      have hG : ∀ b, (nominate_bounds (std_sort pier_lt piers)).getD (k * 2 + 0) 0 ≤ b →
          b ≤ (nominate_bounds (std_sort pier_lt piers)).getD (k * 2 + 1) 0 →
          (pier_at ps b).bs
            = (pier_at ps ((nominate_bounds (std_sort pier_lt piers)).getD (k * 2 + 1) 0)).bs := by
        intro b hb1 hb2
        have e1 : (pier_at ps b).bs = (pier_at (std_sort pier_lt piers) b).bs :=
          congrArg Prod.fst (pier_at_key ps _ b hI.2)
        have e2 := congrArg Prod.fst (pier_at_key ps _
          ((nominate_bounds (std_sort pier_lt piers)).getD (k * 2 + 1) 0) hI.2)
        change (pier_at ps _).bs = (pier_at (std_sort pier_lt piers) _).bs at e2
        rw [e1, e2]
        exact hruns k (by omega) b hb1 hb2
      have hres := nominate_group_paths gr cfg ps ps' _ _ hG hI.1 hstep
      exact ⟨hres.1, hres.2.trans hI.2⟩

theorem build_piers_step_empty (st : List (Int × Int) × List pier) (p : Int × Int)
    (h : ∀ q ∈ st.2, q.bridges = []) : ∀ q ∈ (build_piers_step st p).2, q.bridges = [] := by
  unfold build_piers_step
  split
  · exact h
  · split
    · exact h
    · split
      · exact h
      · split
        · exact h
        · intro q hq
          rcases List.mem_append.mp hq with h1 | h1
          · exact h q h1
          · rw [List.mem_singleton.mp h1]

theorem build_piers_fold_empty :
    ∀ (vpairs : List (Int × Int)) (st : List (Int × Int) × List pier),
      (∀ q ∈ st.2, q.bridges = []) →
      ∀ q ∈ (vpairs.foldl build_piers_step st).2, q.bridges = []
  | [], _, h => h
  | p :: l, st, h => by
    rw [List.foldl_cons]
    exact build_piers_fold_empty l _ (build_piers_step_empty st p h)

theorem build_piers_empty (vc : List pereads_cluster) (vpairs : List (Int × Int))
    (piers : List pier) (h : build_piers vc vpairs = some piers) :
    ∀ q ∈ piers, q.bridges = [] := by
  unfold build_piers at h
  split at h
  · rw [← Option.some.inj h]
    exact build_piers_fold_empty vpairs ([], []) (by simp)
  · simp at h

theorem pindex_find_some (piers : List pier) (ss tt : Int) (k : Nat)
    (h : pindex_find piers ss tt = some k) :
    pier_at piers k ∈ piers ∧ (pier_at piers k).bs = ss ∧ (pier_at piers k).bt = tt := by
  unfold pindex_find at h
  simp only [] at h
  split at h
  · rename_i hlt
    have hk := Option.some.inj h
    rw [← hk]
    have hget := @List.findIdx_getElem pier (fun p => decide (p.bs = ss) && decide (p.bt = tt))
      piers hlt
    have hat : pier_at piers (List.findIdx (fun p => decide (p.bs = ss) && decide (p.bt = tt))
        piers) = piers[List.findIdx (fun p => decide (p.bs = ss) && decide (p.bt = tt)) piers] := by
      unfold pier_at
      simp [List.getD_eq_getElem?_getD, List.getElem?_eq_getElem hlt]
    rw [hat]
    simp only [Bool.and_eq_true, decide_eq_true_eq] at hget
    exact ⟨List.getElem_mem _, hget.1, hget.2⟩
  · simp at h

/-! ## The claims on nominate and on scenario 1 -/

/-- C6: after `nominate` in the solver (on the piers made by `build_piers`), for every
pier and every `i` with `i + 1 < bridges.size()`, `bridges[i].stack` is
lexicographically greater than or equal to `bridges[i+1].stack`, position 0 compared
first, larger value first. -/
theorem nominate_bridge_score_ordering (gr : splice_graph) (cfg : parameters)
    (vc : List pereads_cluster) (piers0 piers : List pier)
    (h1 : build_piers vc (build_bridging_vertices gr vc) = some piers0)
    (h2 : nominate gr cfg piers0 = some piers) :
    ∀ p ∈ piers, ∀ (i : Nat) (a b : bridge_path),
      p.bridges[i]? = some a → p.bridges[i + 1]? = some b → stack_ge a.stack b.stack := by
  intro p hp i a b ha hb
  have hs := (nominate_sorted gr cfg piers0 piers (build_piers_empty _ _ _ h1) h2 p hp).2
  obtain ⟨hi, hia⟩ := List.getElem?_eq_some.mp ha
  obtain ⟨hj, hjb⟩ := List.getElem?_eq_some.mp hb
  have := List.pairwise_iff_getElem.mp hs i (i + 1) hi hj (Nat.lt_succ_self i)
  rw [hia, hjb] at this
  exact (compare_stack_false_iff _ _).mp this

theorem nominate_bridge_score_ordering_witness :
    build_piers [skip_fragment] (build_bridging_vertices skip_graph [skip_fragment])
      = some [{ bs := 1, bt := 3, bridges := [] }] ∧
    nominate skip_graph scenario_cfg [{ bs := 1, bt := 3, bridges := [] }] = some skip_piers ∧
    ∀ p ∈ skip_piers, ∀ (i : Nat) (a b : bridge_path),
      p.bridges[i]? = some a → p.bridges[i + 1]? = some b → stack_ge a.stack b.stack :=
  ⟨by decide, by decide,
   nominate_bridge_score_ordering skip_graph scenario_cfg [skip_fragment]
     [{ bs := 1, bt := 3, bridges := [] }] skip_piers (by decide) (by decide)⟩

/-- C4 (as the code has it): on scenario 1 the per-fragment bridge_path `opt[0]` has type
2, score 100, empty `chain` and `whole`, insert length 160, and an empty `v`; the vertex
path `[1,2]` is the `v` of the bridge of the pier `(1,2)`.  In general `vote` does not
write `v`: `v` is empty in every entry of `opt`, and an entry of type 2 has the chain and
the score of a bridge of the pier `(v1,v2)` of its fragment; the `v` of that bridge is
the vertex path, starting at `v1` and ending at `v2`. -/
theorem scenario1_trivial_bridge :
    bridge_solver.make merge_two_sorted_sequences scenario_graph [scenario1_fragment]
        scenario_cfg 50 500
      = some { vpairs := [(1, 2)], piers := scenario1_piers,
               opt := [{ type := 2, score := 100, v := [], chain := [], whole := [],
                         stack := [] }] } ∧
    scenario1_piers.map (fun p => p.bridges.map (fun b => b.v)) = [[[1, 2]]] ∧
    get_total_length_of_introns ([] : List Int) = some 0 ∧
    scenario1_fragment.bounds3 - scenario1_fragment.bounds0 - 0 = 160 ∧
    ∀ (mts : List Int → List Int → Bool × List Int) (gr : splice_graph)
      (vc : List pereads_cluster) (cfg : parameters) (low high : Int) (st : bridge_solver),
      bridge_solver.make mts gr vc cfg low high = some st →
      ∀ (i : Nat) (r : bridge_path), st.opt[i]? = some r →
        r.v = [] ∧
        (r.type = 2 → ∃ ss tt pc k b, st.vpairs[i]? = some (ss, tt) ∧ vc[i]? = some pc ∧
          pindex_find st.piers ss tt = some k ∧ b ∈ (pier_at st.piers k).bridges ∧
          r.chain = b.chain ∧ r.score = b.score ∧
          r.whole = pc.chain1 ++ b.chain ++ pc.chain2 ∧
          b.v.head? = some ss.toNat ∧ b.v.getLast? = some tt.toNat) := by
  refine ⟨by decide, by decide, by decide, by decide, ?_⟩
  intro mts gr vc cfg low high st hst i r hr
  unfold bridge_solver.make at hst
  split at hst
  · simp at hst
  · rename_i piers0 hp0
    split at hst
    · simp at hst
    · rename_i piers hnom
      split at hst
      · simp at hst
      · rename_i opt hopt
        have hpaths := nominate_paths gr cfg piers0 piers (build_piers_empty _ _ _ hp0) hnom
        have hstv := Option.some.inj hst
        rw [← hstv] at hr ⊢
        simp only [] at hr ⊢
        unfold vote_all at hopt
        obtain ⟨x, hx, hvote⟩ := mapM_some_getElem _ _ _ hopt i r hr
        obtain ⟨hx1, hx2⟩ := List.getElem?_zip_eq_some.mp hx
        have hw := vote_writes mts low high piers x.1.1 x.1.2 x.2 bridge_path.init r hvote
        refine ⟨hw.1, ?_⟩
        intro h2
        obtain ⟨k, b, hk, hb, h3, h4, h5⟩ := hw.2.2 h2
        obtain ⟨hmem, hbs, hbt⟩ := pindex_find_some piers x.1.1 x.1.2 k hk
        have hbv := hpaths _ hmem b hb
        rw [hbs, hbt] at hbv
        exact ⟨x.1.1, x.1.2, x.2, k, b, hx1, hx2, hk, hb, h3, h4, h5, hbv.1, hbv.2⟩

/-- C4 (as stated) fails: on scenario 1 the `v` of the per-fragment bridge_path `opt[0]`
is empty, not `[1,2]`: `vote` copies type, score, chain and whole of the selected
candidate and leaves `v` as the constructor made it. -/
theorem scenario1_path_counterexample :
    (bridge_solver.make merge_two_sorted_sequences scenario_graph [scenario1_fragment]
        scenario_cfg 50 500).map (fun s => s.opt.map (fun r => (r.type, r.v)))
      = some [(2, [])] ∧
    (bridge_solver.make merge_two_sorted_sequences scenario_graph [scenario1_fragment]
        scenario_cfg 50 500).map (fun s => s.opt.map (fun r => r.v))
      ≠ some [[1, 2]] := by
  refine ⟨by decide, by decide⟩

/-! ## Merging sorted sequences -/

theorem merge_sorted_steps_sublist_left (n : Nat) (x y : List Int) :
    x.Sublist (merge_sorted_steps n x y) := by
  induction n generalizing x y with
  | zero => simp [merge_sorted_steps]
  | succ n ih =>
    cases x with
    | nil => simp [merge_sorted_steps]
    | cons a x =>
      cases y with
      | nil => simp [merge_sorted_steps]
      | cons b y =>
        simp only [merge_sorted_steps]
        split_ifs
        · exact (ih x (b :: y)).cons₂ a
        · exact (ih (a :: x) y).cons b
        · exact (ih x y).cons₂ a

theorem merge_sorted_steps_sublist_right (n : Nat) (x y : List Int) :
    y.Sublist (merge_sorted_steps n x y) := by
  induction n generalizing x y with
  | zero => simp [merge_sorted_steps]
  | succ n ih =>
    cases x with
    | nil => simp [merge_sorted_steps]
    | cons a x =>
      cases y with
      | nil => simp [merge_sorted_steps]
      | cons b y =>
        simp only [merge_sorted_steps]
        split_ifs with h1 h2
        · exact (ih x (b :: y)).cons a
        · exact (ih (a :: x) y).cons₂ b
        · have hab : a = b := by omega
          subst hab
          exact (ih x y).cons₂ a

theorem mem_merge_sorted_steps (n : Nat) (x y : List Int) (z : Int) :
    z ∈ merge_sorted_steps n x y ↔ z ∈ x ∨ z ∈ y := by
  constructor
  · induction n generalizing x y with
    | zero => simp [merge_sorted_steps]
    | succ n ih =>
      cases x with
      | nil => simp [merge_sorted_steps]
      | cons a x =>
        cases y with
        | nil => simp [merge_sorted_steps]
        | cons b y =>
          simp only [merge_sorted_steps]
          split_ifs with h1 h2
          · intro h
            rcases List.mem_cons.mp h with h | h
            · simp [h]
            · rcases ih _ _ h with h | h
              · simp [h]
              · exact Or.inr h
          · intro h
            rcases List.mem_cons.mp h with h | h
            · simp [h]
            · rcases ih _ _ h with h | h
              · exact Or.inl h
              · simp [h]
          · intro h
            rcases List.mem_cons.mp h with h | h
            · simp [h]
            · rcases ih _ _ h with h | h
              · simp [h]
              · simp [h]
  · rintro (h | h)
    · exact (merge_sorted_steps_sublist_left n x y).subset h
    · exact (merge_sorted_steps_sublist_right n x y).subset h

theorem merge_sorted_steps_sorted (n : Nat) (x y : List Int)
    (hx : x.Sorted (· < ·)) (hy : y.Sorted (· < ·)) (hn : x.length + y.length ≤ n) :
    (merge_sorted_steps n x y).Sorted (· < ·) := by
  induction n generalizing x y with
  | zero =>
    have h1 : x = [] := List.eq_nil_of_length_eq_zero (by omega)
    have h2 : y = [] := List.eq_nil_of_length_eq_zero (by omega)
    subst h1 h2
    simp [merge_sorted_steps]
  | succ n ih =>
    cases x with
    | nil => simpa [merge_sorted_steps] using hy
    | cons a x =>
      cases y with
      | nil => simpa [merge_sorted_steps] using hx
      | cons b y =>
        have hxa := List.sorted_cons.mp hx
        have hyb := List.sorted_cons.mp hy
        simp only [List.length_cons] at hn
        simp only [merge_sorted_steps]
        split_ifs with h1 h2
        · refine List.sorted_cons.mpr ⟨?_, ih x (b :: y) hxa.2 hy (by simp; omega)⟩
          intro z hz
          rcases (mem_merge_sorted_steps _ _ _ z).mp hz with h | h
          · exact hxa.1 z h
          · rcases List.mem_cons.mp h with h | h
            · omega
            · have := hyb.1 z h
              omega
        · refine List.sorted_cons.mpr ⟨?_, ih (a :: x) y hx hyb.2 (by simp; omega)⟩
          intro z hz
          rcases (mem_merge_sorted_steps _ _ _ z).mp hz with h | h
          · rcases List.mem_cons.mp h with h | h
            · omega
            · have := hxa.1 z h
              omega
          · exact hyb.1 z h
        · refine List.sorted_cons.mpr ⟨?_, ih x y hxa.2 hyb.2 (by omega)⟩
          intro z hz
          rcases (mem_merge_sorted_steps _ _ _ z).mp hz with h | h
          · exact hxa.1 z h
          · have := hyb.1 z h
            omega

/-- C11 (merge closure).  With the sorted merge of the spec for
`merge_two_sorted_sequences`: for strictly increasing chains `x` and `y`,
`consistent_intron_chains(x, y)` is true exactly when `merge_intron_chains(x, y, xy)`
returns true, and then `xy` has `x` and `y` as subsequences, is strictly increasing,
and has even length when `x` and `y` have. -/
theorem merge_intron_chains_closure (x y : List Int)
    (hx : x.Sorted (· < ·)) (hy : y.Sorted (· < ·)) :
    (consistent_intron_chains merge_two_sorted_sequences x y = true ↔
      (merge_intron_chains merge_two_sorted_sequences x y).1 = true) ∧
    ((merge_intron_chains merge_two_sorted_sequences x y).1 = true →
      x.Sublist (merge_intron_chains merge_two_sorted_sequences x y).2 ∧
      y.Sublist (merge_intron_chains merge_two_sorted_sequences x y).2 ∧
      (merge_intron_chains merge_two_sorted_sequences x y).2.Sorted (· < ·) ∧
      (x.length % 2 = 0 → y.length % 2 = 0 →
        (merge_intron_chains merge_two_sorted_sequences x y).2.length % 2 = 0)) := by
  refine ⟨Iff.rfl, ?_⟩
  unfold merge_intron_chains
  split_ifs with h1 h2 h3
  · simp
  · simp
  · simp
  · intro _
    simp only [merge_two_sorted_sequences] at h3 ⊢
    refine ⟨merge_sorted_steps_sublist_left _ _ _, merge_sorted_steps_sublist_right _ _ _,
      merge_sorted_steps_sorted _ _ _ hx hy le_rfl, ?_⟩
    intro hxe hye
    omega

theorem merge_intron_chains_closure_witness :
    List.Sorted (· < ·) [(10 : Int), 20, 30, 40] ∧
    List.Sorted (· < ·) [(30 : Int), 40, 50, 60] ∧
    merge_intron_chains merge_two_sorted_sequences [10, 20, 30, 40] [30, 40, 50, 60]
      = (true, [10, 20, 30, 40, 50, 60]) ∧
    ((consistent_intron_chains merge_two_sorted_sequences [10, 20, 30, 40] [30, 40, 50, 60]
        = true ↔
      (merge_intron_chains merge_two_sorted_sequences [10, 20, 30, 40] [30, 40, 50, 60]).1
        = true) ∧
    ((merge_intron_chains merge_two_sorted_sequences [10, 20, 30, 40] [30, 40, 50, 60]).1
        = true →
      List.Sublist [10, 20, 30, 40]
        (merge_intron_chains merge_two_sorted_sequences [10, 20, 30, 40] [30, 40, 50, 60]).2 ∧
      List.Sublist [30, 40, 50, 60]
        (merge_intron_chains merge_two_sorted_sequences [10, 20, 30, 40] [30, 40, 50, 60]).2 ∧
      (merge_intron_chains merge_two_sorted_sequences [10, 20, 30, 40]
        [30, 40, 50, 60]).2.Sorted (· < ·) ∧
      ([(10 : Int), 20, 30, 40].length % 2 = 0 → [(30 : Int), 40, 50, 60].length % 2 = 0 →
        (merge_intron_chains merge_two_sorted_sequences [10, 20, 30, 40]
          [30, 40, 50, 60]).2.length % 2 = 0))) :=
  ⟨by decide, by decide, by decide,
   merge_intron_chains_closure [10, 20, 30, 40] [30, 40, 50, 60] (by decide) (by decide)⟩

/-! ## combined_graph: combine -/

theorem foldl_num_combined (l : List combined_graph) (a : Int) :
    l.foldl (fun n gt => n + gt.num_combined) a
      = a + (l.map (fun c => c.num_combined)).sum := by
  induction l generalizing a with
  | nil => simp
  | cons c l ih => simp [ih, add_assoc]

theorem combine_fields (this gt r : combined_graph) (h : this.combine gt = some r) :
    r.children = (if this.children.length = 0 then this.children ++ [this]
        else this.children) ++ (if gt.children.length = 0 then [gt] else gt.children) ∧
    r.num_combined = this.num_combined + gt.num_combined ∧
    r.splices = std_set_union gt.splices this.splices ∧
    r.regions = this.regions ∧ r.junctions = this.junctions ∧
    r.sbounds = this.sbounds ∧ r.tbounds = this.tbounds := by
  unfold combined_graph.combine at h
  simp only at h
  split_ifs at h <;> (cases h; simp_all)

/-- C20 (combine unions splice sites).  If `this.splices` and `gt.splices` are strictly
increasing and `this.combine(gt)` returns, then `this.splices` is strictly increasing
afterwards and holds exactly the positions that were in `this.splices` or in
`gt.splices`; `regions`, `junctions`, `sbounds` and `tbounds` of `this` are unchanged. -/
theorem combine_splices_union (this gt r : combined_graph)
    (h : this.combine gt = some r)
    (h1 : this.splices.Sorted (· < ·)) (h2 : gt.splices.Sorted (· < ·)) :
    r.splices.Sorted (· < ·) ∧
    (∀ p, p ∈ r.splices ↔ p ∈ this.splices ∨ p ∈ gt.splices) ∧
    r.regions = this.regions ∧ r.junctions = this.junctions ∧
    r.sbounds = this.sbounds ∧ r.tbounds = this.tbounds := by
  obtain ⟨_, _, hs, hr, hj, hsb, htb⟩ := combine_fields this gt r h
  refine ⟨?_, ?_, hr, hj, hsb, htb⟩
  · rw [hs]
    exact merge_sorted_steps_sorted _ _ _ h2 h1 le_rfl
  · intro p
    rw [hs, std_set_union, mem_merge_sorted_steps]
    exact Or.comm

theorem combine_splices_union_witness :
    (sample_built [150, 300] []).combine (sample_built [150, 400, 500] [])
      = some sample_combined ∧
    (sample_built [150, 300] []).splices.Sorted (· < ·) ∧
    (sample_built [150, 400, 500] []).splices.Sorted (· < ·) ∧
    (sample_combined.splices.Sorted (· < ·) ∧
    (∀ p, p ∈ sample_combined.splices ↔
      p ∈ (sample_built [150, 300] []).splices ∨
      p ∈ (sample_built [150, 400, 500] []).splices) ∧
    sample_combined.regions = (sample_built [150, 300] []).regions ∧
    sample_combined.junctions = (sample_built [150, 300] []).junctions ∧
    sample_combined.sbounds = (sample_built [150, 300] []).sbounds ∧
    sample_combined.tbounds = (sample_built [150, 300] []).tbounds) :=
  ⟨rfl, by decide, by decide,
   combine_splices_union (sample_built [150, 300] []) (sample_built [150, 400, 500] [])
      sample_combined rfl (by decide) (by decide)⟩

/-- C19 (combined-count law).  For every graph obtained from default-constructed and
freshly built graphs by `combine` calls: when `children` is non-empty, every child has
no children and `num_combined` is the sum of the children's `num_combined`; and
`combine_children` passes `assert(num == num_combined)`, leaving `children` and
`num_combined` as they were. -/
theorem combined_count_law (sim : List ((Int × Int) × Int) → List ((Int × Int) × Int))
    (g : combined_graph) (h : g.reachable) :
    (g.children ≠ [] →
      (∀ c ∈ g.children, c.children = []) ∧
      g.num_combined = (g.children.map (fun c => c.num_combined)).sum) ∧
    ∃ g', g.combine_children sim = some g' ∧ g'.children = g.children ∧
      g'.num_combined = g.num_combined := by
  have key : g.children ≠ [] →
      (∀ c ∈ g.children, c.children = []) ∧
      g.num_combined = (g.children.map (fun c => c.num_combined)).sum := by
    induction h with
    | init => intro h; exact absurd rfl h
    | built g hn hc => intro h; exact absurd hc h
    | combine a b r ha hb hr iha ihb =>
      intro _
      obtain ⟨hch, hnum, _⟩ := combine_fields a b r hr
      rw [hch, hnum]
      have h1 : (∀ c ∈ (if a.children.length = 0 then a.children ++ [a] else a.children),
            c.children = []) ∧
          a.num_combined = ((if a.children.length = 0 then a.children ++ [a]
            else a.children).map (fun c => c.num_combined)).sum := by
        by_cases hA : a.children = []
        · simp [hA]
        · have hA' : a.children.length ≠ 0 := by
            intro h0; exact hA (List.eq_nil_of_length_eq_zero h0)
          simp only [hA', if_false]
          exact iha hA
      have h2 : (∀ c ∈ (if b.children.length = 0 then [b] else b.children),
            c.children = []) ∧
          b.num_combined = ((if b.children.length = 0 then [b]
            else b.children).map (fun c => c.num_combined)).sum := by
        by_cases hB : b.children = []
        · simp [hB]
        · have hB' : b.children.length ≠ 0 := by
            intro h0; exact hB (List.eq_nil_of_length_eq_zero h0)
          simp only [hB', if_false]
          exact ihb hB
      refine ⟨?_, ?_⟩
      · intro c hc
        rcases List.mem_append.mp hc with hc | hc
        · exact h1.1 c hc
        · exact h2.1 c hc
      · rw [List.map_append, List.sum_append, ← h1.2, ← h2.2]
  refine ⟨key, ?_⟩
  unfold combined_graph.combine_children
  by_cases hc : g.children.length = 0
  · simp [hc]
  · have hne : g.children ≠ [] := by
      intro h0; exact hc (by simp [h0])
    have hsum := (key hne).2
    simp only [hc, if_false, foldl_num_combined, zero_add, ← hsum, ne_eq, not_true_eq_false]
    exact ⟨_, rfl, rfl, rfl⟩

theorem combined_count_law_witness :
    combined_graph.reachable sample_combined ∧
    ((sample_combined.children ≠ [] →
      (∀ c ∈ sample_combined.children, c.children = []) ∧
      sample_combined.num_combined
        = (sample_combined.children.map (fun c => c.num_combined)).sum) ∧
    ∃ g', sample_combined.combine_children id = some g' ∧
      g'.children = sample_combined.children ∧
      g'.num_combined = sample_combined.num_combined) :=
  ⟨combined_graph.reachable.combine (sample_built [150, 300] [])
      (sample_built [150, 400, 500] []) sample_combined
      (combined_graph.reachable.built _ rfl rfl) (combined_graph.reachable.built _ rfl rfl)
      rfl,
   combined_count_law id sample_combined
      (combined_graph.reachable.combine (sample_built [150, 300] [])
        (sample_built [150, 400, 500] []) sample_combined
        (combined_graph.reachable.built _ rfl rfl) (combined_graph.reachable.built _ rfl rfl)
        rfl)⟩

/-! ## The reviser: clear loops and refine_splice_graph -/

@[simp] theorem clear_vertex_vinf (gr : splice_graph) (v : Nat) :
    (gr.clear_vertex v).vinf = gr.vinf := rfl

@[simp] theorem clear_vertex_vwrt (gr : splice_graph) (v : Nat) :
    (gr.clear_vertex v).vwrt = gr.vwrt := rfl

@[simp] theorem clear_vertex_num_vertices (gr : splice_graph) (v : Nat) :
    (gr.clear_vertex v).num_vertices = gr.num_vertices := rfl

@[simp] theorem clear_vertex_inner_range (gr : splice_graph) (v : Nat) :
    (gr.clear_vertex v).inner_range = gr.inner_range := rfl

theorem clear_vertex_sublist (gr : splice_graph) (v : Nat) :
    (gr.clear_vertex v).edges.Sublist gr.edges := List.filter_sublist _

theorem clear_loop_trace_length (guard : splice_graph → Nat → Bool) (ks : List Nat)
    (gr : splice_graph) (tr : List Nat) :
    tr.length ≤ (clear_loop guard ks gr tr).2.length := by
  induction ks generalizing gr tr with
  | nil => simp [clear_loop]
  | cons i ks ih =>
    simp only [clear_loop]
    split_ifs
    · have := ih (gr.clear_vertex i) (tr ++ [i])
      simp only [List.length_append, List.length_singleton] at this
      omega
    · exact ih gr tr

theorem clear_loop_fixed (guard : splice_graph → Nat → Bool) (ks : List Nat)
    (gr : splice_graph) (tr : List Nat) (h : ∀ i ∈ ks, guard gr i = false) :
    clear_loop guard ks gr tr = (gr, tr) := by
  induction ks with
  | nil => rfl
  | cons i ks ih =>
    simp only [clear_loop, h i (List.mem_cons_self _ _), Bool.false_eq_true, if_false]
    exact ih (fun j hj => h j (List.mem_cons_of_mem _ hj))

theorem clear_loop_quiet (guard : splice_graph → Nat → Bool) (ks : List Nat)
    (gr : splice_graph) (tr : List Nat)
    (h : (clear_loop guard ks gr tr).2.length = tr.length) :
    ∀ i ∈ ks, guard gr i = false := by
  induction ks with
  | nil => simp
  | cons i ks ih =>
    by_cases hg : guard gr i = true
    · simp only [clear_loop, hg, if_true] at h
      have := clear_loop_trace_length guard ks (gr.clear_vertex i) (tr ++ [i])
      simp only [List.length_append, List.length_singleton] at this
      omega
    · have hg' : guard gr i = false := by simpa using hg
      simp only [clear_loop, hg', Bool.false_eq_true, if_false] at h
      intro j hj
      rcases List.mem_cons.mp hj with rfl | hj
      · exact hg'
      · exact ih h j hj

theorem clear_loop_keeps (guard : splice_graph → Nat → Bool) (ks : List Nat)
    (gr : splice_graph) (tr : List Nat) :
    (clear_loop guard ks gr tr).1.edges.Sublist gr.edges ∧
    (clear_loop guard ks gr tr).1.vinf = gr.vinf ∧
    (clear_loop guard ks gr tr).1.vwrt = gr.vwrt := by
  induction ks generalizing gr tr with
  | nil => simp [clear_loop]
  | cons i ks ih =>
    simp only [clear_loop]
    split_ifs
    · obtain ⟨h1, h2, h3⟩ := ih (gr.clear_vertex i) (tr ++ [i])
      exact ⟨h1.trans (clear_vertex_sublist gr i), h2, h3⟩
    · exact ih gr tr

theorem clear_loop_shrinks (guard : splice_graph → Nat → Bool)
    (hguard : ∀ g i, guard g i = true → (g.clear_vertex i).edges.length < g.edges.length)
    (ks : List Nat) (gr : splice_graph) (tr : List Nat)
    (h : (clear_loop guard ks gr tr).2.length ≠ tr.length) :
    (clear_loop guard ks gr tr).1.edges.length < gr.edges.length := by
  induction ks generalizing gr tr with
  | nil => simp [clear_loop] at h
  | cons i ks ih =>
    by_cases hg : guard gr i = true
    · simp only [clear_loop, hg, if_true]
      have h1 := (clear_loop_keeps guard ks (gr.clear_vertex i) (tr ++ [i])).1.length_le
      have h2 := hguard gr i hg
      omega
    · have hg' : guard gr i = false := by simpa using hg
      simp only [clear_loop, hg', Bool.false_eq_true, if_false] at h ⊢
      exact ih gr tr h

theorem in_degree_pos_iff (gr : splice_graph) (k : Nat) :
    1 ≤ gr.in_degree k ↔ ∃ e ∈ gr.edges, e.target = k := by
  unfold splice_graph.in_degree splice_graph.in_edges
  rw [Nat.succ_le_iff, List.length_pos_iff_exists_mem]
  simp [List.mem_filter]

theorem out_degree_pos_iff (gr : splice_graph) (k : Nat) :
    1 ≤ gr.out_degree k ↔ ∃ e ∈ gr.edges, e.source = k := by
  unfold splice_graph.out_degree splice_graph.out_edges
  rw [Nat.succ_le_iff, List.length_pos_iff_exists_mem]
  simp [List.mem_filter]

theorem clear_vertex_shrinks (gr : splice_graph) (i : Nat) (h : gr.degree i ≠ 0) :
    (gr.clear_vertex i).edges.length < gr.edges.length := by
  unfold splice_graph.clear_vertex
  simp only
  rw [List.length_filter_lt_length_iff_exists]
  have h' : 1 ≤ gr.in_degree i ∨ 1 ≤ gr.out_degree i := by
    unfold splice_graph.degree at h; omega
  rcases h' with h' | h'
  · obtain ⟨e, he, ht⟩ := (in_degree_pos_iff gr i).mp h'
    exact ⟨e, he, by simp [ht]⟩
  · obtain ⟨e, he, hs⟩ := (out_degree_pos_iff gr i).mp h'
    exact ⟨e, he, by simp [hs]⟩

theorem refine_guard_shrinks (g : splice_graph) (i : Nat) (h : refine_guard g i = true) :
    (g.clear_vertex i).edges.length < g.edges.length := by
  apply clear_vertex_shrinks
  unfold refine_guard at h
  intro h0
  simp [h0] at h

theorem refine_loop_keeps (fuel : Nat) (gr : splice_graph) :
    (refine_loop fuel gr).edges.Sublist gr.edges ∧
    (refine_loop fuel gr).vinf = gr.vinf ∧ (refine_loop fuel gr).vwrt = gr.vwrt := by
  induction fuel generalizing gr with
  | zero => simp [refine_loop]
  | succ fuel ih =>
    simp only [refine_loop]
    obtain ⟨h1, h2, h3⟩ := clear_loop_keeps refine_guard gr.inner_range gr []
    split_ifs
    · exact ⟨h1, h2, h3⟩
    · obtain ⟨k1, k2, k3⟩ := ih (clear_loop refine_guard gr.inner_range gr []).1
      exact ⟨k1.trans h1, k2.trans h2, k3.trans h3⟩

theorem refine_loop_refined (fuel : Nat) (gr : splice_graph) (h : gr.edges.length < fuel) :
    (refine_loop fuel gr).refined := by
  induction fuel generalizing gr with
  | zero => omega
  | succ fuel ih =>
    simp only [refine_loop]
    by_cases hq : (clear_loop refine_guard gr.inner_range gr []).2.isEmpty = true
    · simp only [hq, if_true]
      have hq' : (clear_loop refine_guard gr.inner_range gr []).2.length
          = ([] : List Nat).length := by
        rw [List.isEmpty_iff] at hq
        simp [hq]
      have hall := clear_loop_quiet refine_guard gr.inner_range gr [] hq'
      rw [clear_loop_fixed refine_guard gr.inner_range gr [] hall]
      exact hall
    · simp only [hq, Bool.false_eq_true, if_false]
      apply ih
      have hne : (clear_loop refine_guard gr.inner_range gr []).2.length
          ≠ ([] : List Nat).length := by
        intro h0
        apply hq
        rw [List.isEmpty_iff]
        exact List.eq_nil_of_length_eq_zero h0
      have := clear_loop_shrinks refine_guard refine_guard_shrinks gr.inner_range gr [] hne
      omega

theorem refine_splice_graph_refined (gr : splice_graph) : (refine_splice_graph gr).refined :=
  refine_loop_refined _ gr (Nat.lt_succ_self _)

theorem refine_loop_of_refined (fuel : Nat) (gr : splice_graph) (h : gr.refined) :
    refine_loop fuel gr = gr := by
  cases fuel with
  | zero => rfl
  | succ fuel =>
    simp only [refine_loop]
    rw [clear_loop_fixed refine_guard gr.inner_range gr [] h]
    simp

theorem refine_splice_graph_of_refined (gr : splice_graph) (h : gr.refined) :
    refine_splice_graph gr = gr := refine_loop_of_refined _ gr h

theorem refined_iff (gr : splice_graph) :
    gr.refined ↔ ∀ i, 1 ≤ i → i + 2 ≤ gr.num_vertices →
      (gr.in_degree i = 0 ∧ gr.out_degree i = 0) ∨
      (1 ≤ gr.in_degree i ∧ 1 ≤ gr.out_degree i) := by
  unfold splice_graph.refined splice_graph.inner_range
  constructor
  · intro h i h1 h2
    have := h i (by rw [List.mem_range'_1]; omega)
    unfold refine_guard splice_graph.degree at this
    simp only [Bool.and_eq_false_imp, Bool.not_eq_true', beq_eq_false_iff_ne, ne_eq,
      Bool.not_eq_false, Bool.and_eq_true, decide_eq_true_eq] at this
    by_cases h0 : gr.in_degree i + gr.out_degree i = 0
    · left; omega
    · right; simpa using this h0
  · intro h i hi
    rw [List.mem_range'_1] at hi
    have := h i hi.1 (by omega)
    unfold refine_guard splice_graph.degree
    rcases this with ⟨a, b⟩ | ⟨a, b⟩
    · simp [a, b]
    · simp [a, b]

/-- C13 (refine postcondition).  After `refine_splice_graph(gr)` every internal vertex
`i` (`1 ≤ i ≤ N-2`) has in-degree and out-degree both zero or both at least one; the
edges of the result are a sublist of the edges of the input, vertex infos and
weights are the same; and a graph that already satisfies the postcondition is
returned unchanged. -/
theorem refine_splice_graph_postcondition (gr : splice_graph) :
    (∀ i, 1 ≤ i → i + 2 ≤ gr.num_vertices →
      ((refine_splice_graph gr).in_degree i = 0 ∧ (refine_splice_graph gr).out_degree i = 0) ∨
      (1 ≤ (refine_splice_graph gr).in_degree i ∧
        1 ≤ (refine_splice_graph gr).out_degree i)) ∧
    (refine_splice_graph gr).edges.Sublist gr.edges ∧
    (refine_splice_graph gr).vinf = gr.vinf ∧
    (refine_splice_graph gr).vwrt = gr.vwrt ∧
    ((∀ i, 1 ≤ i → i + 2 ≤ gr.num_vertices →
        (gr.in_degree i = 0 ∧ gr.out_degree i = 0) ∨
        (1 ≤ gr.in_degree i ∧ 1 ≤ gr.out_degree i)) →
      refine_splice_graph gr = gr) := by
  obtain ⟨h1, h2, h3⟩ := refine_loop_keeps (gr.edges.length + 1) gr
  refine ⟨?_, h1, h2, h3, ?_⟩
  · have h := (refined_iff _).mp (refine_splice_graph_refined gr)
    have hn : (refine_splice_graph gr).num_vertices = gr.num_vertices := by
      unfold splice_graph.num_vertices
      exact congrArg List.length h2
    rw [hn] at h
    exact h
  · intro h
    exact refine_splice_graph_of_refined gr ((refined_iff gr).mpr h)

/-! ## The reviser: operators only remove edges, except extend_boundaries -/

theorem subgraph_of_refl (g : splice_graph) : g.subgraph_of g :=
  ⟨List.Sublist.refl _, rfl, rfl⟩

theorem subgraph_of_trans {g1 g2 g3 : splice_graph} (h1 : g1.subgraph_of g2)
    (h2 : g2.subgraph_of g3) : g1.subgraph_of g3 :=
  ⟨h1.1.trans h2.1, h1.2.1.trans h2.2.1, h1.2.2.trans h2.2.2⟩

theorem subgraph_of_num_vertices {g1 g : splice_graph} (h : g1.subgraph_of g) :
    g1.num_vertices = g.num_vertices := by
  unfold splice_graph.num_vertices
  rw [h.2.1]

theorem forward_of_subgraph {g1 g : splice_graph} (h : g1.subgraph_of g) (hf : g.forward) :
    g1.forward := by
  intro e he
  rw [subgraph_of_num_vertices h]
  exact hf e (h.1.subset he)

theorem remove_edge_subgraph (g : splice_graph) (e : edge_base) :
    (g.remove_edge e).subgraph_of g :=
  ⟨List.erase_sublist _ _, rfl, rfl⟩

theorem foldl_remove_edge_subgraph (l : List edge_base) (g : splice_graph) :
    (l.foldl splice_graph.remove_edge g).subgraph_of g := by
  induction l generalizing g with
  | nil => exact subgraph_of_refl g
  | cons e l ih => exact subgraph_of_trans (ih _) (remove_edge_subgraph g e)

theorem clear_loop_subgraph (guard : splice_graph → Nat → Bool) (ks : List Nat)
    (gr : splice_graph) (tr : List Nat) :
    (clear_loop guard ks gr tr).1.subgraph_of gr :=
  clear_loop_keeps guard ks gr tr

theorem refine_splice_graph_subgraph (gr : splice_graph) :
    (refine_splice_graph gr).subgraph_of gr :=
  refine_loop_keeps _ gr

theorem remove_small_exons_subgraph (gr : splice_graph) (m : Int) :
    (remove_small_exons gr m).1.subgraph_of gr :=
  clear_loop_subgraph _ _ gr []

theorem remove_inner_boundaries_subgraph (gr : splice_graph) :
    (remove_inner_boundaries gr).1.subgraph_of gr :=
  clear_loop_subgraph _ _ gr []

theorem remove_intron_contamination_subgraph (gr : splice_graph) (r : ℚ) :
    (remove_intron_contamination gr r).1.subgraph_of gr :=
  clear_loop_subgraph _ _ gr []

theorem remove_small_junctions_subgraph (gr : splice_graph) :
    (remove_small_junctions gr).1.subgraph_of gr := by
  unfold remove_small_junctions
  split_ifs
  · exact subgraph_of_refl gr
  · exact foldl_remove_edge_subgraph _ gr

theorem keep_surviving_edges_subgraph (acc : Nat → List (Nat × Nat) → List Int)
    (gr g1 : splice_graph) (w : ℚ) (b : Bool)
    (h : keep_surviving_edges acc gr w = some (g1, b)) : g1.subgraph_of gr := by
  unfold keep_surviving_edges at h
  split at h
  · exact absurd h (by simp)
  · split at h
    · exact absurd h (by simp)
    · simp only [Option.some.injEq, Prod.mk.injEq] at h
      rw [← h.1]
      exact foldl_remove_edge_subgraph _ gr

theorem set_edge_weight_ends (g : splice_graph) (e : edge_base) (w : ℚ) :
    (g.set_edge_weight e w).edges.map (fun x => (x.source, x.target))
      = g.edges.map (fun x => (x.source, x.target)) := by
  unfold splice_graph.set_edge_weight
  simp only [List.map_map]
  apply List.map_congr_left
  intro x _
  simp only [Function.comp]
  split_ifs <;> rfl

theorem mem_ends_iff (g : splice_graph) (s t : Nat) :
    (s, t) ∈ g.edges.map (fun x => (x.source, x.target))
      ↔ ∃ x ∈ g.edges, x.source = s ∧ x.target = t := by
  simp [List.mem_map]

theorem extend_boundaries_apply_vinf (gr : splice_graph) (e : edge_base) :
    (extend_boundaries_apply gr e).vinf = gr.vinf ∧
    (extend_boundaries_apply gr e).vwrt = gr.vwrt := by
  unfold extend_boundaries_apply
  simp only
  split_ifs <;> exact ⟨rfl, rfl⟩

theorem extend_boundaries_apply_mem (gr : splice_graph) (e x : edge_base)
    (hx : x ∈ (extend_boundaries_apply gr e).edges) :
    (∃ y ∈ gr.edges, y.source = x.source ∧ y.target = x.target) ∨
    (x.source = e.source ∧ x.target = gr.num_vertices - 1) ∨
    (x.source = 0 ∧ x.target = e.target) := by
  unfold extend_boundaries_apply at hx
  simp only at hx
  have hx := (List.erase_sublist _ _).subset hx
  have step : ∀ (g : splice_graph) (s t : Nat) (w : ℚ) (z : edge_base),
      z ∈ ((g.add_edge s t).1.set_edge_weight (g.add_edge s t).2 w).edges →
      (∃ y ∈ g.edges, y.source = z.source ∧ y.target = z.target) ∨
      (z.source = s ∧ z.target = t) := by
    intro g s t w z hz
    have h1 : (z.source, z.target) ∈
        ((g.add_edge s t).1.set_edge_weight (g.add_edge s t).2 w).edges.map
          (fun x => (x.source, x.target)) := List.mem_map_of_mem _ hz
    rw [set_edge_weight_ends] at h1
    simp only [splice_graph.add_edge, List.map_append, List.map_cons, List.map_nil,
      List.mem_append, List.mem_singleton, Prod.mk.injEq] at h1
    rcases h1 with h1 | h1
    · left
      obtain ⟨y, hy, hst⟩ := List.mem_map.mp h1
      simp only [Prod.mk.injEq] at hst
      exact ⟨y, hy, hst⟩
    · right; exact h1
  split_ifs at hx with h1 h2 h2
  · rcases step _ _ _ _ x hx with ⟨y, hy, hs, ht⟩ | h
    · rcases step _ _ _ _ y hy with ⟨y', hy', hs', ht'⟩ | h'
      · exact Or.inl ⟨y', hy', hs'.trans hs, ht'.trans ht⟩
      · exact Or.inr (Or.inl ⟨hs ▸ h'.1, ht ▸ h'.2⟩)
    · exact Or.inr (Or.inr h)
  · rcases step _ _ _ _ x hx with h | h
    · exact Or.inl h
    · exact Or.inr (Or.inl h)
  · rcases step _ _ _ _ x hx with h | h
    · exact Or.inl h
    · exact Or.inr (Or.inr h)
  · exact Or.inl ⟨x, hx, rfl, rfl⟩

theorem extend_boundaries_forward (gr : splice_graph) (hf : gr.forward) :
    (extend_boundaries gr).1.forward := by
  unfold extend_boundaries
  split
  · exact hf
  · rename_i e he
    have hcond := List.find?_some he
    have hmem := List.mem_of_find?_eq_some he
    have hfe := hf e hmem
    unfold extend_boundaries_cond at hcond
    simp only [Bool.and_eq_true, Bool.not_eq_true', decide_eq_false_iff_not] at hcond
    obtain ⟨⟨⟨_, hs0⟩, htn⟩, _⟩ := hcond
    intro x hx
    have hn : (extend_boundaries_apply gr e).num_vertices = gr.num_vertices := by
      unfold splice_graph.num_vertices
      rw [(extend_boundaries_apply_vinf gr e).1]
    rw [hn]
    rcases extend_boundaries_apply_mem gr e x hx with ⟨y, hy, hs, ht⟩ | ⟨hs, ht⟩ | ⟨hs, ht⟩
    · rw [← hs, ← ht]; exact hf y hy
    · rw [hs, ht]; omega
    · rw [hs, ht]; omega

theorem revise_pass_inv (P : splice_graph → Prop)
    (hsub : ∀ g1 g : splice_graph, g1.subgraph_of g → P g → P g1)
    (hext : ∀ g, P g → P (extend_boundaries g).1)
    (acc : Nat → List (Nat × Nat) → List Int) (cfg : parameters) (gr g1 : splice_graph)
    (b : Bool) (h : revise_pass acc cfg gr = some (g1, b)) (hP : P gr) : P g1 := by
  have s6 : ∀ g, P g → revise_from_contamination cfg g = some (g1, b) → P g1 := by
    intro g hg h
    unfold revise_from_contamination at h
    cases h
    exact hsub _ _ (remove_intron_contamination_subgraph g _) hg
  have s5 : ∀ g, P g → revise_from_surviving acc cfg g = some (g1, b) → P g1 := by
    intro g hg h
    unfold revise_from_surviving at h
    split at h
    · exact absurd h (by simp)
    · rename_i g5 hk
      cases h
      exact hsub _ _ (refine_splice_graph_subgraph _)
        (hsub _ _ (keep_surviving_edges_subgraph acc _ g5 _ _ hk) hg)
    · rename_i g5 hk
      exact s6 g5 (hsub _ _ (keep_surviving_edges_subgraph acc _ g5 _ _ hk) hg) h
  have s4 : ∀ g, P g → revise_from_junctions acc cfg g = some (g1, b) → P g1 := by
    intro g hg h
    unfold revise_from_junctions at h
    have h4 := hsub _ _ (remove_small_junctions_subgraph g) hg
    split_ifs at h
    · cases h; exact hsub _ _ (refine_splice_graph_subgraph _) h4
    · exact s5 _ h4 h
  have s3 : ∀ g, P g → revise_from_exons acc cfg g = some (g1, b) → P g1 := by
    intro g hg h
    unfold revise_from_exons at h
    have h3 := hsub _ _ (remove_small_exons_subgraph g cfg.min_exon_length) hg
    split_ifs at h
    · cases h; exact hsub _ _ (refine_splice_graph_subgraph _) h3
    · exact s4 _ h3 h
  have s2 : ∀ g, P g → revise_from_inner acc cfg g = some (g1, b) → P g1 := by
    intro g hg h
    unfold revise_from_inner at h
    have h2 := hsub _ _ (remove_inner_boundaries_subgraph g) hg
    split_ifs at h
    · cases h; exact h2
    · exact s3 _ h2 h
  unfold revise_pass at h
  split_ifs at h
  · cases h; exact hext gr hP
  · exact s2 _ (hext gr hP) h

theorem revise_loop_inv (P : splice_graph → Prop)
    (hsub : ∀ g1 g : splice_graph, g1.subgraph_of g → P g → P g1)
    (hext : ∀ g, P g → P (extend_boundaries g).1)
    (acc : Nat → List (Nat × Nat) → List Int) (cfg : parameters) (fuel : Nat)
    (gr g1 : splice_graph) (h : revise_loop acc cfg fuel gr = some g1) (hP : P gr) : P g1 := by
  induction fuel generalizing gr with
  | zero => simp [revise_loop] at h
  | succ fuel ih =>
    simp only [revise_loop] at h
    split at h
    · exact absurd h (by simp)
    · rename_i g2 hp
      exact ih g2 h (revise_pass_inv P hsub hext acc cfg gr g2 true hp hP)
    · rename_i g2 hp
      cases h
      exact revise_pass_inv P hsub hext acc cfg gr g1 false hp hP

theorem revise_full_inv (P : splice_graph → Prop)
    (hsub : ∀ g1 g : splice_graph, g1.subgraph_of g → P g → P g1)
    (hext : ∀ g, P g → P (extend_boundaries g).1)
    (acc : Nat → List (Nat × Nat) → List Int) (cfg : parameters) (fuel : Nat)
    (gr g1 : splice_graph) (h : revise_splice_graph_full acc cfg fuel gr = some g1)
    (hP : P gr) : P g1 := by
  unfold revise_splice_graph_full at h
  obtain ⟨g2, hg2, rfl⟩ := Option.map_eq_some'.mp h
  exact hsub _ _ (refine_splice_graph_subgraph _)
    (revise_loop_inv P hsub hext acc cfg fuel _ g2 hg2
      (hsub _ _ (refine_splice_graph_subgraph _) hP))

/-- C14 (DAG preservation under revision).  If every edge `(s,t)` of `gr` has `s < t`
(and `t` is a vertex of `gr`), the same holds after `extend_boundaries`, after the other
operators and `refine_splice_graph`, after every pass of `revise_splice_graph_full`,
and for its final result. -/
theorem revise_preserves_forward (acc : Nat → List (Nat × Nat) → List Int)
    (cfg : parameters) (gr : splice_graph)
    (h : ∀ e ∈ gr.edges, e.source < e.target ∧ e.target < gr.num_vertices) :
    (∀ e ∈ (extend_boundaries gr).1.edges, e.source < e.target ∧ e.target < gr.num_vertices) ∧
    (∀ e ∈ (refine_splice_graph gr).edges, e.source < e.target) ∧
    (∀ e ∈ (remove_inner_boundaries gr).1.edges, e.source < e.target) ∧
    (∀ e ∈ (remove_small_exons gr cfg.min_exon_length).1.edges, e.source < e.target) ∧
    (∀ e ∈ (remove_small_junctions gr).1.edges, e.source < e.target) ∧
    (∀ g1 b, keep_surviving_edges acc gr cfg.min_surviving_edge_weight = some (g1, b) →
      ∀ e ∈ g1.edges, e.source < e.target) ∧
    (∀ e ∈ (remove_intron_contamination gr cfg.max_intron_contamination_coverage).1.edges,
      e.source < e.target) ∧
    (∀ g1 b, revise_pass acc cfg gr = some (g1, b) →
      ∀ e ∈ g1.edges, e.source < e.target ∧ e.target < g1.num_vertices) ∧
    (∀ fuel g1, revise_splice_graph_full acc cfg fuel gr = some g1 →
      ∀ e ∈ g1.edges, e.source < e.target ∧ e.target < g1.num_vertices) := by
  have hf : gr.forward := h
  have hsub : ∀ g1 g : splice_graph, g1.subgraph_of g → g.forward → g1.forward :=
    fun _ _ h1 h2 => forward_of_subgraph h1 h2
  refine ⟨?_, ?_, ?_, ?_, ?_, ?_, ?_, ?_, ?_⟩
  · have h1 := extend_boundaries_forward gr hf
    have hn : (extend_boundaries gr).1.num_vertices = gr.num_vertices := by
      unfold extend_boundaries
      split
      · rfl
      · unfold splice_graph.num_vertices
        rw [(extend_boundaries_apply_vinf gr _).1]
    intro e he
    rw [← hn]
    exact h1 e he
  · exact fun e he => (hsub _ _ (refine_splice_graph_subgraph gr) hf e he).1
  · exact fun e he => (hsub _ _ (remove_inner_boundaries_subgraph gr) hf e he).1
  · exact fun e he => (hsub _ _ (remove_small_exons_subgraph gr _) hf e he).1
  · exact fun e he => (hsub _ _ (remove_small_junctions_subgraph gr) hf e he).1
  · exact fun g1 b hk e he =>
      (hsub _ _ (keep_surviving_edges_subgraph acc gr g1 _ b hk) hf e he).1
  · exact fun e he => (hsub _ _ (remove_intron_contamination_subgraph gr _) hf e he).1
  · exact fun g1 b hp =>
      revise_pass_inv splice_graph.forward hsub extend_boundaries_forward acc cfg gr g1 b hp hf
  · exact fun fuel g1 hr =>
      revise_full_inv splice_graph.forward hsub extend_boundaries_forward acc cfg fuel gr g1
        hr hf

theorem revise_preserves_forward_witness :
    (∀ e ∈ gap_reviser_graph.edges,
      e.source < e.target ∧ e.target < gap_reviser_graph.num_vertices) ∧
    (extend_boundaries gap_reviser_graph).1.edges
      = [{ source := 0, target := 1, weight := 1, id := 1 },
         { source := 2, target := 3, weight := 1, id := 3 },
         { source := 1, target := 3, weight := 50, id := 4 },
         { source := 0, target := 2, weight := 50, id := 5 }] ∧
    (∀ e ∈ (extend_boundaries gap_reviser_graph).1.edges,
      e.source < e.target ∧ e.target < gap_reviser_graph.num_vertices) :=
  ⟨by decide, by decide!,
   (revise_preserves_forward assign_connected_components reviser_cfg gap_reviser_graph
      (by decide)).1⟩

/-! ## The reviser: which vertices are cleared -/

theorem clear_loop_trace_mem (guard : splice_graph → Nat → Bool) (Q : splice_graph → Prop)
    (hstep : ∀ g i, Q g → Q (g.clear_vertex i)) (ks : List Nat) (g : splice_graph)
    (tr : List Nat) (hQ : Q g) :
    ∀ v ∈ (clear_loop guard ks g tr).2,
      v ∈ tr ∨ (v ∈ ks ∧ ∃ g1, Q g1 ∧ guard g1 v = true) := by
  induction ks generalizing g tr with
  | nil => intro v hv; exact Or.inl hv
  | cons i ks ih =>
    intro v hv
    simp only [clear_loop] at hv
    split_ifs at hv with hg
    · rcases ih (g.clear_vertex i) (tr ++ [i]) (hstep g i hQ) v hv with h | ⟨h1, h2⟩
      · rcases List.mem_append.mp h with h | h
        · exact Or.inl h
        · rw [List.mem_singleton] at h
          subst h
          exact Or.inr ⟨List.mem_cons_self _ _, g, hQ, hg⟩
      · exact Or.inr ⟨List.mem_cons_of_mem _ h1, h2⟩
    · rcases ih g tr hQ v hv with h | ⟨h1, h2⟩
      · exact Or.inl h
      · exact Or.inr ⟨List.mem_cons_of_mem _ h1, h2⟩

theorem forward_out_edges_last (g : splice_graph) (hf : g.forward) :
    g.out_edges (g.num_vertices - 1) = [] := by
  unfold splice_graph.out_edges
  rw [List.filter_eq_nil_iff]
  intro e he
  have := hf e he
  simp only [decide_eq_true_eq]
  omega

theorem remove_intron_contamination_guard_last (ratio : ℚ) (g : splice_graph)
    (hf : g.forward) :
    remove_intron_contamination_guard ratio g (g.num_vertices - 1) = false := by
  unfold remove_intron_contamination_guard
  rw [forward_out_edges_last g hf]
  split
  · rename_i h1 h2
    exact absurd h2 (by simp)
  · rfl

theorem extend_boundaries_vinf (g : splice_graph) :
    (extend_boundaries g).1.vinf = g.vinf ∧ (extend_boundaries g).1.vwrt = g.vwrt := by
  unfold extend_boundaries
  split
  · exact ⟨rfl, rfl⟩
  · exact extend_boundaries_apply_vinf g _

/-- C15 (sentinel immutability under revision).  On a graph whose edges `(s,t)` all have
`s < t` (with `t` a vertex): the loops of `refine_splice_graph`,
`remove_inner_boundaries`, `remove_small_exons` and `remove_intron_contamination` call
`clear_vertex` on no vertex `0` or `N-1`; a pass of `revise_splice_graph_full` leaves a
graph with the same property and the same vertex infos; and the result of
`revise_splice_graph_full` has the vertex infos (so the number of vertices and every
`lpos`, `rpos`) of the input. -/
theorem revise_keeps_sentinels (acc : Nat → List (Nat × Nat) → List Int)
    (cfg : parameters) (gr : splice_graph)
    (h : ∀ e ∈ gr.edges, e.source < e.target ∧ e.target < gr.num_vertices) :
    (∀ v ∈ (clear_loop refine_guard gr.inner_range gr []).2,
      v ≠ 0 ∧ v ≠ gr.num_vertices - 1) ∧
    (∀ v ∈ (clear_loop remove_inner_boundaries_guard gr.inner_range gr []).2,
      v ≠ 0 ∧ v ≠ gr.num_vertices - 1) ∧
    (∀ v ∈ (clear_loop (remove_small_exons_guard cfg.min_exon_length) gr.inner_range gr []).2,
      v ≠ 0 ∧ v ≠ gr.num_vertices - 1) ∧
    (∀ v ∈ (clear_loop
        (remove_intron_contamination_guard cfg.max_intron_contamination_coverage)
        (List.range' 1 (gr.num_vertices - 1)) gr []).2,
      v ≠ 0 ∧ v ≠ gr.num_vertices - 1) ∧
    (∀ g1 b, revise_pass acc cfg gr = some (g1, b) →
      g1.vinf = gr.vinf ∧
      ∀ e ∈ g1.edges, e.source < e.target ∧ e.target < g1.num_vertices) ∧
    (∀ fuel g1, revise_splice_graph_full acc cfg fuel gr = some g1 →
      g1.vinf = gr.vinf ∧ g1.num_vertices = gr.num_vertices ∧
      ∀ k, (g1.get_vertex_info k).lpos = (gr.get_vertex_info k).lpos ∧
           (g1.get_vertex_info k).rpos = (gr.get_vertex_info k).rpos) := by
  have hf : gr.forward := h
  have inner : ∀ (guard : splice_graph → Nat → Bool),
      ∀ v ∈ (clear_loop guard gr.inner_range gr []).2, v ≠ 0 ∧ v ≠ gr.num_vertices - 1 := by
    intro guard v hv
    rcases clear_loop_trace_mem guard (fun _ => True) (fun _ _ _ => trivial)
      gr.inner_range gr [] trivial v hv with h0 | ⟨h1, _⟩
    · exact absurd h0 (List.not_mem_nil _)
    · unfold splice_graph.inner_range at h1
      rw [List.mem_range'_1] at h1
      omega
  have hP : ∀ g1 g : splice_graph, g1.subgraph_of g →
      (g.vinf = gr.vinf ∧ g.forward) → (g1.vinf = gr.vinf ∧ g1.forward) :=
    fun g1 g h1 h2 => ⟨h1.2.1.trans h2.1, forward_of_subgraph h1 h2.2⟩
  have hE : ∀ g : splice_graph, (g.vinf = gr.vinf ∧ g.forward) →
      ((extend_boundaries g).1.vinf = gr.vinf ∧ (extend_boundaries g).1.forward) :=
    fun g h2 => ⟨(extend_boundaries_vinf g).1.trans h2.1, extend_boundaries_forward g h2.2⟩
  refine ⟨inner _, inner _, inner _, ?_, ?_, ?_⟩
  · intro v hv
    rcases clear_loop_trace_mem
      (remove_intron_contamination_guard cfg.max_intron_contamination_coverage)
      (fun g => g.num_vertices = gr.num_vertices ∧ g.forward)
      (fun g i hg => ⟨hg.1, forward_of_subgraph (clear_vertex_sublist g i |> fun s =>
        ⟨s, rfl, rfl⟩) hg.2⟩)
      (List.range' 1 (gr.num_vertices - 1)) gr [] ⟨rfl, hf⟩ v hv with h0 | ⟨h1, g1, hg1, hgd⟩
    · exact absurd h0 (List.not_mem_nil _)
    · rw [List.mem_range'_1] at h1
      refine ⟨by omega, ?_⟩
      intro hv1
      have := remove_intron_contamination_guard_last
        cfg.max_intron_contamination_coverage g1 hg1.2
      rw [hg1.1, ← hv1, hgd] at this
      exact absurd this (by simp)
  · intro g1 b hp
    exact revise_pass_inv (fun g => g.vinf = gr.vinf ∧ g.forward) hP hE acc cfg gr g1 b hp
      ⟨rfl, hf⟩
  · intro fuel g1 hr
    have hv := (revise_full_inv (fun g => g.vinf = gr.vinf ∧ g.forward) hP hE acc cfg fuel
      gr g1 hr ⟨rfl, hf⟩).1
    refine ⟨hv, ?_, ?_⟩
    · unfold splice_graph.num_vertices; rw [hv]
    · intro k
      unfold splice_graph.get_vertex_info
      rw [hv]
      exact ⟨rfl, rfl⟩

theorem revise_keeps_sentinels_witness :
    (∀ e ∈ retained_intron_graph.edges,
      e.source < e.target ∧ e.target < retained_intron_graph.num_vertices) ∧
    (clear_loop
        (remove_intron_contamination_guard reviser_cfg.max_intron_contamination_coverage)
        (List.range' 1 (retained_intron_graph.num_vertices - 1)) retained_intron_graph []).2
      = [2] ∧
    (∀ v ∈ (clear_loop
        (remove_intron_contamination_guard reviser_cfg.max_intron_contamination_coverage)
        (List.range' 1 (retained_intron_graph.num_vertices - 1)) retained_intron_graph []).2,
      v ≠ 0 ∧ v ≠ retained_intron_graph.num_vertices - 1) :=
  ⟨by decide, by decide!,
   (revise_keeps_sentinels assign_connected_components reviser_cfg retained_intron_graph
      (by decide)).2.2.2.1⟩

/-! ## The reviser: keep_surviving_edges -/

theorem foldl_erase_cons_of_not_mem (a : edge_base) (xs m : List edge_base) (h : a ∉ xs) :
    xs.foldl List.erase (a :: m) = a :: xs.foldl List.erase m := by
  induction xs generalizing m with
  | nil => rfl
  | cons x xs ih =>
    have hx : x ≠ a := fun h0 => h (h0 ▸ List.mem_cons_self _ _)
    have hxs : a ∉ xs := fun h0 => h (List.mem_cons_of_mem _ h0)
    simp only [List.foldl_cons]
    rw [List.erase_cons_tail (by simpa using Ne.symm hx)]
    exact ih _ hxs

theorem foldl_erase_filter (p : edge_base → Bool) (l : List edge_base) :
    (l.filter (fun e => !p e)).foldl List.erase l = l.filter p := by
  induction l with
  | nil => rfl
  | cons a l ih =>
    by_cases hp : p a = true
    · rw [List.filter_cons_of_pos hp, List.filter_cons_of_neg (by simp [hp]),
        foldl_erase_cons_of_not_mem a _ l (by simp [List.mem_filter, hp]), ih]
    · have hp' : p a = false := by simpa using hp
      rw [List.filter_cons_of_neg hp, List.filter_cons_of_pos (by simp [hp']),
        List.foldl_cons, List.erase_cons_head, ih]

theorem foldl_remove_edge_edges (l : List edge_base) (g : splice_graph) :
    (l.foldl splice_graph.remove_edge g).edges = l.foldl List.erase g.edges := by
  induction l generalizing g with
  | nil => rfl
  | cons e l ih => simp only [List.foldl_cons]; rw [ih]; rfl

theorem max_edge_foldl_mem (l : List edge_base) (a : Option edge_base) (e : edge_base)
    (h : l.foldl (fun best e =>
        match best with
        | none => some e
        | some b => if e.weight < b.weight then some b else some e) a = some e) :
    e ∈ l ∨ a = some e := by
  induction l generalizing a with
  | nil => exact Or.inr h
  | cons x l ih =>
    simp only [List.foldl_cons] at h
    rcases ih _ h with h1 | h1
    · exact Or.inl (List.mem_cons_of_mem _ h1)
    · cases a with
      | none =>
        simp only [Option.some.injEq] at h1
        exact Or.inl (h1 ▸ List.mem_cons_self _ _)
      | some b =>
        simp only at h1
        split_ifs at h1
        · exact Or.inr h1
        · simp only [Option.some.injEq] at h1
          exact Or.inl (h1 ▸ List.mem_cons_self _ _)

theorem max_edge_mem (l : List edge_base) (e : edge_base) (h : max_edge l = some e) :
    e ∈ l := by
  rcases max_edge_foldl_mem l none e h with h1 | h1
  · exact h1
  · exact absurd h1 (by simp)

theorem max_in_edge_spec (gr : splice_graph) (v : Nat) (e : edge_base)
    (h : gr.max_in_edge v = some e) : e ∈ gr.edges ∧ e.target = v := by
  have := max_edge_mem _ e h
  unfold splice_graph.in_edges at this
  simpa [List.mem_filter] using this

theorem max_out_edge_spec (gr : splice_graph) (v : Nat) (e : edge_base)
    (h : gr.max_out_edge v = some e) : e ∈ gr.edges ∧ e.source = v := by
  have := max_edge_mem _ e h
  unfold splice_graph.out_edges at this
  simpa [List.mem_filter] using this

theorem mem_edge_set_insert (se : List edge_base) (e x : edge_base) :
    x ∈ edge_set_insert se e ↔ x ∈ se ∨ x = e := by
  unfold edge_set_insert
  split_ifs with h
  · constructor
    · exact Or.inl
    · rintro (h1 | h1)
      · exact h1
      · exact h1 ▸ h
  · simp

theorem surviving_add_inv (P : edge_base → Prop) (gr : splice_graph) (st : surviving_state)
    (e : edge_base) (he : e ∈ gr.edges) (hP : P e) (h : surviving_inv P gr st) :
    surviving_inv P gr (st.add e) ∧ (∀ x ∈ st.se, x ∈ (st.add e).se) ∧ e ∈ (st.add e).se := by
  unfold surviving_state.add
  refine ⟨⟨?_, ?_, ?_⟩, ?_, ?_⟩
  · intro x hx
    rcases (mem_edge_set_insert _ _ _).mp hx with h1 | h1
    · exact h.1 x h1
    · exact h1 ▸ ⟨he, hP⟩
  · intro v hv
    rcases List.mem_cons.mp hv with h1 | h1
    · exact ⟨e, (mem_edge_set_insert _ _ _).mpr (Or.inr rfl), h1.symm⟩
    · obtain ⟨x, hx, hxt⟩ := h.2.1 v h1
      exact ⟨x, (mem_edge_set_insert _ _ _).mpr (Or.inl hx), hxt⟩
  · intro v hv
    rcases List.mem_cons.mp hv with h1 | h1
    · exact ⟨e, (mem_edge_set_insert _ _ _).mpr (Or.inr rfl), h1.symm⟩
    · obtain ⟨x, hx, hxt⟩ := h.2.2 v h1
      exact ⟨x, (mem_edge_set_insert _ _ _).mpr (Or.inl hx), hxt⟩
  · exact fun x hx => (mem_edge_set_insert _ _ _).mpr (Or.inl hx)
  · exact (mem_edge_set_insert _ _ _).mpr (Or.inr rfl)

theorem surviving_fold_inv (P : edge_base → Prop) (gr : splice_graph) (l : List edge_base)
    (st : surviving_state) (hl : ∀ e ∈ l, e ∈ gr.edges ∧ P e) (h : surviving_inv P gr st) :
    surviving_inv P gr (l.foldl surviving_state.add st) ∧
    (∀ x ∈ st.se, x ∈ (l.foldl surviving_state.add st).se) ∧
    (∀ e ∈ l, e ∈ (l.foldl surviving_state.add st).se) := by
  induction l generalizing st with
  | nil => exact ⟨h, fun _ hx => hx, fun _ he => absurd he (List.not_mem_nil _)⟩
  | cons a l ih =>
    obtain ⟨h1, h2, h3⟩ := surviving_add_inv P gr st a (hl a (List.mem_cons_self _ _)).1
      (hl a (List.mem_cons_self _ _)).2 h
    obtain ⟨k1, k2, k3⟩ := ih (st.add a) (fun e he => hl e (List.mem_cons_of_mem _ he)) h1
    refine ⟨k1, fun x hx => k2 x (h2 x hx), ?_⟩
    intro e he
    rcases List.mem_cons.mp he with h0 | h0
    · exact h0 ▸ k2 a h3
    · exact k3 e h0

theorem surviving_visit_in_spec (P : edge_base → Prop) (gr : splice_graph)
    (hP : ∀ v x, gr.max_in_edge v = some x → P x)
    (st st1 : surviving_state) (e : edge_base) (b : Bool)
    (h : surviving_visit_in gr st e = some (st1, b)) (hinv : surviving_inv P gr st) :
    surviving_inv P gr st1 ∧ (∀ x ∈ st.se, x ∈ st1.se) ∧
    (b = false → st1 = st ∧ (e.source ∈ st.sv1 ∨ e.source = 0)) := by
  unfold surviving_visit_in at h
  split_ifs at h with hc
  · split at h
    · exact absurd h (by simp)
    · rename_i ee hm
      split_ifs at h with hin
      simp only [Option.some.injEq, Prod.mk.injEq] at h
      obtain ⟨h1, h2⟩ := h
      subst h1 h2
      have hs := max_in_edge_spec gr _ ee hm
      refine ⟨⟨?_, ?_, ?_⟩, ?_, ?_⟩
      · intro x hx
        rcases List.mem_append.mp hx with h0 | h0
        · exact hinv.1 x h0
        · rw [List.mem_singleton] at h0
          exact h0 ▸ ⟨hs.1, hP _ _ hm⟩
      · intro v hv
        rcases List.mem_cons.mp hv with h0 | h0
        · exact ⟨ee, by simp, h0 ▸ hs.2⟩
        · obtain ⟨x, hx, hxt⟩ := hinv.2.1 v h0
          exact ⟨x, List.mem_append_left _ hx, hxt⟩
      · intro v hv
        rcases List.mem_cons.mp hv with h0 | h0
        · exact ⟨ee, by simp, h0.symm⟩
        · obtain ⟨x, hx, hxt⟩ := hinv.2.2 v h0
          exact ⟨x, List.mem_append_left _ hx, hxt⟩
      · exact fun x hx => List.mem_append_left _ hx
      · intro h0; exact absurd h0 (by simp)
  · simp only [Option.some.injEq, Prod.mk.injEq] at h
    obtain ⟨h1, h2⟩ := h
    subst h1
    refine ⟨hinv, fun _ hx => hx, fun _ => ⟨rfl, ?_⟩⟩
    by_cases h0 : e.source = 0
    · exact Or.inr h0
    · left
      by_contra hn
      exact hc ⟨hn, h0⟩

theorem surviving_visit_out_spec (P : edge_base → Prop) (gr : splice_graph)
    (hP : ∀ v x, gr.max_out_edge v = some x → P x)
    (st st1 : surviving_state) (e : edge_base) (b : Bool)
    (h : surviving_visit_out gr st e = some (st1, b)) (hinv : surviving_inv P gr st) :
    surviving_inv P gr st1 ∧ (∀ x ∈ st.se, x ∈ st1.se) ∧
    (b = false → st1 = st ∧ (e.target ∈ st.sv2 ∨ e.target = gr.num_vertices - 1)) := by
  unfold surviving_visit_out at h
  split_ifs at h with hc
  · split at h
    · exact absurd h (by simp)
    · rename_i ee hm
      split_ifs at h with hin
      simp only [Option.some.injEq, Prod.mk.injEq] at h
      obtain ⟨h1, h2⟩ := h
      subst h1 h2
      have hs := max_out_edge_spec gr _ ee hm
      refine ⟨⟨?_, ?_, ?_⟩, ?_, ?_⟩
      · intro x hx
        rcases List.mem_append.mp hx with h0 | h0
        · exact hinv.1 x h0
        · rw [List.mem_singleton] at h0
          exact h0 ▸ ⟨hs.1, hP _ _ hm⟩
      · intro v hv
        rcases List.mem_cons.mp hv with h0 | h0
        · exact ⟨ee, by simp, h0.symm⟩
        · obtain ⟨x, hx, hxt⟩ := hinv.2.1 v h0
          exact ⟨x, List.mem_append_left _ hx, hxt⟩
      · intro v hv
        rcases List.mem_cons.mp hv with h0 | h0
        · exact ⟨ee, by simp, h0 ▸ hs.2⟩
        · obtain ⟨x, hx, hxt⟩ := hinv.2.2 v h0
          exact ⟨x, List.mem_append_left _ hx, hxt⟩
      · exact fun x hx => List.mem_append_left _ hx
      · intro h0; exact absurd h0 (by simp)
  · simp only [Option.some.injEq, Prod.mk.injEq] at h
    obtain ⟨h1, h2⟩ := h
    subst h1
    refine ⟨hinv, fun _ hx => hx, fun _ => ⟨rfl, ?_⟩⟩
    by_cases h0 : e.target = gr.num_vertices - 1
    · exact Or.inr h0
    · left
      by_contra hn
      exact hc ⟨hn, h0⟩

theorem surviving_visit_spec (P : edge_base → Prop) (gr : splice_graph)
    (hPi : ∀ v x, gr.max_in_edge v = some x → P x)
    (hPo : ∀ v x, gr.max_out_edge v = some x → P x)
    (st st1 : surviving_state) (e : edge_base) (b : Bool)
    (h : surviving_visit gr st e = some (st1, b)) (hinv : surviving_inv P gr st) :
    surviving_inv P gr st1 ∧ (∀ x ∈ st.se, x ∈ st1.se) ∧
    (b = false → st1 = st ∧ (e.source ∈ st.sv1 ∨ e.source = 0) ∧
      (e.target ∈ st.sv2 ∨ e.target = gr.num_vertices - 1)) := by
  unfold surviving_visit at h
  split at h
  · exact absurd h (by simp)
  · rename_i sa ba ha
    split at h
    · exact absurd h (by simp)
    · rename_i sb bb hb
      simp only [Option.some.injEq, Prod.mk.injEq] at h
      obtain ⟨h1, h2⟩ := h
      subst h1 h2
      obtain ⟨a1, a2, a3⟩ := surviving_visit_in_spec P gr hPi st sa e ba ha hinv
      obtain ⟨b1, b2, b3⟩ := surviving_visit_out_spec P gr hPo sa sb e bb hb a1
      refine ⟨b1, fun x hx => b2 x (a2 x hx), ?_⟩
      intro hf
      simp only [Bool.or_eq_false_iff] at hf
      obtain ⟨e1, e2⟩ := a3 hf.1
      obtain ⟨e3, e4⟩ := b3 hf.2
      subst e1
      exact ⟨e3, e2, e4⟩

theorem surviving_scan_spec (P : edge_base → Prop) (gr : splice_graph)
    (hPi : ∀ v x, gr.max_in_edge v = some x → P x)
    (hPo : ∀ v x, gr.max_out_edge v = some x → P x)
    (st st1 : surviving_state) (l : List edge_base) (b : Bool)
    (h : surviving_scan gr st l = some (st1, b)) (hinv : surviving_inv P gr st) :
    surviving_inv P gr st1 ∧ (∀ x ∈ st.se, x ∈ st1.se) ∧
    (b = false → st1 = st ∧ ∀ e ∈ l, (e.source ∈ st.sv1 ∨ e.source = 0) ∧
      (e.target ∈ st.sv2 ∨ e.target = gr.num_vertices - 1)) := by
  induction l with
  | nil =>
    simp only [surviving_scan, Option.some.injEq, Prod.mk.injEq] at h
    obtain ⟨h1, h2⟩ := h
    subst h1
    exact ⟨hinv, fun _ hx => hx, fun _ => ⟨rfl, fun _ he => absurd he (List.not_mem_nil _)⟩⟩
  | cons e l ih =>
    simp only [surviving_scan] at h
    split at h
    · exact absurd h (by simp)
    · rename_i sa hv
      simp only [Option.some.injEq, Prod.mk.injEq] at h
      obtain ⟨h1, h2⟩ := h
      subst h1 h2
      obtain ⟨a1, a2, _⟩ := surviving_visit_spec P gr hPi hPo st sa e true hv hinv
      exact ⟨a1, a2, fun h0 => absurd h0 (by simp)⟩
    · rename_i sa hv
      obtain ⟨_, _, a3⟩ := surviving_visit_spec P gr hPi hPo st sa e false hv hinv
      obtain ⟨b1, b2, b3⟩ := ih h
      refine ⟨b1, b2, ?_⟩
      intro hb
      obtain ⟨c1, c2⟩ := b3 hb
      refine ⟨c1, ?_⟩
      intro x hx
      rcases List.mem_cons.mp hx with h0 | h0
      · exact h0 ▸ (a3 rfl).2
      · exact c2 x h0

theorem surviving_loop_spec (P : edge_base → Prop) (gr : splice_graph)
    (hPi : ∀ v x, gr.max_in_edge v = some x → P x)
    (hPo : ∀ v x, gr.max_out_edge v = some x → P x)
    (fuel : Nat) (st st1 : surviving_state)
    (h : surviving_loop gr fuel st = some st1) (hinv : surviving_inv P gr st) :
    surviving_inv P gr st1 ∧ (∀ x ∈ st.se, x ∈ st1.se) ∧
    (∀ e ∈ st1.se, (e.source ∈ st1.sv1 ∨ e.source = 0) ∧
      (e.target ∈ st1.sv2 ∨ e.target = gr.num_vertices - 1)) := by
  induction fuel generalizing st with
  | zero => simp [surviving_loop] at h
  | succ fuel ih =>
    simp only [surviving_loop] at h
    split at h
    · exact absurd h (by simp)
    · rename_i sa hs
      obtain ⟨a1, a2, _⟩ := surviving_scan_spec P gr hPi hPo st sa st.se true hs hinv
      obtain ⟨b1, b2, b3⟩ := ih sa h a1
      exact ⟨b1, fun x hx => b2 x (a2 x hx), b3⟩
    · rename_i sa hs
      simp only [Option.some.injEq] at h
      subst h
      obtain ⟨_, _, a3⟩ := surviving_scan_spec P gr hPi hPo st sa st.se false hs hinv
      exact ⟨hinv, fun _ hx => hx, (a3 rfl).2⟩

theorem mem_maximal_candidates (gr : splice_graph) (e : edge_base)
    (h : e ∈ (std_sort (fun a b => decide (a.weight < b.weight)) (inner_edges gr)).reverse.takeWhile
      (fun e => !decide (e.weight < 3 / 2))) :
    e ∈ inner_edges gr ∧ ¬ (e.weight < 3 / 2) := by
  have h1 := (List.takeWhile_sublist _).subset h
  rw [List.mem_reverse] at h1
  have h2 := (std_sort_perm _ _).subset h1
  have h3 := List.mem_takeWhile_imp h
  exact ⟨h2, by simpa using h3⟩

theorem mem_inner_edges (gr : splice_graph) (e : edge_base) :
    e ∈ inner_edges gr ↔ e ∈ gr.edges ∧ e.source ≠ 0 ∧ e.target ≠ gr.num_vertices - 1 := by
  unfold inner_edges
  simp [List.mem_filter, and_assoc]

theorem compute_maximal_edges_mem (acc : Nat → List (Nat × Nat) → List Int)
    (gr : splice_graph) (me : List edge_base) (h : compute_maximal_edges acc gr = some me) :
    ∀ e ∈ me, e ∈ inner_edges gr ∧ ¬ (e.weight < 3 / 2) := by
  unfold compute_maximal_edges at h
  obtain ⟨st, hst, rfl⟩ := Option.map_eq_some'.mp h
  refine foldlM_option_inv_mem _
    (fun s => ∀ e ∈ s.1, e ∈ inner_edges gr ∧ ¬ (e.weight < 3 / 2)) _ _ _ ?_ ?_ hst
  · intro s a s1 ha hI hs
    unfold compute_maximal_edges_step at hs
    split_ifs at hs
    · cases hs; exact hI
    · cases hs; exact hI
    · cases hs; exact hI
    · cases hs
      intro e he
      rcases List.mem_append.mp he with h0 | h0
      · exact hI e h0
      · rw [List.mem_singleton] at h0
        exact h0 ▸ mem_maximal_candidates gr a ha
  · intro e he
    exact absurd he (List.not_mem_nil _)

theorem keep_surviving_edges_spec (acc : Nat → List (Nat × Nat) → List Int)
    (gr g1 : splice_graph) (w : ℚ) (b : Bool)
    (h : keep_surviving_edges acc gr w = some (g1, b)) :
    ∃ me st, compute_maximal_edges acc gr = some me ∧
      surviving_inv (surviving_origin acc gr w) gr st ∧
      (∀ e ∈ gr.edges, ¬ (e.weight < w) → e ∈ st.se) ∧
      (∀ e ∈ me, e ∈ st.se) ∧
      (∀ e ∈ st.se, (e.source ∈ st.sv1 ∨ e.source = 0) ∧
        (e.target ∈ st.sv2 ∨ e.target = gr.num_vertices - 1)) ∧
      g1.edges = gr.edges.filter (fun e => decide (e ∈ st.se)) ∧
      g1.vinf = gr.vinf ∧ g1.vwrt = gr.vwrt ∧
      b = decide ((gr.edges.filter (fun e => !decide (e ∈ st.se))).length ≥ 1) := by
  have hsub := keep_surviving_edges_subgraph acc gr g1 w b h
  unfold keep_surviving_edges at h
  split at h
  · exact absurd h (by simp)
  · rename_i me hme
    split at h
    · exact absurd h (by simp)
    · rename_i st hst
      simp only [Option.some.injEq, Prod.mk.injEq] at h
      obtain ⟨hg, hb⟩ := h
      have hPi : ∀ v x, gr.max_in_edge v = some x → surviving_origin acc gr w x := by
        intro v x hx
        have := (max_in_edge_spec gr v x hx).2
        exact Or.inr (Or.inr (Or.inl (this ▸ hx)))
      have hPo : ∀ v x, gr.max_out_edge v = some x → surviving_origin acc gr w x := by
        intro v x hx
        have := (max_out_edge_spec gr v x hx).2
        exact Or.inr (Or.inr (Or.inr (this ▸ hx)))
      have h0 : surviving_inv (surviving_origin acc gr w) gr
          { se := [], sv1 := [], sv2 := [] } :=
        ⟨fun _ he => absurd he (List.not_mem_nil _),
         fun _ he => absurd he (List.not_mem_nil _),
         fun _ he => absurd he (List.not_mem_nil _)⟩
      obtain ⟨a1, _, a3⟩ := surviving_fold_inv (surviving_origin acc gr w) gr
        (gr.edges.filter (fun e => !decide (e.weight < w))) _
        (fun e he => by
          rw [List.mem_filter] at he
          exact ⟨he.1, Or.inl (by simpa using he.2)⟩) h0
      obtain ⟨b1, b2, b3⟩ := surviving_fold_inv (surviving_origin acc gr w) gr me _
        (fun e he => ⟨((mem_inner_edges gr e).mp (compute_maximal_edges_mem acc gr me hme e he).1).1,
          Or.inr (Or.inl ⟨me, hme, he⟩)⟩) a1
      obtain ⟨c1, c2, c3⟩ := surviving_loop_spec (surviving_origin acc gr w) gr hPi hPo _ _ st
        hst b1
      refine ⟨me, st, hme, c1, ?_, ?_, c3, ?_, hsub.2.1, hsub.2.2, hb.symm⟩
      · intro e he hw
        exact c2 e (b2 e (a3 e (by
          rw [List.mem_filter]
          exact ⟨he, by simpa using hw⟩)))
      · exact fun e he => c2 e (b3 e he)
      · rw [← hg, foldl_remove_edge_edges]
        exact foldl_erase_filter (fun e => decide (e ∈ st.se)) gr.edges

/-- C17 (surviving-edge retention).  When `keep_surviving_edges(gr, threshold)` returns:
every edge of weight at least `threshold` and every edge returned by
`compute_maximal_edges(gr)` is still in the graph; the edges of the result are a
sublist of the edges of `gr` (none added, no weight changed), vertex infos and
weights are the same; and the returned flag is true exactly when an edge of `gr` is
missing from the result. -/
theorem keep_surviving_edges_retention (acc : Nat → List (Nat × Nat) → List Int)
    (gr g1 : splice_graph) (threshold : ℚ) (b : Bool)
    (h : keep_surviving_edges acc gr threshold = some (g1, b)) :
    (∀ e ∈ gr.edges, threshold ≤ e.weight → e ∈ g1.edges) ∧
    (∀ me, compute_maximal_edges acc gr = some me → ∀ e ∈ me, e ∈ g1.edges) ∧
    g1.edges.Sublist gr.edges ∧ g1.vinf = gr.vinf ∧ g1.vwrt = gr.vwrt ∧
    (b = true ↔ ∃ e ∈ gr.edges, e ∉ g1.edges) ∧
    (b = true ↔ g1.edges.length < gr.edges.length) := by
  obtain ⟨me, st, hme, hinv, hw, hm, _, hg, hv, hvw, hb⟩ :=
    keep_surviving_edges_spec acc gr g1 threshold b h
  have hmem : ∀ e, e ∈ g1.edges ↔ e ∈ gr.edges ∧ e ∈ st.se := by
    intro e; rw [hg]; simp [List.mem_filter]
  refine ⟨?_, ?_, ?_, hv, hvw, ?_, ?_⟩
  · intro e he hle
    exact (hmem e).mpr ⟨he, hw e he (not_lt.mpr hle)⟩
  · intro me1 hme1 e he
    rw [hme] at hme1
    cases hme1
    exact (hmem e).mpr ⟨(hinv.1 e (hm e he)).1, hm e he⟩
  · rw [hg]; exact List.filter_sublist _
  · rw [hb]
    simp only [ge_iff_le, decide_eq_true_eq, Nat.succ_le_iff, List.length_pos_iff_exists_mem]
    constructor
    · rintro ⟨e, he⟩
      rw [List.mem_filter] at he
      exact ⟨e, he.1, fun h0 => by simpa using (And.intro ((hmem e).mp h0).2 he.2)⟩
    · rintro ⟨e, he, hn⟩
      refine ⟨e, ?_⟩
      rw [List.mem_filter]
      refine ⟨he, ?_⟩
      have : e ∉ st.se := fun h0 => hn ((hmem e).mpr ⟨he, h0⟩)
      simpa using this
  · rw [hb, hg]
    simp only [ge_iff_le, decide_eq_true_eq, Nat.succ_le_iff, List.length_pos_iff_exists_mem]
    rw [List.length_filter_lt_length_iff_exists]
    constructor
    · rintro ⟨e, he⟩
      rw [List.mem_filter] at he
      exact ⟨e, he.1, by simpa using he.2⟩
    · rintro ⟨e, he, hn⟩
      exact ⟨e, by rw [List.mem_filter]; exact ⟨he, by simpa using hn⟩⟩

theorem keep_surviving_edges_retention_witness :
    keep_surviving_edges assign_connected_components chord_reviser_graph 2
      = some (chain_reviser_graph, true) ∧
    ((∀ e ∈ chord_reviser_graph.edges, (2 : ℚ) ≤ e.weight → e ∈ chain_reviser_graph.edges) ∧
    (∀ me, compute_maximal_edges assign_connected_components chord_reviser_graph = some me →
      ∀ e ∈ me, e ∈ chain_reviser_graph.edges) ∧
    chain_reviser_graph.edges.Sublist chord_reviser_graph.edges ∧
    chain_reviser_graph.vinf = chord_reviser_graph.vinf ∧
    chain_reviser_graph.vwrt = chord_reviser_graph.vwrt ∧
    (true = true ↔ ∃ e ∈ chord_reviser_graph.edges, e ∉ chain_reviser_graph.edges) ∧
    (true = true ↔ chain_reviser_graph.edges.length < chord_reviser_graph.edges.length)) :=
  ⟨by decide!,
   keep_surviving_edges_retention assign_connected_components chord_reviser_graph
     chain_reviser_graph 2 true (by decide!)⟩

/-- C16 (surviving-edge closure).  When `keep_surviving_edges(gr, threshold)` returns,
every remaining edge `(s,t)` has `s = 0` or a remaining edge into `s`, and `t = N-1`
or a remaining edge out of `t`; and every remaining edge has weight at least
`threshold`, or was returned by `compute_maximal_edges`, or is the `max_in_edge` of
its target or the `max_out_edge` of its source. -/
theorem keep_surviving_edges_closure (acc : Nat → List (Nat × Nat) → List Int)
    (gr g1 : splice_graph) (threshold : ℚ) (b : Bool)
    (h : keep_surviving_edges acc gr threshold = some (g1, b)) :
    (∀ e ∈ g1.edges,
      (e.source = 0 ∨ ∃ x ∈ g1.edges, x.target = e.source) ∧
      (e.target = gr.num_vertices - 1 ∨ ∃ x ∈ g1.edges, x.source = e.target)) ∧
    (∀ e ∈ g1.edges,
      threshold ≤ e.weight ∨
      (∃ me, compute_maximal_edges acc gr = some me ∧ e ∈ me) ∨
      gr.max_in_edge e.target = some e ∨ gr.max_out_edge e.source = some e) := by
  obtain ⟨me, st, hme, hinv, hw, hm, hcl, hg, hv, hvw, hb⟩ :=
    keep_surviving_edges_spec acc gr g1 threshold b h
  have hmem : ∀ e, e ∈ g1.edges ↔ e ∈ gr.edges ∧ e ∈ st.se := by
    intro e; rw [hg]; simp [List.mem_filter]
  refine ⟨?_, ?_⟩
  · intro e he
    have hes := ((hmem e).mp he).2
    obtain ⟨c1, c2⟩ := hcl e hes
    constructor
    · rcases c1 with c1 | c1
      · obtain ⟨x, hx, hxt⟩ := hinv.2.1 _ c1
        exact Or.inr ⟨x, (hmem x).mpr ⟨(hinv.1 x hx).1, hx⟩, hxt⟩
      · exact Or.inl c1
    · rcases c2 with c2 | c2
      · obtain ⟨x, hx, hxt⟩ := hinv.2.2 _ c2
        exact Or.inr ⟨x, (hmem x).mpr ⟨(hinv.1 x hx).1, hx⟩, hxt⟩
      · exact Or.inl c2
  · intro e he
    have := (hinv.1 e ((hmem e).mp he).2).2
    unfold surviving_origin at this
    rcases this with h0 | h0
    · exact Or.inl (not_lt.mp h0)
    · exact Or.inr h0

theorem keep_surviving_edges_closure_witness :
    keep_surviving_edges assign_connected_components chain_reviser_graph 2
      = some (chain_reviser_graph, false) ∧
    ((∀ e ∈ chain_reviser_graph.edges,
      (e.source = 0 ∨ ∃ x ∈ chain_reviser_graph.edges, x.target = e.source) ∧
      (e.target = chain_reviser_graph.num_vertices - 1 ∨
        ∃ x ∈ chain_reviser_graph.edges, x.source = e.target)) ∧
    (∀ e ∈ chain_reviser_graph.edges,
      (2 : ℚ) ≤ e.weight ∨
      (∃ me, compute_maximal_edges assign_connected_components chain_reviser_graph = some me
        ∧ e ∈ me) ∨
      chain_reviser_graph.max_in_edge e.target = some e ∨
      chain_reviser_graph.max_out_edge e.source = some e)) :=
  ⟨by decide!,
   keep_surviving_edges_closure assign_connected_components chain_reviser_graph
     chain_reviser_graph 2 false (by decide!)⟩

/-! ## The reviser: compute_maximal_edges -/

theorem mem_takeWhile_of_descending (p : edge_base → Bool) (l : List edge_base)
    (hl : l.Pairwise (fun a b => b.weight ≤ a.weight))
    (hp : ∀ a b, b.weight ≤ a.weight → p b = true → p a = true)
    (x : edge_base) (hx : x ∈ l) (hpx : p x = true) : x ∈ l.takeWhile p := by
  induction l with
  | nil => exact absurd hx (List.not_mem_nil _)
  | cons a l ih =>
    rw [List.pairwise_cons] at hl
    rcases List.mem_cons.mp hx with h0 | h0
    · subst h0
      rw [List.takeWhile_cons_of_pos hpx]
      exact List.mem_cons_self _ _
    · have hpa : p a = true := hp a x (hl.1 x h0) hpx
      rw [List.takeWhile_cons_of_pos hpa]
      exact List.mem_cons_of_mem _ (ih hl.2 h0)

theorem maximal_candidates_descending (gr : splice_graph) :
    ((std_sort (fun a b => decide (a.weight < b.weight)) (inner_edges gr)).reverse).Pairwise
      (fun a b => b.weight ≤ a.weight) := by
  rw [List.pairwise_reverse]
  have := std_sort_pairwise (fun a b : edge_base => decide (a.weight < b.weight))
    (fun _ => True)
    (fun a b _ _ h => by
      simp only [decide_eq_true_eq] at h
      simp only [decide_eq_false_iff_not, not_lt]
      exact le_of_lt h)
    (fun a b c _ _ _ h1 h2 => by
      simp only [decide_eq_false_iff_not, not_lt] at h1 h2 ⊢
      exact le_trans h1 h2)
    (inner_edges gr) (fun _ _ => trivial)
  refine this.imp ?_
  intro a b h
  simpa using h

theorem compute_maximal_edges_fold (gr : splice_graph) (vv : List Int) (T : List edge_base)
    (hT : T.Pairwise (fun a b => b.weight ≤ a.weight))
    (st st1 : List edge_base × List Int)
    (h : T.foldlM (compute_maximal_edges_step gr vv) st = some st1) :
    (∀ x ∈ st.1, x ∈ st1.1) ∧
    (∀ e ∈ T, e.source ≠ 0 → e.target ≠ gr.num_vertices →
      vv.getD e.source 0 ∈ st.2 ∨
      ∃ x ∈ st1.1, vv.getD x.source 0 = vv.getD e.source 0 ∧ e.weight ≤ x.weight) := by
  induction T generalizing st with
  | nil =>
    simp only [List.foldlM_nil, Option.pure_def, Option.some.injEq] at h
    subst h
    exact ⟨fun _ hx => hx, fun _ he => absurd he (List.not_mem_nil _)⟩
  | cons a T ih =>
    rw [List.pairwise_cons] at hT
    rw [List.foldlM_cons] at h
    cases hstep : compute_maximal_edges_step gr vv st a with
    | none => rw [hstep] at h; simp at h
    | some s2 =>
      rw [hstep] at h
      simp only [Option.bind_eq_bind, Option.some_bind] at h
      obtain ⟨k1, k2⟩ := ih hT.2 s2 h
      unfold compute_maximal_edges_step at hstep
      split_ifs at hstep with c1 c2 c3 c4
      · cases hstep
        refine ⟨k1, ?_⟩
        intro e he hs ht
        rcases List.mem_cons.mp he with h0 | h0
        · subst h0; exact absurd c1 hs
        · exact k2 e h0 hs ht
      · cases hstep
        refine ⟨k1, ?_⟩
        intro e he hs ht
        rcases List.mem_cons.mp he with h0 | h0
        · subst h0; exact absurd c2 ht
        · exact k2 e h0 hs ht
      · cases hstep
        refine ⟨k1, ?_⟩
        intro e he hs ht
        rcases List.mem_cons.mp he with h0 | h0
        · subst h0; exact Or.inl c4
        · exact k2 e h0 hs ht
      · cases hstep
        refine ⟨fun x hx => k1 x (List.mem_append_left _ hx), ?_⟩
        intro e he hs ht
        have ha : a ∈ st1.1 := k1 a (by simp)
        rcases List.mem_cons.mp he with h0 | h0
        · subst h0
          exact Or.inr ⟨e, ha, rfl, le_refl _⟩
        · rcases k2 e h0 hs ht with h1 | h1
          · rcases List.mem_cons.mp h1 with h2 | h2
            · exact Or.inr ⟨a, ha, h2.symm, hT.1 e h0⟩
            · exact Or.inl h2
          · exact Or.inr h1

theorem compute_maximal_edges_covers (acc : Nat → List (Nat × Nat) → List Int)
    (gr : splice_graph) (me : List edge_base) (h : compute_maximal_edges acc gr = some me)
    (e : edge_base) (he : e ∈ gr.edges) (hs : e.source ≠ 0)
    (ht : e.target ≠ gr.num_vertices - 1) (htn : e.target < gr.num_vertices)
    (hw : 3 / 2 ≤ e.weight) :
    ∃ x ∈ me, (component_numbers acc gr).getD x.source 0
        = (component_numbers acc gr).getD e.source 0 ∧ e.weight ≤ x.weight := by
  unfold compute_maximal_edges at h
  obtain ⟨st, hst, rfl⟩ := Option.map_eq_some'.mp h
  have hmem : e ∈ (std_sort (fun a b => decide (a.weight < b.weight))
      (inner_edges gr)).reverse.takeWhile (fun e => !decide (e.weight < 3 / 2)) := by
    apply mem_takeWhile_of_descending _ _ (maximal_candidates_descending gr)
    · intro a b hab hb
      simp only [Bool.not_eq_true', decide_eq_false_iff_not, not_lt] at hb ⊢
      exact le_trans hb hab
    · rw [List.mem_reverse]
      exact (std_sort_perm _ _).symm.subset ((mem_inner_edges gr e).mpr ⟨he, hs, ht⟩)
    · simpa using hw
  have hdesc := (maximal_candidates_descending gr).sublist
    (List.takeWhile_sublist (fun e : edge_base => !decide (e.weight < 3 / 2)))
  rcases (compute_maximal_edges_fold gr _ _ hdesc _ st hst).2 e hmem hs (by omega) with h0 | h0
  · exact absurd h0 (List.not_mem_nil _)
  · exact h0

/-- C18 (maximal-cover guarantee, amended).  When `compute_maximal_edges` returns: for
every edge `e` of the undirected projection (not leaving vertex `0`, not entering
vertex `N-1`) of weight at least `1.5` it has returned an edge with the component
number of `e` and at least the weight of `e`, and that edge is still in the graph
after `keep_surviving_edges`; every edge it has returned is an edge of the projection
of weight at least `1.5`; and a component whose edges all weigh less than `1.5` gets no
edge: no returned edge has an end with the component number of such a component. -/
theorem compute_maximal_edges_cover_heavy (acc : Nat → List (Nat × Nat) → List Int)
    (gr : splice_graph) (me : List edge_base) (h : compute_maximal_edges acc gr = some me) :
    (∀ e ∈ gr.edges, e.source ≠ 0 → e.target ≠ gr.num_vertices - 1 →
      e.target < gr.num_vertices → 3 / 2 ≤ e.weight →
      (∃ x ∈ me, (component_numbers acc gr).getD x.source 0
          = (component_numbers acc gr).getD e.source 0 ∧ e.weight ≤ x.weight) ∧
      (∀ threshold g1 b, keep_surviving_edges acc gr threshold = some (g1, b) →
        ∃ x ∈ g1.edges, x ∈ me ∧ (component_numbers acc gr).getD x.source 0
          = (component_numbers acc gr).getD e.source 0)) ∧
    (∀ x ∈ me, x ∈ gr.edges ∧ x.source ≠ 0 ∧ x.target ≠ gr.num_vertices - 1 ∧
      3 / 2 ≤ x.weight) ∧
    (∀ c : Int,
      (∀ e ∈ gr.edges, e.source ≠ 0 → e.target ≠ gr.num_vertices - 1 →
        ((component_numbers acc gr).getD e.source 0 = c ∨
          (component_numbers acc gr).getD e.target 0 = c) → e.weight < 3 / 2) →
      ∀ x ∈ me, (component_numbers acc gr).getD x.source 0 ≠ c ∧
        (component_numbers acc gr).getD x.target 0 ≠ c) := by
  have hmem : ∀ x ∈ me, x ∈ gr.edges ∧ x.source ≠ 0 ∧ x.target ≠ gr.num_vertices - 1 ∧
      3 / 2 ≤ x.weight := by
    intro x hx
    obtain ⟨h1, h2⟩ := compute_maximal_edges_mem acc gr me h x hx
    obtain ⟨h3, h4, h5⟩ := (mem_inner_edges gr x).mp h1
    exact ⟨h3, h4, h5, not_lt.mp h2⟩
  refine ⟨?_, hmem, ?_⟩
  · intro e he hs ht htn hw
    obtain ⟨x, hx, hc, hwx⟩ := compute_maximal_edges_covers acc gr me h e he hs ht htn hw
    refine ⟨⟨x, hx, hc, hwx⟩, ?_⟩
    intro threshold g1 b hk
    obtain ⟨me1, st, hme, hinv, _, hm, _, hg, _⟩ :=
      keep_surviving_edges_spec acc gr g1 threshold b hk
    rw [h] at hme
    cases hme
    refine ⟨x, ?_, hx, hc⟩
    rw [hg, List.mem_filter]
    exact ⟨(hinv.1 x (hm x hx)).1, by simpa using hm x hx⟩
  · intro c hlight x hx
    obtain ⟨h1, h2, h3, h4⟩ := hmem x hx
    constructor
    · intro hc
      exact absurd (hlight x h1 h2 h3 (Or.inl hc)) (not_lt.mpr h4)
    · intro hc
      exact absurd (hlight x h1 h2 h3 (Or.inr hc)) (not_lt.mpr h4)

/-- C18, an instance: on `two_component_graph` the component `{1,2}` has the edge
`(1,2)` of weight 3, which is returned, and the component `{3,4}`, whose only edge
weighs 1, gets no edge. -/
theorem compute_maximal_edges_cover_heavy_witness :
    compute_maximal_edges assign_connected_components two_component_graph
      = some [{ source := 1, target := 2, weight := 3, id := 2 }] ∧
    component_numbers assign_connected_components two_component_graph = [0, 1, 1, 3, 3, 5] ∧
    ((∀ e ∈ two_component_graph.edges, e.source ≠ 0 →
      e.target ≠ two_component_graph.num_vertices - 1 →
      e.target < two_component_graph.num_vertices → 3 / 2 ≤ e.weight →
      (∃ x ∈ [({ source := 1, target := 2, weight := 3, id := 2 } : edge_base)],
        (component_numbers assign_connected_components two_component_graph).getD x.source 0
          = (component_numbers assign_connected_components two_component_graph).getD
              e.source 0 ∧
        e.weight ≤ x.weight) ∧
      (∀ threshold g1 b,
        keep_surviving_edges assign_connected_components two_component_graph threshold
          = some (g1, b) →
        ∃ x ∈ g1.edges,
          x ∈ [({ source := 1, target := 2, weight := 3, id := 2 } : edge_base)] ∧
          (component_numbers assign_connected_components two_component_graph).getD x.source 0
            = (component_numbers assign_connected_components two_component_graph).getD
                e.source 0)) ∧
    (∀ x ∈ [({ source := 1, target := 2, weight := 3, id := 2 } : edge_base)],
      x ∈ two_component_graph.edges ∧ x.source ≠ 0 ∧
      x.target ≠ two_component_graph.num_vertices - 1 ∧ 3 / 2 ≤ x.weight) ∧
    (∀ c : Int,
      (∀ e ∈ two_component_graph.edges, e.source ≠ 0 →
        e.target ≠ two_component_graph.num_vertices - 1 →
        ((component_numbers assign_connected_components two_component_graph).getD
            e.source 0 = c ∨
          (component_numbers assign_connected_components two_component_graph).getD
            e.target 0 = c) → e.weight < 3 / 2) →
      ∀ x ∈ [({ source := 1, target := 2, weight := 3, id := 2 } : edge_base)],
        (component_numbers assign_connected_components two_component_graph).getD
            x.source 0 ≠ c ∧
          (component_numbers assign_connected_components two_component_graph).getD
            x.target 0 ≠ c)) :=
  ⟨by decide!, by decide!,
   compute_maximal_edges_cover_heavy assign_connected_components two_component_graph
     [{ source := 1, target := 2, weight := 3, id := 2 }] (by decide!)⟩

/-- C18, counterexample.  On the graph with the single inner edge `(1,2)` of weight 1,
whose component holds an edge, `compute_maximal_edges` returns no edge, and
`keep_surviving_edges` with threshold 2 removes every edge. -/
theorem compute_maximal_edges_counterexample :
    ({ source := 1, target := 2, weight := 1, id := 2 } : edge_base)
      ∈ inner_edges gap_reviser_graph ∧
    compute_maximal_edges assign_connected_components gap_reviser_graph = some [] ∧
    keep_surviving_edges assign_connected_components gap_reviser_graph 2
      = some ({ gap_reviser_graph with edges := [] }, true) := by
  refine ⟨by decide, by decide!, by decide!⟩

/-! ## The reviser: operators that keep a refined graph refined -/

theorem refined_iff_exists (gr : splice_graph) :
    gr.refined ↔ ∀ j, 1 ≤ j → j + 2 ≤ gr.num_vertices →
      ((∃ e ∈ gr.edges, e.target = j) ↔ (∃ e ∈ gr.edges, e.source = j)) := by
  rw [refined_iff]
  constructor
  · intro h j h1 h2
    rw [← in_degree_pos_iff, ← out_degree_pos_iff]
    rcases h j h1 h2 with ⟨a, b⟩ | ⟨a, b⟩
    · omega
    · exact ⟨fun _ => b, fun _ => a⟩
  · intro h j h1 h2
    have := h j h1 h2
    rw [← in_degree_pos_iff, ← out_degree_pos_iff] at this
    omega

theorem mem_clear_vertex (gr : splice_graph) (i : Nat) (x : edge_base) :
    x ∈ (gr.clear_vertex i).edges ↔ x ∈ gr.edges ∧ x.source ≠ i ∧ x.target ≠ i := by
  unfold splice_graph.clear_vertex
  simp [List.mem_filter]

theorem mem_in_edges (gr : splice_graph) (k : Nat) (x : edge_base) :
    x ∈ gr.in_edges k ↔ x ∈ gr.edges ∧ x.target = k := by
  unfold splice_graph.in_edges
  simp [List.mem_filter]

theorem mem_out_edges (gr : splice_graph) (k : Nat) (x : edge_base) :
    x ∈ gr.out_edges k ↔ x ∈ gr.edges ∧ x.source = k := by
  unfold splice_graph.out_edges
  simp [List.mem_filter]

theorem other_out_edge (gr : splice_graph) (s i : Nat) (e1 : edge_base)
    (hin : gr.in_edges i = [e1]) (hout : 2 ≤ gr.out_degree s) :
    ∃ y ∈ gr.edges, y.source = s ∧ y.target ≠ i := by
  by_contra hcon
  have hall : ∀ y ∈ gr.out_edges s, y ∈ gr.in_edges i := by
    intro y hy
    rw [mem_out_edges] at hy
    rw [mem_in_edges]
    refine ⟨hy.1, ?_⟩
    by_contra hne
    exact hcon ⟨y, hy.1, hy.2, hne⟩
  have hsub : (gr.out_edges s).Sublist (gr.in_edges i) := by
    have h1 : gr.out_edges s = (gr.in_edges i).filter (fun e => e.source = s) := by
      unfold splice_graph.out_edges splice_graph.in_edges
      rw [List.filter_filter]
      apply List.filter_congr
      intro x hx
      by_cases hs : x.source = s
      · have := hall x ((mem_out_edges gr s x).mpr ⟨hx, hs⟩)
        rw [mem_in_edges] at this
        simp [hs, this.2]
      · simp [hs]
    rw [h1]
    exact List.filter_sublist _
  have := hsub.length_le
  rw [hin] at this
  unfold splice_graph.out_degree at hout
  simp only [List.length_singleton] at this
  omega

theorem other_in_edge (gr : splice_graph) (t i : Nat) (e2 : edge_base)
    (hout : gr.out_edges i = [e2]) (hin : 2 ≤ gr.in_degree t) :
    ∃ y ∈ gr.edges, y.target = t ∧ y.source ≠ i := by
  by_contra hcon
  have hall : ∀ y ∈ gr.in_edges t, y ∈ gr.out_edges i := by
    intro y hy
    rw [mem_in_edges] at hy
    rw [mem_out_edges]
    refine ⟨hy.1, ?_⟩
    by_contra hne
    exact hcon ⟨y, hy.1, hy.2, hne⟩
  have hsub : (gr.in_edges t).Sublist (gr.out_edges i) := by
    have h1 : gr.in_edges t = (gr.out_edges i).filter (fun e => e.target = t) := by
      unfold splice_graph.out_edges splice_graph.in_edges
      rw [List.filter_filter]
      apply List.filter_congr
      intro x hx
      by_cases hs : x.target = t
      · have := hall x ((mem_in_edges gr t x).mpr ⟨hx, hs⟩)
        rw [mem_out_edges] at this
        simp [hs, this.2]
      · simp [hs]
    rw [h1]
    exact List.filter_sublist _
  have := hsub.length_le
  rw [hout] at this
  unfold splice_graph.in_degree at hin
  simp only [List.length_singleton] at this
  omega

theorem remove_inner_boundaries_step_refined (g : splice_graph) (i : Nat)
    (hr : g.refined) (hg : remove_inner_boundaries_guard g i = true) :
    (g.clear_vertex i).refined := by
  rw [refined_iff_exists] at hr ⊢
  unfold remove_inner_boundaries_guard at hg
  split at hg
  · rename_i e1 e2 hin hout
    simp only [Bool.and_eq_true, Bool.not_eq_true', Bool.and_eq_false_imp,
      decide_eq_true_eq, decide_eq_false_iff_not, Decidable.not_not] at hg
    obtain ⟨⟨⟨_, hB⟩, hC⟩, _⟩ := hg
    have he1 : e1 ∈ g.in_edges i := by rw [hin]; exact List.mem_singleton_self _
    have he2 : e2 ∈ g.out_edges i := by rw [hout]; exact List.mem_singleton_self _
    rw [mem_in_edges] at he1
    rw [mem_out_edges] at he2
    intro j h1 h2
    rw [clear_vertex_num_vertices] at h2
    by_cases hji : j = i
    · subst hji
      constructor
      · rintro ⟨x, hx, hxt⟩
        exact absurd hxt ((mem_clear_vertex g j x).mp hx).2.2
      · rintro ⟨x, hx, hxs⟩
        exact absurd hxs ((mem_clear_vertex g j x).mp hx).2.1
    · constructor
      · rintro ⟨x, hx, hxt⟩
        rw [mem_clear_vertex] at hx
        obtain ⟨y, hy, hys⟩ := (hr j h1 h2).mp ⟨x, hx.1, hxt⟩
        by_cases hyt : y.target = i
        · have hy1 : y ∈ g.in_edges i := (mem_in_edges g i y).mpr ⟨hy, hyt⟩
          rw [hin, List.mem_singleton] at hy1
          subst hy1
          have hs0 : y.source ≠ 0 := by omega
          have hd : 2 ≤ g.out_degree y.source := by
            have h3 := (out_degree_pos_iff g y.source).mpr ⟨y, hy, rfl⟩
            have h4 := hB hs0
            omega
          obtain ⟨z, hz, hzs, hzt⟩ := other_out_edge g y.source i y hin hd
          exact ⟨z, (mem_clear_vertex g i z).mpr ⟨hz, by rw [hzs, hys]; exact hji, hzt⟩,
            hzs.trans hys⟩
        · exact ⟨y, (mem_clear_vertex g i y).mpr ⟨hy, by rw [hys]; exact hji, hyt⟩, hys⟩
      · rintro ⟨x, hx, hxs⟩
        rw [mem_clear_vertex] at hx
        obtain ⟨y, hy, hyt⟩ := (hr j h1 h2).mpr ⟨x, hx.1, hxs⟩
        by_cases hys : y.source = i
        · have hy1 : y ∈ g.out_edges i := (mem_out_edges g i y).mpr ⟨hy, hys⟩
          rw [hout, List.mem_singleton] at hy1
          subst hy1
          have ht0 : y.target ≠ g.num_vertices - 1 := by omega
          have hd : 2 ≤ g.in_degree y.target := by
            have h3 := (in_degree_pos_iff g y.target).mpr ⟨y, hy, rfl⟩
            have h4 := hC ht0
            omega
          obtain ⟨z, hz, hzt, hzs⟩ := other_in_edge g y.target i y hout hd
          exact ⟨z, (mem_clear_vertex g i z).mpr ⟨hz, hzs, by rw [hzt, hyt]; exact hji⟩,
            hzt.trans hyt⟩
        · exact ⟨y, (mem_clear_vertex g i y).mpr ⟨hy, hys, by rw [hyt]; exact hji⟩, hyt⟩
  · exact absurd hg (by simp)

theorem edge_spec (g : splice_graph) (s t : Nat) (ee : edge_base) (h : g.edge s t = some ee) :
    ee ∈ g.edges ∧ ee.source = s ∧ ee.target = t := by
  unfold splice_graph.edge at h
  have h1 := List.mem_of_find?_eq_some h
  have h2 := List.find?_some h
  simp only [decide_eq_true_eq] at h2
  exact ⟨h1, h2.1, h2.2⟩

theorem remove_intron_contamination_step_refined (ratio : ℚ) (g : splice_graph) (i : Nat)
    (hr : g.refined) (hg : remove_intron_contamination_guard ratio g i = true) :
    (g.clear_vertex i).refined := by
  rw [refined_iff_exists] at hr ⊢
  unfold remove_intron_contamination_guard at hg
  split at hg
  · rename_i e1 e2 hin hout
    simp only [Bool.and_eq_true] at hg
    obtain ⟨_, hee⟩ := hg
    split at hee
    · exact absurd hee (by simp)
    · rename_i ee hedge
      obtain ⟨hem, hes, het⟩ := edge_spec g _ _ ee hedge
      have he1 : e1 ∈ g.in_edges i := by rw [hin]; exact List.mem_singleton_self _
      have he2 : e2 ∈ g.out_edges i := by rw [hout]; exact List.mem_singleton_self _
      rw [mem_in_edges] at he1
      rw [mem_out_edges] at he2
      intro j h1 h2
      rw [clear_vertex_num_vertices] at h2
      by_cases hji : j = i
      · subst hji
        constructor
        · rintro ⟨x, hx, hxt⟩
          exact absurd hxt ((mem_clear_vertex g j x).mp hx).2.2
        · rintro ⟨x, hx, hxs⟩
          exact absurd hxs ((mem_clear_vertex g j x).mp hx).2.1
      · constructor
        · rintro ⟨x, hx, hxt⟩
          rw [mem_clear_vertex] at hx
          obtain ⟨y, hy, hys⟩ := (hr j h1 h2).mp ⟨x, hx.1, hxt⟩
          by_cases hyt : y.target = i
          · have hy1 : y ∈ g.in_edges i := (mem_in_edges g i y).mpr ⟨hy, hyt⟩
            rw [hin, List.mem_singleton] at hy1
            subst hy1
            refine ⟨ee, (mem_clear_vertex g i ee).mpr ⟨hem, by rw [hes, hys]; exact hji, ?_⟩,
              hes.trans hys⟩
            intro hti
            rw [het] at hti
            have h3 : e2 ∈ g.in_edges i := (mem_in_edges g i e2).mpr ⟨he2.1, hti⟩
            rw [hin, List.mem_singleton] at h3
            rw [← h3, he2.2] at hys
            exact hji hys.symm
          · exact ⟨y, (mem_clear_vertex g i y).mpr ⟨hy, by rw [hys]; exact hji, hyt⟩, hys⟩
        · rintro ⟨x, hx, hxs⟩
          rw [mem_clear_vertex] at hx
          obtain ⟨y, hy, hyt⟩ := (hr j h1 h2).mpr ⟨x, hx.1, hxs⟩
          by_cases hys : y.source = i
          · have hy1 : y ∈ g.out_edges i := (mem_out_edges g i y).mpr ⟨hy, hys⟩
            rw [hout, List.mem_singleton] at hy1
            subst hy1
            refine ⟨ee, (mem_clear_vertex g i ee).mpr ⟨hem, ?_, by rw [het, hyt]; exact hji⟩,
              het.trans hyt⟩
            intro hsi
            rw [hes] at hsi
            have h3 : e1 ∈ g.out_edges i := (mem_out_edges g i e1).mpr ⟨he1.1, hsi⟩
            rw [hout, List.mem_singleton] at h3
            rw [← h3, he1.2] at hyt
            exact hji hyt.symm
          · exact ⟨y, (mem_clear_vertex g i y).mpr ⟨hy, hys, by rw [hyt]; exact hji⟩, hyt⟩
  · exact absurd hg (by simp)

theorem clear_loop_inv (guard : splice_graph → Nat → Bool) (Q : splice_graph → Prop)
    (hstep : ∀ g i, Q g → guard g i = true → Q (g.clear_vertex i)) (ks : List Nat)
    (g : splice_graph) (tr : List Nat) (hQ : Q g) : Q (clear_loop guard ks g tr).1 := by
  induction ks generalizing g tr with
  | nil => exact hQ
  | cons i ks ih =>
    simp only [clear_loop]
    split_ifs with hg
    · exact ih _ _ (hstep g i hQ hg)
    · exact ih _ _ hQ

theorem remove_inner_boundaries_refined (g : splice_graph) (hr : g.refined) :
    (remove_inner_boundaries g).1.refined :=
  clear_loop_inv _ splice_graph.refined remove_inner_boundaries_step_refined _ g [] hr

theorem remove_intron_contamination_refined (g : splice_graph) (ratio : ℚ)
    (hr : g.refined) : (remove_intron_contamination g ratio).1.refined :=
  clear_loop_inv _ splice_graph.refined
    (remove_intron_contamination_step_refined ratio) _ g [] hr

theorem clear_loop_flag_false (guard : splice_graph → Nat → Bool) (ks : List Nat)
    (g : splice_graph) (h : (!(clear_loop guard ks g []).2.isEmpty) = false) :
    (clear_loop guard ks g []).1 = g := by
  have h1 : (clear_loop guard ks g []).2.length = ([] : List Nat).length := by
    simp only [Bool.not_eq_false', List.isEmpty_iff] at h
    rw [h]
  rw [clear_loop_fixed guard ks g [] (clear_loop_quiet guard ks g [] h1)]

theorem extend_boundaries_flag_false (g : splice_graph) (h : (extend_boundaries g).2 = false) :
    (extend_boundaries g).1 = g := by
  unfold extend_boundaries at h ⊢
  split
  · rfl
  · rename_i e he
    rw [he] at h
    exact absurd h (by simp)

theorem remove_small_junctions_flag_false (g : splice_graph)
    (h : (remove_small_junctions g).2 = false) : (remove_small_junctions g).1 = g := by
  unfold remove_small_junctions at h ⊢
  split_ifs with hc
  · rfl
  · rw [if_neg hc] at h
    exact absurd h (by simp)

theorem keep_surviving_edges_flag_false (acc : Nat → List (Nat × Nat) → List Int)
    (g g1 : splice_graph) (w : ℚ) (h : keep_surviving_edges acc g w = some (g1, false)) :
    g1 = g := by
  obtain ⟨me, st, _, _, _, _, _, hg, hv, hvw, hb⟩ := keep_surviving_edges_spec acc g g1 w false h
  have hall : ∀ e ∈ g.edges, e ∈ st.se := by
    intro e he
    by_contra hn
    have : 0 < (g.edges.filter (fun e => !decide (e ∈ st.se))).length := by
      rw [List.length_pos_iff_exists_mem]
      exact ⟨e, by rw [List.mem_filter]; exact ⟨he, by simpa using hn⟩⟩
    have h2 := hb.symm
    simp only [ge_iff_le, decide_eq_false_iff_not, not_le] at h2
    omega
  have he : g1.edges = g.edges := by
    rw [hg, List.filter_eq_self]
    intro e he
    simpa using hall e he
  cases g1
  cases g
  simp only at he hv hvw
  subst he hv hvw
  rfl

theorem in_degree_eq_countP (g : splice_graph) (j : Nat) :
    g.in_degree j = g.edges.countP (fun e => e.target = j) := by
  unfold splice_graph.in_degree splice_graph.in_edges
  rw [List.countP_eq_length_filter]

theorem out_degree_eq_countP (g : splice_graph) (j : Nat) :
    g.out_degree j = g.edges.countP (fun e => e.source = j) := by
  unfold splice_graph.out_degree splice_graph.out_edges
  rw [List.countP_eq_length_filter]

theorem countP_erase_of_mem (p : edge_base → Bool) (l : List edge_base) (e : edge_base)
    (he : e ∈ l) : (l.erase e).countP p + (if p e = true then 1 else 0) = l.countP p := by
  have h := (List.perm_cons_erase he).countP_eq p
  rw [h, List.countP_cons]

theorem in_degree_remove_edge (g : splice_graph) (e : edge_base) (he : e ∈ g.edges) (j : Nat) :
    (g.remove_edge e).in_degree j + (if e.target = j then 1 else 0) = g.in_degree j := by
  rw [in_degree_eq_countP, in_degree_eq_countP]
  have := countP_erase_of_mem (fun x => decide (x.target = j)) g.edges e he
  simpa [splice_graph.remove_edge] using this

theorem out_degree_remove_edge (g : splice_graph) (e : edge_base) (he : e ∈ g.edges) (j : Nat) :
    (g.remove_edge e).out_degree j + (if e.source = j then 1 else 0) = g.out_degree j := by
  rw [out_degree_eq_countP, out_degree_eq_countP]
  have := countP_erase_of_mem (fun x => decide (x.source = j)) g.edges e he
  simpa [splice_graph.remove_edge] using this

theorem in_degree_add_set (g : splice_graph) (s t : Nat) (w : ℚ) (j : Nat) :
    ((g.add_edge s t).1.set_edge_weight (g.add_edge s t).2 w).in_degree j
      = g.in_degree j + (if t = j then 1 else 0) := by
  rw [in_degree_eq_countP, in_degree_eq_countP]
  have h1 : ∀ l : List edge_base, l.countP (fun e => decide (e.target = j))
      = (l.map (fun x => (x.source, x.target))).countP (fun p => decide (p.2 = j)) := by
    intro l; rw [List.countP_map]; rfl
  rw [h1, set_edge_weight_ends, h1 g.edges]
  simp only [splice_graph.add_edge, List.map_append, List.countP_append, List.map_cons,
    List.map_nil, List.countP_cons, List.countP_nil, decide_eq_true_eq, zero_add]

theorem out_degree_add_set (g : splice_graph) (s t : Nat) (w : ℚ) (j : Nat) :
    ((g.add_edge s t).1.set_edge_weight (g.add_edge s t).2 w).out_degree j
      = g.out_degree j + (if s = j then 1 else 0) := by
  rw [out_degree_eq_countP, out_degree_eq_countP]
  have h1 : ∀ l : List edge_base, l.countP (fun e => decide (e.source = j))
      = (l.map (fun x => (x.source, x.target))).countP (fun p => decide (p.1 = j)) := by
    intro l; rw [List.countP_map]; rfl
  rw [h1, set_edge_weight_ends, h1 g.edges]
  simp only [splice_graph.add_edge, List.map_append, List.countP_append, List.map_cons,
    List.map_nil, List.countP_cons, List.countP_nil, decide_eq_true_eq, zero_add]

theorem mem_add_set (g : splice_graph) (s t : Nat) (w : ℚ) (e : edge_base)
    (he : e ∈ g.edges) (hne : e.source ≠ s ∨ e.target ≠ t) :
    e ∈ ((g.add_edge s t).1.set_edge_weight (g.add_edge s t).2 w).edges := by
  unfold splice_graph.set_edge_weight splice_graph.add_edge
  simp only [List.mem_map]
  refine ⟨e, List.mem_append_left _ he, ?_⟩
  rw [if_neg]
  intro h0
  rcases hne with h1 | h1
  · exact h1 (by rw [h0])
  · exact h1 (by rw [h0])

theorem extend_boundaries_apply_degrees (gr : splice_graph) (e : edge_base)
    (he : e ∈ gr.edges) (hs : e.source ≠ 0) (ht : e.target ≠ gr.num_vertices - 1)
    (j : Nat) (hj0 : j ≠ 0) (hjn : j ≠ gr.num_vertices - 1) :
    (extend_boundaries_apply gr e).in_degree j + (if e.target = j then 1 else 0)
      = gr.in_degree j + (if gr.in_degree e.target = 1 ∧ e.target = j then 1 else 0) ∧
    (extend_boundaries_apply gr e).out_degree j + (if e.source = j then 1 else 0)
      = gr.out_degree j + (if gr.out_degree e.source = 1 ∧ e.source = j then 1 else 0) := by
  unfold extend_boundaries_apply
  simp only
  by_cases c1 : gr.out_degree e.source = 1
  · simp only [c1, if_true, true_and]
    have hin1 : ∀ k, ((gr.add_edge e.source (gr.num_vertices - 1)).1.set_edge_weight
        (gr.add_edge e.source (gr.num_vertices - 1)).2
        (gr.get_vertex_weight e.source)).in_degree k
        = gr.in_degree k + (if gr.num_vertices - 1 = k then 1 else 0) :=
      fun k => in_degree_add_set gr _ _ _ k
    have hout1 : ∀ k, ((gr.add_edge e.source (gr.num_vertices - 1)).1.set_edge_weight
        (gr.add_edge e.source (gr.num_vertices - 1)).2
        (gr.get_vertex_weight e.source)).out_degree k
        = gr.out_degree k + (if e.source = k then 1 else 0) :=
      fun k => out_degree_add_set gr _ _ _ k
    have hm1 := mem_add_set gr e.source (gr.num_vertices - 1)
      (gr.get_vertex_weight e.source) e he (Or.inr ht)
    rw [hin1 e.target, if_neg (Ne.symm ht), add_zero]
    by_cases c2 : gr.in_degree e.target = 1
    · simp only [c2, if_true, true_and]
      have hm2 := mem_add_set _ 0 e.target (gr.get_vertex_weight e.target) e hm1 (Or.inl hs)
      have a1 := in_degree_remove_edge _ e hm2 j
      have a2 := out_degree_remove_edge _ e hm2 j
      rw [in_degree_add_set, hin1] at a1
      rw [out_degree_add_set, hout1] at a2
      rw [if_neg (Ne.symm hjn)] at a1
      rw [if_neg (Ne.symm hj0)] at a2
      constructor
      · omega
      · omega
    · simp only [c2, if_false, false_and]
      have a1 := in_degree_remove_edge _ e hm1 j
      have a2 := out_degree_remove_edge _ e hm1 j
      rw [hin1] at a1
      rw [hout1] at a2
      rw [if_neg (Ne.symm hjn)] at a1
      constructor
      · omega
      · omega
  · simp only [c1, if_false, false_and]
    by_cases c2 : gr.in_degree e.target = 1
    · simp only [c2, if_true, true_and]
      have hm2 := mem_add_set gr 0 e.target (gr.get_vertex_weight e.target) e he (Or.inl hs)
      have a1 := in_degree_remove_edge _ e hm2 j
      have a2 := out_degree_remove_edge _ e hm2 j
      rw [in_degree_add_set] at a1
      rw [out_degree_add_set] at a2
      rw [if_neg (Ne.symm hj0)] at a2
      constructor
      · omega
      · omega
    · simp only [c2, if_false, false_and]
      have a1 := in_degree_remove_edge _ e he j
      have a2 := out_degree_remove_edge _ e he j
      constructor
      · omega
      · omega

theorem extend_boundaries_refined (g : splice_graph) (hr : g.refined) :
    (extend_boundaries g).1.refined := by
  unfold extend_boundaries
  split
  · exact hr
  · rename_i e he
    have hcond := List.find?_some he
    have hmem := List.mem_of_find?_eq_some he
    unfold extend_boundaries_cond at hcond
    simp only [Bool.and_eq_true, Bool.not_eq_true', decide_eq_false_iff_not] at hcond
    obtain ⟨⟨⟨_, hs0⟩, htn⟩, _⟩ := hcond
    change (extend_boundaries_apply g e).refined
    rw [refined_iff] at hr ⊢
    intro j h1 h2
    have hn : (extend_boundaries_apply g e).num_vertices = g.num_vertices := by
      unfold splice_graph.num_vertices
      rw [(extend_boundaries_apply_vinf g e).1]
    rw [hn] at h2
    obtain ⟨a1, a2⟩ := extend_boundaries_apply_degrees g e hmem hs0 htn j (by omega) (by omega)
    have hj := hr j h1 h2
    have hin : 1 ≤ g.in_degree e.target := (in_degree_pos_iff g _).mpr ⟨e, hmem, rfl⟩
    have hout : 1 ≤ g.out_degree e.source := (out_degree_pos_iff g _).mpr ⟨e, hmem, rfl⟩
    by_cases ct : e.target = j
    · by_cases cs : e.source = j
      · rw [ct] at hin a1
        rw [cs] at hout a2
        simp only [ct, cs, if_true, and_true] at a1 a2
        split_ifs at a1 a2 <;> omega
      · rw [ct] at hin a1
        simp only [ct, cs, if_true, if_false, and_true, and_false] at a1 a2
        split_ifs at a1 a2 <;> omega
    · by_cases cs : e.source = j
      · rw [cs] at hout a2
        simp only [ct, cs, if_true, if_false, and_true, and_false] at a1 a2
        split_ifs at a1 a2 <;> omega
      · simp only [ct, cs, if_false, and_false] at a1 a2
        omega

/-! ## The reviser: a pass on a refined graph -/

theorem remove_small_exons_flag_false (g : splice_graph) (m : Int)
    (h : (remove_small_exons g m).2 = false) : (remove_small_exons g m).1 = g :=
  clear_loop_flag_false _ _ g h

theorem remove_inner_boundaries_flag_false (g : splice_graph)
    (h : (remove_inner_boundaries g).2 = false) : (remove_inner_boundaries g).1 = g :=
  clear_loop_flag_false _ _ g h

theorem remove_intron_contamination_flag_false (g : splice_graph) (r : ℚ)
    (h : (remove_intron_contamination g r).2 = false) :
    (remove_intron_contamination g r).1 = g :=
  clear_loop_flag_false _ _ g h

theorem revise_pass_refined (acc : Nat → List (Nat × Nat) → List Int) (cfg : parameters)
    (gr g1 : splice_graph) (b : Bool) (h : revise_pass acc cfg gr = some (g1, b))
    (hr : gr.refined) : g1.refined := by
  have s6 : ∀ g, g.refined → revise_from_contamination cfg g = some (g1, b) → g1.refined := by
    intro g hg h
    unfold revise_from_contamination at h
    cases h
    exact remove_intron_contamination_refined g _ hg
  have s5 : ∀ g, g.refined → revise_from_surviving acc cfg g = some (g1, b) → g1.refined := by
    intro g hg h
    unfold revise_from_surviving at h
    split at h
    · exact absurd h (by simp)
    · cases h
      exact refine_splice_graph_refined _
    · rename_i g5 hk
      rw [keep_surviving_edges_flag_false acc g g5 _ hk] at h
      exact s6 g hg h
  have s4 : ∀ g, g.refined → revise_from_junctions acc cfg g = some (g1, b) → g1.refined := by
    intro g hg h
    unfold revise_from_junctions at h
    split_ifs at h with c
    · cases h; exact refine_splice_graph_refined _
    · rw [remove_small_junctions_flag_false g (Bool.eq_false_iff.mpr c)] at h
      exact s5 g hg h
  have s3 : ∀ g, g.refined → revise_from_exons acc cfg g = some (g1, b) → g1.refined := by
    intro g hg h
    unfold revise_from_exons at h
    split_ifs at h with c
    · cases h; exact refine_splice_graph_refined _
    · rw [remove_small_exons_flag_false g _ (Bool.eq_false_iff.mpr c)] at h
      exact s4 g hg h
  have s2 : ∀ g, g.refined → revise_from_inner acc cfg g = some (g1, b) → g1.refined := by
    intro g hg h
    unfold revise_from_inner at h
    split_ifs at h with c
    · cases h; exact remove_inner_boundaries_refined g hg
    · rw [remove_inner_boundaries_flag_false g (Bool.eq_false_iff.mpr c)] at h
      exact s3 g hg h
  unfold revise_pass at h
  split_ifs at h with c
  · cases h; exact extend_boundaries_refined gr hr
  · rw [extend_boundaries_flag_false gr (Bool.eq_false_iff.mpr c)] at h
    exact s2 gr hr h

theorem revise_pass_break (acc : Nat → List (Nat × Nat) → List Int) (cfg : parameters)
    (gr g1 : splice_graph) (h : revise_pass acc cfg gr = some (g1, false)) : g1 = gr := by
  have s6 : ∀ g, revise_from_contamination cfg g = some (g1, false) → g1 = g := by
    intro g h
    unfold revise_from_contamination at h
    simp only [Option.some.injEq, Prod.mk.injEq] at h
    rw [← h.1]
    exact remove_intron_contamination_flag_false g _ h.2
  have s5 : ∀ g, revise_from_surviving acc cfg g = some (g1, false) → g1 = g := by
    intro g h
    unfold revise_from_surviving at h
    split at h
    · exact absurd h (by simp)
    · simp at h
    · rename_i g5 hk
      rw [keep_surviving_edges_flag_false acc g g5 _ hk] at h
      exact s6 g h
  have s4 : ∀ g, revise_from_junctions acc cfg g = some (g1, false) → g1 = g := by
    intro g h
    unfold revise_from_junctions at h
    split_ifs at h with c
    · simp at h
    · rw [remove_small_junctions_flag_false g (Bool.eq_false_iff.mpr c)] at h
      exact s5 g h
  have s3 : ∀ g, revise_from_exons acc cfg g = some (g1, false) → g1 = g := by
    intro g h
    unfold revise_from_exons at h
    split_ifs at h with c
    · simp at h
    · rw [remove_small_exons_flag_false g _ (Bool.eq_false_iff.mpr c)] at h
      exact s4 g h
  have s2 : ∀ g, revise_from_inner acc cfg g = some (g1, false) → g1 = g := by
    intro g h
    unfold revise_from_inner at h
    split_ifs at h with c
    · simp at h
    · rw [remove_inner_boundaries_flag_false g (Bool.eq_false_iff.mpr c)] at h
      exact s3 g h
  unfold revise_pass at h
  split_ifs at h with c
  · simp at h
  · rw [extend_boundaries_flag_false gr (Bool.eq_false_iff.mpr c)] at h
    exact s2 gr h

theorem revise_loop_fixpoint (acc : Nat → List (Nat × Nat) → List Int) (cfg : parameters)
    (fuel : Nat) (gr g1 : splice_graph) (h : revise_loop acc cfg fuel gr = some g1)
    (hr : gr.refined) : g1.refined ∧ revise_pass acc cfg g1 = some (g1, false) := by
  induction fuel generalizing gr with
  | zero => simp [revise_loop] at h
  | succ fuel ih =>
    simp only [revise_loop] at h
    split at h
    · exact absurd h (by simp)
    · rename_i g2 hp
      exact ih g2 h (revise_pass_refined acc cfg gr g2 true hp hr)
    · rename_i g2 hp
      cases h
      have := revise_pass_break acc cfg gr g1 hp
      subst this
      exact ⟨hr, hp⟩

/-- C12 (revision idempotence).  If `revise_splice_graph_full(g, cfg)` returns the graph
`g1`, then running it on `g1` returns, within one pass of its loop, the graph `g1`
again: edges, edge weights, vertex infos and vertex weights are the same. -/
theorem revise_splice_graph_full_idempotent (acc : Nat → List (Nat × Nat) → List Int)
    (cfg : parameters) (fuel : Nat) (g g1 : splice_graph)
    (h : revise_splice_graph_full acc cfg fuel g = some g1) :
    ∀ fuel2, 1 ≤ fuel2 → revise_splice_graph_full acc cfg fuel2 g1 = some g1 := by
  unfold revise_splice_graph_full at h
  obtain ⟨g2, hg2, hg1⟩ := Option.map_eq_some'.mp h
  obtain ⟨hr, hp⟩ := revise_loop_fixpoint acc cfg fuel _ g2 hg2 (refine_splice_graph_refined g)
  rw [refine_splice_graph_of_refined g2 hr] at hg1
  subst hg1
  intro fuel2 hf
  obtain ⟨k, rfl⟩ : ∃ k, fuel2 = k + 1 := ⟨fuel2 - 1, by omega⟩
  unfold revise_splice_graph_full
  rw [refine_splice_graph_of_refined g2 hr]
  simp only [revise_loop, hp, Option.map_some', refine_splice_graph_of_refined g2 hr]

theorem revise_splice_graph_full_idempotent_witness :
    revise_splice_graph_full assign_connected_components reviser_cfg 10 retained_intron_graph
      = some { retained_intron_graph with
                 edges := [{ source := 0, target := 1, weight := 6, id := 1 },
                           { source := 1, target := 3, weight := 5, id := 4 },
                           { source := 3, target := 4, weight := 6, id := 5 }] } ∧
    ∀ fuel2, 1 ≤ fuel2 →
      revise_splice_graph_full assign_connected_components reviser_cfg fuel2
        { retained_intron_graph with
            edges := [{ source := 0, target := 1, weight := 6, id := 1 },
                      { source := 1, target := 3, weight := 5, id := 4 },
                      { source := 3, target := 4, weight := 6, id := 5 }] }
      = some { retained_intron_graph with
                 edges := [{ source := 0, target := 1, weight := 6, id := 1 },
                           { source := 1, target := 3, weight := 5, id := 4 },
                           { source := 3, target := 4, weight := 6, id := 5 }] } :=
  ⟨by decide!,
   revise_splice_graph_full_idempotent assign_connected_components reviser_cfg 10
     retained_intron_graph _ (by decide!)⟩

/-! ## extend_boundaries: the edges it adds -/

theorem foldl_max_le (l : List Nat) (a : Nat) :
    a ≤ l.foldl max a ∧ ∀ x ∈ l, x ≤ l.foldl max a := by
  induction l generalizing a with
  | nil => exact ⟨le_refl _, fun _ h => absurd h (List.not_mem_nil _)⟩
  | cons b l ih =>
    simp only [List.foldl_cons]
    obtain ⟨h1, h2⟩ := ih (max a b)
    refine ⟨le_trans (le_max_left a b) h1, ?_⟩
    intro x hx
    rcases List.mem_cons.mp hx with h0 | h0
    · rw [h0]; exact le_trans (le_max_right a b) h1
    · exact h2 x h0

theorem edge_id_lt_fresh (g : splice_graph) (e : edge_base) (he : e ∈ g.edges) :
    e.id < g.fresh_id := by
  unfold splice_graph.fresh_id
  have := (foldl_max_le (g.edges.map (fun e => e.id)) 0).2 e.id
    (List.mem_map_of_mem (fun e => e.id) he)
  omega

theorem add_set_edges (g : splice_graph) (s t : Nat) (w : ℚ) :
    ((g.add_edge s t).1.set_edge_weight (g.add_edge s t).2 w).edges
      = g.edges ++ [{ source := s, target := t, weight := w, id := g.fresh_id }] := by
  unfold splice_graph.set_edge_weight splice_graph.add_edge
  simp only [List.map_append, List.map_cons, List.map_nil, if_true]
  congr 1
  conv_rhs => rw [← List.map_id g.edges]
  apply List.map_congr_left
  intro x hx
  rw [if_neg]
  · rfl
  · intro h0
    have h1 := edge_id_lt_fresh g x hx
    rw [h0] at h1
    simp only [splice_graph.fresh_id] at h1
    omega

/-- C27 (amended).  When `extend_boundaries` removes the edge `e = (s,t)`:
`out_degree(s) == 1` with `w(s) >= 10 w(e)^2 + 10`, or `in_degree(t) == 1` with
`w(t) >= 10 w(e)^2 + 10`; the edge `(s, N-1)`, of weight `w(s)`, is added exactly when
`out_degree(s) == 1`, and the edge `(0, t)`, of weight `w(t)`, exactly when
`in_degree(t) == 1`, whichever side passed the weight test. -/
theorem extend_boundaries_redirects (gr : splice_graph) (e : edge_base)
    (he : gr.edges.find? (extend_boundaries_cond gr) = some e) :
    ((gr.out_degree e.source = 1 ∧
        gr.get_vertex_weight e.source ≥ 10 * e.weight * e.weight + 10) ∨
     (gr.in_degree e.target = 1 ∧
        gr.get_vertex_weight e.target ≥ 10 * e.weight * e.weight + 10)) ∧
    (extend_boundaries gr).2 = true ∧
    ∃ i1 i2 : Nat, (extend_boundaries gr).1.edges =
      ((gr.edges ++
        (if gr.out_degree e.source = 1 then
          [({ source := e.source, target := gr.num_vertices - 1,
              weight := gr.get_vertex_weight e.source, id := i1 } : edge_base)] else [])) ++
        (if gr.in_degree e.target = 1 then
          [({ source := 0, target := e.target,
              weight := gr.get_vertex_weight e.target, id := i2 } : edge_base)] else [])).erase e := by
  have hcond := List.find?_some he
  unfold extend_boundaries_cond at hcond
  simp only [Bool.and_eq_true, Bool.not_eq_true', decide_eq_false_iff_not, Bool.or_eq_true,
    decide_eq_true_eq] at hcond
  obtain ⟨⟨⟨_, _⟩, htn⟩, hev⟩ := hcond
  refine ⟨hev, ?_, ?_⟩
  · unfold extend_boundaries; rw [he]
  · unfold extend_boundaries
    rw [he]
    simp only [extend_boundaries_apply]
    by_cases c1 : gr.out_degree e.source = 1
    · simp only [c1, if_true]
      rw [in_degree_add_set, if_neg (Ne.symm htn), add_zero]
      by_cases c2 : gr.in_degree e.target = 1
      · simp only [c2, if_true]
        refine ⟨gr.fresh_id,
          ((gr.add_edge e.source (gr.num_vertices - 1)).1.set_edge_weight
            (gr.add_edge e.source (gr.num_vertices - 1)).2
            (gr.get_vertex_weight e.source)).fresh_id, ?_⟩
        simp only [splice_graph.remove_edge]
        rw [add_set_edges, add_set_edges]
      · simp only [c2, if_false]
        refine ⟨gr.fresh_id, 0, ?_⟩
        simp only [splice_graph.remove_edge]
        rw [add_set_edges, List.append_nil]
    · simp only [c1, if_false]
      by_cases c2 : gr.in_degree e.target = 1
      · simp only [c2, if_true]
        refine ⟨0, gr.fresh_id, ?_⟩
        simp only [splice_graph.remove_edge]
        rw [add_set_edges, List.append_nil]
      · simp only [c2, if_false]
        exact ⟨0, 0, by simp [splice_graph.remove_edge]⟩

theorem extend_boundaries_redirects_witness :
    light_gap_graph.edges.find? (extend_boundaries_cond light_gap_graph)
      = some { source := 1, target := 2, weight := 1, id := 2 } ∧
    (extend_boundaries light_gap_graph).2 = true ∧
    ∃ i1 i2 : Nat, (extend_boundaries light_gap_graph).1.edges =
      ((light_gap_graph.edges ++
        (if light_gap_graph.out_degree 1 = 1 then
          [({ source := 1, target := light_gap_graph.num_vertices - 1,
              weight := light_gap_graph.get_vertex_weight 1, id := i1 } : edge_base)] else [])) ++
        (if light_gap_graph.in_degree 2 = 1 then
          [({ source := 0, target := 2,
              weight := light_gap_graph.get_vertex_weight 2, id := i2 } : edge_base)] else [])).erase
        { source := 1, target := 2, weight := 1, id := 2 } :=
  ⟨by decide!,
   (extend_boundaries_redirects light_gap_graph
      { source := 1, target := 2, weight := 1, id := 2 } (by decide!)).2⟩

/-- C27, counterexample.  On two exons of weight 50 and 5 joined by a gap-crossing edge
of weight 1, `extend_boundaries` adds the edge `(0, 2)` although
`w(2) = 5 < 20 = 10 w(e)^2 + 10`: the test passed on the side of vertex 1 only. -/
theorem extend_boundaries_counterexample :
    light_gap_graph.in_degree 2 = 1 ∧
    ¬ (light_gap_graph.get_vertex_weight 2 ≥ 10 * 1 * 1 + 10) ∧
    (extend_boundaries light_gap_graph).2 = true ∧
    ({ source := 0, target := 2, weight := 5, id := 5 } : edge_base)
      ∈ (extend_boundaries light_gap_graph).1.edges ∧
    ∀ x ∈ light_gap_graph.edges, ¬ (x.source = 0 ∧ x.target = 2) := by
  refine ⟨by decide, by decide!, by decide!, by decide!, by decide⟩

/-! ## remove_inner_boundaries: the vertices it clears -/

theorem clear_loop_append (guard : splice_graph → Nat → Bool) (a b : List Nat)
    (gr : splice_graph) (tr : List Nat) :
    clear_loop guard (a ++ b) gr tr
      = clear_loop guard b (clear_loop guard a gr tr).1 (clear_loop guard a gr tr).2 := by
  induction a generalizing gr tr with
  | nil => rfl
  | cons i a ih =>
    simp only [List.cons_append, clear_loop]
    split_ifs
    · exact ih _ _
    · exact ih _ _

theorem clear_loop_trace_prefix (guard : splice_graph → Nat → Bool) (ks : List Nat)
    (gr : splice_graph) (tr : List Nat) :
    ∃ l, (clear_loop guard ks gr tr).2 = tr ++ l := by
  induction ks generalizing gr tr with
  | nil => exact ⟨[], by simp [clear_loop]⟩
  | cons i ks ih =>
    simp only [clear_loop]
    split_ifs
    · obtain ⟨l, hl⟩ := ih (gr.clear_vertex i) (tr ++ [i])
      exact ⟨i :: l, by rw [hl]; simp⟩
    · exact ih gr tr

theorem clear_loop_cleared (guard : splice_graph → Nat → Bool) (pre post : List Nat)
    (i : Nat) (gr : splice_graph)
    (hg : guard (clear_loop guard pre gr []).1 i = true) :
    (∀ e ∈ (clear_loop guard (pre ++ i :: post) gr []).1.edges, e.source ≠ i ∧ e.target ≠ i) ∧
    i ∈ (clear_loop guard (pre ++ i :: post) gr []).2 := by
  rw [clear_loop_append]
  simp only [clear_loop, hg, if_true]
  constructor
  · intro e he
    have h1 := (clear_loop_keeps guard post
      ((clear_loop guard pre gr []).1.clear_vertex i)
      ((clear_loop guard pre gr []).2 ++ [i])).1.subset he
    exact ((mem_clear_vertex _ i e).mp h1).2
  · rcases clear_loop_trace_prefix guard post
      ((clear_loop guard pre gr []).1.clear_vertex i)
      ((clear_loop guard pre gr []).2 ++ [i]) with ⟨l, hl⟩
    rw [hl]
    simp

theorem remove_inner_boundaries_guard_of (g : splice_graph) (i : Nat) (e1 e2 : edge_base)
    (hin : g.in_edges i = [e1]) (hout : g.out_edges i = [e2])
    (hA : e1.source = 0 ∨ e2.target = g.num_vertices - 1)
    (hB : e1.source ≠ 0 → g.out_degree e1.source ≠ 1)
    (hC : e2.target ≠ g.num_vertices - 1 → g.in_degree e2.target ≠ 1)
    (hd : (g.get_vertex_info i).stddev < 1 / 100) :
    remove_inner_boundaries_guard g i = true := by
  unfold remove_inner_boundaries_guard
  rw [hin, hout]
  simp only [Bool.and_eq_true, Bool.not_eq_true', Bool.and_eq_false_imp,
    decide_eq_true_eq, decide_eq_false_iff_not, Decidable.not_not]
  refine ⟨⟨⟨?_, ?_⟩, ?_⟩, not_le.mpr hd⟩
  · intro h0
    rcases hA with h1 | h1
    · exact absurd h1 h0
    · simpa using h1
  · exact hB
  · intro h0
    exact hC (by simpa using h0)

/-- C28 (amended).  Every internal vertex `i` that, when visited by the loop of
`remove_inner_boundaries`, has a single in-edge `e1` and a single out-edge `e2`, with
the source of `e1` vertex `0` or the target of `e2` vertex `N-1`, the source of `e1`
vertex `0` or of out-degree other than 1, the target of `e2` vertex `N-1` or of
in-degree other than 1, and `stddev < 0.01`, is cleared: the graph returned has no
edge at `i`, and the flag is true. -/
theorem remove_inner_boundaries_clears (gr : splice_graph) (pre post : List Nat) (i : Nat)
    (e1 e2 : edge_base) (hks : gr.inner_range = pre ++ i :: post)
    (hin : (clear_loop remove_inner_boundaries_guard pre gr []).1.in_edges i = [e1])
    (hout : (clear_loop remove_inner_boundaries_guard pre gr []).1.out_edges i = [e2])
    (hA : e1.source = 0 ∨ e2.target = gr.num_vertices - 1)
    (hB : e1.source ≠ 0 →
      (clear_loop remove_inner_boundaries_guard pre gr []).1.out_degree e1.source ≠ 1)
    (hC : e2.target ≠ gr.num_vertices - 1 →
      (clear_loop remove_inner_boundaries_guard pre gr []).1.in_degree e2.target ≠ 1)
    (hd : (gr.get_vertex_info i).stddev < 1 / 100) :
    (∀ e ∈ (remove_inner_boundaries gr).1.edges, e.source ≠ i ∧ e.target ≠ i) ∧
    (remove_inner_boundaries gr).2 = true := by
  have hv := (clear_loop_keeps remove_inner_boundaries_guard pre gr []).2.1
  have hn : (clear_loop remove_inner_boundaries_guard pre gr []).1.num_vertices
      = gr.num_vertices := by
    unfold splice_graph.num_vertices; rw [hv]
  have hg : remove_inner_boundaries_guard
      (clear_loop remove_inner_boundaries_guard pre gr []).1 i = true := by
    apply remove_inner_boundaries_guard_of _ i e1 e2 hin hout
    · rw [hn]; exact hA
    · exact hB
    · rw [hn]; exact hC
    · unfold splice_graph.get_vertex_info at hd ⊢
      rw [hv]; exact hd
  obtain ⟨k1, k2⟩ := clear_loop_cleared remove_inner_boundaries_guard pre post i gr hg
  unfold remove_inner_boundaries
  rw [hks]
  refine ⟨k1, ?_⟩
  simp only [Bool.not_eq_true', List.isEmpty_eq_false]
  intro h0
  rw [h0] at k2
  exact absurd k2 (List.not_mem_nil _)

theorem remove_inner_boundaries_clears_witness :
    boundary_pair_graph.inner_range = [] ++ 1 :: [2] ∧
    (remove_inner_boundaries boundary_pair_graph).1.edges = [] ∧
    ((∀ e ∈ (remove_inner_boundaries boundary_pair_graph).1.edges,
      e.source ≠ 1 ∧ e.target ≠ 1) ∧
    (remove_inner_boundaries boundary_pair_graph).2 = true) :=
  ⟨by decide, by decide!,
   remove_inner_boundaries_clears boundary_pair_graph [] [2] 1
     { source := 0, target := 1, weight := 1, id := 1 }
     { source := 1, target := 3, weight := 1, id := 2 }
     (by decide) (by decide) (by decide) (by decide) (by decide) (by decide) (by decide!)⟩

/-- C28, counterexample.  In the chain `0 → 1 → 2 → 3 → 4`, vertex 1 is visited first,
has in-degree 1 and out-degree 1, its predecessor is vertex `0` and its `stddev` is
`0`; `remove_inner_boundaries` leaves the graph as it is, because the successor of
vertex 1 has in-degree 1. -/
theorem remove_inner_boundaries_counterexample :
    scenario_graph.inner_range = [1, 2, 3] ∧
    scenario_graph.in_edges 1 = [{ source := 0, target := 1, weight := 100 }] ∧
    scenario_graph.out_edges 1 = [{ source := 1, target := 2, weight := 100 }] ∧
    (scenario_graph.get_vertex_info 1).stddev < 1 / 100 ∧
    remove_inner_boundaries scenario_graph = (scenario_graph, false) ∧
    scenario_graph.in_degree 2 = 1 := by
  refine ⟨by decide, by decide, by decide, by decide!, by decide!, by decide⟩

/-! ## remove_small_exons: the vertices it clears -/

theorem range_one_split (n v : Nat) (h1 : 1 ≤ v) (h2 : v ≤ n) :
    List.range' 1 n = List.range' 1 (v - 1) ++ v :: List.range' (v + 1) (n - v) := by
  obtain ⟨k, rfl⟩ : ∃ k, v = k + 1 := ⟨v - 1, by omega⟩
  obtain ⟨m, rfl⟩ : ∃ m, n = k + 1 + m := ⟨n - (k + 1), by omega⟩
  have e1 : k + 1 + m = (m + 1) + k := by omega
  have e2 : k + 1 + m - (k + 1) = m := by omega
  rw [e2, Nat.add_sub_cancel]
  rw [e1, ← List.range'_append_1, List.range'_succ, Nat.add_comm 1 k]

theorem clear_loop_inv_mem (guard : splice_graph → Nat → Bool) (Q : splice_graph → Prop)
    (ks : List Nat) (hstep : ∀ g i, i ∈ ks → Q g → guard g i = true → Q (g.clear_vertex i))
    (g : splice_graph) (tr : List Nat) (hQ : Q g) : Q (clear_loop guard ks g tr).1 := by
  induction ks generalizing g tr with
  | nil => exact hQ
  | cons i ks ih =>
    simp only [clear_loop]
    split_ifs with hg
    · exact ih (fun g j hj => hstep g j (List.mem_cons_of_mem _ hj)) _ _
        (hstep g i (List.mem_cons_self _ _) hQ hg)
    · exact ih (fun g j hj => hstep g j (List.mem_cons_of_mem _ hj)) _ _ hQ

theorem edge_isNone_iff (g : splice_graph) (s t : Nat) :
    (g.edge s t).isNone = true ↔ ∀ e ∈ g.edges, ¬ (e.source = s ∧ e.target = t) := by
  unfold splice_graph.edge
  rw [Option.isNone_iff_eq_none, List.find?_eq_none]
  simp

theorem degree_eq_zero_iff (g : splice_graph) (v : Nat) :
    g.degree v = 0 ↔ ∀ e ∈ g.edges, e.source ≠ v ∧ e.target ≠ v := by
  unfold splice_graph.degree
  constructor
  · intro h e he
    constructor
    · intro hs
      have := (out_degree_pos_iff g v).mpr ⟨e, he, hs⟩
      omega
    · intro ht
      have := (in_degree_pos_iff g v).mpr ⟨e, he, ht⟩
      omega
  · intro h
    have h1 : ¬ 1 ≤ g.in_degree v := by
      rw [in_degree_pos_iff]
      rintro ⟨e, he, ht⟩
      exact (h e he).2 ht
    have h2 : ¬ 1 ≤ g.out_degree v := by
      rw [out_degree_pos_iff]
      rintro ⟨e, he, hs⟩
      exact (h e he).1 hs
    omega

theorem remove_small_exons_guard_of (min_exon : Int) (g : splice_graph) (v : Nat)
    (hlen : (g.get_vertex_info v).rpos - (g.get_vertex_info v).lpos < min_exon)
    (hedge : (∃ e ∈ g.edges, e.source = 0 ∧ e.target = v) ∨
      (∃ e ∈ g.edges, e.source = v ∧ e.target = g.num_vertices - 1))
    (hl : ∀ e ∈ g.edges, e.target = v → e.source ≠ 0 →
      (g.get_vertex_info e.source).rpos ≠ (g.get_vertex_info v).lpos)
    (hr : ∀ e ∈ g.edges, e.source = v → e.target ≠ g.num_vertices - 1 →
      (g.get_vertex_info e.target).lpos ≠ (g.get_vertex_info v).rpos) :
    remove_small_exons_guard min_exon g v = true := by
  unfold remove_small_exons_guard
  simp only [Bool.and_eq_true, Bool.not_eq_true', decide_eq_false_iff_not, not_le,
    List.all_eq_true, Bool.and_eq_false_imp, decide_eq_true_eq, ge_iff_le]
  refine ⟨⟨⟨⟨hlen, ?_⟩, ?_⟩, ?_⟩, ?_⟩
  · rcases hedge with ⟨e, he, _, ht⟩ | ⟨e, he, hs, _⟩
    · have := (in_degree_pos_iff g v).mpr ⟨e, he, ht⟩
      unfold splice_graph.degree; omega
    · have := (out_degree_pos_iff g v).mpr ⟨e, he, hs⟩
      unfold splice_graph.degree; omega
  · intro e he h0
    rw [mem_in_edges] at he
    exact hl e he.1 he.2 h0
  · intro e he h0
    rw [mem_out_edges] at he
    exact hr e he.1 he.2 h0
  · intro h0
    rw [edge_isNone_iff] at h0
    rcases hedge with ⟨e, he, hs, ht⟩ | ⟨e, he, hs, ht⟩
    · exact absurd ⟨hs, ht⟩ (h0 e he)
    · rw [Bool.eq_false_iff]
      intro h1
      rw [edge_isNone_iff] at h1
      exact h1 e he ⟨hs, ht⟩

/-- C24 (remove_small_exons).  Every internal vertex `v` of the input graph with
`rpos - lpos < min_exon`, with an edge `(0,v)` or an edge `(v,N-1)`, with no in-edge
from a vertex other than `0` whose `rpos` is `v.lpos` and no out-edge to a vertex other
than `N-1` whose `lpos` is `v.rpos`, has degree `0` after `remove_small_exons`; and the
returned flag is true exactly when `clear_vertex` was called on some vertex. -/
theorem remove_small_exons_clears (gr : splice_graph) (min_exon : Int) (v : Nat)
    (h1 : 1 ≤ v) (h2 : v + 2 ≤ gr.num_vertices)
    (hlen : (gr.get_vertex_info v).rpos - (gr.get_vertex_info v).lpos < min_exon)
    (hedge : (∃ e ∈ gr.edges, e.source = 0 ∧ e.target = v) ∨
      (∃ e ∈ gr.edges, e.source = v ∧ e.target = gr.num_vertices - 1))
    (hl : ∀ e ∈ gr.edges, e.target = v → e.source ≠ 0 →
      (gr.get_vertex_info e.source).rpos ≠ (gr.get_vertex_info v).lpos)
    (hr : ∀ e ∈ gr.edges, e.source = v → e.target ≠ gr.num_vertices - 1 →
      (gr.get_vertex_info e.target).lpos ≠ (gr.get_vertex_info v).rpos) :
    (remove_small_exons gr min_exon).1.degree v = 0 ∧
    ((remove_small_exons gr min_exon).2 = true ↔
      (clear_loop (remove_small_exons_guard min_exon) gr.inner_range gr []).2 ≠ []) := by
  have hsplit : gr.inner_range
      = List.range' 1 (v - 1) ++ v :: List.range' (v + 1) (gr.num_vertices - 2 - v) := by
    unfold splice_graph.inner_range
    exact range_one_split (gr.num_vertices - 2) v h1 (by omega)
  have hQ := clear_loop_inv_mem (remove_small_exons_guard min_exon)
    (fun g => g.subgraph_of gr ∧
      ∀ e ∈ gr.edges, (e.source = 0 ∧ e.target = v) ∨
        (e.source = v ∧ e.target = gr.num_vertices - 1) → e ∈ g.edges)
    (List.range' 1 (v - 1))
    (by
      intro g i hi hg _
      rw [List.mem_range'_1] at hi
      refine ⟨subgraph_of_trans ⟨clear_vertex_sublist g i, rfl, rfl⟩ hg.1, ?_⟩
      intro e he hst
      rw [mem_clear_vertex]
      refine ⟨hg.2 e he hst, ?_, ?_⟩
      · rcases hst with ⟨hs, _⟩ | ⟨hs, _⟩ <;> omega
      · rcases hst with ⟨_, ht⟩ | ⟨_, ht⟩ <;> omega)
    gr [] ⟨subgraph_of_refl gr, fun e he _ => he⟩
  obtain ⟨hsub, hkeep⟩ := hQ
  have hinfo : ∀ k, (clear_loop (remove_small_exons_guard min_exon)
      (List.range' 1 (v - 1)) gr []).1.get_vertex_info k = gr.get_vertex_info k := by
    intro k; unfold splice_graph.get_vertex_info; rw [hsub.2.1]
  have hg : remove_small_exons_guard min_exon (clear_loop (remove_small_exons_guard min_exon)
      (List.range' 1 (v - 1)) gr []).1 v = true := by
    apply remove_small_exons_guard_of
    · rw [hinfo]; exact hlen
    · rw [subgraph_of_num_vertices hsub]
      rcases hedge with ⟨e, he, hst⟩ | ⟨e, he, hst⟩
      · exact Or.inl ⟨e, hkeep e he (Or.inl hst), hst⟩
      · exact Or.inr ⟨e, hkeep e he (Or.inr hst), hst⟩
    · intro e he ht hs
      rw [hinfo, hinfo]
      exact hl e (hsub.1.subset he) ht hs
    · intro e he hs ht
      rw [hinfo, hinfo]
      rw [subgraph_of_num_vertices hsub] at ht
      exact hr e (hsub.1.subset he) hs ht
  obtain ⟨k1, _⟩ := clear_loop_cleared (remove_small_exons_guard min_exon)
    (List.range' 1 (v - 1)) (List.range' (v + 1) (gr.num_vertices - 2 - v)) v gr hg
  refine ⟨?_, ?_⟩
  · rw [degree_eq_zero_iff]
    unfold remove_small_exons
    rw [hsplit]
    exact k1
  · unfold remove_small_exons
    simp only [Bool.not_eq_true', List.isEmpty_eq_false, ne_eq]

theorem remove_small_exons_clears_witness :
    remove_small_exons small_exon_graph 5
      = ({ small_exon_graph with
             edges := [{ source := 0, target := 2, weight := 1, id := 3 },
                       { source := 2, target := 3, weight := 1, id := 4 }] }, true) ∧
    ((remove_small_exons small_exon_graph 5).1.degree 1 = 0 ∧
    ((remove_small_exons small_exon_graph 5).2 = true ↔
      (clear_loop (remove_small_exons_guard 5) small_exon_graph.inner_range
        small_exon_graph []).2 ≠ [])) :=
  ⟨by decide!,
   remove_small_exons_clears small_exon_graph 5 1 (by decide) (by decide) (by decide)
     (by decide) (by decide) (by decide)⟩

/-! ## remove_small_junctions and filter_junctions on concrete graphs -/

/-- C29, the code on a failing input.  In `junction_graph` vertex 1 has weight 100, its
right-adjacent successor 2 gives `wt = 100`, and the crossing out-edge `(1,3)` has
weight 1, so `wt >= 2 w^2 + 18 = 20` and `w(1) >= 20`; vertex 1 has no left-adjacent
predecessor, so `ws = 0`.  `remove_small_junctions` tests `ws` for the out-edge too: it
removes nothing and returns false. -/
theorem remove_small_junctions_out_edge_kept :
    ({ source := 1, target := 3, weight := 1, id := 3 } : edge_base) ∈ junction_graph.edges ∧
    (junction_graph.get_vertex_info 3).lpos ≠ (junction_graph.get_vertex_info 1).rpos ∧
    small_junctions_wt junction_graph 1 = 100 ∧
    small_junctions_ws junction_graph 1 = 0 ∧
    junction_graph.get_vertex_weight 1 = 100 ∧
    (100 : ℚ) ≥ 2 * 1 * 1 + 18 ∧
    remove_small_junctions junction_graph = (junction_graph, false) := by
  refine ⟨by decide, by decide, by decide!, by decide!, by decide!, by decide!, by decide!⟩

/-- C30, the code on a failing input.  In `gap_reviser_graph` the edge `(1,2)` crosses
the gap from 200 to 300 and has weight 1; with an empty whitelist and
`surviving = 2`, `filter_junctions` leaves the graph as it is: the edge passes the
test `p1 <= p2` and is skipped. -/
theorem filter_junctions_crossing_kept :
    ({ source := 1, target := 2, weight := 1, id := 2 } : edge_base)
      ∈ gap_reviser_graph.edges ∧
    (gap_reviser_graph.get_vertex_info 1).rpos < (gap_reviser_graph.get_vertex_info 2).lpos ∧
    (1 : ℚ) < 2 ∧
    filter_junctions gap_reviser_graph [] 2 = gap_reviser_graph := by
  refine ⟨by decide, by decide, by decide!, by decide!⟩

/-! ## group_start_boundaries on scenario 5 -/

/-- C23 (scenario 5, amended).  For the start-boundary vertices with `lpos` 1000, 1005,
1020 joined by unit adjacencies and `max_group_boundary_distance = 10`,
`group_start_boundaries` produces `smap = {1005 -> 1000}`, keeps the edge `(0,3)` to the
vertex at 1020 with its weight 7, removes the edge `(0,2)` to the vertex at 1005 and
adds its weight 3 to the edge `(0,1)` to the vertex at 1000 (and to vertex 1 and the
adjacency edge `(1,2)`). -/
theorem group_start_boundaries_scenario5 :
    group_start_boundaries boundary_group_graph 10
      = some ({ boundary_group_graph with
                  edges := [{ source := 0, target := 1, weight := 13, id := 1 },
                            { source := 0, target := 3, weight := 7, id := 3 },
                            { source := 1, target := 2, weight := 13, id := 4 },
                            { source := 2, target := 3, weight := 13, id := 5 },
                            { source := 3, target := 4, weight := 20, id := 6 }]
                  vwrt := [0, 13, 13, 20, 0] },
               [(1005, 1000)]) := by
  decide!

/-- C23, counterexample.  The `smap` that `group_start_boundaries` produces on scenario
5 has no entry for 1020: a boundary that starts a new group is not recorded. -/
theorem group_start_boundaries_counterexample :
    (group_start_boundaries boundary_group_graph 10).map (fun r => r.2)
      = some [(1005, 1000)] ∧
    (group_start_boundaries boundary_group_graph 10).map (fun r => r.2)
      ≠ some [(1005, 1000), (1020, 1020)] := by
  refine ⟨by decide!, by decide!⟩

/-! ## Maps with summed values: combine_junctions, combine_start_bounds, combine_end_bounds -/

theorem map_accumulate_keys {K : Type} (lt : K → K → Bool)
    (htri : ∀ a b, lt a b = false → lt b a = false → a = b)
    (m : List (K × (ℚ × Int))) (p : K) (d : ℚ × Int) (x : K) :
    x ∈ (map_accumulate lt m p d).map Prod.fst ↔ x ∈ m.map Prod.fst ∨ x = p := by
  induction m with
  | nil => simp [map_accumulate]
  | cons a m ih =>
    obtain ⟨k, v⟩ := a
    simp only [map_accumulate]
    split_ifs with h1 h2
    · simp only [List.map_cons, List.mem_cons]
      tauto
    · simp only [List.map_cons, List.mem_cons, ih]
      tauto
    · have hk : p = k := htri p k (by simpa using h1) (by simpa using h2)
      subst hk
      simp only [List.map_cons, List.mem_cons]
      tauto

theorem map_accumulate_sorted {K : Type} (lt : K → K → Bool)
    (htri : ∀ a b, lt a b = false → lt b a = false → a = b)
    (htr : ∀ a b c, lt a b = true → lt b c = true → lt a c = true)
    (m : List (K × (ℚ × Int))) (p : K) (d : ℚ × Int)
    (hm : m.Pairwise (fun a b => lt a.1 b.1 = true)) :
    (map_accumulate lt m p d).Pairwise (fun a b => lt a.1 b.1 = true) := by
  induction m with
  | nil => simp [map_accumulate]
  | cons a m ih =>
    obtain ⟨k, v⟩ := a
    rw [List.pairwise_cons] at hm
    simp only [map_accumulate]
    split_ifs with h1 h2
    · rw [List.pairwise_cons]
      refine ⟨?_, List.pairwise_cons.mpr hm⟩
      intro y hy
      rcases List.mem_cons.mp hy with h0 | h0
      · rw [h0]; exact h1
      · exact htr _ _ _ h1 (hm.1 y h0)
    · rw [List.pairwise_cons]
      refine ⟨?_, ih hm.2⟩
      intro y hy
      have hy1 : y.1 ∈ (map_accumulate lt m p d).map Prod.fst := List.mem_map_of_mem _ hy
      rw [map_accumulate_keys lt htri] at hy1
      rcases hy1 with h0 | h0
      · obtain ⟨z, hz, hz1⟩ := List.mem_map.mp h0
        rw [← hz1]
        exact hm.1 z hz
      · rw [h0]; exact h2
    · rw [List.pairwise_cons]
      exact ⟨hm.1, hm.2⟩

theorem key_weight_cons {K : Type} [DecidableEq K] (a : K × (ℚ × Int))
    (m : List (K × (ℚ × Int))) (x : K) :
    key_weight (a :: m) x = (if a.1 = x then a.2.1 else 0) + key_weight m x ∧
    key_count (a :: m) x = (if a.1 = x then a.2.2 else 0) + key_count m x := by
  unfold key_weight key_count
  by_cases h : a.1 = x <;> simp [List.filter_cons, h]

theorem map_accumulate_weight {K : Type} [DecidableEq K] (lt : K → K → Bool)
    (htri : ∀ a b, lt a b = false → lt b a = false → a = b)
    (m : List (K × (ℚ × Int))) (p : K) (d : ℚ × Int) (x : K) :
    key_weight (map_accumulate lt m p d) x = key_weight m x + (if p = x then d.1 else 0) ∧
    key_count (map_accumulate lt m p d) x = key_count m x + (if p = x then d.2 else 0) := by
  induction m with
  | nil =>
    simp only [map_accumulate]
    rw [(key_weight_cons (p, d) [] x).1, (key_weight_cons (p, d) [] x).2]
    simp [key_weight, key_count]
  | cons a m ih =>
    obtain ⟨k, v⟩ := a
    by_cases h1 : lt p k = true
    · simp only [map_accumulate, h1, if_true]
      rw [(key_weight_cons (p, d) _ x).1, (key_weight_cons (p, d) _ x).2]
      constructor <;> ring
    · by_cases h2 : lt k p = true
      · simp only [map_accumulate, h1, h2, if_true, if_false, Bool.false_eq_true]
        rw [(key_weight_cons (k, v) (map_accumulate lt m p d) x).1,
          (key_weight_cons (k, v) (map_accumulate lt m p d) x).2,
          (key_weight_cons (k, v) m x).1, (key_weight_cons (k, v) m x).2, ih.1, ih.2]
        constructor <;> ring
      · have hk : p = k := htri p k (by simpa using h1) (by simpa using h2)
        subst hk
        simp only [map_accumulate, h1, if_false, Bool.false_eq_true]
        rw [(key_weight_cons (p, (v.1 + d.1, v.2 + d.2)) m x).1,
          (key_weight_cons (p, (v.1 + d.1, v.2 + d.2)) m x).2,
          (key_weight_cons (p, v) m x).1, (key_weight_cons (p, v) m x).2]
        by_cases hx : p = x
        · simp only [hx, if_true]
          constructor <;> ring
        · simp only [hx, if_false]
          constructor <;> ring

theorem accumulate_fold_spec {K : Type} [DecidableEq K] (lt : K → K → Bool)
    (htri : ∀ a b, lt a b = false → lt b a = false → a = b)
    (htr : ∀ a b c, lt a b = true → lt b c = true → lt a c = true)
    (l m : List (K × (ℚ × Int))) (hm : m.Pairwise (fun a b => lt a.1 b.1 = true)) :
    (l.foldl (fun m j => map_accumulate lt m j.1 j.2) m).Pairwise
      (fun a b => lt a.1 b.1 = true) ∧
    (∀ x, x ∈ (l.foldl (fun m j => map_accumulate lt m j.1 j.2) m).map Prod.fst
      ↔ x ∈ m.map Prod.fst ∨ x ∈ l.map Prod.fst) ∧
    (∀ x, key_weight (l.foldl (fun m j => map_accumulate lt m j.1 j.2) m) x
        = key_weight m x + key_weight l x ∧
      key_count (l.foldl (fun m j => map_accumulate lt m j.1 j.2) m) x
        = key_count m x + key_count l x) := by
  induction l generalizing m with
  | nil => simp [key_weight, key_count, hm]
  | cons a l ih =>
    simp only [List.foldl_cons]
    obtain ⟨h1, h2, h3⟩ := ih (map_accumulate lt m a.1 a.2)
      (map_accumulate_sorted lt htri htr m a.1 a.2 hm)
    refine ⟨h1, ?_, ?_⟩
    · intro x
      rw [h2, map_accumulate_keys lt htri]
      simp only [List.map_cons, List.mem_cons]
      tauto
    · intro x
      rw [(h3 x).1, (h3 x).2, (map_accumulate_weight lt htri m a.1 a.2 x).1,
        (map_accumulate_weight lt htri m a.1 a.2 x).2, (key_weight_cons a l x).1,
        (key_weight_cons a l x).2]
      constructor <;> ring

theorem key_weight_of_absent {K : Type} [DecidableEq K] (m : List (K × (ℚ × Int))) (k : K)
    (h : ∀ y ∈ m, y.1 ≠ k) : key_weight m k = 0 ∧ key_count m k = 0 := by
  unfold key_weight key_count
  have : m.filter (fun e => decide (e.1 = k)) = [] := by
    rw [List.filter_eq_nil_iff]
    intro y hy
    simpa using h y hy
  rw [this]
  simp

theorem key_weight_of_sorted {K : Type} [DecidableEq K] (lt : K → K → Bool)
    (hirr : ∀ a, lt a a = false) (m : List (K × (ℚ × Int)))
    (hm : m.Pairwise (fun a b => lt a.1 b.1 = true)) (k : K) (v : ℚ × Int)
    (h : (k, v) ∈ m) : key_weight m k = v.1 ∧ key_count m k = v.2 := by
  induction m with
  | nil => exact absurd h (List.not_mem_nil _)
  | cons a m ih =>
    rw [List.pairwise_cons] at hm
    rw [(key_weight_cons a m k).1, (key_weight_cons a m k).2]
    rcases List.mem_cons.mp h with h0 | h0
    · subst h0
      have habs : ∀ y ∈ m, y.1 ≠ k := by
        intro y hy hyk
        have := hm.1 y hy
        rw [hyk, hirr] at this
        exact absurd this (by simp)
      rw [(key_weight_of_absent m k habs).1, (key_weight_of_absent m k habs).2]
      simp
    · have hne : a.1 ≠ k := by
        intro hak
        have := hm.1 (k, v) h0
        rw [hak, hirr] at this
        exact absurd this (by simp)
      rw [(ih hm.2 h0).1, (ih hm.2 h0).2]
      simp [hne]

theorem accumulate_all_spec {K : Type} [DecidableEq K] (lt : K → K → Bool)
    (hirr : ∀ a, lt a a = false)
    (htri : ∀ a b, lt a b = false → lt b a = false → a = b)
    (htr : ∀ a b c, lt a b = true → lt b c = true → lt a c = true)
    (l : List (K × (ℚ × Int))) :
    (accumulate_all lt l).Pairwise (fun a b => lt a.1 b.1 = true) ∧
    (∀ k, (∃ v, (k, v) ∈ accumulate_all lt l) ↔ ∃ v, (k, v) ∈ l) ∧
    (∀ k v, (k, v) ∈ accumulate_all lt l → v.1 = key_weight l k ∧ v.2 = key_count l k) := by
  obtain ⟨h1, h2, h3⟩ := accumulate_fold_spec lt htri htr l [] List.Pairwise.nil
  refine ⟨h1, ?_, ?_⟩
  · intro k
    have := h2 k
    simp only [List.map_nil, List.not_mem_nil, false_or, List.mem_map] at this
    unfold accumulate_all
    constructor
    · rintro ⟨v, hv⟩
      obtain ⟨y, hy, hyk⟩ := this.mp ⟨(k, v), hv, rfl⟩
      exact ⟨y.2, by rw [← hyk]; exact hy⟩
    · rintro ⟨v, hv⟩
      obtain ⟨y, hy, hyk⟩ := this.mpr ⟨(k, v), hv, rfl⟩
      exact ⟨y.2, by rw [← hyk]; exact hy⟩
  · intro k v hkv
    unfold accumulate_all at hkv
    obtain ⟨a1, a2⟩ := key_weight_of_sorted lt hirr _ h1 k v hkv
    have b := h3 k
    rw [(key_weight_of_absent ([] : List (K × (ℚ × Int))) k
      (fun _ hy => absurd hy (List.not_mem_nil _))).1,
      (key_weight_of_absent ([] : List (K × (ℚ × Int))) k
      (fun _ hy => absurd hy (List.not_mem_nil _))).2] at b
    rw [a1, a2] at b
    simp only [zero_add] at b
    exact b

theorem foldl_flatMap_children (step : List ((Int × Int) × (ℚ × Int)) →
      (Int × Int) × (ℚ × Int) → List ((Int × Int) × (ℚ × Int)))
    (f : combined_graph → List ((Int × Int) × (ℚ × Int))) (cs : List combined_graph)
    (m : List ((Int × Int) × (ℚ × Int))) :
    cs.foldl (fun m gt => (f gt).foldl step m) m = (cs.flatMap f).foldl step m := by
  induction cs generalizing m with
  | nil => rfl
  | cons c cs ih =>
    simp only [List.foldl_cons, List.flatMap_cons, List.foldl_append]
    exact ih _

theorem foldl_flatMap_bounds (step : List (Int × (ℚ × Int)) →
      Int × (ℚ × Int) → List (Int × (ℚ × Int)))
    (f : combined_graph → List (Int × (ℚ × Int))) (cs : List combined_graph)
    (m : List (Int × (ℚ × Int))) :
    cs.foldl (fun m gt => (f gt).foldl step m) m = (cs.flatMap f).foldl step m := by
  induction cs generalizing m with
  | nil => rfl
  | cons c cs ih =>
    simp only [List.foldl_cons, List.flatMap_cons, List.foldl_append]
    exact ih _

theorem pair_lt_irrefl (a : Int × Int) : pair_lt a a = false := by
  unfold pair_lt; simp

theorem pair_lt_trichotomy (a b : Int × Int) (h1 : pair_lt a b = false)
    (h2 : pair_lt b a = false) : a = b := by
  unfold pair_lt at h1 h2
  simp only [Bool.or_eq_false_iff, decide_eq_false_iff_not, Bool.and_eq_false_imp,
    decide_eq_true_eq, not_lt] at h1 h2
  have e1 : a.1 = b.1 := le_antisymm h2.1 h1.1
  have e2 : a.2 = b.2 := le_antisymm (h2.2 e1.symm) (h1.2 e1)
  exact Prod.ext e1 e2

theorem pair_lt_trans (a b c : Int × Int) (h1 : pair_lt a b = true)
    (h2 : pair_lt b c = true) : pair_lt a c = true := by
  unfold pair_lt at h1 h2 ⊢
  simp only [Bool.or_eq_true, decide_eq_true_eq, Bool.and_eq_true] at h1 h2 ⊢
  omega

theorem combine_children_fields (sim : List ((Int × Int) × Int) → List ((Int × Int) × Int))
    (g g1 : combined_graph) (h : g.combine_children sim = some g1) (hc : g.children ≠ []) :
    g1.regions = (sim (g.children.flatMap combine_regions)).map
        (fun r => (r.1, ((r.2 : ℚ), 1))) ∧
    g1.junctions = accumulate_all pair_lt (g.children.flatMap (fun c => c.junctions)) ∧
    g1.sbounds = accumulate_all (fun a b => decide (a < b))
        (g.children.flatMap (fun c => c.sbounds)) ∧
    g1.tbounds = accumulate_all (fun a b => decide (a < b))
        (g.children.flatMap (fun c => c.tbounds)) := by
  unfold combined_graph.combine_children at h
  have hl : g.children.length ≠ 0 := fun h0 => hc (List.eq_nil_of_length_eq_zero h0)
  simp only [hl, if_false] at h
  split_ifs at h
  cases h
  refine ⟨rfl, ?_, ?_, ?_⟩
  · exact foldl_flatMap_children _ _ _ _
  · exact foldl_flatMap_bounds _ _ _ _
  · exact foldl_flatMap_bounds _ _ _ _

/-- C21 (combine_children sums junctions by key).  After `combine_children` on a graph
with at least one child: `junctions` is in strictly increasing key order, so it has
one entry for each pair; its pairs are exactly the pairs of the children's junction
entries; and the weight and the count of an entry are the sums of the weights and of
the counts of the children's entries with that pair.  The same holds for `sbounds`
and `tbounds`, keyed by position. -/
theorem combine_children_sums (sim : List ((Int × Int) × Int) → List ((Int × Int) × Int))
    (g g1 : combined_graph) (h : g.combine_children sim = some g1) (hc : g.children ≠ []) :
    (g1.junctions.Pairwise (fun a b => pair_lt a.1 b.1 = true) ∧
      (∀ k, (∃ v, (k, v) ∈ g1.junctions) ↔
        ∃ v, (k, v) ∈ g.children.flatMap (fun c => c.junctions)) ∧
      (∀ k v, (k, v) ∈ g1.junctions →
        v.1 = key_weight (g.children.flatMap (fun c => c.junctions)) k ∧
        v.2 = key_count (g.children.flatMap (fun c => c.junctions)) k)) ∧
    (g1.sbounds.Pairwise (fun a b => a.1 < b.1) ∧
      (∀ k, (∃ v, (k, v) ∈ g1.sbounds) ↔
        ∃ v, (k, v) ∈ g.children.flatMap (fun c => c.sbounds)) ∧
      (∀ k v, (k, v) ∈ g1.sbounds →
        v.1 = key_weight (g.children.flatMap (fun c => c.sbounds)) k ∧
        v.2 = key_count (g.children.flatMap (fun c => c.sbounds)) k)) ∧
    (g1.tbounds.Pairwise (fun a b => a.1 < b.1) ∧
      (∀ k, (∃ v, (k, v) ∈ g1.tbounds) ↔
        ∃ v, (k, v) ∈ g.children.flatMap (fun c => c.tbounds)) ∧
      (∀ k v, (k, v) ∈ g1.tbounds →
        v.1 = key_weight (g.children.flatMap (fun c => c.tbounds)) k ∧
        v.2 = key_count (g.children.flatMap (fun c => c.tbounds)) k)) := by
  obtain ⟨_, hj, hs, ht⟩ := combine_children_fields sim g g1 h hc
  have hint : ∀ l : List (Int × (ℚ × Int)),
      (accumulate_all (fun a b => decide (a < b)) l).Pairwise (fun a b => a.1 < b.1) ∧
      (∀ k, (∃ v, (k, v) ∈ accumulate_all (fun a b => decide (a < b)) l) ↔
        ∃ v, (k, v) ∈ l) ∧
      (∀ k v, (k, v) ∈ accumulate_all (fun a b => decide (a < b)) l →
        v.1 = key_weight l k ∧ v.2 = key_count l k) := by
    intro l
    obtain ⟨a1, a2, a3⟩ := accumulate_all_spec (fun a b : Int => decide (a < b))
      (fun a => by simp)
      (fun a b h1 h2 => by
        simp only [decide_eq_false_iff_not, not_lt] at h1 h2
        exact le_antisymm h2 h1)
      (fun a b c h1 h2 => by
        simp only [decide_eq_true_eq] at h1 h2 ⊢
        exact lt_trans h1 h2) l
    refine ⟨a1.imp ?_, a2, a3⟩
    intro a b hab
    simpa using hab
  rw [hj, hs, ht]
  exact ⟨accumulate_all_spec pair_lt pair_lt_irrefl pair_lt_trichotomy pair_lt_trans _,
    hint _, hint _⟩

theorem combine_children_sums_witness :
    ∃ g1, junction_parent.combine_children id = some g1 ∧
      g1.junctions = [((120, 140), (1, 1)), ((150, 300), (9 / 2, 4))] ∧
      junction_parent.children ≠ [] ∧
      (g1.junctions.Pairwise (fun a b => pair_lt a.1 b.1 = true) ∧
        (∀ k, (∃ v, (k, v) ∈ g1.junctions) ↔
          ∃ v, (k, v) ∈ junction_parent.children.flatMap (fun c => c.junctions)) ∧
        (∀ k v, (k, v) ∈ g1.junctions →
          v.1 = key_weight (junction_parent.children.flatMap (fun c => c.junctions)) k ∧
          v.2 = key_count (junction_parent.children.flatMap (fun c => c.junctions)) k)) := by
  obtain ⟨g1, h⟩ := Option.isSome_iff_exists.mp
    (by decide! : (junction_parent.combine_children id).isSome = true)
  have hj : (junction_parent.combine_children id).map (fun g => g.junctions)
      = some [((120, 140), (1, 1)), ((150, 300), (9 / 2, 4))] := by decide!
  rw [h] at hj
  have hc : junction_parent.children ≠ [] := by
    intro h0
    have := congrArg List.length h0
    simp [junction_parent] at this
  exact ⟨g1, h, by simpa using hj, hc,
    (combine_children_sums id junction_parent g1 h hc).1⟩

/-! ## get_reliable_start_boundaries -/

theorem mem_int_set_insert (s : List Int) (p x : Int) :
    x ∈ int_set_insert s p ↔ x ∈ s ∨ x = p := by
  induction s with
  | nil => simp [int_set_insert]
  | cons a s ih =>
    simp only [int_set_insert]
    split_ifs with h1 h2
    · simp only [List.mem_cons]; tauto
    · simp only [List.mem_cons, ih]; tauto
    · have : p = a := by omega
      subst this
      simp only [List.mem_cons]; tauto

theorem mem_set_fold (c : Int → Bool) (l : List (Int × (ℚ × Int))) (ss : List Int) (x : Int) :
    x ∈ l.foldl (fun ss e => if c e.1 = true then int_set_insert ss e.1 else ss) ss
      ↔ x ∈ ss ∨ ∃ e ∈ l, e.1 = x ∧ c e.1 = true := by
  induction l generalizing ss with
  | nil => simp
  | cons a l ih =>
    simp only [List.foldl_cons]
    rw [ih]
    split_ifs with h
    · rw [mem_int_set_insert]
      constructor
      · rintro ((h0 | h0) | ⟨e, he, h1, h2⟩)
        · exact Or.inl h0
        · exact Or.inr ⟨a, List.mem_cons_self _ _, h0.symm, h⟩
        · exact Or.inr ⟨e, List.mem_cons_of_mem _ he, h1, h2⟩
      · rintro (h0 | ⟨e, he, h1, h2⟩)
        · exact Or.inl (Or.inl h0)
        · rcases List.mem_cons.mp he with h3 | h3
          · exact Or.inl (Or.inr (by rw [← h1, h3]))
          · exact Or.inr ⟨e, h3, h1, h2⟩
    · constructor
      · rintro (h0 | ⟨e, he, h1, h2⟩)
        · exact Or.inl h0
        · exact Or.inr ⟨e, List.mem_cons_of_mem _ he, h1, h2⟩
      · rintro (h0 | ⟨e, he, h1, h2⟩)
        · exact Or.inl h0
        · rcases List.mem_cons.mp he with h3 | h3
          · rw [h3] at h2; exact absurd h2 h
          · exact Or.inr ⟨e, h3, h1, h2⟩

theorem mem_reliable_groups (g : combined_graph) (samples : Int) (weight : ℚ) (q : Int) :
    q ∈ reliable_groups g samples weight ↔
      (∃ e ∈ g.sbounds, group_position g.smap e.1 = q) ∧
      (weight ≤ key_weight (g.sbounds.map (fun e => (group_position g.smap e.1, e.2))) q ∨
       samples ≤ key_count (g.sbounds.map (fun e => (group_position g.smap e.1, e.2))) q) := by
  obtain ⟨_, a2, a3⟩ := accumulate_all_spec (fun a b : Int => decide (a < b))
    (fun a => by simp)
    (fun a b h1 h2 => by
      simp only [decide_eq_false_iff_not, not_lt] at h1 h2
      exact le_antisymm h2 h1)
    (fun a b c h1 h2 => by
      simp only [decide_eq_true_eq] at h1 h2 ⊢
      exact lt_trans h1 h2)
    (g.sbounds.map (fun e => (group_position g.smap e.1, e.2)))
  unfold reliable_groups
  simp only [List.mem_map, List.mem_filter, Bool.not_eq_true', Bool.and_eq_false_imp,
    decide_eq_true_eq, decide_eq_false_iff_not, not_lt]
  constructor
  · rintro ⟨⟨k, v⟩, ⟨hm, hc⟩, hk⟩
    simp only at hk hc
    subst hk
    obtain ⟨b1, b2⟩ := a3 k v hm
    obtain ⟨v1, hv1⟩ := (a2 k).mp ⟨v, hm⟩
    obtain ⟨e, he, hek⟩ := List.mem_map.mp hv1
    refine ⟨⟨e, he, ?_⟩, ?_⟩
    · exact (Prod.mk.inj hek).1
    · rw [← b1, ← b2]
      by_cases hw : v.1 < weight
      · exact Or.inr (hc hw)
      · exact Or.inl (not_lt.mp hw)
  · rintro ⟨⟨e, he, hq⟩, hc⟩
    obtain ⟨v, hv⟩ := (a2 q).mpr ⟨e.2, List.mem_map.mpr ⟨e, he, by rw [hq]⟩⟩
    obtain ⟨b1, b2⟩ := a3 q v hv
    refine ⟨(q, v), ⟨hv, ?_⟩, rfl⟩
    intro hw
    simp only at hw ⊢
    rw [b1] at hw
    rw [b2]
    rcases hc with hc | hc
    · exact absurd hw (not_lt.mpr hc)
    · exact hc

/-- C25 (reliable start boundaries).  `get_reliable_start_boundaries(samples, weight)`
returns exactly the positions `p` of `sbounds` entries for which, with `q = smap[p]` if
present and `q = p` otherwise, the weights of the `sbounds` entries that map to `q` sum
to at least `weight` or their counts sum to at least `samples`; so two positions of
`sbounds` that map to the same `q` are both returned or both left out. -/
theorem get_reliable_start_boundaries_spec (g : combined_graph) (samples : Int)
    (weight : ℚ) :
    (∀ p, p ∈ g.get_reliable_start_boundaries samples weight ↔
      (∃ d, (p, d) ∈ g.sbounds) ∧
      (weight ≤ key_weight (g.sbounds.map (fun e => (group_position g.smap e.1, e.2)))
          (group_position g.smap p) ∨
       samples ≤ key_count (g.sbounds.map (fun e => (group_position g.smap e.1, e.2)))
          (group_position g.smap p))) ∧
    (∀ p1 p2 d1 d2, (p1, d1) ∈ g.sbounds → (p2, d2) ∈ g.sbounds →
      group_position g.smap p1 = group_position g.smap p2 →
      (p1 ∈ g.get_reliable_start_boundaries samples weight ↔
       p2 ∈ g.get_reliable_start_boundaries samples weight)) := by
  have main : ∀ p, p ∈ g.get_reliable_start_boundaries samples weight ↔
      (∃ d, (p, d) ∈ g.sbounds) ∧
      (weight ≤ key_weight (g.sbounds.map (fun e => (group_position g.smap e.1, e.2)))
          (group_position g.smap p) ∨
       samples ≤ key_count (g.sbounds.map (fun e => (group_position g.smap e.1, e.2)))
          (group_position g.smap p)) := by
    intro p
    unfold combined_graph.get_reliable_start_boundaries
    have := mem_set_fold
      (fun x => decide (group_position g.smap x ∈ reliable_groups g samples weight))
      g.sbounds [] p
    simp only [decide_eq_true_eq] at this
    rw [this]
    simp only [List.not_mem_nil, false_or]
    constructor
    · rintro ⟨e, he, hep, hr⟩
      rw [hep, mem_reliable_groups] at hr
      exact ⟨⟨e.2, by rw [← hep]; exact he⟩, hr.2⟩
    · rintro ⟨⟨d, hd⟩, hc⟩
      refine ⟨(p, d), hd, rfl, ?_⟩
      rw [mem_reliable_groups]
      exact ⟨⟨(p, d), hd, rfl⟩, hc⟩
  refine ⟨main, ?_⟩
  intro p1 p2 d1 d2 h1 h2 heq
  rw [main p1, main p2, heq]
  constructor
  · rintro ⟨_, hc⟩; exact ⟨⟨d2, h2⟩, hc⟩
  · rintro ⟨_, hc⟩; exact ⟨⟨d1, h1⟩, hc⟩

/-- An example of `get_reliable_start_boundaries`: with start bounds `1000 (3,1)`, `1005 (2,1)`, `1020 (1,1)`,
`1200 (1,3)` and `smap = {1005 -> 1000}`, the call with `samples = 3`, `weight = 5`
returns 1000 and 1005 (their weights sum to 5) and 1200 (count 3), not 1020. -/
theorem get_reliable_start_boundaries_example :
    bounds_sample.get_reliable_start_boundaries 3 5 = [1000, 1005, 1200] := by
  decide!


/-! ## The split interval map -/

theorem imap_value_cons (s : (Int × Int) × Int) (t : List ((Int × Int) × Int)) (x : Int) :
    imap_value (s :: t) x = (if s.1.1 ≤ x ∧ x < s.1.2 then s.2 else 0) + imap_value t x := by
  simp [imap_value]

theorem imap_value_append (s t : List ((Int × Int) × Int)) (x : Int) :
    imap_value (s ++ t) x = imap_value s x + imap_value t x := by
  simp [imap_value]

theorem imap_value_piece (lo hi val x : Int) :
    imap_value (imap_piece lo hi val) x = if lo ≤ x ∧ x < hi then val else 0 := by
  unfold imap_piece
  by_cases h : val = 0
  · simp [h, imap_value]
  · simp [h, imap_value]

theorem imap_value_nil (x : Int) : imap_value [] x = 0 := by
  simp [imap_value]

/-- Adding `w` over `[l, r)` adds `w` to the value at the points of `[l, r)` and leaves
the value elsewhere. -/
theorem imap_value_add (segs : List ((Int × Int) × Int)) (x w : Int)
    (hne : ∀ s ∈ segs, s.1.1 < s.1.2) :
    ∀ l r : Int, l < r →
      imap_value (split_interval_map_add segs l r w) x
        = imap_value segs x + (if l ≤ x ∧ x < r then w else 0) := by
  induction segs with
  | nil => intro l r _; simp [split_interval_map_add, imap_value]
  | cons s rest ih =>
    obtain ⟨⟨a, b⟩, v⟩ := s
    intro l r hlr
    have hab : a < b := hne ((a, b), v) (List.mem_cons_self _ _)
    have ih := ih (fun s hs => hne s (List.mem_cons_of_mem _ hs))
    unfold split_interval_map_add
    by_cases h1 : r ≤ a
    · simp only [h1, if_true, imap_value_cons]
      split_ifs <;> omega
    by_cases h2 : b ≤ l
    · simp only [h1, h2, if_true, if_false, imap_value_cons, ih l r hlr]
      split_ifs <;> omega
    simp only [h1, h2, if_false]
    by_cases h3 : r < b
    · by_cases h4 : l < a
      · simp only [h3, h4, if_true, imap_value_append, imap_value_cons, imap_value_piece,
          imap_value_nil]
        split_ifs <;> omega
      · by_cases h5 : a < l
        · simp only [h3, h4, h5, if_true, if_false, imap_value_append, imap_value_cons,
            imap_value_piece, imap_value_nil]
          split_ifs <;> omega
        · simp only [h3, h4, h5, if_true, if_false, imap_value_append, imap_value_cons,
            imap_value_piece, imap_value_nil]
          split_ifs <;> omega
    by_cases h6 : r = b
    · subst h6
      by_cases h4 : l < a
      · simp only [h3, h4, if_true, if_false, imap_value_append, imap_value_cons,
          imap_value_piece, imap_value_nil]
        split_ifs <;> omega
      · by_cases h5 : a < l
        · simp only [h3, h4, h5, if_true, if_false, imap_value_append, imap_value_cons,
            imap_value_piece, imap_value_nil]
          split_ifs <;> omega
        · simp only [h3, h4, h5, if_true, if_false, imap_value_append, imap_value_cons,
            imap_value_piece, imap_value_nil]
          split_ifs <;> omega
    · have hbr : b < r := by omega
      by_cases h4 : l < a
      · simp only [h3, h6, h4, if_true, if_false, imap_value_append, imap_value_cons,
          imap_value_piece, imap_value_nil, ih b r hbr]
        split_ifs <;> omega
      · by_cases h5 : a < l
        · simp only [h3, h6, h4, h5, if_true, if_false, imap_value_append, imap_value_cons,
            imap_value_piece, imap_value_nil, ih b r hbr]
          split_ifs <;> omega
        · simp only [h3, h6, h4, h5, if_true, if_false, imap_value_append, imap_value_cons,
            imap_value_piece, imap_value_nil, ih b r hbr]
          split_ifs <;> omega


theorem mem_imap_piece (lo hi val : Int) (s : (Int × Int) × Int) :
    s ∈ imap_piece lo hi val ↔ val ≠ 0 ∧ s = ((lo, hi), val) := by
  unfold imap_piece
  by_cases h : val = 0
  · simp [h]
  · simp [h]

/-- Every entry after an addition is a non-empty interval with a non-zero value, and it
starts no earlier than the earliest of `l` and the entries before. -/
theorem imap_add_mem (segs : List ((Int × Int) × Int)) (w : Int) (hw : w ≠ 0)
    (hne : ∀ s ∈ segs, s.1.1 < s.1.2 ∧ s.2 ≠ 0) :
    ∀ l r : Int, l < r → ∀ s ∈ split_interval_map_add segs l r w,
      s.1.1 < s.1.2 ∧ s.2 ≠ 0 ∧
        ∀ c : Int, c ≤ l → (∀ t ∈ segs, c ≤ t.1.1) → c ≤ s.1.1 := by
  induction segs with
  | nil =>
    intro l r hlr s hs
    simp only [split_interval_map_add, List.mem_singleton] at hs
    subst hs
    exact ⟨hlr, hw, fun c hc _ => hc⟩
  | cons s0 rest ih =>
    obtain ⟨⟨a, b⟩, v⟩ := s0
    intro l r hlr s hs
    have hab := hne ((a, b), v) (List.mem_cons_self _ _)
    have hrest : ∀ s ∈ rest, s.1.1 < s.1.2 ∧ s.2 ≠ 0 :=
      fun s hs => hne s (List.mem_cons_of_mem _ hs)
    have ih := ih hrest
    simp only at hab
    unfold split_interval_map_add at hs
    by_cases h1 : r ≤ a
    · simp only [h1, if_true, List.mem_cons] at hs
      rcases hs with rfl | rfl | hs
      · exact ⟨hlr, hw, fun c hc _ => hc⟩
      · exact ⟨hab.1, hab.2, fun c _ ht => ht _ (List.mem_cons_self _ _)⟩
      · exact ⟨(hrest s hs).1, (hrest s hs).2,
          fun c _ ht => ht _ (List.mem_cons_of_mem _ hs)⟩
    by_cases h2 : b ≤ l
    · simp only [h1, h2, if_true, if_false, List.mem_cons] at hs
      rcases hs with rfl | hs
      · exact ⟨hab.1, hab.2, fun c _ ht => ht _ (List.mem_cons_self _ _)⟩
      · obtain ⟨p1, p2, p3⟩ := ih l r hlr s hs
        exact ⟨p1, p2, fun c hc ht =>
          p3 c hc (fun t h => ht t (List.mem_cons_of_mem _ h))⟩
    simp only [h1, h2, if_false, List.mem_append] at hs
    have hpre : ∀ s ∈ (if l < a then [((l, a), w)] else if a < l then [((a, l), v)] else []),
        s.1.1 < s.1.2 ∧ s.2 ≠ 0 ∧
          ∀ c : Int, c ≤ l → (∀ t ∈ ((a, b), v) :: rest, c ≤ t.1.1) → c ≤ s.1.1 := by
      intro s hs
      by_cases h4 : l < a
      · simp only [h4, if_true, List.mem_singleton] at hs
        subst hs
        exact ⟨h4, hw, fun c hc _ => hc⟩
      · by_cases h5 : a < l
        · simp only [h4, h5, if_true, if_false, List.mem_singleton] at hs
          subst hs
          exact ⟨h5, hab.2, fun c _ ht => ht ((a, b), v) (List.mem_cons_self _ _)⟩
        · simp [h4, h5] at hs
    have hpiece : ∀ hi : Int, (if l < a then a else l) < hi →
        ∀ s ∈ imap_piece (if l < a then a else l) hi (v + w),
        s.1.1 < s.1.2 ∧ s.2 ≠ 0 ∧
          ∀ c : Int, c ≤ l → (∀ t ∈ ((a, b), v) :: rest, c ≤ t.1.1) → c ≤ s.1.1 := by
      intro hi hhi s hs
      rw [mem_imap_piece] at hs
      obtain ⟨h0, rfl⟩ := hs
      refine ⟨hhi, h0, fun c hc ht => ?_⟩
      have := ht _ (List.mem_cons_self _ _)
      simp only at this ⊢
      split_ifs <;> omega
    rcases hs with hs | hs
    · exact hpre s hs
    by_cases h3 : r < b
    · simp only [h3, if_true, List.mem_append, List.mem_cons] at hs
      rcases hs with hs | rfl | hs
      · exact hpiece r (by split_ifs <;> omega) s hs
      · exact ⟨h3, hab.2, fun c hc _ => by simp only; omega⟩
      · exact ⟨(hrest s hs).1, (hrest s hs).2,
          fun c _ ht => ht _ (List.mem_cons_of_mem _ hs)⟩
    by_cases h6 : r = b
    · subst h6
      simp only [h3, if_true, if_false, List.mem_append] at hs
      rcases hs with hs | hs
      · exact hpiece r (by split_ifs <;> omega) s hs
      · exact ⟨(hrest s hs).1, (hrest s hs).2,
          fun c _ ht => ht _ (List.mem_cons_of_mem _ hs)⟩
    · simp only [h3, h6, if_false, List.mem_append] at hs
      rcases hs with hs | hs
      · exact hpiece b (by split_ifs <;> omega) s hs
      · obtain ⟨p1, p2, p3⟩ := ih b r (by omega) s hs
        exact ⟨p1, p2, fun c hc ht =>
          p3 c (by omega) (fun t h => ht t (List.mem_cons_of_mem _ h))⟩


theorem imap_pairwise_append (l1 l2 : List ((Int × Int) × Int)) (m : Int)
    (h1 : l1.Pairwise (fun s t => s.1.2 ≤ t.1.1)) (h2 : l2.Pairwise (fun s t => s.1.2 ≤ t.1.1))
    (b1 : ∀ s ∈ l1, s.1.2 ≤ m) (b2 : ∀ t ∈ l2, m ≤ t.1.1) :
    (l1 ++ l2).Pairwise (fun s t => s.1.2 ≤ t.1.1) :=
  List.pairwise_append.mpr ⟨h1, h2, fun s hs t ht => le_trans (b1 s hs) (b2 t ht)⟩

theorem imap_piece_pairwise (lo hi val : Int) :
    (imap_piece lo hi val).Pairwise (fun s t => s.1.2 ≤ t.1.1) := by
  unfold imap_piece
  split_ifs <;> simp

/-- An addition keeps the entries in increasing order without overlap. -/
theorem imap_add_sorted (segs : List ((Int × Int) × Int)) (w : Int) (hw : w ≠ 0)
    (hne : ∀ s ∈ segs, s.1.1 < s.1.2 ∧ s.2 ≠ 0)
    (hs : segs.Pairwise (fun s t => s.1.2 ≤ t.1.1)) :
    ∀ l r : Int, l < r →
      (split_interval_map_add segs l r w).Pairwise (fun s t => s.1.2 ≤ t.1.1) := by
  induction segs with
  | nil => intro l r _; simp [split_interval_map_add]
  | cons s0 rest ih =>
    obtain ⟨⟨a, b⟩, v⟩ := s0
    intro l r hlr
    have hab := hne ((a, b), v) (List.mem_cons_self _ _)
    have hrest : ∀ s ∈ rest, s.1.1 < s.1.2 ∧ s.2 ≠ 0 :=
      fun s hs => hne s (List.mem_cons_of_mem _ hs)
    obtain ⟨hb, hs2⟩ := List.pairwise_cons.mp hs
    have ih := ih hrest hs2
    simp only at hab hb
    unfold split_interval_map_add
    by_cases h1 : r ≤ a
    · simp only [h1, if_true]
      refine List.pairwise_cons.mpr ⟨fun t ht => ?_, hs⟩
      rcases List.mem_cons.mp ht with rfl | ht
      · exact h1
      · have := hb t ht
        simp only
        omega
    by_cases h2 : b ≤ l
    · simp only [h1, h2, if_true, if_false]
      refine List.pairwise_cons.mpr ⟨fun t ht => ?_, ih l r hlr⟩
      exact (imap_add_mem rest w hw hrest l r hlr t ht).2.2 b h2 hb
    simp only [h1, h2, if_false]
    have hpre : (if l < a then [((l, a), w)] else if a < l then [((a, l), v)] else []).Pairwise
        (fun s t => s.1.2 ≤ t.1.1) := by
      split_ifs <;> simp
    have hpre2 : ∀ s ∈ (if l < a then [((l, a), w)] else if a < l then [((a, l), v)] else []),
        s.1.2 ≤ (if l < a then a else l) := by
      intro s hs
      by_cases h4 : l < a
      · simp only [h4, if_true, List.mem_singleton] at hs ⊢
        subst hs
        exact le_refl _
      · by_cases h5 : a < l
        · simp only [h4, h5, if_true, if_false, List.mem_singleton] at hs ⊢
          subst hs
          exact le_refl _
        · simp [h4, h5] at hs
    have hpc : ∀ hi : Int, ∀ s ∈ imap_piece (if l < a then a else l) hi (v + w),
        s.1.2 ≤ hi ∧ (if l < a then a else l) ≤ s.1.1 := by
      intro hi s hs
      rw [mem_imap_piece] at hs
      obtain ⟨_, rfl⟩ := hs
      exact ⟨le_refl _, le_refl _⟩
    have hm : (if l < a then a else l) < r ∧ (if l < a then a else l) < b := by
      split_ifs <;> omega
    by_cases h3 : r < b
    · simp only [h3, if_true]
      have hY : (((r, b), v) :: rest).Pairwise (fun s t => s.1.2 ≤ t.1.1) :=
        List.pairwise_cons.mpr ⟨hb, hs2⟩
      have hYb : ∀ t ∈ ((r, b), v) :: rest, r ≤ t.1.1 := by
        intro t ht
        rcases List.mem_cons.mp ht with rfl | ht
        · exact le_refl _
        · have := hb t ht
          omega
      refine imap_pairwise_append _ _ _ hpre
        (imap_pairwise_append _ _ r (imap_piece_pairwise _ _ _) hY
          (fun s hs => (hpc r s hs).1) hYb) hpre2 ?_
      intro t ht
      rcases List.mem_append.mp ht with ht | ht
      · exact (hpc r t ht).2
      · have := hYb t ht
        omega
    by_cases h6 : r = b
    · subst h6
      simp only [h3, if_true, if_false]
      refine imap_pairwise_append _ _ _ hpre
        (imap_pairwise_append _ _ r (imap_piece_pairwise _ _ _) hs2
          (fun s hs => (hpc r s hs).1) hb) hpre2 ?_
      intro t ht
      rcases List.mem_append.mp ht with ht | ht
      · exact (hpc r t ht).2
      · have := hb t ht
        omega
    · simp only [h3, h6, if_false]
      have hbr : b < r := by omega
      have hYb : ∀ t ∈ split_interval_map_add rest b r w, b ≤ t.1.1 :=
        fun t ht => (imap_add_mem rest w hw hrest b r hbr t ht).2.2 b (le_refl _) hb
      refine imap_pairwise_append _ _ _ hpre
        (imap_pairwise_append _ _ b (imap_piece_pairwise _ _ _) (ih b r hbr)
          (fun s hs => (hpc b s hs).1) hYb) hpre2 ?_
      intro t ht
      rcases List.mem_append.mp ht with ht | ht
      · exact (hpc b t ht).2
      · have := hYb t ht
        omega


theorem imap_fold_spec (adds : List ((Int × Int) × Int)) :
    ∀ m : List ((Int × Int) × Int),
      (∀ s ∈ m, s.1.1 < s.1.2 ∧ s.2 ≠ 0) → m.Pairwise (fun s t => s.1.2 ≤ t.1.1) →
      (∀ s ∈ adds.foldl (fun m x =>
          if x.1.1 < x.1.2 ∧ x.2 ≠ 0 then split_interval_map_add m x.1.1 x.1.2 x.2 else m) m,
        s.1.1 < s.1.2 ∧ s.2 ≠ 0) ∧
      (adds.foldl (fun m x =>
          if x.1.1 < x.1.2 ∧ x.2 ≠ 0 then split_interval_map_add m x.1.1 x.1.2 x.2 else m)
        m).Pairwise (fun s t => s.1.2 ≤ t.1.1) ∧
      ∀ x, imap_value (adds.foldl (fun m x =>
          if x.1.1 < x.1.2 ∧ x.2 ≠ 0 then split_interval_map_add m x.1.1 x.1.2 x.2 else m) m) x
        = imap_value m x + imap_value adds x := by
  induction adds with
  | nil => intro m h1 h2; exact ⟨h1, h2, fun x => by simp [imap_value]⟩
  | cons a rest ih =>
    intro m h1 h2
    simp only [List.foldl_cons]
    by_cases hc : a.1.1 < a.1.2 ∧ a.2 ≠ 0
    · rw [if_pos hc]
      have h1n : ∀ s ∈ split_interval_map_add m a.1.1 a.1.2 a.2, s.1.1 < s.1.2 ∧ s.2 ≠ 0 :=
        fun s hs => ⟨(imap_add_mem m a.2 hc.2 h1 _ _ hc.1 s hs).1,
          (imap_add_mem m a.2 hc.2 h1 _ _ hc.1 s hs).2.1⟩
      obtain ⟨p1, p2, p3⟩ := ih _ h1n (imap_add_sorted m a.2 hc.2 h1 h2 _ _ hc.1)
      refine ⟨p1, p2, fun x => ?_⟩
      rw [p3 x, imap_value_add m x a.2 (fun s hs => (h1 s hs).1) _ _ hc.1, imap_value_cons]
      omega
    · rw [if_neg hc]
      obtain ⟨p1, p2, p3⟩ := ih m h1 h2
      refine ⟨p1, p2, fun x => ?_⟩
      rw [p3 x, imap_value_cons]
      have h0 : (if a.1.1 ≤ x ∧ x < a.1.2 then a.2 else 0) = 0 := by
        split_ifs with hx
        · by_contra hne
          exact hc ⟨by omega, hne⟩
        · rfl
      omega

theorem imap_value_zero (segs : List ((Int × Int) × Int)) (x : Int)
    (h : ∀ s ∈ segs, ¬ (s.1.1 ≤ x ∧ x < s.1.2)) : imap_value segs x = 0 := by
  induction segs with
  | nil => exact imap_value_nil x
  | cons s rest ih =>
    rw [imap_value_cons, ih (fun t ht => h t (List.mem_cons_of_mem _ ht)),
      if_neg (h s (List.mem_cons_self _ _))]
    rfl

/-- In a map whose entries do not overlap, the value at a point of an entry is the
value of that entry. -/
theorem imap_value_of_mem (segs : List ((Int × Int) × Int)) (x : Int)
    (hne : ∀ s ∈ segs, s.1.1 < s.1.2) (hs : segs.Pairwise (fun s t => s.1.2 ≤ t.1.1))
    (s : (Int × Int) × Int) (hmem : s ∈ segs) (hx : s.1.1 ≤ x ∧ x < s.1.2) :
    imap_value segs x = s.2 := by
  induction segs with
  | nil => simp at hmem
  | cons s0 rest ih =>
    obtain ⟨hb, hs2⟩ := List.pairwise_cons.mp hs
    rw [imap_value_cons]
    rcases List.mem_cons.mp hmem with rfl | hm
    · rw [if_pos hx, imap_value_zero rest x (fun t ht => by
        have := hb t ht
        omega)]
      omega
    · have h0 := hb s hm
      have h1 := hne s0 (List.mem_cons_self _ _)
      rw [if_neg (by omega), ih (fun t ht => hne t (List.mem_cons_of_mem _ ht)) hs2 hm]
      omega

theorem imap_value_combine_regions (children : List combined_graph) (x : Int) :
    imap_value (children.flatMap combine_regions) x = truncated_cover children x := by
  unfold imap_value truncated_cover
  induction children with
  | nil => rfl
  | cons c rest ih =>
    simp only [List.flatMap_cons, List.map_append, List.sum_append, ih]
    congr 1
    simp [combine_regions, List.map_map, Function.comp_def]


/-- C22 (combine_children unions regions with weighted sums), amended.  After
`combine_children` on a graph with at least one child, with the interval map as the
spec describes it: `regions` is a list of non-empty half-open intervals in increasing
order, pairwise disjoint; the weight of each region is, at every position of the
region, the sum of the weights of the child regions that hold the position, each weight
truncated to an integer by the cast `(int)`; and the positions held by some region are
exactly the positions where that sum is not zero. -/
theorem combine_children_regions (g g1 : combined_graph)
    (h : g.combine_children split_interval_map = some g1) (hc : g.children ≠ []) :
    g1.regions.Pairwise (fun s t => s.1.2 ≤ t.1.1) ∧
    (∀ s ∈ g1.regions, s.1.1 < s.1.2) ∧
    (∀ s ∈ g1.regions, ∀ x, s.1.1 ≤ x → x < s.1.2 →
      s.2.1 = ((truncated_cover g.children x : Int) : ℚ)) ∧
    (∀ x, (∃ s ∈ g1.regions, s.1.1 ≤ x ∧ x < s.1.2) ↔ truncated_cover g.children x ≠ 0) := by
  obtain ⟨hr, _⟩ := combine_children_fields split_interval_map g g1 h hc
  obtain ⟨p1, p2, p3⟩ := imap_fold_spec (g.children.flatMap combine_regions) []
    (fun s hs => by simp at hs) List.Pairwise.nil
  have hv : ∀ x, imap_value (split_interval_map (g.children.flatMap combine_regions)) x
      = truncated_cover g.children x := by
    intro x
    have := p3 x
    rw [imap_value_nil, imap_value_combine_regions] at this
    unfold split_interval_map
    omega
  change (∀ s ∈ split_interval_map (g.children.flatMap combine_regions), _) at p1
  change (split_interval_map (g.children.flatMap combine_regions)).Pairwise _ at p2
  rw [hr]
  refine ⟨?_, ?_, ?_, ?_⟩
  · rw [List.pairwise_map]
    exact p2
  · intro s hs
    obtain ⟨t, ht, rfl⟩ := List.mem_map.mp hs
    exact (p1 t ht).1
  · intro s hs x hx1 hx2
    obtain ⟨t, ht, rfl⟩ := List.mem_map.mp hs
    have := imap_value_of_mem _ x (fun s hs => (p1 s hs).1) p2 t ht ⟨hx1, hx2⟩
    rw [← hv x, this]
  · intro x
    rw [← hv x]
    constructor
    · rintro ⟨s, hs, hx⟩
      obtain ⟨t, ht, rfl⟩ := List.mem_map.mp hs
      rw [imap_value_of_mem _ x (fun s hs => (p1 s hs).1) p2 t ht hx]
      exact (p1 t ht).2
    · intro hne
      by_contra hno
      apply hne
      apply imap_value_zero
      intro t ht hx
      exact hno ⟨_, List.mem_map.mpr ⟨t, ht, rfl⟩, hx⟩

theorem combine_children_regions_witness :
    ∃ g1, region_parent.combine_children split_interval_map = some g1 ∧
      g1.regions = [((100, 150), (2, 1)), ((150, 200), (5, 1)), ((200, 300), (3, 1))] ∧
      region_parent.children ≠ [] ∧
      (∀ s ∈ g1.regions, ∀ x, s.1.1 ≤ x → x < s.1.2 →
        s.2.1 = ((truncated_cover region_parent.children x : Int) : ℚ)) := by
  obtain ⟨g1, h⟩ := Option.isSome_iff_exists.mp
    (by decide! : (region_parent.combine_children split_interval_map).isSome = true)
  have hj : (region_parent.combine_children split_interval_map).map (fun g => g.regions)
      = some [((100, 150), (2, 1)), ((150, 200), (5, 1)), ((200, 300), (3, 1))] := by decide!
  rw [h] at hj
  have hc : region_parent.children ≠ [] := by
    intro h0
    have := congrArg List.length h0
    simp [region_parent] at this
  exact ⟨g1, h, by simpa using hj, hc,
    (combine_children_regions region_parent g1 h hc).2.2.1⟩

/-- C22 as stated fails: the single child has the region `[100,200)` of weight 2.5, the
sum of the weights of the child regions covering it; the combined region has weight 2.
And on a graph without children `combine_children` returns at once: the region
`[100,200)` stays, while there is no child region. -/
theorem combine_children_regions_counterexample :
    ((region_single.combine_children split_interval_map).map (fun g => g.regions)
        = some [((100, 200), (2, 1))] ∧
      region_weight_sum region_single.children 150 = 5 / 2) ∧
    (((sample_built [] []).combine_children split_interval_map).map (fun g => g.regions)
        = some [((100, 200), (3, 1))] ∧
      (sample_built [] []).children.length = 0) := by
  decide!


/-! ## The paths of the bridges follow edges -/

theorem dp_table_edge (gr : splice_graph) (cfg : parameters) (k1 : Nat)
    (ks : List Nat) (j : Nat) :
    ∀ c ∈ ((ks.foldl (fun table k => table.set k (dp_row gr cfg table k1 k))
        (dp_init gr cfg k1)).getD j []),
      c.trace1 < 0 ∨ ∃ e ∈ gr.edges, e.target = j ∧ (e.source : Int) = c.trace1 := by
  refine dp_fold_rows gr cfg k1
    (fun j row => ∀ c ∈ row,
      c.trace1 < 0 ∨ ∃ e ∈ gr.edges, e.target = j ∧ (e.source : Int) = c.trace1) ?_ ks _ ?_ j
  · intro t k _ c hc
    obtain ⟨e, he, ht, _, i, x, _, hcx⟩ := (mem_dp_candidates gr t k1 k c).mp
      (mem_dp_row gr cfg t k1 k c hc)
    right
    refine ⟨e, he, ht, ?_⟩
    rw [hcx]
  · intro j c hc
    rw [dp_init_getD] at hc
    split at hc
    · left
      rw [List.mem_singleton.mp hc]
      simp
    · simp at hc

/-- A completed walk of `trace_back` moves from a vertex to the source of an edge into
it at every step. -/
theorem trace_back_walk_chain (gr : splice_graph) (table : List (List entry))
    (hrow : ∀ j, ∀ c ∈ table.getD j [],
      c.trace1 < 0 ∨ ∃ e ∈ gr.edges, e.target = j ∧ (e.source : Int) = c.trace1) :
    ∀ (fuel : Nat) (p q : Int) (v w : List Nat),
      trace_back_walk table fuel p q v = some w →
      ∃ u, w = v ++ p.toNat :: u ∧
        List.Chain (fun a b => ∃ e ∈ gr.edges, e.source = b ∧ e.target = a) p.toNat u
  | 0, _, _, _, _, h => by simp [trace_back_walk] at h
  | fuel + 1, p, q, v, w, h => by
    unfold trace_back_walk at h
    split at h
    · simp at h
    · rename_i e he
      have hmem := table_at_mem table p q e he
      split at h
      · exact ⟨[], (Option.some.inj h).symm, List.Chain.nil⟩
      · rename_i hneg
        obtain ⟨u, hw, hch⟩ :=
          trace_back_walk_chain gr table hrow fuel e.trace1 e.trace2 _ w h
        refine ⟨e.trace1.toNat :: u, by rw [hw]; simp, List.Chain.cons ?_ hch⟩
        rcases hrow p.toNat e hmem.2 with h1 | ⟨ed, hed, ht, hs⟩
        · exact absurd h1 hneg
        · refine ⟨ed, hed, ?_, ht⟩
          rw [← hs]
          rfl

theorem trace_back_chain (gr : splice_graph) (table : List (List entry)) (k : Nat)
    (hrow : ∀ j, ∀ c ∈ table.getD j [],
      c.trace1 < 0 ∨ ∃ e ∈ gr.edges, e.target = j ∧ (e.source : Int) = c.trace1)
    (pb : List (List Nat)) (h : trace_back k table = some pb) :
    ∀ path ∈ pb,
      List.Chain' (fun x y => ∃ e ∈ gr.edges, e.source = x ∧ e.target = y) path := by
  intro path hpath
  unfold trace_back at h
  obtain ⟨i, _, hi⟩ := mapM_some_mem _ _ _ h path hpath
  cases hw : trace_back_walk table (k + 1) (k : Int) (i : Int) [] with
  | none => rw [hw] at hi; simp at hi
  | some w =>
    rw [hw] at hi
    have hp : path = w.reverse := by simpa using hi.symm
    obtain ⟨u, hwu, hch⟩ := trace_back_walk_chain gr table hrow (k + 1) k i [] w hw
    simp only [List.nil_append, Int.toNat_ofNat] at hwu hch
    rw [hp, hwu, List.chain'_reverse]
    exact hch

theorem nominate_bridges_chain (gr : splice_graph) (cfg : parameters) (k1 k2 : Nat) (bt : Int)
    (br : List bridge_path)
    (h : nominate_bridges gr (dp_fill gr cfg k1 k2) bt = some br) :
    ∀ b ∈ br, List.Chain' (fun x y => ∃ e ∈ gr.edges, e.source = x ∧ e.target = y) b.v ∧
      build_intron_coordinates_from_path gr b.v = some b.chain := by
  intro b hb
  unfold nominate_bridges at h
  split at h
  · split at h
    · simp at h
    · rename_i pb hpb
      have hch := trace_back_chain gr (dp_fill gr cfg k1 k2) bt.toNat
        (fun j => dp_table_edge gr cfg k1 _ j) pb hpb
      obtain ⟨jv, hjv1, hjv⟩ := mapM_some_mem _ _ _ h b hb
      have hjvmem : jv.2 ∈ pb := by
        have := List.mem_enum_iff_getElem?.mp hjv1
        exact List.getElem?_mem this
      split at hjv
      · simp at hjv
      · split at hjv
        · rename_i sc ch hsc hbuild
          have hbv : b.v = jv.2 := by
            rw [← Option.some.inj hjv]
          have hbc : b.chain = ch := by
            rw [← Option.some.inj hjv]
          rw [hbv, hbc]
          exact ⟨hch jv.2 hjvmem, hbuild⟩
        · simp at hjv
  · simp at h


theorem nominate_pier_chains (gr : splice_graph) (cfg : parameters) (k1 k2 : Nat)
    (ps ps' : List pier) (b : Nat) (hI : ∀ p ∈ ps, pier_chains gr p)
    (h : nominate_pier gr (dp_fill gr cfg k1 k2) ps b = some ps') :
    ∀ p ∈ ps', pier_chains gr p := by
  unfold nominate_pier at h
  split at h
  · simp at h
  · rename_i br hbr
    have hnew := nominate_bridges_chain gr cfg k1 k2 _ br hbr
    have hold : pier_chains gr (pier_at ps b) := by
      unfold pier_at
      simp only [List.getD_eq_getElem?_getD]
      cases hg : ps[b]? with
      | none =>
        intro x hx
        simp at hx
      | some q => exact hI q (List.getElem?_mem hg)
    rw [← Option.some.inj h]
    intro p hp
    rcases List.mem_or_eq_of_mem_set hp with h1 | h1
    · exact hI p h1
    · rw [h1]
      intro x hx
      have hx' := (std_sort_perm _ _).subset hx
      simp only [] at hx'
      rcases List.mem_append.mp hx' with h2 | h2
      · exact hold x h2
      · exact hnew x h2

theorem nominate_group_chains (gr : splice_graph) (cfg : parameters) (ps ps' : List pier)
    (b1 b2 : Nat) (hI : ∀ p ∈ ps, pier_chains gr p)
    (h : nominate_group gr cfg ps b1 b2 = some ps') :
    ∀ p ∈ ps', pier_chains gr p := by
  unfold nominate_group at h
  split at h
  · split at h
    · simp at h
    · rename_i table htab
      unfold dynamic_programming at htab
      split at htab
      · rw [← Option.some.inj htab] at h
        refine foldlM_option_inv_mem _ (fun qs => ∀ p ∈ qs, pier_chains gr p) _ _ _ ?_ hI h
        intro qs b qs' _ hq hstep
        exact nominate_pier_chains gr cfg _ _ qs qs' b hq hstep
      · simp at htab
  · simp at h

/-- After `nominate`, run on piers without bridges, the vertex path of every bridge
follows edges of the graph and the chain of the bridge is made from that path. -/
theorem nominate_chains (gr : splice_graph) (cfg : parameters) (piers piers' : List pier)
    (h0 : ∀ p ∈ piers, p.bridges = []) (h : nominate gr cfg piers = some piers') :
    ∀ p ∈ piers', pier_chains gr p := by
  have hinit : ∀ l : List pier, (∀ p ∈ l, p.bridges = []) → ∀ p ∈ l, pier_chains gr p := by
    intro l hl p hp x hx
    rw [hl p hp] at hx
    simp at hx
  unfold nominate at h
  split at h
  · rw [← Option.some.inj h]
    exact hinit piers h0
  · refine foldlM_option_inv_mem _ (fun ps => ∀ p ∈ ps, pier_chains gr p) _ _ _ ?_
      (hinit _ (fun p hp => h0 p ((std_sort_perm _ _).subset hp))) h
    intro ps k ps' _ hI hstep
    exact nominate_group_chains gr cfg ps ps' _ _ hI hstep


/-! ## Located vertices and the coordinates of a path -/

theorem locate_vertex_from_spec (gr : splice_graph) (pos : Int) :
    ∀ (m k : Nat), 0 ≤ locate_vertex_from gr pos m k →
      k ≤ (locate_vertex_from gr pos m k).toNat ∧
      (locate_vertex_from gr pos m k).toNat < k + m ∧
      (gr.get_vertex_info (locate_vertex_from gr pos m k).toNat).lpos ≤ pos ∧
      pos < (gr.get_vertex_info (locate_vertex_from gr pos m k).toNat).rpos
  | 0, k, h => by simp [locate_vertex_from] at h
  | m + 1, k, h => by
    unfold locate_vertex_from at h ⊢
    by_cases hc : (gr.get_vertex_info k).lpos ≤ pos ∧ pos < (gr.get_vertex_info k).rpos
    · rw [if_pos hc]
      simp only [Int.toNat_ofNat]
      exact ⟨le_refl _, by omega, hc.1, hc.2⟩
    · rw [if_neg hc] at h ⊢
      obtain ⟨p1, p2, p3, p4⟩ := locate_vertex_from_spec gr pos m (k + 1) h
      exact ⟨by omega, by omega, p3, p4⟩

/-- A vertex returned by `locate_vertex` is internal and its interval holds the
position. -/
theorem locate_vertex_spec (gr : splice_graph) (pos : Int) (h : 0 ≤ gr.locate_vertex pos) :
    gr.internal (gr.locate_vertex pos).toNat ∧
    (gr.get_vertex_info (gr.locate_vertex pos).toNat).lpos ≤ pos ∧
    pos < (gr.get_vertex_info (gr.locate_vertex pos).toNat).rpos := by
  unfold splice_graph.locate_vertex at h ⊢
  obtain ⟨p1, p2, p3, p4⟩ := locate_vertex_from_spec gr pos _ _ h
  refine ⟨⟨p1, ?_⟩, p3, p4⟩
  omega

theorem edge_chain_bounds (gr : splice_graph) (hdag : ∀ e ∈ gr.edges, e.source < e.target) :
    ∀ (rest : List Nat) (a t : Nat),
      List.Chain (fun x y => ∃ e ∈ gr.edges, e.source = x ∧ e.target = y) a rest →
      (a :: rest).getLast? = some t → ∀ k ∈ a :: rest, a ≤ k ∧ k ≤ t
  | [], a, t, _, hl, k, hk => by
    have hka : k = a := by simpa using hk
    have hta : a = t := by simpa using hl
    omega
  | b :: rest, a, t, hc, hl, k, hk => by
    obtain ⟨⟨e, he, hs, ht⟩, hc2⟩ := List.chain_cons.mp hc
    have hab : a < b := by
      have := hdag e he
      omega
    rw [List.getLast?_cons_cons] at hl
    have hbt := edge_chain_bounds gr hdag rest b t hc2 hl b (List.mem_cons_self _ _)
    rcases List.mem_cons.mp hk with h1 | h1
    · omega
    · have := edge_chain_bounds gr hdag rest b t hc2 hl k h1
      omega

/-- The chain made from a path of non-empty intervals is strictly increasing and lies
between the end of the first interval and the start of the last one. -/
theorem build_intron_coordinates_bounds (gr : splice_graph) :
    ∀ (rest : List Nat) (a t : Nat) (vv : List Int),
      (∀ k ∈ a :: rest, (gr.get_vertex_info k).lpos < (gr.get_vertex_info k).rpos) →
      build_intron_coordinates_from_path gr (a :: rest) = some vv →
      (a :: rest).getLast? = some t →
      List.Sorted (· < ·) vv ∧
      (∀ x ∈ vv, (gr.get_vertex_info a).rpos ≤ x ∧ x ≤ (gr.get_vertex_info t).lpos) ∧
      (gr.get_vertex_info a).lpos ≤ (gr.get_vertex_info t).lpos
  | [], a, t, vv, _, hb, hl => by
    have hvv : vv = [] := by
      simp [build_intron_coordinates_from_path] at hb
      exact hb
    have hta : a = t := by simpa using hl
    subst hvv
    subst hta
    exact ⟨List.sorted_nil, by simp, le_refl _⟩
  | b :: rest, a, t, vv, hne, hb, hl => by
    rw [List.getLast?_cons_cons] at hl
    have ha := hne a (List.mem_cons_self _ _)
    have hb0 := hne b (List.mem_cons_of_mem _ (List.mem_cons_self _ _))
    unfold build_intron_coordinates_from_path at hb
    by_cases hpq : (gr.get_vertex_info a).rpos ≤ (gr.get_vertex_info b).lpos
    · rw [if_pos hpq] at hb
      by_cases heq : (gr.get_vertex_info a).rpos = (gr.get_vertex_info b).lpos
      · rw [if_pos heq] at hb
        obtain ⟨q1, q2, q3⟩ := build_intron_coordinates_bounds gr rest b t vv
          (fun k hk => hne k (List.mem_cons_of_mem _ hk)) hb hl
        refine ⟨q1, fun x hx => ?_, by omega⟩
        have := q2 x hx
        omega
      · rw [if_neg heq] at hb
        cases hrec : build_intron_coordinates_from_path gr (b :: rest) with
        | none => rw [hrec] at hb; simp at hb
        | some v2 =>
          rw [hrec] at hb
          obtain ⟨q1, q2, q3⟩ := build_intron_coordinates_bounds gr rest b t v2
            (fun k hk => hne k (List.mem_cons_of_mem _ hk)) hrec hl
          have hvv : vv = (gr.get_vertex_info a).rpos :: (gr.get_vertex_info b).lpos :: v2 := by
            simpa using hb.symm
          subst hvv
          refine ⟨List.sorted_cons.mpr ⟨?_, List.sorted_cons.mpr ⟨?_, q1⟩⟩, ?_, by omega⟩
          · intro x hx
            rcases List.mem_cons.mp hx with h1 | h1
            · omega
            · have := q2 x h1
              omega
          · intro x hx
            have := q2 x hx
            omega
          · intro x hx
            rcases List.mem_cons.mp hx with h1 | h1
            · omega
            · rcases List.mem_cons.mp h1 with h2 | h2
              · omega
              · have := q2 x h2
                omega
    · rw [if_neg hpq] at hb
      simp at hb

theorem check_increasing_of_sorted :
    ∀ l : List Int, List.Sorted (· < ·) l → check_increasing_sequence l = true
  | [], _ => rfl
  | [_], _ => rfl
  | a :: b :: l, h => by
    obtain ⟨h1, h2⟩ := List.sorted_cons.mp h
    unfold check_increasing_sequence
    rw [check_increasing_of_sorted (b :: l) h2]
    simp [h1 b (List.mem_cons_self _ _)]


theorem headD_mem_of_length : ∀ l : List Int, l.length ≥ 1 → l.headD 0 ∈ l
  | [], h => by simp at h
  | a :: l, _ => by simp

theorem getLastD_mem_of_length : ∀ l : List Int, l.length ≥ 1 → l.getLastD 0 ∈ l
  | [], h => by simp at h
  | a :: l, _ => by
    rw [List.getLastD_cons]
    cases l with
    | nil => simp
    | cons b l2 =>
      have := getLastD_mem_of_length (b :: l2) (by simp)
      rw [List.getLastD_cons] at this ⊢
      exact List.mem_cons_of_mem _ (by simpa using this)

/-- The six assertions hold for a candidate `chain1 ++ chain ++ chain2` whose three
parts are strictly increasing, with `chain1` inside `(b0,b1)`, `chain` inside
`[b1,b2]` and `chain2` inside `(b2,b3)`, when `b0 < b1` and `b2 < b3`. -/
theorem vote_asserts_of_bounds (pc : pereads_cluster) (c : candidate)
    (hw : c.whole = pc.chain1 ++ c.chain ++ pc.chain2)
    (h01 : pc.bounds0 < pc.bounds1) (h12 : pc.bounds1 ≤ pc.bounds2)
    (h23 : pc.bounds2 < pc.bounds3)
    (s1 : List.Sorted (· < ·) pc.chain1)
    (c1 : ∀ x ∈ pc.chain1, pc.bounds0 < x ∧ x < pc.bounds1)
    (s2 : List.Sorted (· < ·) pc.chain2)
    (c2 : ∀ x ∈ pc.chain2, pc.bounds2 < x ∧ x < pc.bounds3)
    (s : List.Sorted (· < ·) c.chain)
    (cb : ∀ x ∈ c.chain, pc.bounds1 ≤ x ∧ x ≤ pc.bounds2) :
    vote_asserts pc c = true := by
  have hall : ∀ x ∈ c.whole, pc.bounds0 < x ∧ x < pc.bounds3 := by
    intro x hx
    rw [hw] at hx
    rcases List.mem_append.mp hx with h | h
    · rcases List.mem_append.mp h with h | h
      · have := c1 x h
        omega
      · have := cb x h
        omega
    · have := c2 x h
      omega
  have hsorted : List.Sorted (· < ·) c.whole := by
    rw [hw]
    refine List.pairwise_append.mpr ⟨List.pairwise_append.mpr ⟨s1, s, ?_⟩, s2, ?_⟩
    · intro a ha b hb
      have := c1 a ha
      have := cb b hb
      omega
    · intro a ha b hb
      have := c2 b hb
      rcases List.mem_append.mp ha with h | h
      · have := c1 a h
        omega
      · have := cb a h
        omega
  unfold vote_asserts
  simp only [Bool.and_eq_true]
  refine ⟨⟨⟨⟨⟨check_increasing_of_sorted _ hsorted, check_increasing_of_sorted _ s⟩, ?_⟩,
    ?_⟩, ?_⟩, ?_⟩
  · split_ifs with h
    · have := hall _ (headD_mem_of_length _ h)
      simp only [decide_eq_true_eq]
      omega
    · rfl
  · split_ifs with h
    · have := hall _ (getLastD_mem_of_length _ h)
      simp only [decide_eq_true_eq]
      omega
    · rfl
  · split_ifs with h
    · have := c1 _ (getLastD_mem_of_length _ h.1)
      have := cb _ (headD_mem_of_length _ h.2)
      simp only [decide_eq_true_eq]
      omega
    · rfl
  · split_ifs with h
    · have := c2 _ (headD_mem_of_length _ h.1)
      have := cb _ (getLastD_mem_of_length _ h.2)
      simp only [decide_eq_true_eq]
      omega
    · rfl


/-- C26 (vote's asserted post-conditions hold), amended.  On a splice graph whose
internal vertices are non-empty intervals and whose edges go from a vertex to a later
one, after `build_piers` and `nominate` have returned, for every fragment with
`b0 < b1 <= b2 < b3`, `chain1` strictly increasing inside `(b0,b1)` and `chain2`
strictly increasing inside `(b2,b3)` whose located vertices are not negative, every
type-2 candidate that `vote` examines passes the six assertions at the head of the
candidate loop. -/
theorem vote_candidate_assertions (mts : List Int → List Int → Bool × List Int)
    (gr : splice_graph) (cfg : parameters) (vc : List pereads_cluster)
    (piers0 piers : List pier) (pc : pereads_cluster) (cands : List candidate)
    (hint : ∀ k, gr.internal k → (gr.get_vertex_info k).lpos < (gr.get_vertex_info k).rpos)
    (hdag : ∀ e ∈ gr.edges, e.source < e.target)
    (hb : build_piers vc (build_bridging_vertices gr vc) = some piers0)
    (hn : nominate gr cfg piers0 = some piers)
    (h01 : pc.bounds0 < pc.bounds1) (h12 : pc.bounds1 ≤ pc.bounds2)
    (h23 : pc.bounds2 < pc.bounds3)
    (s1 : List.Sorted (· < ·) pc.chain1)
    (c1 : ∀ x ∈ pc.chain1, pc.bounds0 < x ∧ x < pc.bounds1)
    (s2 : List.Sorted (· < ·) pc.chain2)
    (c2 : ∀ x ∈ pc.chain2, pc.bounds2 < x ∧ x < pc.bounds3)
    (hss : 0 ≤ gr.locate_vertex (pc.bounds1 - 1))
    (htt : 0 ≤ gr.locate_vertex (pc.bounds2 - 0))
    (hv : vote_candidates mts piers (gr.locate_vertex (pc.bounds1 - 1))
      (gr.locate_vertex (pc.bounds2 - 0)) pc = some (2, cands)) :
    ∀ c ∈ cands, vote_asserts pc c = true := by
  intro c hc
  obtain ⟨i1, l1, r1⟩ := locate_vertex_spec gr _ hss
  obtain ⟨i2, l2, r2⟩ := locate_vertex_spec gr _ htt
  have h0 := build_piers_empty vc _ piers0 hb
  have hpaths := nominate_paths gr cfg piers0 piers h0 hn
  have hchains := nominate_chains gr cfg piers0 piers h0 hn
  unfold vote_candidates at hv
  by_cases g1 : gr.locate_vertex (pc.bounds1 - 1) ≥ gr.locate_vertex (pc.bounds2 - 0)
  · rw [if_pos g1] at hv
    split_ifs at hv
    · simp at hv
  · rw [if_neg g1] at hv
    cases hfind : pindex_find piers (gr.locate_vertex (pc.bounds1 - 1))
        (gr.locate_vertex (pc.bounds2 - 0)) with
    | none => rw [hfind] at hv; simp at hv
    | some k =>
      rw [hfind] at hv
      simp only at hv
      by_cases g4 : pc.chain1.length ≥ 1 ∧ pc.chain2.length ≥ 1 ∧
          ¬ (pc.chain1.getLastD 0 < pc.chain2.headD 0)
      · rw [if_pos g4] at hv
        simp at hv
      rw [if_neg g4] at hv
      have hcands := (Prod.mk.inj (Option.some.inj hv)).2
      rw [← hcands] at hc
      obtain ⟨b, hbm, hbc⟩ := List.mem_map.mp hc
      obtain ⟨hpm, hbs, hbt⟩ := pindex_find_some piers _ _ k hfind
      obtain ⟨hhead, hlast⟩ := hpaths _ hpm b hbm
      obtain ⟨hchain, hbuild⟩ := hchains _ hpm b hbm
      rw [hbs] at hhead
      rw [hbt] at hlast
      cases hbv : b.v with
      | nil => rw [hbv] at hhead; simp at hhead
      | cons a rest =>
        rw [hbv] at hhead hlast hchain hbuild
        have ha : a = (gr.locate_vertex (pc.bounds1 - 1)).toNat := by simpa using hhead
        have hvs := edge_chain_bounds gr hdag rest a _ hchain hlast
        have hne : ∀ k ∈ a :: rest,
            (gr.get_vertex_info k).lpos < (gr.get_vertex_info k).rpos := by
          intro k hk
          have := hvs k hk
          refine hint k ⟨?_, ?_⟩
          · have := i1.1
            omega
          · have := i2.2
            omega
        obtain ⟨q1, q2, _⟩ := build_intron_coordinates_bounds gr rest a _ b.chain hne hbuild hlast
        rw [ha] at q2
        refine vote_asserts_of_bounds pc c (by rw [← hbc]) h01 h12 h23 s1 c1 s2 c2
          (by rw [← hbc]; exact q1) ?_
        intro x hx
        rw [← hbc] at hx
        have := q2 x hx
        omega


theorem vote_candidate_assertions_witness :
    vote_candidates merge_two_sorted_sequences gap_piers
      (gap_graph.locate_vertex (gap_fragment.bounds1 - 1))
      (gap_graph.locate_vertex (gap_fragment.bounds2 - 0)) gap_fragment
      = some (2, [{ chain := [200, 300], whole := [200, 300], score := 100 }]) ∧
    ∀ c ∈ [({ chain := [200, 300], whole := [200, 300], score := 100 } : candidate)],
      vote_asserts gap_fragment c = true :=
  ⟨by decide,
   vote_candidate_assertions merge_two_sorted_sequences gap_graph scenario_cfg [gap_fragment]
    [{ bs := 1, bt := 2, bridges := [] }] gap_piers gap_fragment
    [{ chain := [200, 300], whole := [200, 300], score := 100 }]
    (by
      intro k hk
      have hk2 : k = 1 ∨ k = 2 := by
        unfold splice_graph.internal splice_graph.num_vertices gap_graph at hk
        simp only [List.length_cons, List.length_nil] at hk
        omega
      rcases hk2 with h | h <;> subst h <;> decide)
    (by decide) (by decide) (by decide) (by decide) (by decide) (by decide)
    (by simp [gap_fragment]) (by simp [gap_fragment]) (by simp [gap_fragment])
    (by simp [gap_fragment]) (by decide) (by decide) (by decide)⟩

/-- C26 as stated fails.  On `gap_graph` (internal vertices `[100,200)` and `[300,400)`,
sorted and not overlapping) the fragment with `bounds = (200,200,320,380)` and empty
chains satisfies `b0 <= b1 <= b2 <= b3`; its type-2 candidate has
`whole.front() = 200 = b0` and fails the assertion `whole.front() > b0`.  The fragment
with `bounds = (150,190,300,300)` has the same candidate, with
`whole.back() = 300 = b3`, which fails the assertion `whole.back() < b3`. -/
theorem vote_candidate_assertions_counterexample :
    (build_piers [empty_mate_fragment] (build_bridging_vertices gap_graph [empty_mate_fragment])
        = some [{ bs := 1, bt := 2, bridges := [] }] ∧
      nominate gap_graph scenario_cfg [{ bs := 1, bt := 2, bridges := [] }] = some gap_piers ∧
      vote_candidates merge_two_sorted_sequences gap_piers
        (gap_graph.locate_vertex (empty_mate_fragment.bounds1 - 1))
        (gap_graph.locate_vertex (empty_mate_fragment.bounds2 - 0)) empty_mate_fragment
        = some (2, [{ chain := [200, 300], whole := [200, 300], score := 100 }]) ∧
      vote_asserts empty_mate_fragment
        { chain := [200, 300], whole := [200, 300], score := 100 } = false) ∧
    (build_piers [late_mate_fragment] (build_bridging_vertices gap_graph [late_mate_fragment])
        = some [{ bs := 1, bt := 2, bridges := [] }] ∧
      vote_candidates merge_two_sorted_sequences gap_piers
        (gap_graph.locate_vertex (late_mate_fragment.bounds1 - 1))
        (gap_graph.locate_vertex (late_mate_fragment.bounds2 - 0)) late_mate_fragment
        = some (2, [{ chain := [200, 300], whole := [200, 300], score := 100 }]) ∧
      vote_asserts late_mate_fragment
        { chain := [200, 300], whole := [200, 300], score := 100 } = false ∧
      vote merge_two_sorted_sequences 50 500 gap_piers (1, 2) late_mate_fragment
        bridge_path.init = none) := by
  refine ⟨⟨by decide, by decide, by decide, by decide⟩,
    ⟨by decide, by decide, by decide, by decide⟩⟩


/-! ## update_stack writes past the end -/

/-- C35, the code on the failing inputs.  For `v = [5, 999999]` and `s = 7` the loop
writes `stack[0] = 5`, `stack[1] = 7` and then `stack[2] = 999999`, and `2` is the
size of the vector; for `v = [9]` and `s = 3` it writes `stack[0] = 3` and
`stack[1] = 9`, and `1` is the size of the vector. -/
theorem update_stack_writes_past_end :
    update_stack_writes [5, 999999] 7 = [(0, 5), (1, 7), (2, 999999)] ∧
    ¬ (2 < [(5 : Int), 999999].length) ∧
    update_stack_writes [9] 3 = [(0, 3), (1, 9)] ∧
    ¬ (1 < [(9 : Int)].length) := by
  decide

/-! ## group_junctions -/

/-- C33, the code on a failing input.  With `max_group_junction_distance = 10`, the
junction `(101,201)` of weight 50 and count 1 that follows the junction `(100,200)` of
weight 2000 and count 5 is dropped, although the only other junction has a weight
above 100; with the two junctions in the other order both are kept. -/
theorem group_junctions_heavy_winner :
    group_junctions [((100, 200), (2000, 5)), ((101, 201), (50, 1))] 10
      = [((100, 200), (2000, 5))] ∧
    ¬ ((2000 : ℚ) ≤ 100) ∧
    group_junctions [((101, 201), (50, 1)), ((100, 200), (2000, 5))] 10
      = [((101, 201), (50, 1)), ((100, 200), (2000, 5))] := by
  decide!


/-! ## group_end_boundaries -/

/-- C32, the code on a failing input.  On `end_group_graph` with
`max_group_boundary_distance = 10` the boundary vertex 2 (sink edge of weight 3) is
merged into the group of vertex 3: the adjacency edge `(2,3)` goes from weight 9 to 12
and the sink edge `(3,4)` from 10 to 13, but the weight of vertex 3, which was 10,
becomes 12, the new weight of the edge, not `10 + 3 = 13`. -/
theorem group_end_boundaries_vertex_weight :
    end_group_graph.get_vertex_weight 3 = 10 ∧
    group_end_boundaries end_group_graph 10
      = some ({ end_group_graph with
                  edges := [{ source := 0, target := 1, weight := 20, id := 1 },
                            { source := 1, target := 2, weight := 12, id := 2 },
                            { source := 2, target := 3, weight := 12, id := 3 },
                            { source := 1, target := 4, weight := 7, id := 4 },
                            { source := 3, target := 4, weight := 13, id := 6 }]
                  vwrt := [0, 20, 13, 12, 0] },
               [(1095, 1100)]) := by
  decide!


/-! ## The entries of smap -/

theorem int_map_insert_sub (k v : Int) :
    ∀ (m : List (Int × Int)) (x : Int × Int), x ∈ m → x ∈ int_map_insert m k v
  | [], x, h => by simp at h
  | (a, b) :: m, x, h => by
    unfold int_map_insert
    split_ifs
    · exact List.mem_cons_of_mem _ h
    · rcases List.mem_cons.mp h with h1 | h1
      · rw [h1]; exact List.mem_cons_self _ _
      · exact List.mem_cons_of_mem _ (int_map_insert_sub k v m x h1)
    · exact h

theorem mem_int_map_insert (k v : Int) :
    ∀ (m : List (Int × Int)) (x : Int × Int), x ∈ int_map_insert m k v → x ∈ m ∨ x = (k, v)
  | [], x, h => by
    right
    simpa [int_map_insert] using h
  | (a, b) :: m, x, h => by
    unfold int_map_insert at h
    split_ifs at h
    · rcases List.mem_cons.mp h with h1 | h1
      · exact Or.inr h1
      · exact Or.inl h1
    · rcases List.mem_cons.mp h with h1 | h1
      · left; rw [h1]; exact List.mem_cons_self _ _
      · rcases mem_int_map_insert k v m x h1 with h2 | h2
        · exact Or.inl (List.mem_cons_of_mem _ h2)
        · exact Or.inr h2
    · exact Or.inl h

theorem int_map_insert_key (k v : Int) :
    ∀ m : List (Int × Int),
      ∃ v', (k, v') ∈ int_map_insert m k v ∧ (v' = v ∨ (k, v') ∈ m)
  | [] => ⟨v, by simp [int_map_insert], Or.inl rfl⟩
  | (a, b) :: m => by
    unfold int_map_insert
    split_ifs with h1 h2
    · exact ⟨v, List.mem_cons_self _ _, Or.inl rfl⟩
    · obtain ⟨v', hv1, hv2⟩ := int_map_insert_key k v m
      refine ⟨v', List.mem_cons_of_mem _ hv1, ?_⟩
      rcases hv2 with h | h
      · exact Or.inl h
      · exact Or.inr (List.mem_cons_of_mem _ h)
    · have hka : k = a := by omega
      subst hka
      exact ⟨b, List.mem_cons_self _ _, Or.inr (List.mem_cons_self _ _)⟩

theorem group_chain_fold_vinf (wb : ℚ) :
    ∀ (l : List Nat) (s s' : splice_graph × edge_base × edge_base),
      l.foldlM (group_chain_step wb) s = some s' → s'.1.vinf = s.1.vinf := by
  intro l s s' h
  refine foldlM_option_inv (group_chain_step wb) (fun t => t.1.vinf = s.1.vinf) ?_ l s s' rfl h
  intro t j t' ht hstep
  unfold group_chain_step at hstep
  split at hstep
  · simp at hstep
  · rw [← Option.some.inj hstep]
    exact ht

/-- One pass of the main loop of `group_start_boundaries`: the boundary `p` of the
vertex is not before `p2` and becomes the new `p2`; either it starts a new group, or it
is not further than the limit from `p2` and `p -> p1` is inserted into `smap`. -/
theorem group_start_step_spec (maxd : Int) (st st1 : group_state) (vi : Nat)
    (h : group_start_step maxd st vi = some st1) :
    st1.gr.vinf = st.gr.vinf ∧ st1.p2 = (st.gr.get_vertex_info vi).lpos ∧
    st.p2 ≤ (st.gr.get_vertex_info vi).lpos ∧
    ((st1.p1 = (st.gr.get_vertex_info vi).lpos ∧ st1.smap = st.smap) ∨
     (st1.p1 = st.p1 ∧
      st1.smap = int_map_insert st.smap (st.gr.get_vertex_info vi).lpos st.p1 ∧
      (st.gr.get_vertex_info vi).lpos - st.p2 ≤ maxd)) := by
  unfold group_start_step at h
  split at h
  · simp at h
  · rename_i pb hpb
    by_cases c1 : (st.gr.get_vertex_info vi).lpos < st.p2
    · rw [if_pos c1] at h
      simp at h
    rw [if_neg c1] at h
    by_cases c2 : check_continuous_vertices st.gr st.k2 vi = false ∨
        (st.gr.get_vertex_info vi).lpos - st.p2 > maxd
    · rw [if_pos c2] at h
      rw [← Option.some.inj h]
      exact ⟨rfl, rfl, by omega, Or.inl ⟨rfl, rfl⟩⟩
    · rw [if_neg c2] at h
      split at h
      · simp at h
      · rename_i g1 pa1 pb1 hfold
        have hv := group_chain_fold_vinf pb.weight _ _ _ hfold
        rw [← Option.some.inj h]
        refine ⟨hv, rfl, by omega, Or.inr ⟨rfl, rfl, ?_⟩⟩
        have := not_or.mp c2
        omega


theorem group_start_fold_entries (gr : splice_graph) (maxd : Int) :
    ∀ (l : List Nat) (st st' : group_state),
      l.foldlM (group_start_step maxd) st = some st' →
      st.gr.vinf = gr.vinf → st.p1 ≤ st.p2 →
      (st.p2 = st.p1 ∨ (st.p2, st.p1) ∈ st.smap) →
      (∀ k ∈ l, st.p2 < (gr.get_vertex_info k).lpos) →
      (l.map (fun k => (gr.get_vertex_info k).lpos)).Pairwise (· < ·) →
      (∀ x ∈ st.smap, x.2 < x.1 ∧ x.1 ≤ st.p2 ∧
        ∃ p', (p' = x.2 ∨ (p', x.2) ∈ st.smap) ∧ p' < x.1 ∧ x.1 - p' ≤ maxd) →
      ∀ x ∈ st'.smap, x.2 < x.1 ∧
        ∃ p', (p' = x.2 ∨ (p', x.2) ∈ st'.smap) ∧ p' < x.1 ∧ x.1 - p' ≤ maxd
  | [], st, st', h, _, _, _, _, _, hs => by
    have : st = st' := by simpa using h
    subst this
    intro x hx
    exact ⟨(hs x hx).1, (hs x hx).2.2⟩
  | vi :: l, st, st', h, hv, h12, h2, hl, hp, hs => by
    rw [List.foldlM_cons] at h
    cases hstep : group_start_step maxd st vi with
    | none => rw [hstep] at h; simp at h
    | some st1 =>
      rw [hstep] at h
      obtain ⟨q1, q2, q3, q4⟩ := group_start_step_spec maxd st st1 vi hstep
      have hL : (st.gr.get_vertex_info vi).lpos = (gr.get_vertex_info vi).lpos := by
        unfold splice_graph.get_vertex_info
        rw [hv]
      rw [hL] at q2 q3 q4
      have hlt := hl vi (List.mem_cons_self _ _)
      obtain ⟨hp1, hp2⟩ := List.pairwise_cons.mp hp
      refine group_start_fold_entries gr maxd l st1 st' h (q1.trans hv) ?_ ?_ ?_ hp2 ?_
      · rcases q4 with ⟨e1, _⟩ | ⟨e1, _, _⟩
        · omega
        · omega
      · rcases q4 with ⟨e1, _⟩ | ⟨e1, e2, _⟩
        · left; omega
        · right
          rw [q2, e1, e2]
          obtain ⟨v', hv1, hv2⟩ := int_map_insert_key (gr.get_vertex_info vi).lpos st.p1 st.smap
          rcases hv2 with h3 | h3
          · rw [h3] at hv1; exact hv1
          · have := (hs _ h3).2.1
            simp only at this
            omega
      · intro k hk
        rw [q2]
        exact hp1 _ (List.mem_map.mpr ⟨k, hk, rfl⟩)
      · intro x hx
        rcases q4 with ⟨_, e2⟩ | ⟨_, e2, e3⟩
        · rw [e2] at hx ⊢
          obtain ⟨a1, a2, a3⟩ := hs x hx
          exact ⟨a1, by omega, a3⟩
        · rw [e2] at hx ⊢
          rcases mem_int_map_insert _ _ _ _ hx with h3 | h3
          · obtain ⟨a1, a2, p', a3, a4, a5⟩ := hs x h3
            refine ⟨a1, by omega, p', ?_, a4, a5⟩
            rcases a3 with a3 | a3
            · exact Or.inl a3
            · exact Or.inr (int_map_insert_sub _ _ _ _ a3)
          · rw [h3]
            refine ⟨by simp only; omega, by simp only; omega, st.p2, ?_, by simp only; omega,
              by simp only; omega⟩
            rcases h2 with h4 | h4
            · exact Or.inl h4
            · exact Or.inr (int_map_insert_sub _ _ _ _ h4)

/-- C31 (grouping distance bound), amended.  When the `lpos` of the start-boundary
vertices, taken in vertex order, strictly increase, every entry `p -> q` that
`group_start_boundaries` records in `smap` has `0 < p - q`, and `p` is within
`max_group_boundary_distance` of the boundary `p'` merged into the group just before
it: `p' < p`, `p - p' <= max_group_boundary_distance`, and `p'` is `q` or has the entry
`p' -> q`. -/
theorem group_start_boundaries_distance (gr g1 : splice_graph) (maxd : Int)
    (smap : List (Int × Int))
    (hpos : ((std_sort (fun a b => decide (a < b))
        ((gr.out_edges 0).map (fun e => e.target))).map
          (fun k => (gr.get_vertex_info k).lpos)).Pairwise (· < ·))
    (h : group_start_boundaries gr maxd = some (g1, smap)) :
    ∀ x ∈ smap, 0 < x.1 - x.2 ∧
      ∃ p', (p' = x.2 ∨ (p', x.2) ∈ smap) ∧ p' < x.1 ∧ x.1 - p' ≤ maxd := by
  unfold group_start_boundaries at h
  split at h
  · intro x hx
    have := (Prod.mk.inj (Option.some.inj h)).2
    rw [← this] at hx
    simp at hx
  · intro x hx
    have := (Prod.mk.inj (Option.some.inj h)).2
    rw [← this] at hx
    simp at hx
  · rename_i v0 rest hne heq
    rw [heq] at hpos
    split at h
    · simp at h
    · rename_i pa hpa
      cases hfold : rest.foldlM (group_start_step maxd)
          { gr := gr, smap := [], p1 := (gr.get_vertex_info v0).lpos,
            p2 := (gr.get_vertex_info v0).lpos, k1 := v0, k2 := v0, pa := pa,
            wa := pa.weight } with
      | none => rw [hfold] at h; simp at h
      | some st' =>
        rw [hfold] at h
        have hsm : st'.smap = smap := (Prod.mk.inj (Option.some.inj h)).2
        obtain ⟨hp1, hp2⟩ := List.pairwise_cons.mp hpos
        have := group_start_fold_entries gr maxd rest _ st' hfold rfl (le_refl _)
          (Or.inl rfl) (fun k hk => hp1 _ (List.mem_map.mpr ⟨k, hk, rfl⟩)) hp2
          (fun x hx => by simp at hx)
        rw [hsm] at this
        intro x hx
        obtain ⟨a1, a2⟩ := this x hx
        exact ⟨by omega, a2⟩

theorem group_start_boundaries_distance_witness :
    group_start_boundaries chain_group_graph 10
      = some ({ chain_group_graph with
                  edges := [{ source := 0, target := 1, weight := 20, id := 1 },
                            { source := 1, target := 2, weight := 20, id := 4 },
                            { source := 2, target := 3, weight := 20, id := 5 },
                            { source := 3, target := 4, weight := 20, id := 6 }]
                  vwrt := [0, 20, 20, 20, 0] },
               [(1008, 1000), (1016, 1000)]) ∧
    ∀ x ∈ [((1008 : Int), (1000 : Int)), (1016, 1000)], 0 < x.1 - x.2 ∧
      ∃ p', (p' = x.2 ∨ (p', x.2) ∈ [((1008 : Int), (1000 : Int)), (1016, 1000)]) ∧
        p' < x.1 ∧ x.1 - p' ≤ 10 :=
  ⟨by decide!,
   group_start_boundaries_distance chain_group_graph
    { chain_group_graph with
        edges := [{ source := 0, target := 1, weight := 20, id := 1 },
                  { source := 1, target := 2, weight := 20, id := 4 },
                  { source := 2, target := 3, weight := 20, id := 5 },
                  { source := 3, target := 4, weight := 20, id := 6 }]
        vwrt := [0, 20, 20, 20, 0] }
    10 [(1008, 1000), (1016, 1000)] (by decide) (by decide!)⟩

/-- C31 as stated fails: with the limit 10, the boundaries 1008 and 1016 are both
merged into the group of 1000, each being 8 from the one before, and the entry
`1016 -> 1000` spans 16. -/
theorem group_start_boundaries_distance_counterexample :
    (group_start_boundaries chain_group_graph 10).map (fun r => r.2)
      = some [(1008, 1000), (1016, 1000)] ∧
    ¬ ((1016 : Int) - 1000 ≤ 10) := by
  decide!


/-! ## update_stack and the stacks of walks -/

theorem stack_insert_head (s x : Int) (xs : List Int) :
    (stack_insert s (x :: xs)).head? = some (min x s) := by
  unfold stack_insert
  by_cases h : x > s
  · rw [if_pos h]
    simp only [List.head?_cons]
    rw [min_eq_right (by omega)]
  · rw [if_neg h]
    simp only [List.head?_cons]
    rw [min_eq_left (by omega)]


theorem is_walk_snoc (gr : splice_graph) (e : edge_base) :
    ∀ (es : List edge_base) (a b : Nat),
      is_walk gr a b (es ++ [e]) = true ↔
        is_walk gr a e.source es = true ∧ e ∈ gr.edges ∧ e.target = b
  | [], a, b => by
    simp only [List.nil_append, is_walk, Bool.and_eq_true, decide_eq_true_eq]
    constructor
    · rintro ⟨⟨h1, h2⟩, h3⟩
      exact ⟨h2.symm, h1, h3⟩
    · rintro ⟨h1, h2, h3⟩
      exact ⟨⟨h2, h1.symm⟩, h3⟩
  | x :: es, a, b => by
    have ih := is_walk_snoc gr e es x.target b
    rw [List.cons_append]
    simp only [is_walk, Bool.and_eq_true, decide_eq_true_eq]
    constructor
    · rintro ⟨⟨h1, h2⟩, h3⟩
      obtain ⟨h4, h5, h6⟩ := ih.mp h3
      exact ⟨⟨⟨h1, h2⟩, h4⟩, h5, h6⟩
    · rintro ⟨⟨⟨h1, h2⟩, h3⟩, h4, h5⟩
      exact ⟨⟨h1, h2⟩, ih.mpr ⟨h3, h4, h5⟩⟩

theorem walk_stack_snoc (gr : splice_graph) (cfg : parameters) (es : List edge_base)
    (e : edge_base) :
    walk_stack gr cfg (es ++ [e])
      = update_stack (walk_stack gr cfg es) (int_of_double (gr.get_edge_weight e)) := by
  simp [walk_stack, walk_weights, List.foldl_append]

/-- The entry of a path is the stack of a walk from `k1`. -/
theorem path_entry_walk (gr : splice_graph) (cfg : parameters) (k1 k : Nat)
    (st : List Int) (len : Int) (h : path_entry gr cfg k1 k st len) :
    ∃ es, is_walk gr k1 k es = true ∧ st = walk_stack gr cfg es := by
  induction h with
  | start => exact ⟨[], by simp [is_walk], by simp [walk_stack, walk_weights]⟩
  | step e st len he _ ih =>
    obtain ⟨es, h1, h2⟩ := ih
    refine ⟨es ++ [e], (is_walk_snoc gr e es k1 e.target).mpr ⟨h1, he, rfl⟩, ?_⟩
    rw [walk_stack_snoc, h2]

/-- Every walk from `k1` is a path with an entry. -/
theorem walk_path_entry (gr : splice_graph) (cfg : parameters) (k1 : Nat)
    (es : List edge_base) :
    ∀ k, is_walk gr k1 k es = true → ∃ len, path_entry gr cfg k1 k (walk_stack gr cfg es) len := by
  induction es using List.reverseRecOn with
  | nil =>
    intro k h
    have hk : k1 = k := by simpa [is_walk] using h
    subst hk
    exact ⟨_, by simpa [walk_stack, walk_weights] using path_entry.start⟩
  | append_singleton es e ih =>
    intro k h
    obtain ⟨h1, h2, h3⟩ := (is_walk_snoc gr e es k1 k).mp h
    obtain ⟨len, hp⟩ := ih e.source h1
    rw [walk_stack_snoc, ← h3]
    exact ⟨_, path_entry.step e _ len h2 hp⟩

theorem update_stack_fold_head :
    ∀ (ws : List Int) (x : Int) (xs : List Int),
      (ws.foldl update_stack (x :: xs)).head? = some (ws.foldl min x)
  | [], x, xs => rfl
  | w :: ws, x, xs => by
    simp only [List.foldl_cons]
    have h := stack_insert_head w x xs
    rw [← update_stack_eq] at h
    cases hu : update_stack (x :: xs) w with
    | nil => rw [hu] at h; simp at h
    | cons y ys =>
      rw [hu] at h
      have hy : y = min x w := by simpa using h
      rw [hy]
      exact update_stack_fold_head ws (min x w) ys

/-- The first value of the stack of a walk is its bottleneck. -/
theorem walk_stack_head (gr : splice_graph) (cfg : parameters) (es : List edge_base)
    (hS : 1 ≤ cfg.bridge_dp_stack_size) :
    (walk_stack gr cfg es).head? = some (bottleneck gr es) := by
  unfold walk_stack bottleneck
  obtain ⟨n, hn⟩ : ∃ n, cfg.bridge_dp_stack_size = n + 1 := ⟨cfg.bridge_dp_stack_size - 1, by omega⟩
  rw [hn, List.replicate_succ]
  exact update_stack_fold_head _ _ _


/-- An example for C36: the stacks of row 4 of `skip_graph` from vertex 1, for the walks
with the weights 5, 5, 2 and 3, 2. -/
theorem update_stack_keeps_smallest_example :
    (dynamic_programming skip_graph scenario_cfg 1 4).map
        (fun t => (t.getD 4 []).map (fun c => c.stack))
      = some [[2, 5, 5, 999999, 999999], [2, 3, 999999, 999999, 999999]] := by
  decide

/-- C37 (best bridge is a widest path).  After `dynamic_programming(k1, k2, table)`
with stack size `S >= 1` and solution size `K >= 1` on a graph whose edges satisfy
`s < t`, for every `k` with `k1 < k <= k2`: the row `T[k]` is non-empty exactly when
there is a walk from `k1` to `k`; and then `T[k][0].stack[0]` is the bottleneck (the
smallest of 999999 and the integer-truncated edge weights) of a walk from `k1` to `k`,
and no walk from `k1` to `k` has a larger bottleneck. -/
theorem best_bridge_widest_path (gr : splice_graph) (cfg : parameters) (k1 k2 k : Nat)
    (hS : 1 ≤ cfg.bridge_dp_stack_size) (hK : 1 ≤ cfg.bridge_dp_solution_size)
    (hdag : ∀ e ∈ gr.edges, e.source < e.target)
    (hk1 : k1 < gr.num_vertices) (hk2 : k2 < gr.num_vertices) (hk : k1 < k ∧ k ≤ k2) :
    ∃ table, dynamic_programming gr cfg k1 k2 = some table ∧
      (table.getD k [] ≠ [] ↔ ∃ es, is_walk gr k1 k es = true) ∧
      ∀ e0 rest, table.getD k [] = e0 :: rest →
        (∃ es, is_walk gr k1 k es = true ∧ e0.stack.head? = some (bottleneck gr es)) ∧
        ∀ es, is_walk gr k1 k es = true →
          ∃ m, e0.stack.head? = some m ∧ bottleneck gr es ≤ m := by
  refine ⟨dp_fill gr cfg k1 k2, ?_, ?_, ?_⟩
  · unfold dynamic_programming
    rw [if_pos ⟨by omega, by omega, by omega, by omega⟩]
    simp
  · constructor
    · intro hne
      cases hrow : (dp_fill gr cfg k1 k2).getD k [] with
      | nil => exact absurd hrow hne
      | cons c rest =>
        have hp := dp_table_sound gr cfg k1 _ k c (by
          change c ∈ (dp_fill gr cfg k1 k2).getD k []
          rw [hrow]; exact List.mem_cons_self _ _)
        obtain ⟨es, h1, _⟩ := path_entry_walk gr cfg k1 k c.stack c.length hp
        exact ⟨es, h1⟩
    · rintro ⟨es, hes⟩
      obtain ⟨len, hp⟩ := walk_path_entry gr cfg k1 es k hes
      obtain ⟨e0, rest, hrow, _⟩ := dp_fill_optimal gr cfg k1 k2 hK hdag hk1 hk2 k _ len hp hk.2
      rw [hrow]
      simp
  · intro e0 rest hrow
    have hp := dp_table_sound gr cfg k1 _ k e0 (by
      change e0 ∈ (dp_fill gr cfg k1 k2).getD k []
      rw [hrow]; exact List.mem_cons_self _ _)
    obtain ⟨es0, h1, h2⟩ := path_entry_walk gr cfg k1 k e0.stack e0.length hp
    have hh := walk_stack_head gr cfg es0 hS
    rw [← h2] at hh
    refine ⟨⟨es0, h1, hh⟩, ?_⟩
    intro es hes
    obtain ⟨len, hpe⟩ := walk_path_entry gr cfg k1 es k hes
    obtain ⟨e0', rest', hrow', hge⟩ :=
      dp_fill_optimal gr cfg k1 k2 hK hdag hk1 hk2 k _ len hpe hk.2
    rw [hrow] at hrow'
    have he : e0 = e0' := (List.cons.inj hrow').1
    rw [← he] at hge
    refine ⟨bottleneck gr es0, hh, ?_⟩
    have hh2 := walk_stack_head gr cfg es hS
    cases hs0 : e0.stack with
    | nil => rw [hs0] at hh; simp at hh
    | cons a x =>
      cases hs1 : walk_stack gr cfg es with
      | nil => rw [hs1] at hh2; simp at hh2
      | cons b y =>
        rw [hs0] at hh hge
        rw [hs1] at hh2 hge
        have ha : a = bottleneck gr es0 := by simpa using hh
        have hb : b = bottleneck gr es := by simpa using hh2
        unfold stack_ge at hge
        rcases hge with h3 | ⟨h3, _⟩ <;> omega


/-! ## The trace pointers of the table -/

theorem dp_step_traced (gr : splice_graph) (cfg : parameters) (k1 m : Nat)
    (t : List (List entry)) (hm : k1 < m) (h : table_traced k1 m t) :
    table_traced k1 (m + 1) (t.set m (dp_row gr cfg t k1 m)) := by
  obtain ⟨h1, h2, h3⟩ := h
  have hrow : ∀ j, j ≠ m → (t.set m (dp_row gr cfg t k1 m)).getD j [] = t.getD j [] := by
    intro j hj
    rw [table_getD_set, if_neg (fun hc => hj hc.1)]
  refine ⟨?_, ?_, ?_⟩
  · intro j hj
    rw [hrow j (by omega)]
    exact h1 j (by omega)
  · intro j hj c hc
    by_cases hjm : j = m
    · subst hjm
      rw [table_getD_set] at hc
      split at hc
      · obtain ⟨e, _, _, hs, i, x, hx, hcx⟩ := (mem_dp_candidates gr t k1 j c).mp
          (mem_dp_row gr cfg t k1 j c hc)
        have hlen : i < (t.getD e.source []).length := by
          by_contra hcon
          rw [List.getElem?_eq_none (not_lt.mp hcon)] at hx
          simp at hx
        have hsrc : e.source < j := by
          by_contra hcon
          rw [h1 e.source (Or.inr (not_lt.mp hcon))] at hlen
          simp at hlen
        rw [hcx]
        simp only [Int.toNat_ofNat]
        rw [hrow e.source (by omega)]
        exact ⟨by omega, by omega, by omega, by omega⟩
      · rw [h1 j (Or.inr (le_refl _))] at hc
        simp at hc
    · rw [hrow j hjm] at hc
      obtain ⟨a1, a2, a3, a4⟩ := h2 j hj c hc
      refine ⟨a1, a2, a3, ?_⟩
      have hne : c.trace1.toNat ≠ m := by
        intro heq
        rw [heq, h1 m (Or.inr (le_refl _))] at a4
        simp at a4
        omega
      rw [hrow _ hne]
      exact a4
  · intro c hc
    rw [hrow k1 (by omega)] at hc
    exact h3 c hc

theorem dp_fold_traced (gr : splice_graph) (cfg : parameters) (k1 : Nat) :
    ∀ (n m : Nat) (t : List (List entry)), k1 < m → table_traced k1 m t →
      table_traced k1 (m + n)
        ((List.range' m n).foldl (fun table k => table.set k (dp_row gr cfg table k1 k)) t)
  | 0, m, t, _, h => by simpa using h
  | n + 1, m, t, hm, h => by
    rw [List.range'_succ, List.foldl_cons]
    have := dp_fold_traced gr cfg k1 n (m + 1) _ (by omega) (dp_step_traced gr cfg k1 m t hm h)
    rw [show m + (n + 1) = m + 1 + n by omega]
    exact this

/-- The table of `dynamic_programming` points backwards: see `table_traced`. -/
theorem dp_fill_traced (gr : splice_graph) (cfg : parameters) (k1 k2 : Nat) :
    table_traced k1 (k1 + 1 + (k2 - k1)) (dp_fill gr cfg k1 k2) := by
  unfold dp_fill
  refine dp_fold_traced gr cfg k1 (k2 - k1) (k1 + 1) _ (by omega) ⟨?_, ?_, ?_⟩
  · intro j hj
    rw [dp_init_getD, if_neg (by omega)]
  · intro j hj c hc
    rw [dp_init_getD, if_neg (fun hc => hj hc.1)] at hc
    simp at hc
  · intro c hc
    rw [dp_init_getD] at hc
    split at hc
    · rw [List.mem_singleton.mp hc]
      simp
    · simp at hc


/-- On a table that points backwards a walk of `trace_back` from a valid position
completes within the fuel, and its vertices strictly decrease. -/
theorem trace_back_walk_total (table : List (List entry)) (k1 m : Nat)
    (h : table_traced k1 m table) :
    ∀ (d : Nat) (p q : Int) (fuel : Nat) (v : List Nat),
      (k1 : Int) ≤ p → p ≤ k1 + d → 0 ≤ q →
      q < ((table.getD p.toNat []).length : Int) → d + 1 ≤ fuel →
      ∃ u, trace_back_walk table fuel p q v = some (v ++ p.toNat :: u) ∧
        List.Chain (· > ·) p.toNat u ∧ (p.toNat ≠ k1 → u ≠ []) := by
  intro d
  induction d with
  | zero =>
    intro p q fuel v hp1 hp2 hq1 hq2 hf
    obtain ⟨f, hf'⟩ : ∃ f, fuel = f + 1 := ⟨fuel - 1, by omega⟩
    subst hf'
    have hpk : p.toNat = k1 := by omega
    have hq3 : q.toNat < (table.getD p.toNat []).length := by omega
    have hat : table_at table p q = some ((table.getD p.toNat [])[q.toNat]) := by
      unfold table_at
      rw [if_pos ⟨by omega, hq1⟩, List.getElem?_eq_getElem hq3]
    have hneg := h.2.2 _ (by rw [← hpk]; exact List.getElem_mem hq3)
    unfold trace_back_walk
    rw [hat]
    simp only [hneg, if_true]
    exact ⟨[], rfl, List.Chain.nil, fun hc => absurd hpk hc⟩
  | succ d ih =>
    intro p q fuel v hp1 hp2 hq1 hq2 hf
    obtain ⟨f, hf'⟩ : ∃ f, fuel = f + 1 := ⟨fuel - 1, by omega⟩
    subst hf'
    have hq3 : q.toNat < (table.getD p.toNat []).length := by omega
    have hat : table_at table p q = some ((table.getD p.toNat [])[q.toNat]) := by
      unfold table_at
      rw [if_pos ⟨by omega, hq1⟩, List.getElem?_eq_getElem hq3]
    have hmem : (table.getD p.toNat [])[q.toNat] ∈ table.getD p.toNat [] := List.getElem_mem hq3
    unfold trace_back_walk
    rw [hat]
    by_cases hpk : p.toNat = k1
    · have hneg := h.2.2 _ (by rw [← hpk]; exact hmem)
      simp only [hneg, if_true]
      exact ⟨[], rfl, List.Chain.nil, fun hc => absurd hpk hc⟩
    · obtain ⟨a1, a2, a3, a4⟩ := h.2.1 p.toNat hpk _ hmem
      have hnn : ¬ ((table.getD p.toNat [])[q.toNat]).trace1 < 0 := by omega
      simp only [hnn, if_false]
      obtain ⟨u, hu1, hu2, _⟩ := ih ((table.getD p.toNat [])[q.toNat]).trace1
        ((table.getD p.toNat [])[q.toNat]).trace2 f (v ++ [p.toNat]) a1 (by omega) a3 a4
        (by omega)
      refine ⟨((table.getD p.toNat [])[q.toNat]).trace1.toNat :: u, ?_,
        List.Chain.cons (by omega) hu2, by simp⟩
      rw [hu1]
      simp

theorem mapM_some_of_forall {α β : Type} (f : α → Option β) :
    ∀ l : List α, (∀ a ∈ l, ∃ b, f a = some b) → ∃ r, l.mapM f = some r ∧ r.length = l.length
  | [], _ => ⟨[], rfl, rfl⟩
  | a :: l, h => by
    obtain ⟨b, hb⟩ := h a (List.mem_cons_self _ _)
    obtain ⟨r, hr, hl⟩ := mapM_some_of_forall f l (fun x hx => h x (List.mem_cons_of_mem _ hx))
    refine ⟨b :: r, ?_, by simp [hl]⟩
    rw [List.mapM_cons, hb, hr]
    rfl


theorem trace_back_eq_map (k : Nat) (table : List (List entry)) :
    trace_back k table
      = ((List.range (table.getD k []).length).map (fun i : Nat => (i : Int))).mapM
          (fun i => (trace_back_walk table (k + 1) (k : Int) i []).map List.reverse) := by
  unfold trace_back
  rw [bind_pure_comp]
  rfl

/-- C38 (traceback yields valid paths).  For the table filled by
`dynamic_programming(k1, k2, table)` on any graph and every `k` with `k1 < k <= k2`:
every entry of `T[k]` has `k1 <= trace1 < k` and `0 <= trace2 < |T[trace1]|`;
`trace_back(k, table)` returns, with one vertex list for each entry of `T[k]`; and each
returned list starts with `k1`, ends with `k`, is strictly increasing, has at least two
vertices, and has an edge of the graph between every two consecutive vertices. -/
theorem trace_back_valid_paths (gr : splice_graph) (cfg : parameters) (k1 k2 k : Nat)
    (hk1 : k1 < gr.num_vertices) (hk2 : k2 < gr.num_vertices) (hk : k1 < k ∧ k ≤ k2) :
    ∃ table, dynamic_programming gr cfg k1 k2 = some table ∧
      (∀ c ∈ table.getD k [], (k1 : Int) ≤ c.trace1 ∧ c.trace1 < k ∧ 0 ≤ c.trace2 ∧
        c.trace2 < ((table.getD c.trace1.toNat []).length : Int)) ∧
      ∃ pb, trace_back k table = some pb ∧ pb.length = (table.getD k []).length ∧
        ∀ path ∈ pb, path.head? = some k1 ∧ path.getLast? = some k ∧
          List.Sorted (· < ·) path ∧ 2 ≤ path.length ∧
          List.Chain' (fun x y => ∃ e ∈ gr.edges, e.source = x ∧ e.target = y) path := by
  have hT := dp_fill_traced gr cfg k1 k2
  refine ⟨dp_fill gr cfg k1 k2, ?_, hT.2.1 k (by omega), ?_⟩
  · unfold dynamic_programming
    rw [if_pos ⟨by omega, by omega, by omega, by omega⟩]
    simp
  · have hwalk : ∀ i ∈ List.range ((dp_fill gr cfg k1 k2).getD k []).length,
        ∃ u, trace_back_walk (dp_fill gr cfg k1 k2) (k + 1) (k : Int) (i : Int) []
            = some (k :: u) ∧ List.Chain (· > ·) k u ∧ u ≠ [] := by
      intro i hi
      have hi' := List.mem_range.mp hi
      obtain ⟨u, h1, h2, h3⟩ := trace_back_walk_total (dp_fill gr cfg k1 k2) k1 _ hT (k - k1)
        (k : Int) (i : Int) (k + 1) [] (by omega) (by omega) (by omega)
        (by simp only [Int.toNat_ofNat]; omega) (by omega)
      simp only [Int.toNat_ofNat, List.nil_append] at h1 h2 h3
      exact ⟨u, h1, h2, h3 (by omega)⟩
    obtain ⟨pb, hpb, hlen⟩ := mapM_some_of_forall
      (fun i : Int => (trace_back_walk (dp_fill gr cfg k1 k2) (k + 1) (k : Int) i
        []).map List.reverse)
      ((List.range ((dp_fill gr cfg k1 k2).getD k []).length).map (fun i : Nat => (i : Int)))
      (fun a ha => by
        obtain ⟨i, hi, rfl⟩ := List.mem_map.mp ha
        obtain ⟨u, h1, _⟩ := hwalk i hi
        exact ⟨(k :: u).reverse, by simp only [h1, Option.map_some']⟩)
    have htb : trace_back k (dp_fill gr cfg k1 k2) = some pb := by
      rw [trace_back_eq_map]
      exact hpb
    refine ⟨pb, htb, by rw [hlen, List.length_map, List.length_range], ?_⟩
    intro path hpath
    obtain ⟨e1, e2⟩ := trace_back_ends (dp_fill gr cfg k1 k2) k1 k
      (fun j => dp_table_trace gr cfg k1 _ j) pb htb path hpath
    have e3 := trace_back_chain gr (dp_fill gr cfg k1 k2) k
      (fun j => dp_table_edge gr cfg k1 _ j) pb htb path hpath
    obtain ⟨a, ha, hfi⟩ := mapM_some_mem _ _ _ hpb path hpath
    obtain ⟨i, hi, rfl⟩ := List.mem_map.mp ha
    obtain ⟨u, h1, h2, h3⟩ := hwalk i hi
    simp only [h1, Option.map_some', Option.some.injEq] at hfi
    refine ⟨e1, e2, ?_, ?_, e3⟩
    · rw [← hfi]
      unfold List.Sorted
      rw [List.pairwise_reverse]
      have hc : List.Chain' (· > ·) (k :: u) := h2
      exact List.chain'_iff_pairwise.mp hc
    · rw [← hfi, List.length_reverse]
      cases u with
      | nil => exact absurd rfl h3
      | cons a u' => simp


theorem best_bridge_widest_path_witness :
    (1 ≤ scenario_cfg.bridge_dp_stack_size ∧ 1 ≤ scenario_cfg.bridge_dp_solution_size ∧
      (∀ e ∈ skip_graph.edges, e.source < e.target) ∧ (1 < 4 ∧ 4 ≤ 4)) ∧
    (dynamic_programming skip_graph scenario_cfg (1 : Nat) (4 : Nat)).map
        (fun t => (t.getD 4 []).map (fun c => c.stack))
      = some [[2, 5, 5, 999999, 999999], [2, 3, 999999, 999999, 999999]] ∧
    ∃ table, dynamic_programming skip_graph scenario_cfg (1 : Nat) (4 : Nat) = some table ∧
      (table.getD 4 [] ≠ [] ↔ ∃ es, is_walk skip_graph 1 4 es = true) ∧
      ∀ e0 rest, table.getD 4 [] = e0 :: rest →
        (∃ es, is_walk skip_graph 1 4 es = true ∧
          e0.stack.head? = some (bottleneck skip_graph es)) ∧
        ∀ es, is_walk skip_graph 1 4 es = true →
          ∃ m, e0.stack.head? = some m ∧ bottleneck skip_graph es ≤ m :=
  ⟨⟨by decide, by decide, by decide, by decide⟩, by decide,
   best_bridge_widest_path skip_graph scenario_cfg 1 4 4 (by decide) (by decide) (by decide)
    (by decide) (by decide) (by decide)⟩

theorem trace_back_valid_paths_witness :
    (1 < skip_graph.num_vertices ∧ 4 < skip_graph.num_vertices ∧ (1 < 4 ∧ 4 ≤ 4)) ∧
    (dynamic_programming skip_graph scenario_cfg (1 : Nat) (4 : Nat)).bind (trace_back 4)
      = some [[1, 2, 3, 4], [1, 3, 4]] ∧
    ∃ table, dynamic_programming skip_graph scenario_cfg (1 : Nat) (4 : Nat) = some table ∧
      (∀ c ∈ table.getD 4 [], ((1 : Nat) : Int) ≤ c.trace1 ∧ c.trace1 < (4 : Nat) ∧
        0 ≤ c.trace2 ∧ c.trace2 < ((table.getD c.trace1.toNat []).length : Int)) ∧
      ∃ pb, trace_back 4 table = some pb ∧ pb.length = (table.getD 4 []).length ∧
        ∀ path ∈ pb, path.head? = some 1 ∧ path.getLast? = some 4 ∧
          List.Sorted (· < ·) path ∧ 2 ≤ path.length ∧
          List.Chain' (fun x y => ∃ e ∈ skip_graph.edges, e.source = x ∧ e.target = y) path :=
  ⟨⟨by decide, by decide, by decide⟩, by decide,
   trace_back_valid_paths skip_graph scenario_cfg 1 4 4 (by decide) (by decide) (by decide)⟩


/-! ## The assertions of keep_surviving_edges -/

theorem max_edge_fold_some :
    ∀ (l : List edge_base) (best : Option edge_base), (best.isSome = true ∨ l ≠ []) →
      ∃ e, l.foldl (fun best e =>
        match best with
        | none => some e
        | some b => if e.weight < b.weight then some b else some e) best = some e
  | [], best, h => by
    rcases h with h | h
    · exact Option.isSome_iff_exists.mp h
    · exact absurd rfl h
  | a :: l, best, _ => by
    rw [List.foldl_cons]
    apply max_edge_fold_some l
    left
    cases best with
    | none => rfl
    | some b =>
      simp only
      split_ifs <;> rfl

theorem max_edge_some (l : List edge_base) (h : l ≠ []) : ∃ e, max_edge l = some e :=
  max_edge_fold_some l none (Or.inr h)

theorem surviving_add_closed (gr : splice_graph) (st : surviving_state) (e : edge_base)
    (he : e ∈ gr.edges) (h : surviving_closed gr st) : surviving_closed gr (st.add e) := by
  unfold surviving_state.add
  refine ⟨?_, ?_⟩
  · intro x hx
    rcases (mem_edge_set_insert _ _ _).mp hx with h1 | h1
    · obtain ⟨a1, a2, a3⟩ := h.1 x h1
      exact ⟨a1, List.mem_cons_of_mem _ a2, List.mem_cons_of_mem _ a3⟩
    · rw [h1]
      exact ⟨he, List.mem_cons_self _ _, List.mem_cons_self _ _⟩
  · show (edge_set_insert st.se e).Nodup
    unfold edge_set_insert
    split_ifs with hm
    · exact h.2
    · exact List.Nodup.append h.2 (List.nodup_singleton e) (by
        intro x hx hx2
        rw [List.mem_singleton.mp hx2] at hx
        exact hm hx)

theorem surviving_fold_closed (gr : splice_graph) :
    ∀ (l : List edge_base) (st : surviving_state), (∀ e ∈ l, e ∈ gr.edges) →
      surviving_closed gr st → surviving_closed gr (l.foldl surviving_state.add st)
  | [], _, _, h => h
  | a :: l, st, hl, h => by
    rw [List.foldl_cons]
    exact surviving_fold_closed gr l _ (fun e he => hl e (List.mem_cons_of_mem _ he))
      (surviving_add_closed gr st a (hl a (List.mem_cons_self _ _)) h)

theorem surviving_closed_length (gr : splice_graph) (st : surviving_state)
    (h : surviving_closed gr st) : st.se.length ≤ gr.edges.length :=
  (List.Nodup.subperm h.2 (fun x hx => (h.1 x hx).1)).length_le


theorem surviving_visit_in_total (gr : splice_graph) (hf : gr.forward) (hr : gr.refined)
    (st : surviving_state) (e : edge_base) (he : e ∈ gr.edges)
    (h : surviving_closed gr st) :
    ∃ st1 b, surviving_visit_in gr st e = some (st1, b) ∧ surviving_closed gr st1 ∧
      st.se.length ≤ st1.se.length ∧ (b = true → st.se.length < st1.se.length) := by
  unfold surviving_visit_in
  by_cases hc : e.source ∉ st.sv1 ∧ e.source ≠ 0
  · rw [if_pos hc]
    have hfe := hf e he
    have hdeg := (refined_iff gr).mp hr e.source (by omega) (by omega)
    have hout : 1 ≤ gr.out_degree e.source := (out_degree_pos_iff gr _).mpr ⟨e, he, rfl⟩
    have hin : 1 ≤ gr.in_degree e.source := by
      rcases hdeg with ⟨_, a⟩ | ⟨a, _⟩
      · omega
      · exact a
    have hne : gr.in_edges e.source ≠ [] := by
      intro h0
      unfold splice_graph.in_degree at hin
      rw [h0] at hin
      simp at hin
    obtain ⟨ee, hee⟩ := max_edge_some _ hne
    have hee' : gr.max_in_edge e.source = some ee := hee
    obtain ⟨m1, m2⟩ := max_in_edge_spec gr _ ee hee'
    have hnot : ee ∉ st.se := by
      intro hm
      have := (h.1 ee hm).2.1
      rw [m2] at this
      exact hc.1 this
    rw [hee']
    simp only [hnot, if_false]
    refine ⟨_, true, rfl, ⟨?_, ?_⟩, by simp, fun _ => by simp⟩
    · intro x hx
      rcases List.mem_append.mp hx with h1 | h1
      · obtain ⟨a1, a2, a3⟩ := h.1 x h1
        exact ⟨a1, List.mem_cons_of_mem _ a2, List.mem_cons_of_mem _ a3⟩
      · rw [List.mem_singleton.mp h1]
        exact ⟨m1, by rw [m2]; exact List.mem_cons_self _ _, List.mem_cons_self _ _⟩
    · exact List.Nodup.append h.2 (List.nodup_singleton ee) (by
        intro x hx hx2
        rw [List.mem_singleton.mp hx2] at hx
        exact hnot hx)
  · rw [if_neg hc]
    exact ⟨st, false, rfl, h, le_refl _, fun hb => by simp at hb⟩

theorem surviving_visit_out_total (gr : splice_graph) (hf : gr.forward) (hr : gr.refined)
    (st : surviving_state) (e : edge_base) (he : e ∈ gr.edges)
    (h : surviving_closed gr st) :
    ∃ st1 b, surviving_visit_out gr st e = some (st1, b) ∧ surviving_closed gr st1 ∧
      st.se.length ≤ st1.se.length ∧ (b = true → st.se.length < st1.se.length) := by
  unfold surviving_visit_out
  by_cases hc : e.target ∉ st.sv2 ∧ e.target ≠ gr.num_vertices - 1
  · rw [if_pos hc]
    have hfe := hf e he
    have hdeg := (refined_iff gr).mp hr e.target (by omega) (by omega)
    have hin : 1 ≤ gr.in_degree e.target := (in_degree_pos_iff gr _).mpr ⟨e, he, rfl⟩
    have hout : 1 ≤ gr.out_degree e.target := by
      rcases hdeg with ⟨a, _⟩ | ⟨_, a⟩
      · omega
      · exact a
    have hne : gr.out_edges e.target ≠ [] := by
      intro h0
      unfold splice_graph.out_degree at hout
      rw [h0] at hout
      simp at hout
    obtain ⟨ee, hee⟩ := max_edge_some _ hne
    have hee' : gr.max_out_edge e.target = some ee := hee
    obtain ⟨m1, m2⟩ := max_out_edge_spec gr _ ee hee'
    have hnot : ee ∉ st.se := by
      intro hm
      have := (h.1 ee hm).2.2
      rw [m2] at this
      exact hc.1 this
    rw [hee']
    simp only [hnot, if_false]
    refine ⟨_, true, rfl, ⟨?_, ?_⟩, by simp, fun _ => by simp⟩
    · intro x hx
      rcases List.mem_append.mp hx with h1 | h1
      · obtain ⟨a1, a2, a3⟩ := h.1 x h1
        exact ⟨a1, List.mem_cons_of_mem _ a2, List.mem_cons_of_mem _ a3⟩
      · rw [List.mem_singleton.mp h1]
        exact ⟨m1, List.mem_cons_self _ _, by rw [m2]; exact List.mem_cons_self _ _⟩
    · exact List.Nodup.append h.2 (List.nodup_singleton ee) (by
        intro x hx hx2
        rw [List.mem_singleton.mp hx2] at hx
        exact hnot hx)
  · rw [if_neg hc]
    exact ⟨st, false, rfl, h, le_refl _, fun hb => by simp at hb⟩

theorem surviving_visit_total (gr : splice_graph) (hf : gr.forward) (hr : gr.refined)
    (st : surviving_state) (e : edge_base) (he : e ∈ gr.edges)
    (h : surviving_closed gr st) :
    ∃ st1 b, surviving_visit gr st e = some (st1, b) ∧ surviving_closed gr st1 ∧
      (b = true → st.se.length < st1.se.length) := by
  obtain ⟨sa, ba, h1, c1, l1, g1⟩ := surviving_visit_in_total gr hf hr st e he h
  obtain ⟨sb, bb, h2, c2, l2, g2⟩ := surviving_visit_out_total gr hf hr sa e he c1
  refine ⟨sb, ba || bb, ?_, c2, ?_⟩
  · unfold surviving_visit
    rw [h1]
    simp only
    rw [h2]
  · intro hb
    rcases Bool.or_eq_true_iff.mp hb with h3 | h3
    · have := g1 h3
      omega
    · have := g2 h3
      omega

theorem surviving_scan_total (gr : splice_graph) (hf : gr.forward) (hr : gr.refined)
    (st : surviving_state) (h : surviving_closed gr st) :
    ∀ l : List edge_base, (∀ e ∈ l, e ∈ gr.edges) →
      ∃ st1 b, surviving_scan gr st l = some (st1, b) ∧ surviving_closed gr st1 ∧
        (b = true → st.se.length < st1.se.length)
  | [], _ => ⟨st, false, rfl, h, fun hb => by simp at hb⟩
  | e :: l, hl => by
    obtain ⟨s1, b, h1, c1, g1⟩ :=
      surviving_visit_total gr hf hr st e (hl e (List.mem_cons_self _ _)) h
    unfold surviving_scan
    rw [h1]
    cases b with
    | true => exact ⟨s1, true, rfl, c1, g1⟩
    | false =>
      exact surviving_scan_total gr hf hr st h l (fun x hx => hl x (List.mem_cons_of_mem _ hx))

/-- On a refined graph with forward edges the augmentation loop of
`keep_surviving_edges` fails no assertion and ends within the passes left, when these
are more than the edges outside `se`. -/
theorem surviving_loop_total (gr : splice_graph) (hf : gr.forward) (hr : gr.refined) :
    ∀ (fuel : Nat) (st : surviving_state), surviving_closed gr st →
      gr.edges.length - st.se.length + 1 ≤ fuel →
      ∃ st1, surviving_loop gr fuel st = some st1
  | 0, _, _, hfu => by omega
  | fuel + 1, st, h, hfu => by
    obtain ⟨s1, b, h1, c1, g1⟩ :=
      surviving_scan_total gr hf hr st h st.se (fun e he => (h.1 e he).1)
    unfold surviving_loop
    rw [h1]
    cases b with
    | true =>
      have := g1 rfl
      have := surviving_closed_length gr s1 c1
      exact surviving_loop_total gr hf hr fuel s1 c1 (by omega)
    | false => exact ⟨st, rfl⟩


/-- C39 (the assertions of keep_surviving_edges are valid).  On a graph whose edges go
from a vertex to a later vertex and in which every internal vertex of positive degree
has in-degree `>= 1` and out-degree `>= 1`, once `compute_maximal_edges` has returned,
the augmentation loop of `keep_surviving_edges` runs to its end: every `max_in_edge`
and `max_out_edge` lookup returns an edge, that edge is not yet in `se`, and the loop
stops within `|edges| + 1` passes; so `keep_surviving_edges` returns. -/
theorem keep_surviving_edges_asserts_hold (acc : Nat → List (Nat × Nat) → List Int)
    (gr : splice_graph) (w : ℚ) (me : List edge_base)
    (hf : gr.forward) (hr : gr.refined) (hme : compute_maximal_edges acc gr = some me) :
    (∃ st, surviving_loop gr (gr.edges.length + 1)
        (me.foldl surviving_state.add
          ((gr.edges.filter (fun e => !decide (e.weight < w))).foldl
            surviving_state.add { se := [], sv1 := [], sv2 := [] })) = some st) ∧
    ∃ g1 b, keep_surviving_edges acc gr w = some (g1, b) := by
  have hc0 : surviving_closed gr { se := [], sv1 := [], sv2 := [] } :=
    ⟨fun e he => by simp at he, List.nodup_nil⟩
  have hc1 := surviving_fold_closed gr (gr.edges.filter (fun e => !decide (e.weight < w))) _
    (fun e he => (List.mem_filter.mp he).1) hc0
  have hc2 := surviving_fold_closed gr me _
    (fun e he => (List.mem_filter.mp (compute_maximal_edges_mem acc gr me hme e he).1).1) hc1
  obtain ⟨st, hst⟩ := surviving_loop_total gr hf hr (gr.edges.length + 1) _ hc2 (by omega)
  refine ⟨⟨st, hst⟩, ?_⟩
  unfold keep_surviving_edges
  rw [hme]
  simp only
  rw [hst]
  exact ⟨_, _, rfl⟩

theorem keep_surviving_edges_asserts_hold_witness :
    (chord_reviser_graph.forward ∧ chord_reviser_graph.refined ∧
      compute_maximal_edges assign_connected_components chord_reviser_graph
        = some [{ source := 2, target := 3, weight := 3, id := 3 }]) ∧
    keep_surviving_edges assign_connected_components chord_reviser_graph 2
      = some (chain_reviser_graph, true) ∧
    ∃ g1 b, keep_surviving_edges assign_connected_components chord_reviser_graph 2
      = some (g1, b) :=
  ⟨⟨by unfold splice_graph.forward; decide, by unfold splice_graph.refined; decide,
    by decide!⟩, by decide!,
   (keep_surviving_edges_asserts_hold assign_connected_components chord_reviser_graph 2
      [{ source := 2, target := 3, weight := 3, id := 3 }]
      (by unfold splice_graph.forward; decide) (by unfold splice_graph.refined; decide)
      (by decide!)).2⟩


/-! ## The measure of the revision loop -/

theorem surviving_loop_run_finished (gr : splice_graph) :
    ∀ (fuel : Nat) (st st1 : surviving_state),
      surviving_loop gr fuel st = some st1 ↔
        surviving_loop_run gr fuel st = run_result.finished st1
  | 0, st, st1 => by simp [surviving_loop, surviving_loop_run]
  | fuel + 1, st, st1 => by
    unfold surviving_loop surviving_loop_run
    cases hs : surviving_scan gr st st.se with
    | none => simp
    | some r =>
      obtain ⟨s1, b⟩ := r
      cases b with
      | true => exact surviving_loop_run_finished gr fuel s1 st1
      | false => simp

theorem revise_loop_run_finished (acc : Nat → List (Nat × Nat) → List Int) (cfg : parameters) :
    ∀ (fuel : Nat) (g g1 : splice_graph),
      revise_loop acc cfg fuel g = some g1 ↔
        revise_loop_run acc cfg fuel g = run_result.finished g1
  | 0, g, g1 => by simp [revise_loop, revise_loop_run]
  | fuel + 1, g, g1 => by
    unfold revise_loop revise_loop_run
    cases hs : revise_pass acc cfg g with
    | none => simp
    | some r =>
      obtain ⟨s1, b⟩ := r
      cases b with
      | true => exact revise_loop_run_finished acc cfg fuel s1 g1
      | false => simp

theorem inner_edges_of_subgraph {g1 g : splice_graph} (h : g1.subgraph_of g) :
    (inner_edges g1).length ≤ (inner_edges g).length := by
  unfold inner_edges
  rw [subgraph_of_num_vertices h]
  exact (List.Sublist.filter _ h.1).length_le

theorem revise_measure_of_subgraph {g1 g : splice_graph} (h : g1.subgraph_of g) :
    revise_measure g1 ≤ revise_measure g ∧
    (g1.edges.length < g.edges.length → revise_measure g1 < revise_measure g) := by
  have h1 := inner_edges_of_subgraph h
  have h2 := h.1.length_le
  unfold revise_measure
  exact ⟨by omega, fun h3 => by omega⟩


theorem add_set_edges_exists (g : splice_graph) (s t : Nat) (w : ℚ) :
    ∃ x : edge_base, ((g.add_edge s t).1.set_edge_weight (g.add_edge s t).2 w).edges
      = g.edges ++ [x] ∧ x.source = s ∧ x.target = t :=
  ⟨_, add_set_edges g s t w, rfl, rfl⟩

theorem extend_boundaries_apply_edges (gr : splice_graph) (e : edge_base) :
    ∃ A B : List edge_base,
      (extend_boundaries_apply gr e).edges = ((gr.edges ++ A) ++ B).erase e ∧
      A.length ≤ 1 ∧ B.length ≤ 1 ∧
      (∀ x ∈ A, x.target = gr.num_vertices - 1) ∧ (∀ x ∈ B, x.source = 0) := by
  unfold extend_boundaries_apply
  simp only
  obtain ⟨x, hx, _, hxt⟩ := add_set_edges_exists gr e.source (gr.num_vertices - 1)
    (gr.get_vertex_weight e.source)
  by_cases h1 : gr.out_degree e.source = 1
  · rw [if_pos h1]
    obtain ⟨y, hy, hys, _⟩ := add_set_edges_exists
      ((gr.add_edge e.source (gr.num_vertices - 1)).1.set_edge_weight
        (gr.add_edge e.source (gr.num_vertices - 1)).2 (gr.get_vertex_weight e.source))
      0 e.target (gr.get_vertex_weight e.target)
    by_cases h2 : ((gr.add_edge e.source (gr.num_vertices - 1)).1.set_edge_weight
        (gr.add_edge e.source (gr.num_vertices - 1)).2
        (gr.get_vertex_weight e.source)).in_degree e.target = 1
    · rw [if_pos h2]
      refine ⟨[x], [y], ?_, by simp, by simp, ?_, ?_⟩
      · unfold splice_graph.remove_edge
        simp only
        rw [hy, hx]
      · intro z hz
        rw [List.mem_singleton.mp hz]
        exact hxt
      · intro z hz
        rw [List.mem_singleton.mp hz]
        exact hys
    · rw [if_neg h2]
      refine ⟨[x], [], ?_, by simp, by simp, ?_, by simp⟩
      · unfold splice_graph.remove_edge
        simp only
        rw [hx, List.append_nil]
      · intro z hz
        rw [List.mem_singleton.mp hz]
        exact hxt
  · rw [if_neg h1]
    obtain ⟨y, hy, hys, _⟩ := add_set_edges_exists gr 0 e.target (gr.get_vertex_weight e.target)
    by_cases h2 : gr.in_degree e.target = 1
    · rw [if_pos h2]
      refine ⟨[], [y], ?_, by simp, by simp, by simp, ?_⟩
      · unfold splice_graph.remove_edge
        simp only
        rw [hy, List.append_nil]
      · intro z hz
        rw [List.mem_singleton.mp hz]
        exact hys
    · rw [if_neg h2]
      exact ⟨[], [], by simp [splice_graph.remove_edge], by simp, by simp, by simp, by simp⟩

/-- A call of `extend_boundaries` that reports a change removes one edge not incident
to a sentinel and adds at most two edges, each incident to a sentinel. -/
theorem extend_boundaries_measure (gr : splice_graph) (h : (extend_boundaries gr).2 = true) :
    (inner_edges (extend_boundaries gr).1).length + 1 = (inner_edges gr).length ∧
    (extend_boundaries gr).1.edges.length ≤ gr.edges.length + 1 := by
  unfold extend_boundaries at h ⊢
  cases hf : gr.edges.find? (extend_boundaries_cond gr) with
  | none => rw [hf] at h; simp at h
  | some e =>
    simp only
    have he : e ∈ gr.edges := List.mem_of_find?_eq_some hf
    have hc : extend_boundaries_cond gr e = true := List.find?_some hf
    unfold extend_boundaries_cond at hc
    simp only [Bool.and_eq_true, Bool.not_eq_true', decide_eq_false_iff_not] at hc
    obtain ⟨⟨⟨_, hs⟩, ht⟩, _⟩ := hc
    obtain ⟨A, B, hE, hA, hB, hAt, hBs⟩ := extend_boundaries_apply_edges gr e
    have hv : (extend_boundaries_apply gr e).num_vertices = gr.num_vertices := by
      unfold splice_graph.num_vertices
      rw [(extend_boundaries_apply_vinf gr e).1]
    have hmem : e ∈ (gr.edges ++ A) ++ B :=
      List.mem_append_left _ (List.mem_append_left _ he)
    constructor
    · unfold inner_edges
      rw [hv, hE, ← List.countP_eq_length_filter, ← List.countP_eq_length_filter]
      have hcnt := countP_erase_of_mem
        (fun x => !decide (x.source = 0) && !decide (x.target = gr.num_vertices - 1))
        ((gr.edges ++ A) ++ B) e hmem
      have hpe : (!decide (e.source = 0) && !decide (e.target = gr.num_vertices - 1)) = true := by
        simp [hs, ht]
      simp only [hpe, if_true] at hcnt
      have hA0 : A.countP
          (fun x => !decide (x.source = 0) && !decide (x.target = gr.num_vertices - 1)) = 0 := by
        rw [List.countP_eq_zero]
        intro x hx
        simp [hAt x hx]
      have hB0 : B.countP
          (fun x => !decide (x.source = 0) && !decide (x.target = gr.num_vertices - 1)) = 0 := by
        rw [List.countP_eq_zero]
        intro x hx
        simp [hBs x hx]
      rw [List.countP_append, List.countP_append, hA0, hB0] at hcnt
      omega
    · rw [hE, List.length_erase_of_mem hmem]
      simp only [List.length_append]
      omega


theorem clear_loop_flag_shrinks (guard : splice_graph → Nat → Bool)
    (hguard : ∀ g i, guard g i = true → g.degree i ≠ 0) (ks : List Nat) (gr : splice_graph)
    (h : (!(clear_loop guard ks gr []).2.isEmpty) = true) :
    (clear_loop guard ks gr []).1.edges.length < gr.edges.length := by
  apply clear_loop_shrinks guard (fun g i hg => clear_vertex_shrinks g i (hguard g i hg))
  intro h0
  have : (clear_loop guard ks gr []).2 = [] := List.eq_nil_of_length_eq_zero (by simpa using h0)
  rw [this] at h
  simp at h

theorem remove_inner_boundaries_guard_degree (g : splice_graph) (i : Nat)
    (h : remove_inner_boundaries_guard g i = true) : g.degree i ≠ 0 := by
  unfold remove_inner_boundaries_guard at h
  unfold splice_graph.degree splice_graph.in_degree
  split at h
  · rename_i e1 e2 h1 h2
    rw [h1]
    simp
  · simp at h

theorem remove_intron_contamination_guard_degree (r : ℚ) (g : splice_graph) (i : Nat)
    (h : remove_intron_contamination_guard r g i = true) : g.degree i ≠ 0 := by
  unfold remove_intron_contamination_guard at h
  unfold splice_graph.degree splice_graph.in_degree
  split at h
  · rename_i e1 e2 h1 h2
    rw [h1]
    simp
  · simp at h

theorem remove_small_exons_guard_degree (m : Int) (g : splice_graph) (i : Nat)
    (h : remove_small_exons_guard m g i = true) : g.degree i ≠ 0 := by
  unfold remove_small_exons_guard at h
  simp only [Bool.and_eq_true, Bool.not_eq_true', decide_eq_false_iff_not] at h
  omega

theorem foldl_erase_length_lt (a : edge_base) (l edges : List edge_base) (ha : a ∈ edges) :
    ((a :: l).foldl List.erase edges).length < edges.length := by
  rw [List.foldl_cons]
  have h1 : ∀ (l : List edge_base) (es : List edge_base),
      (l.foldl List.erase es).length ≤ es.length := by
    intro l
    induction l with
    | nil => intro es; exact le_refl _
    | cons b l ih =>
      intro es
      rw [List.foldl_cons]
      exact le_trans (ih _) (List.erase_sublist _ _).length_le
  have h2 := h1 l (edges.erase a)
  rw [List.length_erase_of_mem ha] at h2
  have : 0 < edges.length := List.length_pos_of_mem ha
  omega

theorem small_junctions_at_mem (gr : splice_graph) (i : Nat) :
    ∀ e ∈ small_junctions_at gr i, e ∈ gr.edges := by
  intro e he
  unfold small_junctions_at at he
  split_ifs at he
  · simp at he
  · rcases List.mem_append.mp he with h | h
    · exact (List.mem_filter.mp (List.mem_filter.mp h).1).1
    · exact (List.mem_filter.mp (List.mem_filter.mp h).1).1

theorem small_junctions_fold_mem (gr : splice_graph) :
    ∀ (ks : List Nat) (se : List edge_base), (∀ e ∈ se, e ∈ gr.edges) →
      ∀ e ∈ ks.foldl (fun se i => (small_junctions_at gr i).foldl edge_set_insert se) se,
        e ∈ gr.edges
  | [], se, h => h
  | i :: ks, se, h => by
    rw [List.foldl_cons]
    apply small_junctions_fold_mem gr ks
    have : ∀ (l : List edge_base) (s : List edge_base), (∀ e ∈ l, e ∈ gr.edges) →
        (∀ e ∈ s, e ∈ gr.edges) → ∀ e ∈ l.foldl edge_set_insert s, e ∈ gr.edges := by
      intro l
      induction l with
      | nil => intro s _ hs; exact hs
      | cons a l ih =>
        intro s hl hs
        rw [List.foldl_cons]
        apply ih _ (fun e he => hl e (List.mem_cons_of_mem _ he))
        intro e he
        rcases (mem_edge_set_insert _ _ _).mp he with h1 | h1
        · exact hs e h1
        · rw [h1]; exact hl a (List.mem_cons_self _ _)
    exact this _ se (small_junctions_at_mem gr i) h

theorem remove_small_junctions_shrinks (g : splice_graph)
    (h : (remove_small_junctions g).2 = true) :
    (remove_small_junctions g).1.edges.length < g.edges.length := by
  unfold remove_small_junctions at h ⊢
  split_ifs at h ⊢ with hc
  simp only
  rw [foldl_remove_edge_edges]
  cases hse : g.inner_range.foldl
      (fun se i => (small_junctions_at g i).foldl edge_set_insert se) [] with
  | nil => rw [hse] at hc; simp at hc
  | cons a l =>
    apply foldl_erase_length_lt
    apply small_junctions_fold_mem g g.inner_range [] (by simp)
    rw [hse]
    exact List.mem_cons_self _ _

theorem keep_surviving_edges_shrinks (acc : Nat → List (Nat × Nat) → List Int)
    (g g1 : splice_graph) (w : ℚ) (h : keep_surviving_edges acc g w = some (g1, true)) :
    g1.edges.length < g.edges.length := by
  obtain ⟨me, st, _, _, _, _, _, hE, _, _, hb⟩ := keep_surviving_edges_spec acc g g1 w true h
  rw [hE, List.length_filter_lt_length_iff_exists]
  have hb' : (g.edges.filter (fun e => !decide (e ∈ st.se))).length ≥ 1 := by
    simpa using hb.symm
  obtain ⟨x, hx⟩ := List.exists_mem_of_length_pos (by omega : 0 <
    (g.edges.filter (fun e => !decide (e ∈ st.se))).length)
  obtain ⟨hx1, hx2⟩ := List.mem_filter.mp hx
  exact ⟨x, hx1, by simpa using hx2⟩


theorem shrink_of_subgraph {g2 g1 g : splice_graph}
    (h : g2.subgraph_of g1 ∧ g2.edges.length < g1.edges.length) (h1 : g1.subgraph_of g) :
    g2.subgraph_of g ∧ g2.edges.length < g.edges.length :=
  ⟨subgraph_of_trans h.1 h1, lt_of_lt_of_le h.2 h1.1.length_le⟩

theorem refine_of_shrink {g1 g : splice_graph}
    (h : g1.subgraph_of g ∧ g1.edges.length < g.edges.length) :
    (refine_splice_graph g1).subgraph_of g ∧
      (refine_splice_graph g1).edges.length < g.edges.length :=
  ⟨subgraph_of_trans (refine_splice_graph_subgraph g1) h.1,
   lt_of_le_of_lt (refine_splice_graph_subgraph g1).1.length_le h.2⟩

/-- A pass of the loop of `revise_splice_graph_full` that ends in `continue` without
`extend_boundaries` reporting a change leaves a graph with fewer edges, all of them
edges of the graph before. -/
theorem revise_from_inner_shrinks (acc : Nat → List (Nat × Nat) → List Int)
    (cfg : parameters) (g g1 : splice_graph)
    (h : revise_from_inner acc cfg g = some (g1, true)) :
    g1.subgraph_of g ∧ g1.edges.length < g.edges.length := by
  have s6 : ∀ g, revise_from_contamination cfg g = some (g1, true) →
      g1.subgraph_of g ∧ g1.edges.length < g.edges.length := by
    intro g h
    unfold revise_from_contamination at h
    simp only [Option.some.injEq, Prod.mk.injEq] at h
    rw [← h.1]
    exact ⟨remove_intron_contamination_subgraph g _,
      clear_loop_flag_shrinks _ (remove_intron_contamination_guard_degree _) _ g h.2⟩
  have s5 : ∀ g, revise_from_surviving acc cfg g = some (g1, true) →
      g1.subgraph_of g ∧ g1.edges.length < g.edges.length := by
    intro g h
    unfold revise_from_surviving at h
    split at h
    · exact absurd h (by simp)
    · rename_i g5 hk
      simp only [Option.some.injEq, Prod.mk.injEq, and_true] at h
      rw [← h]
      exact refine_of_shrink ⟨keep_surviving_edges_subgraph acc g g5 _ true hk,
        keep_surviving_edges_shrinks acc g g5 _ hk⟩
    · rename_i g5 hk
      exact shrink_of_subgraph (s6 g5 h) (keep_surviving_edges_subgraph acc g g5 _ false hk)
  have s4 : ∀ g, revise_from_junctions acc cfg g = some (g1, true) →
      g1.subgraph_of g ∧ g1.edges.length < g.edges.length := by
    intro g h
    unfold revise_from_junctions at h
    split_ifs at h with hc
    · simp only [Option.some.injEq, Prod.mk.injEq, and_true] at h
      rw [← h]
      exact refine_of_shrink ⟨remove_small_junctions_subgraph g,
        remove_small_junctions_shrinks g hc⟩
    · exact shrink_of_subgraph (s5 _ h) (remove_small_junctions_subgraph g)
  have s3 : ∀ g, revise_from_exons acc cfg g = some (g1, true) →
      g1.subgraph_of g ∧ g1.edges.length < g.edges.length := by
    intro g h
    unfold revise_from_exons at h
    split_ifs at h with hc
    · simp only [Option.some.injEq, Prod.mk.injEq, and_true] at h
      rw [← h]
      exact refine_of_shrink ⟨remove_small_exons_subgraph g _,
        clear_loop_flag_shrinks _ (remove_small_exons_guard_degree _) _ g hc⟩
    · exact shrink_of_subgraph (s4 _ h) (remove_small_exons_subgraph g _)
  unfold revise_from_inner at h
  split_ifs at h with hc
  · simp only [Option.some.injEq, Prod.mk.injEq, and_true] at h
    rw [← h]
    exact ⟨remove_inner_boundaries_subgraph g,
      clear_loop_flag_shrinks _ remove_inner_boundaries_guard_degree _ g hc⟩
  · exact shrink_of_subgraph (s3 _ h) (remove_inner_boundaries_subgraph g)

/-- Every pass of the loop of `revise_splice_graph_full` that ends in `continue`
lowers the measure. -/
theorem revise_pass_measure (acc : Nat → List (Nat × Nat) → List Int) (cfg : parameters)
    (g g1 : splice_graph) (h : revise_pass acc cfg g = some (g1, true)) :
    revise_measure g1 < revise_measure g := by
  unfold revise_pass at h
  split_ifs at h with hc
  · simp only [Option.some.injEq, Prod.mk.injEq, and_true] at h
    rw [← h]
    obtain ⟨h1, h2⟩ := extend_boundaries_measure g hc
    unfold revise_measure
    omega
  · have hf : (extend_boundaries g).2 = false := by simpa using hc
    rw [extend_boundaries_flag_false g hf] at h
    obtain ⟨h1, h2⟩ := revise_from_inner_shrinks acc cfg g g1 h
    exact (revise_measure_of_subgraph h1).2 h2

/-- With more passes than the measure of the graph the loop of
`revise_splice_graph_full` does not come to the end of its passes. -/
theorem revise_loop_run_ends (acc : Nat → List (Nat × Nat) → List Int) (cfg : parameters) :
    ∀ (fuel : Nat) (g : splice_graph), revise_measure g + 1 ≤ fuel →
      revise_loop_run acc cfg fuel g ≠ run_result.out_of_passes
  | 0, _, h => by omega
  | fuel + 1, g, h => by
    unfold revise_loop_run
    cases hp : revise_pass acc cfg g with
    | none => simp
    | some r =>
      obtain ⟨g1, b⟩ := r
      cases b with
      | true =>
        have := revise_pass_measure acc cfg g g1 hp
        exact revise_loop_run_ends acc cfg fuel g1 (by omega)
      | false => simp


theorem surviving_visit_in_weak (gr : splice_graph) (st st1 : surviving_state)
    (e : edge_base) (b : Bool) (h : surviving_visit_in gr st e = some (st1, b))
    (hw : (∀ x ∈ st.se, x ∈ gr.edges) ∧ st.se.Nodup) :
    ((∀ x ∈ st1.se, x ∈ gr.edges) ∧ st1.se.Nodup) ∧ st.se.length ≤ st1.se.length ∧
      (b = true → st.se.length < st1.se.length) := by
  unfold surviving_visit_in at h
  split_ifs at h with hc
  · split at h
    · simp at h
    · rename_i ee hee
      split_ifs at h with hm
      simp only [Option.some.injEq, Prod.mk.injEq] at h
      obtain ⟨h1, h2⟩ := h
      rw [← h1]
      refine ⟨⟨?_, ?_⟩, by simp, fun _ => by simp⟩
      · intro x hx
        rcases List.mem_append.mp hx with h3 | h3
        · exact hw.1 x h3
        · rw [List.mem_singleton.mp h3]
          exact (max_in_edge_spec gr _ ee hee).1
      · exact List.Nodup.append hw.2 (List.nodup_singleton ee) (by
          intro x hx hx2
          rw [List.mem_singleton.mp hx2] at hx
          exact hm hx)
  · simp only [Option.some.injEq, Prod.mk.injEq] at h
    rw [← h.1]
    exact ⟨hw, le_refl _, fun hb => by rw [← h.2] at hb; simp at hb⟩

theorem surviving_visit_out_weak (gr : splice_graph) (st st1 : surviving_state)
    (e : edge_base) (b : Bool) (h : surviving_visit_out gr st e = some (st1, b))
    (hw : (∀ x ∈ st.se, x ∈ gr.edges) ∧ st.se.Nodup) :
    ((∀ x ∈ st1.se, x ∈ gr.edges) ∧ st1.se.Nodup) ∧ st.se.length ≤ st1.se.length ∧
      (b = true → st.se.length < st1.se.length) := by
  unfold surviving_visit_out at h
  split_ifs at h with hc
  · split at h
    · simp at h
    · rename_i ee hee
      split_ifs at h with hm
      simp only [Option.some.injEq, Prod.mk.injEq] at h
      obtain ⟨h1, h2⟩ := h
      rw [← h1]
      refine ⟨⟨?_, ?_⟩, by simp, fun _ => by simp⟩
      · intro x hx
        rcases List.mem_append.mp hx with h3 | h3
        · exact hw.1 x h3
        · rw [List.mem_singleton.mp h3]
          exact (max_out_edge_spec gr _ ee hee).1
      · exact List.Nodup.append hw.2 (List.nodup_singleton ee) (by
          intro x hx hx2
          rw [List.mem_singleton.mp hx2] at hx
          exact hm hx)
  · simp only [Option.some.injEq, Prod.mk.injEq] at h
    rw [← h.1]
    exact ⟨hw, le_refl _, fun hb => by rw [← h.2] at hb; simp at hb⟩

theorem surviving_visit_weak (gr : splice_graph) (st st1 : surviving_state)
    (e : edge_base) (b : Bool) (h : surviving_visit gr st e = some (st1, b))
    (hw : (∀ x ∈ st.se, x ∈ gr.edges) ∧ st.se.Nodup) :
    ((∀ x ∈ st1.se, x ∈ gr.edges) ∧ st1.se.Nodup) ∧
      (b = true → st.se.length < st1.se.length) := by
  unfold surviving_visit at h
  split at h
  · simp at h
  · rename_i sa ba ha
    split at h
    · simp at h
    · rename_i sb bb hb
      simp only [Option.some.injEq, Prod.mk.injEq] at h
      obtain ⟨a1, a2, a3⟩ := surviving_visit_in_weak gr st sa e ba ha hw
      obtain ⟨b1, b2, b3⟩ := surviving_visit_out_weak gr sa sb e bb hb a1
      rw [← h.1, ← h.2]
      refine ⟨b1, fun hor => ?_⟩
      rcases Bool.or_eq_true_iff.mp hor with h3 | h3
      · have := a3 h3
        omega
      · have := b3 h3
        omega

theorem surviving_scan_weak (gr : splice_graph) (st st1 : surviving_state) (b : Bool) :
    ∀ l : List edge_base, surviving_scan gr st l = some (st1, b) →
      (∀ x ∈ st.se, x ∈ gr.edges) ∧ st.se.Nodup →
      ((∀ x ∈ st1.se, x ∈ gr.edges) ∧ st1.se.Nodup) ∧
        (b = true → st.se.length < st1.se.length)
  | [], h, hw => by
    simp only [surviving_scan, Option.some.injEq, Prod.mk.injEq] at h
    rw [← h.1, ← h.2]
    exact ⟨hw, fun hb => by simp at hb⟩
  | e :: l, h, hw => by
    unfold surviving_scan at h
    cases hv : surviving_visit gr st e with
    | none => rw [hv] at h; simp at h
    | some r =>
      obtain ⟨s1, b1⟩ := r
      rw [hv] at h
      cases b1 with
      | true =>
        simp only [Option.some.injEq, Prod.mk.injEq] at h
        rw [← h.1, ← h.2]
        exact surviving_visit_weak gr st s1 e true hv hw
      | false => exact surviving_scan_weak gr st st1 b l h hw

/-- The augmentation loop of `keep_surviving_edges` does not come to the end of its
passes when these are more than the edges outside `se`: a pass that goes on has put a
new edge into `se`. -/
theorem surviving_loop_run_ends (gr : splice_graph) :
    ∀ (fuel : Nat) (st : surviving_state),
      (∀ x ∈ st.se, x ∈ gr.edges) ∧ st.se.Nodup →
      gr.edges.length - st.se.length + 1 ≤ fuel →
      surviving_loop_run gr fuel st ≠ run_result.out_of_passes
  | 0, _, _, h => by omega
  | fuel + 1, st, hw, h => by
    unfold surviving_loop_run
    cases hs : surviving_scan gr st st.se with
    | none => simp
    | some r =>
      obtain ⟨s1, b⟩ := r
      cases b with
      | true =>
        obtain ⟨w1, w2⟩ := surviving_scan_weak gr st s1 true st.se hs hw
        have h1 := w2 rfl
        have h2 := (List.Nodup.subperm w1.2 w1.1).length_le
        exact surviving_loop_run_ends gr fuel s1 w1 (by omega)
      | false => simp


theorem foldlM_some_of_forall {σ α : Type} (f : σ → α → Option σ) :
    ∀ (l : List α) (s : σ), (∀ s a, a ∈ l → ∃ s', f s a = some s') →
      ∃ r, l.foldlM f s = some r
  | [], s, _ => ⟨s, rfl⟩
  | a :: l, s, h => by
    obtain ⟨s1, hs1⟩ := h s a (List.mem_cons_self _ _)
    rw [List.foldlM_cons, hs1]
    exact foldlM_some_of_forall f l s1 (fun t b hb => h t b (List.mem_cons_of_mem _ hb))

theorem compute_maximal_edges_total (acc : Nat → List (Nat × Nat) → List Int)
    (g : splice_graph) (h : components_agree acc g) :
    ∃ me, compute_maximal_edges acc g = some me := by
  unfold compute_maximal_edges
  obtain ⟨r, hr⟩ := foldlM_some_of_forall
    (compute_maximal_edges_step g
      (acc g.num_vertices ((inner_edges g).map (fun e : edge_base => (e.source, e.target)))))
    ((std_sort (fun a b : edge_base => decide (a.weight < b.weight))
      (inner_edges g)).reverse.takeWhile (fun e : edge_base => !decide (e.weight < 3 / 2)))
    ([], []) (by
        intro s a ha
        have hmem : a ∈ inner_edges g := by
          have h1 := (List.takeWhile_sublist _).subset ha
          exact (std_sort_perm _ _).subset (List.mem_reverse.mp h1)
        unfold compute_maximal_edges_step
        split_ifs with c1 c2 c3 c4
        · exact ⟨_, rfl⟩
        · exact ⟨_, rfl⟩
        · exact absurd (h a hmem) c3
        · exact ⟨_, rfl⟩
        · exact ⟨_, rfl⟩)
  rw [hr]
  exact ⟨_, rfl⟩

theorem revise_pass_some (acc : Nat → List (Nat × Nat) → List Int) (cfg : parameters)
    (g : splice_graph) (hf : g.forward) (hr : g.refined) (ha : components_agree acc g) :
    ∃ r, revise_pass acc cfg g = some r := by
  unfold revise_pass
  by_cases c1 : (extend_boundaries g).2 = true
  · rw [if_pos c1]; exact ⟨_, rfl⟩
  rw [if_neg c1, extend_boundaries_flag_false g (by simpa using c1)]
  unfold revise_from_inner
  by_cases c2 : (remove_inner_boundaries g).2 = true
  · rw [if_pos c2]; exact ⟨_, rfl⟩
  rw [if_neg c2, remove_inner_boundaries_flag_false g (by simpa using c2)]
  unfold revise_from_exons
  by_cases c3 : (remove_small_exons g cfg.min_exon_length).2 = true
  · rw [if_pos c3]; exact ⟨_, rfl⟩
  rw [if_neg c3, remove_small_exons_flag_false g _ (by simpa using c3)]
  unfold revise_from_junctions
  by_cases c4 : (remove_small_junctions g).2 = true
  · rw [if_pos c4]; exact ⟨_, rfl⟩
  rw [if_neg c4, remove_small_junctions_flag_false g (by simpa using c4)]
  unfold revise_from_surviving
  obtain ⟨me, hme⟩ := compute_maximal_edges_total acc g ha
  obtain ⟨hloop, _⟩ : (∃ st, surviving_loop g (g.edges.length + 1)
        (me.foldl surviving_state.add
          ((g.edges.filter (fun e => !decide (e.weight < cfg.min_surviving_edge_weight))).foldl
            surviving_state.add { se := [], sv1 := [], sv2 := [] })) = some st) ∧ True := by
    refine ⟨?_, trivial⟩
    have hc0 : surviving_closed g { se := [], sv1 := [], sv2 := [] } :=
      ⟨fun e he => by simp at he, List.nodup_nil⟩
    have hc1 := surviving_fold_closed g
      (g.edges.filter (fun e => !decide (e.weight < cfg.min_surviving_edge_weight))) _
      (fun e he => (List.mem_filter.mp he).1) hc0
    have hc2 := surviving_fold_closed g me _
      (fun e he => (List.mem_filter.mp (compute_maximal_edges_mem acc g me hme e he).1).1) hc1
    exact surviving_loop_total g hf hr (g.edges.length + 1) _ hc2 (by omega)
  obtain ⟨st, hst⟩ := hloop
  have hk : ∃ g1 b, keep_surviving_edges acc g cfg.min_surviving_edge_weight = some (g1, b) := by
    unfold keep_surviving_edges
    rw [hme]
    simp only
    rw [hst]
    exact ⟨_, _, rfl⟩
  obtain ⟨g1, b, hkb⟩ := hk
  rw [hkb]
  cases b with
  | true => exact ⟨_, rfl⟩
  | false =>
    simp only
    unfold revise_from_contamination
    exact ⟨_, rfl⟩

/-- On a graph with forward edges that is refined, with component numbers that agree
along every edge, the loop of `revise_splice_graph_full` reaches a pass without change
within `revise_measure + 1` passes. -/
theorem revise_loop_run_finishes (acc : Nat → List (Nat × Nat) → List Int) (cfg : parameters)
    (ha : ∀ g, components_agree acc g) :
    ∀ (fuel : Nat) (g : splice_graph), g.forward → g.refined → revise_measure g + 1 ≤ fuel →
      ∃ g1, revise_loop_run acc cfg fuel g = run_result.finished g1
  | 0, _, _, _, h => by omega
  | fuel + 1, g, hf, hr, h => by
    obtain ⟨r, hp⟩ := revise_pass_some acc cfg g hf hr (ha g)
    obtain ⟨g1, b⟩ := r
    unfold revise_loop_run
    rw [hp]
    cases b with
    | true =>
      have hm := revise_pass_measure acc cfg g g1 hp
      have hf1 : g1.forward := revise_pass_inv splice_graph.forward
        (fun _ _ hs hg => forward_of_subgraph hs hg) extend_boundaries_forward acc cfg g g1
        true hp hf
      exact revise_loop_run_finishes acc cfg ha fuel g1 hf1
        (revise_pass_refined acc cfg g g1 true hp hr) (by omega)
    | false => exact ⟨g1, rfl⟩


/-- C34 (revision terminates).  For every graph and configuration the loop of
`revise_splice_graph_full` ends within `revise_measure + 1` passes (twice the number of
edges not incident to a sentinel plus the number of edges): it does not come to the end
of these passes, so it reaches a pass without change or stops at a failed assertion;
when the edges go forward and the component numbers agree along every edge, no
assertion fails and `revise_splice_graph_full` returns.  A call of `extend_boundaries`
that reports a change lowers the number of edges not incident to a sentinel; a pass
that goes on without it leaves fewer edges, all of them edges of the graph before.  The
augmentation loop of `keep_surviving_edges` does not come to the end of its
`|edges| + 1` passes, because a pass that goes on has put a new edge into `se`. -/
theorem revision_terminates (acc : Nat → List (Nat × Nat) → List Int) (cfg : parameters)
    (gr : splice_graph) :
    (∀ fuel, revise_measure (refine_splice_graph gr) + 1 ≤ fuel →
      revise_loop_run acc cfg fuel (refine_splice_graph gr) ≠ run_result.out_of_passes) ∧
    (gr.forward → (∀ g, components_agree acc g) →
      ∃ g1, revise_splice_graph_full acc cfg (revise_measure (refine_splice_graph gr) + 1) gr
        = some g1) ∧
    (∀ g, (extend_boundaries g).2 = true →
      (inner_edges (extend_boundaries g).1).length < (inner_edges g).length) ∧
    (∀ g g1, revise_from_inner acc cfg g = some (g1, true) →
      g1.edges.Sublist g.edges ∧ g1.edges.length < g.edges.length) ∧
    (∀ w me, compute_maximal_edges acc gr = some me →
      surviving_loop_run gr (gr.edges.length + 1)
        (me.foldl surviving_state.add
          ((gr.edges.filter (fun e => !decide (e.weight < w))).foldl
            surviving_state.add { se := [], sv1 := [], sv2 := [] }))
        ≠ run_result.out_of_passes) ∧
    (∀ st st1, (∀ x ∈ st.se, x ∈ gr.edges) ∧ st.se.Nodup →
      surviving_scan gr st st.se = some (st1, true) → st.se.length < st1.se.length) := by
  refine ⟨fun fuel h => revise_loop_run_ends acc cfg fuel _ h, ?_, ?_, ?_, ?_, ?_⟩
  · intro hf ha
    obtain ⟨g1, hg1⟩ := revise_loop_run_finishes acc cfg ha
      (revise_measure (refine_splice_graph gr) + 1) (refine_splice_graph gr)
      (forward_of_subgraph (refine_splice_graph_subgraph gr) hf)
      (refine_splice_graph_refined gr) (le_refl _)
    have := (revise_loop_run_finished acc cfg _ _ g1).mpr hg1
    unfold revise_splice_graph_full
    rw [this]
    exact ⟨_, rfl⟩
  · intro g hg
    have := (extend_boundaries_measure g hg).1
    omega
  · intro g g1 h
    obtain ⟨h1, h2⟩ := revise_from_inner_shrinks acc cfg g g1 h
    exact ⟨h1.1, h2⟩
  · intro w me hme
    have hc0 : surviving_closed gr { se := [], sv1 := [], sv2 := [] } :=
      ⟨fun e he => by simp at he, List.nodup_nil⟩
    have hc1 := surviving_fold_closed gr (gr.edges.filter (fun e => !decide (e.weight < w))) _
      (fun e he => (List.mem_filter.mp he).1) hc0
    have hc2 := surviving_fold_closed gr me _
      (fun e he => (List.mem_filter.mp (compute_maximal_edges_mem acc gr me hme e he).1).1) hc1
    exact surviving_loop_run_ends gr _ _ ⟨fun x hx => (hc2.1 x hx).1, hc2.2⟩ (by omega)
  · intro st st1 hw hs
    exact (surviving_scan_weak gr st st1 true st.se hs hw).2 rfl

/-- An example for C34: on `gap_reviser_graph` the bound is 6 passes and the revision
returns (the graph without edges); with 2 passes the loop is not at its end. -/
theorem revision_terminates_example :
    revise_measure (refine_splice_graph gap_reviser_graph) + 1 = 6 ∧
    (revise_splice_graph_full assign_connected_components reviser_cfg 6
        gap_reviser_graph).map (fun g => g.edges) = some [] ∧
    revise_splice_graph_full assign_connected_components reviser_cfg 2 gap_reviser_graph
      = none := by
  decide!


/-! ## Intron chains and paths: the round trip (essential.cc 145-159, 213-249) -/

/-- A run of vertices whose consecutive positions touch adds no coordinate. -/
theorem build_intron_coordinates_run (gr : splice_graph) :
    ∀ (n a : Nat) (X : List Nat),
      (∀ i, a ≤ i → i < a + n →
        (gr.get_vertex_info i).rpos = (gr.get_vertex_info (i + 1)).lpos) →
      build_intron_coordinates_from_path gr (List.range' a n ++ (a + n) :: X)
        = build_intron_coordinates_from_path gr ((a + n) :: X) := by
  intro n
  induction n with
  | zero => intro a X _; simp
  | succ n ih =>
    intro a X h
    have h1 : List.range' a (n + 1) ++ (a + (n + 1)) :: X
        = a :: (List.range' (a + 1) n ++ (a + 1 + n) :: X) := by
      rw [List.range'_succ]
      simp [Nat.add_assoc, Nat.add_comm 1 n]
    have h2 : ∃ L, List.range' (a + 1) n ++ (a + 1 + n) :: X = (a + 1) :: L := by
      cases n with
      | zero => exact ⟨X, by simp⟩
      | succ m => exact ⟨List.range' (a + 1 + 1) m ++ (a + 1 + (m + 1)) :: X, by
          rw [List.range'_succ]; simp⟩
    obtain ⟨L, hL⟩ := h2
    have h3 := ih (a + 1) X (fun i hi1 hi2 => h i (by omega) (by omega))
    have h4 : a + (n + 1) = a + 1 + n := by omega
    rw [h1, hL]
    rw [hL] at h3
    rw [h4, ← h3]
    have h5 := h a (le_refl a) (by omega)
    show build_intron_coordinates_from_path gr (a :: (a + 1) :: L) = _
    rw [build_intron_coordinates_from_path, if_pos (le_of_eq h5), if_pos h5]

/-- What `check_continuous_vertices` says of the vertices of the range. -/
theorem check_continuous_vertices_spec (gr : splice_graph) (x y : Nat)
    (h : check_continuous_vertices gr x y = true) :
    ∀ i, x ≤ i → i < x + (y - x) →
      (gr.get_vertex_info i).rpos = (gr.get_vertex_info (i + 1)).lpos := by
  intro i hi1 hi2
  unfold check_continuous_vertices at h
  have hxy : ¬ x ≥ y := by omega
  rw [if_neg hxy] at h
  rw [List.all_eq_true] at h
  have h1 := h i (by rw [List.mem_range']; exact ⟨i - x, by omega, by omega⟩)
  simp at h1
  exact h1.2

/-- The coordinates of a list of vertex pairs: `rpos` of the first, `lpos` of the
second. -/
theorem intron_pairs_spec (gr : splice_graph) (lindex rindex : Int → Option Nat)
    (hl : ∀ q k, lindex q = some k → (gr.get_vertex_info k).lpos = q)
    (hr : ∀ p k, rindex p = some k → (gr.get_vertex_info k).rpos = p) :
    ∀ (n : Nat) (v : List Int) (pp : List (Nat × Nat)), v.length ≤ n →
      v.length % 2 = 0 → List.Sorted (· < ·) v →
      intron_pairs lindex rindex v = some (some pp) →
      v = pp.flatMap (fun x => [(gr.get_vertex_info x.1).rpos, (gr.get_vertex_info x.2).lpos])
      ∧ (∀ x ∈ pp, (gr.get_vertex_info x.1).rpos < (gr.get_vertex_info x.2).lpos)
      ∧ (v ≠ [] → pp ≠ []) := by
  intro n
  induction n with
  | zero =>
    intro v pp hn _ _ h
    have hv : v = [] := List.eq_nil_of_length_eq_zero (by omega)
    subst hv
    simp [intron_pairs] at h
    subst h
    simp
  | succ n ih =>
    intro v pp hn hev hs h
    match v, hn, hev, hs, h with
    | [], _, _, _, h =>
      simp [intron_pairs] at h
      subst h
      simp
    | [a], _, hev, _, _ => simp at hev
    | p :: q :: rest, hn, hev, hs, h =>
      rw [intron_pairs] at h
      by_cases c1 : p ≥ 0 ∧ q ≥ 0
      · rw [if_pos c1] at h
        by_cases c2 : p ≤ q
        · rw [if_pos c2] at h
          cases e1 : rindex p with
          | none => rw [e1] at h; simp at h
          | some kp =>
            rw [e1] at h
            cases e2 : lindex q with
            | none => rw [e2] at h; simp at h
            | some kq =>
              rw [e2] at h
              simp only [Option.map_eq_some'] at h
              obtain ⟨o, ho, ho2⟩ := h
              obtain ⟨pp1, hpp1, hpp2⟩ := ho2
              subst hpp1
              subst hpp2
              have hs1 : List.Sorted (· < ·) rest := (List.sorted_cons.mp (List.sorted_cons.mp hs).2).2
              have hpq : p < q := (List.sorted_cons.mp hs).1 q (List.mem_cons_self _ _)
              have hlen : rest.length ≤ n := by simp at hn; omega
              have hev1 : rest.length % 2 = 0 := by simp at hev; omega
              obtain ⟨i1, i2, _⟩ := ih rest pp1 hlen hev1 hs1 ho
              have hkp := hr p kp e1
              have hkq := hl q kq e2
              refine ⟨?_, ?_, ?_⟩
              · rw [List.flatMap_cons, ← i1, hkp, hkq]; rfl
              · intro x hx
                rcases List.mem_cons.mp hx with hx | hx
                · subst hx; simp only; rw [hkp, hkq]; exact hpq
                · exact i2 x hx
              · intro _; simp
        · rw [if_neg c2] at h; simp at h
      · rw [if_neg c1] at h; simp at h

/-- The path threaded through a non-empty list of vertex pairs gives back the
coordinates of the pairs. -/
theorem thread_pairs_round_trip (gr : splice_graph) :
    ∀ (rest : List (Nat × Nat)) (x : Nat × Nat) (mid : List Nat),
      (∀ y ∈ x :: rest, (gr.get_vertex_info y.1).rpos < (gr.get_vertex_info y.2).lpos) →
      thread_pairs gr (x :: rest) = some (some mid) →
      build_intron_coordinates_from_path gr
          (x.1 :: (mid ++ [((x :: rest).getLastD (0, 0)).2]))
        = some ((x :: rest).flatMap
            (fun x => [(gr.get_vertex_info x.1).rpos, (gr.get_vertex_info x.2).lpos])) := by
  intro rest
  induction rest with
  | nil =>
    intro x mid hx h
    simp [thread_pairs] at h
    subst h
    have h1 := hx x (List.mem_cons_self _ _)
    simp [build_intron_coordinates_from_path, le_of_lt h1, ne_of_lt h1]
  | cons y rest ih =>
    intro x mid hx h
    rw [thread_pairs] at h
    by_cases c1 : x.2 ≤ y.1
    · rw [if_pos c1] at h
      by_cases c2 : check_continuous_vertices gr x.2 y.1 = true
      · rw [if_pos c2] at h
        simp only [Option.map_eq_some'] at h
        obtain ⟨o, ho, ho2⟩ := h
        obtain ⟨mid1, hm1, hm2⟩ := ho2
        subst hm1
        subst hm2
        have hi := ih y mid1 (fun z hz => hx z (List.mem_cons_of_mem _ hz)) ho
        have h1 := hx x (List.mem_cons_self _ _)
        have hrun := build_intron_coordinates_run gr (y.1 - x.2) x.2
          (mid1 ++ [((y :: rest).getLastD (0, 0)).2])
          (check_continuous_vertices_spec gr x.2 y.1 c2)
        have hy : x.2 + (y.1 - x.2) = y.1 := by omega
        rw [hy] at hrun
        have hlast : (x :: y :: rest).getLastD (0, 0) = (y :: rest).getLastD (0, 0) := by
          simp [List.getLastD]
        have hsplit : List.range' x.2 (y.1 - x.2 + 1) ++ mid1
              ++ [((x :: y :: rest).getLastD (0, 0)).2]
            = x.2 :: (List.range' (x.2 + 1) (y.1 - x.2) ++ mid1
              ++ [((y :: rest).getLastD (0, 0)).2]) := by
          rw [hlast, List.range'_succ]; simp
        have hrange : x.2 :: (List.range' (x.2 + 1) (y.1 - x.2) ++ mid1
              ++ [((y :: rest).getLastD (0, 0)).2])
            = List.range' x.2 (y.1 - x.2) ++ y.1
              :: (mid1 ++ [((y :: rest).getLastD (0, 0)).2]) := by
          have h2 : List.range' x.2 (y.1 - x.2 + 1)
              = List.range' x.2 (y.1 - x.2) ++ [y.1] := by
            rw [List.range'_concat]; simp [hy]
          have h3 : x.2 :: List.range' (x.2 + 1) (y.1 - x.2)
              = List.range' x.2 (y.1 - x.2 + 1) := by rw [List.range'_succ]
          calc x.2 :: (List.range' (x.2 + 1) (y.1 - x.2) ++ mid1
                  ++ [((y :: rest).getLastD (0, 0)).2])
              = (x.2 :: List.range' (x.2 + 1) (y.1 - x.2)) ++ (mid1
                  ++ [((y :: rest).getLastD (0, 0)).2]) := by simp
            _ = _ := by rw [h3, h2]; simp
        rw [hsplit, build_intron_coordinates_from_path, if_pos (le_of_lt h1),
          if_neg (ne_of_lt h1), hrange, hrun, hi]
        rfl
      · rw [if_neg c2] at h; simp at h
    · rw [if_neg c1] at h; simp at h


/-- Claim C40.  Intron chain and path round trip: when `lindex` and `rindex` are
consistent with the vertex positions (a position looked up gives a vertex with that
`lpos`, resp. `rpos`), for every non-empty strictly increasing chain `c` for which
`build_path_from_intron_coordinates(gr, c, vv)` returns true,
`build_intron_coordinates_from_path(gr, vv)` returns exactly `c`. -/
theorem intron_chain_round_trip (gr : splice_graph) (lindex rindex : Int → Option Nat)
    (c : List Int) (vv : List Nat)
    (hl : ∀ q k, lindex q = some k → (gr.get_vertex_info k).lpos = q)
    (hr : ∀ p k, rindex p = some k → (gr.get_vertex_info k).rpos = p)
    (hne : c ≠ []) (hinc : List.Sorted (· < ·) c)
    (hb : build_path_from_intron_coordinates gr lindex rindex c = some (some vv)) :
    c.length % 2 = 0 ∧ build_intron_coordinates_from_path gr vv = some c := by
  unfold build_path_from_intron_coordinates at hb
  by_cases c1 : c.length % 2 ≠ 0
  · rw [if_pos c1] at hb; simp at hb
  · rw [if_neg c1] at hb
    have hev : c.length % 2 = 0 := by omega
    have hpos : ¬ c.length ≤ 0 := by
      intro h0
      exact hne (List.eq_nil_of_length_eq_zero (by omega))
    rw [if_neg hpos] at hb
    refine ⟨hev, ?_⟩
    cases e1 : intron_pairs lindex rindex c with
    | none => rw [e1] at hb; simp at hb
    | some o =>
      cases o with
      | none => rw [e1] at hb; simp at hb
      | some pp =>
        rw [e1] at hb
        simp only at hb
        obtain ⟨i1, i2, i3⟩ := intron_pairs_spec gr lindex rindex hl hr c.length c pp
          (le_refl _) hev hinc e1
        cases e2 : thread_pairs gr pp with
        | none => rw [e2] at hb; simp at hb
        | some o2 =>
          cases o2 with
          | none => rw [e2] at hb; simp at hb
          | some mid =>
            rw [e2] at hb
            simp only [Option.some.injEq] at hb
            cases pp with
            | nil => exact absurd rfl (i3 hne)
            | cons x rest =>
              have h := thread_pairs_round_trip gr rest x mid i2 e2
              rw [← hb, i1]
              simpa using h

/-- Claim C40, an instance: on `two_intron_graph` the chain `[200, 300, 500, 600]`
gives the path `[1, 2, 3, 4]`, and the path gives the chain back. -/
theorem intron_chain_round_trip_witness :
    build_path_from_intron_coordinates two_intron_graph two_intron_lindex two_intron_rindex
        [200, 300, 500, 600] = some (some [1, 2, 3, 4])
    ∧ ([200, 300, 500, 600] : List Int).length % 2 = 0
    ∧ build_intron_coordinates_from_path two_intron_graph [1, 2, 3, 4]
        = some [200, 300, 500, 600] :=
  ⟨by decide,
   intron_chain_round_trip two_intron_graph two_intron_lindex two_intron_rindex
    [200, 300, 500, 600] [1, 2, 3, 4]
    (by
      intro q k h
      unfold two_intron_lindex at h
      split_ifs at h <;> simp at h <;> subst h <;> subst_vars <;> decide)
    (by
      intro p k h
      unfold two_intron_rindex at h
      split_ifs at h <;> simp at h <;> subst h <;> subst_vars <;> decide)
    (by simp) (by decide) (by decide)⟩


/-! ## The greatest elements of a list -/

theorem sort_desc_unique {α : Type} [LinearOrder α] (l t : List α) (hp : List.Perm l t)
    (hs : List.Sorted (· ≥ ·) t) : l.insertionSort (· ≥ ·) = t :=
  List.eq_of_perm_of_sorted ((List.perm_insertionSort _ l).trans hp)
    (List.sorted_insertionSort _ l) hs

theorem sort_desc_perm {α : Type} [LinearOrder α] (l1 l2 : List α) (hp : List.Perm l1 l2) :
    l1.insertionSort (· ≥ ·) = l2.insertionSort (· ≥ ·) :=
  sort_desc_unique l1 _ (hp.trans (List.perm_insertionSort _ l2).symm)
    (List.sorted_insertionSort _ l2)

theorem sort_desc_map {α : Type} [LinearOrder α] (f : α → α) (l : List α)
    (hf : ∀ a ∈ l, ∀ b ∈ l, a ≥ b → f a ≥ f b) :
    (l.map f).insertionSort (· ≥ ·) = (l.insertionSort (· ≥ ·)).map f := by
  apply sort_desc_unique
  · exact ((List.perm_insertionSort _ l).map f).symm
  · have hs := List.sorted_insertionSort (· ≥ · : α → α → Prop) l
    have hm : ∀ x ∈ l.insertionSort (· ≥ ·), x ∈ l :=
      fun x hx => (List.perm_insertionSort _ l).subset hx
    unfold List.Sorted at hs ⊢
    rw [List.pairwise_map]
    exact hs.imp_of_mem (fun ha hb hab => hf _ (hm _ ha) _ (hm _ hb) hab)

/-- In a list in descending order, fewer than `i` elements are greater than the
element at a position below `i`. -/
theorem filter_gt_length_lt {α : Type} [LinearOrder α] (y : List α) (K : Nat)
    (hs : List.Sorted (· ≥ ·) y) (t : α) (ht : t ∈ y.take K) :
    (y.filter (fun x => decide (x > t))).length < K := by
  have hsplit : y = y.take K ++ y.drop K := (List.take_append_drop K y).symm
  have hpw := hs
  unfold List.Sorted at hpw
  rw [hsplit, List.pairwise_append] at hpw
  have hdrop : (y.drop K).filter (fun x => decide (x > t)) = [] := by
    rw [List.filter_eq_nil_iff]
    intro x hx
    have := hpw.2.2 t ht x hx
    simp only [decide_eq_true_eq, not_lt]
    exact this
  have htake : ((y.take K).filter (fun x => decide (x > t))).length < (y.take K).length := by
    apply List.length_filter_lt_length_iff_exists.mpr
    exact ⟨t, ht, by simp⟩
  rw [hsplit, List.filter_append, hdrop, List.append_nil]
  have : (y.take K).length ≤ K := by simp
  omega

theorem take_sort_append_left {α : Type} [LinearOrder α] (K : Nat) (a b : List α) :
    ((a ++ b).insertionSort (· ≥ ·)).take K
      = (((a.insertionSort (· ≥ ·)).take K ++ b).insertionSort (· ≥ ·)).take K := by
  set a' := a.insertionSort (· ≥ ·) with ha'
  set y := (a'.take K ++ b).insertionSort (· ≥ ·) with hy
  have hsa : List.Sorted (· ≥ ·) a' := List.sorted_insertionSort _ a
  have hsy : List.Sorted (· ≥ ·) y := List.sorted_insertionSort _ _
  have hpa : List.Perm a' a := List.perm_insertionSort _ a
  have hpy : List.Perm y (a'.take K ++ b) := List.perm_insertionSort _ _
  have hperm : List.Perm (a ++ b)
      (y.take K ++ (y.drop K ++ a'.drop K).insertionSort (· ≥ ·)) := by
    have h1 : List.Perm (a ++ b) (a' ++ b) := hpa.symm.append_right b
    have h2 : List.Perm (a' ++ b) ((a'.take K ++ b) ++ a'.drop K) := by
      conv_lhs => rw [← List.take_append_drop K a']
      rw [List.append_assoc, List.append_assoc]
      exact List.Perm.append_left _ List.perm_append_comm
    have h3 : List.Perm ((a'.take K ++ b) ++ a'.drop K) (y ++ a'.drop K) :=
      hpy.symm.append_right _
    have h4 : y ++ a'.drop K = y.take K ++ (y.drop K ++ a'.drop K) := by
      rw [← List.append_assoc, List.take_append_drop]
    have h5 : List.Perm (y.drop K ++ a'.drop K)
        ((y.drop K ++ a'.drop K).insertionSort (· ≥ ·)) :=
      (List.perm_insertionSort _ _).symm
    exact h1.trans (h2.trans (h3.trans (h4 ▸ (List.Perm.append_left _ h5))))
  have hsorted : List.Sorted (· ≥ ·)
      (y.take K ++ (y.drop K ++ a'.drop K).insertionSort (· ≥ ·)) := by
    unfold List.Sorted
    rw [List.pairwise_append]
    refine ⟨hsy.sublist (List.take_sublist _ _), List.sorted_insertionSort _ _, ?_⟩
    intro t ht r hr
    have hr' : r ∈ y.drop K ++ a'.drop K := (List.perm_insertionSort _ _).subset hr
    rcases List.mem_append.mp hr' with h | h
    · have hpw := hsy
      unfold List.Sorted at hpw
      rw [← List.take_append_drop K y, List.pairwise_append] at hpw
      exact hpw.2.2 t ht r h
    · by_contra hlt
      have hlt' : t < r := not_le.mp hlt
      have hpw := hsa
      unfold List.Sorted at hpw
      rw [← List.take_append_drop K a', List.pairwise_append] at hpw
      have hfull : (a'.take K).length = K := by
        have : K < a'.length := by
          by_contra hc
          rw [List.drop_eq_nil_of_le (by omega)] at h
          simp at h
        simp; omega
      have hall : (a'.take K).filter (fun x => decide (x > t)) = a'.take K := by
        rw [List.filter_eq_self]
        intro x hx
        have := hpw.2.2 x hx r h
        simp only [decide_eq_true_eq]
        exact lt_of_lt_of_le hlt' this
      have hsub : List.Subperm (a'.take K) y :=
        (List.sublist_append_left _ _).subperm.trans hpy.symm.subperm
      have hle := (hsub.filter (fun x => decide (x > t))).length_le
      rw [hall, hfull] at hle
      have := filter_gt_length_lt y K hsy t ht
      omega
  rw [sort_desc_unique _ _ hperm hsorted]
  by_cases hK : K ≤ y.length
  · rw [List.take_left']
    simp; omega
  · have hy0 : y.drop K = [] := List.drop_eq_nil_of_le (by omega)
    have ha0 : a'.drop K = [] := by
      apply List.drop_eq_nil_of_le
      have h1 := hpy.length_eq
      rw [List.length_append, List.length_take] at h1
      by_contra hc
      have : min K a'.length = K := by omega
      omega
    rw [hy0, ha0]
    simp

theorem take_sort_append_right {α : Type} [LinearOrder α] (K : Nat) (a b : List α) :
    ((a ++ b).insertionSort (· ≥ ·)).take K
      = ((a ++ (b.insertionSort (· ≥ ·)).take K).insertionSort (· ≥ ·)).take K := by
  rw [sort_desc_perm (a ++ b) (b ++ a) List.perm_append_comm, take_sort_append_left,
    sort_desc_perm _ _ List.perm_append_comm]

theorem take_sort_flatMap {α ι : Type} [LinearOrder α] (K : Nat) (X : ι → List α) :
    ∀ es : List ι,
      ((es.flatMap (fun e => ((X e).insertionSort (· ≥ ·)).take K)).insertionSort
          (· ≥ ·)).take K
        = ((es.flatMap X).insertionSort (· ≥ ·)).take K
  | [] => rfl
  | e :: es => by
    rw [List.flatMap_cons, List.flatMap_cons, take_sort_append_right,
      take_sort_flatMap K X es, ← take_sort_append_right, ← take_sort_append_left]

theorem stack_ge_iff_le : ∀ x y : List Int, x.length = y.length → (stack_ge x y ↔ y ≤ x)
  | [], [], _ => by simp [stack_ge]
  | [], _ :: _, h => by simp at h
  | _ :: _, [], h => by simp at h
  | a :: x, b :: y, h => by
    have ih := stack_ge_iff_le x y (by simpa using h)
    unfold stack_ge
    rw [ih]
    constructor
    · rintro (h1 | ⟨h1, h2⟩)
      · exact le_of_lt (List.Lex.rel h1)
      · subst h1
        rcases lt_or_eq_of_le h2 with h3 | h3
        · exact le_of_lt (List.Lex.cons h3)
        · rw [h3]
    · intro hle
      rcases lt_trichotomy a b with h1 | h1 | h1
      · exact absurd (List.Lex.rel h1 : a :: x < b :: y) (not_lt.mpr hle)
      · subst h1
        refine Or.inr ⟨rfl, ?_⟩
        by_contra hc
        exact absurd (List.Lex.cons (not_le.mp hc) : a :: x < a :: y) (not_lt.mpr hle)
      · exact Or.inl h1


/-! ## The stacks of the walks to a vertex -/

theorem update_stack_mono_le (s : Int) (x y : List Int) (h : x.length = y.length)
    (hle : y ≤ x) : update_stack y s ≤ update_stack x s := by
  rw [← stack_ge_iff_le _ _ (by rw [update_stack_length, update_stack_length, h])]
  exact update_stack_mono s x y h ((stack_ge_iff_le x y h).mpr hle)

theorem walk_stack_length (gr : splice_graph) (cfg : parameters) (es : List edge_base) :
    (walk_stack gr cfg es).length = cfg.bridge_dp_stack_size := by
  induction es using List.reverseRecOn with
  | nil => simp [walk_stack, walk_weights]
  | append_singleton es e ih => rw [walk_stack_snoc, update_stack_length, ih]

/-- On stacks of one size `best_stacks` is the list in descending lexicographic order,
cut to `K`. -/
theorem best_stacks_eq (S K : Nat) (l : List (List Int)) (hl : ∀ x ∈ l, x.length = S) :
    best_stacks K l = (l.insertionSort (· ≥ ·)).take K := by
  unfold best_stacks
  congr 1
  symm
  apply sort_desc_unique
  · exact (List.perm_insertionSort _ l).symm
  · have hpw : (std_sort compare_stack l).Pairwise (fun a b => compare_stack b a = false) := by
      refine std_sort_pairwise compare_stack (fun b => b.length = S) ?_ ?_ l hl
      · intro a b _ _ h
        rcases stack_ge_total a b with h1 | h1
        · exact (compare_stack_false_iff _ _).mpr h1
        · have := (compare_stack_false_iff _ _).mpr h1
          rw [this] at h
          simp at h
      · intro a b c ha hb hc h1 h2
        exact (compare_stack_false_iff _ _).mpr
          (stack_ge_trans _ _ _ (by rw [ha, hb]) (by rw [hb, hc])
            ((compare_stack_false_iff _ _).mp h1) ((compare_stack_false_iff _ _).mp h2))
    unfold std_sort at hpw
    have hm : ∀ x ∈ l.insertionSort (fun a b => compare_stack b a = false), x.length = S :=
      fun x hx => hl x ((List.perm_insertionSort _ l).subset hx)
    exact hpw.imp_of_mem (fun ha hb hab =>
      (stack_ge_iff_le _ _ (by rw [hm _ ha, hm _ hb])).mp ((compare_stack_false_iff _ _).mp hab))

theorem is_walk_length_le (gr : splice_graph) (hdag : ∀ e ∈ gr.edges, e.source < e.target) :
    ∀ (es : List edge_base) (a b : Nat), is_walk gr a b es = true → a + es.length ≤ b
  | [], a, b, h => by
    simp only [is_walk, decide_eq_true_eq] at h
    simp [h]
  | e :: es, a, b, h => by
    simp only [is_walk, Bool.and_eq_true, decide_eq_true_eq] at h
    have h1 := is_walk_length_le gr hdag es e.target b h.2
    have h2 := hdag e h.1.1
    simp only [List.length_cons]
    omega

/-- The list `walks_to` holds the walks of fewer than `fuel` edges, and no other list of
edges. -/
theorem mem_walks_to (gr : splice_graph) (k1 : Nat) :
    ∀ (fuel k : Nat) (es : List edge_base),
      es ∈ walks_to gr k1 fuel k ↔ is_walk gr k1 k es = true ∧ es.length < fuel := by
  intro fuel
  induction fuel with
  | zero => intro k es; simp [walks_to]
  | succ f ih =>
    intro k es
    rw [walks_to, List.mem_append, List.mem_flatMap]
    induction es using List.reverseRecOn with
    | nil =>
      constructor
      · rintro (h | ⟨e, _, h⟩)
        · split at h
          · rename_i hk
            simp [is_walk, hk]
          · simp at h
        · simp at h
      · rintro ⟨h, _⟩
        simp only [is_walk, decide_eq_true_eq] at h
        left
        rw [if_pos h.symm]
        simp
    | append_singleton es e _ =>
      rw [is_walk_snoc]
      constructor
      · rintro (h | ⟨e1, he1, h⟩)
        · split at h <;> simp at h
        · obtain ⟨es1, hes1, heq⟩ := List.mem_map.mp h
          have hinj := List.append_inj' heq rfl
          have h1 : es1 = es := hinj.1
          have h2 : e1 = e := by simpa using hinj.2
          subst h1; subst h2
          have := (ih e1.source es1).mp hes1
          have hm := (mem_in_edges gr k e1).mp he1
          exact ⟨⟨this.1, hm.1, hm.2⟩, by simp; omega⟩
      · rintro ⟨⟨h1, h2, h3⟩, h4⟩
        right
        refine ⟨e, (mem_in_edges gr k e).mpr ⟨h2, h3⟩, ?_⟩
        refine List.mem_map.mpr ⟨es, (ih e.source es).mpr ⟨h1, ?_⟩, rfl⟩
        simp at h4
        omega

theorem walks_to_below (gr : splice_graph) (k1 : Nat)
    (hdag : ∀ e ∈ gr.edges, e.source < e.target) (fuel j : Nat) (hj : j < k1) :
    walks_to gr k1 fuel j = [] := by
  rw [List.eq_nil_iff_forall_not_mem]
  intro es hes
  have h := (mem_walks_to gr k1 fuel j es).mp hes
  have := is_walk_length_le gr hdag es k1 j h.1
  omega

/-- No walk stands twice in `walks_to` when no edge stands twice in the edge list. -/
theorem walks_to_nodup (gr : splice_graph) (k1 : Nat) (hnd : gr.edges.Nodup) :
    ∀ (fuel k : Nat), (walks_to gr k1 fuel k).Nodup := by
  intro fuel
  induction fuel with
  | zero => intro k; simp [walks_to]
  | succ f ih =>
    intro k
    rw [walks_to]
    apply List.Nodup.append
    · split <;> simp
    · rw [List.nodup_flatMap]
      constructor
      · intro e _
        apply List.Nodup.map _ (ih e.source)
        intro a b hab
        exact (List.append_inj' hab rfl).1
      · have hin : (gr.in_edges k).Nodup := by
          unfold splice_graph.in_edges
          exact hnd.filter _
        refine hin.imp ?_
        intro a b hab
        show List.Disjoint _ _
        intro x hxa hxb
        obtain ⟨ea, _, ha⟩ := List.mem_map.mp hxa
        obtain ⟨eb, _, hb⟩ := List.mem_map.mp hxb
        have := (List.append_inj' (ha.trans hb.symm) rfl).2
        exact hab (by simpa using this)
    · intro x hx1 hx2
      have hx : x = [] := by
        split at hx1
        · simpa using hx1
        · simp at hx1
      subst hx
      obtain ⟨e, _, he⟩ := List.mem_flatMap.mp hx2
      obtain ⟨es, _, hes⟩ := List.mem_map.mp he
      simp at hes


/-! ## The rows of the dynamic program hold the best stacks -/

theorem dp_candidates_stacks (gr : splice_graph) (t : List (List entry)) (k1 k : Nat) :
    (dp_candidates gr t k1 k).map (fun c => c.stack)
      = (gr.in_edges k).flatMap (fun e =>
          ((if e.source < k1 then [] else t.getD e.source []).map (fun c => c.stack)).map
            (fun st => update_stack st (int_of_double (gr.get_edge_weight e)))) := by
  unfold dp_candidates
  rw [List.map_flatMap]
  apply flatMap_congr_mem
  intro e _
  unfold dp_extend
  by_cases h1 : e.source < k1
  · rw [if_pos h1, if_pos h1]; rfl
  · rw [if_neg h1, if_neg h1]
    by_cases h2 : (t.getD e.source []).length = 0
    · rw [if_pos h2, List.eq_nil_of_length_eq_zero h2]; rfl
    · rw [if_neg h2, List.map_map, List.map_map]
      have h3 : ∀ l : List entry, ∀ n : Nat,
          (l.enumFrom n).map ((fun c : entry => c.stack) ∘ (fun ix : Nat × entry =>
            ({ stack := update_stack ix.2.stack (int_of_double (gr.get_edge_weight e)),
               length := ix.2.length + ((gr.get_vertex_info k).rpos
                 - (gr.get_vertex_info k).lpos),
               trace1 := (e.source : Int), trace2 := (ix.1 : Int) } : entry)))
          = l.map ((fun st => update_stack st (int_of_double (gr.get_edge_weight e)))
              ∘ (fun c : entry => c.stack)) := by
        intro l
        induction l with
        | nil => intro n; rfl
        | cons a l ih => intro n; simp only [List.enumFrom, List.map_cons]; rw [ih]; rfl
      exact h3 _ 0

/-- The stacks of a row of a table that the loop can leave are the best stacks of the
walks to the vertex of the row. -/
theorem dp_rows_best (gr : splice_graph) (cfg : parameters) (k1 k2 : Nat)
    (hK : 1 ≤ cfg.bridge_dp_solution_size)
    (hdag : ∀ e ∈ gr.edges, e.source < e.target)
    (t : List (List entry)) (ht : dp_rows_ok gr cfg k1 k2 t) :
    ∀ (fuel j : Nat), j < fuel → k1 ≤ j → j ≤ k2 →
      (t.getD j []).map (fun c => c.stack)
        = (((walks_to gr k1 fuel j).map (walk_stack gr cfg)).insertionSort (· ≥ ·)).take
            cfg.bridge_dp_solution_size := by
  intro fuel
  induction fuel with
  | zero => intro j hj; omega
  | succ f ih =>
    intro j hjf hj1 hj2
    have hflat : ((gr.in_edges j).flatMap (fun e =>
          (walks_to gr k1 f e.source).map (fun es => es ++ [e]))).map (walk_stack gr cfg)
        = (gr.in_edges j).flatMap (fun e =>
            ((walks_to gr k1 f e.source).map (walk_stack gr cfg)).map
              (fun st => update_stack st (int_of_double (gr.get_edge_weight e)))) := by
      rw [List.map_flatMap]
      apply flatMap_congr_mem
      intro e _
      rw [List.map_map, List.map_map]
      apply List.map_congr_left
      intro es _
      exact walk_stack_snoc gr cfg es e
    rcases Nat.eq_or_lt_of_le hj1 with h0 | h0
    · subst h0
      have hnil : (gr.in_edges k1).flatMap (fun e =>
          (walks_to gr k1 f e.source).map (fun es => es ++ [e])) = [] := by
        rw [List.flatMap_eq_nil_iff]
        intro e he
        have hm := (mem_in_edges gr k1 e).mp he
        have := hdag e hm.1
        rw [walks_to_below gr k1 hdag f e.source (by omega)]
        rfl
      rw [ht.1, walks_to, if_pos rfl, hnil]
      simp only [List.append_nil, List.map_cons, List.map_nil, List.insertionSort,
        List.orderedInsert]
      rw [List.take_of_length_le (by simpa using hK)]
      simp [walk_stack, walk_weights]
    · obtain ⟨v, hv1, hv2, hv3⟩ := ht.2 j h0 hj2
      have hpiece : ∀ e ∈ gr.in_edges j,
          ((if e.source < k1 then [] else t.getD e.source []).map (fun c => c.stack)).map
            (fun st => update_stack st (int_of_double (gr.get_edge_weight e)))
          = ((((walks_to gr k1 f e.source).map (walk_stack gr cfg)).map
              (fun st => update_stack st (int_of_double (gr.get_edge_weight e)))).insertionSort
                (· ≥ ·)).take cfg.bridge_dp_solution_size := by
        intro e he
        have hm := (mem_in_edges gr j e).mp he
        have hlt := hdag e hm.1
        by_cases h1 : e.source < k1
        · rw [if_pos h1, walks_to_below gr k1 hdag f e.source h1]
          simp
        · rw [if_neg h1, ih e.source (by omega) (by omega) (by omega), sort_desc_map,
            List.map_take]
          intro a ha b hb hab
          obtain ⟨ea, _, rfl⟩ := List.mem_map.mp ha
          obtain ⟨eb, _, rfl⟩ := List.mem_map.mp hb
          exact update_stack_mono_le _ _ _
            (by rw [walk_stack_length, walk_stack_length]) hab
      have hcand : (dp_candidates gr t k1 j).map (fun c => c.stack)
          = (gr.in_edges j).flatMap (fun e =>
              ((((walks_to gr k1 f e.source).map (walk_stack gr cfg)).map
                (fun st => update_stack st
                  (int_of_double (gr.get_edge_weight e)))).insertionSort
                  (· ≥ ·)).take cfg.bridge_dp_solution_size) := by
        rw [dp_candidates_stacks]
        exact flatMap_congr_mem _ _ _ hpiece
      have hlen : ∀ x ∈ (dp_candidates gr t k1 j).map (fun c => c.stack),
          x.length = cfg.bridge_dp_stack_size := by
        intro x hx
        rw [hcand] at hx
        obtain ⟨e, _, hxe⟩ := List.mem_flatMap.mp hx
        have hx1 := (List.perm_insertionSort _ _).subset ((List.take_sublist _ _).subset hxe)
        obtain ⟨y, hy, rfl⟩ := List.mem_map.mp hx1
        obtain ⟨es, _, rfl⟩ := List.mem_map.mp hy
        rw [update_stack_length, walk_stack_length]
      have hsorted : List.Sorted (· ≥ ·) (v.map (fun c => c.stack)) := by
        unfold List.Sorted
        rw [List.pairwise_map]
        refine hv2.imp_of_mem ?_
        intro a b ha hb hab
        have hla := hlen a.stack (List.mem_map.mpr ⟨a, hv1.subset ha, rfl⟩)
        have hlb := hlen b.stack (List.mem_map.mpr ⟨b, hv1.subset hb, rfl⟩)
        exact (stack_ge_iff_le _ _ (by rw [hla, hlb])).mp
          ((compare_stack_false_iff _ _).mp (compare_stack_le_entry_compare _ _ _ _ hab))
      have hv : ((dp_candidates gr t k1 j).map (fun c => c.stack)).insertionSort (· ≥ ·)
          = v.map (fun c => c.stack) :=
        sort_desc_unique _ _ (hv1.map _).symm hsorted
      rw [hv3, List.map_take, ← hv, hcand, take_sort_flatMap, walks_to,
        if_neg (by omega), List.nil_append, hflat]


/-- The entries of a table that the loop can leave are entries of paths. -/
theorem dp_rows_sound (gr : splice_graph) (cfg : parameters) (k1 k2 : Nat)
    (hdag : ∀ e ∈ gr.edges, e.source < e.target)
    (t : List (List entry)) (ht : dp_rows_ok gr cfg k1 k2 t) :
    ∀ (fuel j : Nat), j < fuel → k1 ≤ j → j ≤ k2 →
      ∀ c ∈ t.getD j [], path_entry gr cfg k1 j c.stack c.length := by
  intro fuel
  induction fuel with
  | zero => intro j hj; omega
  | succ f ih =>
    intro j hjf hj1 hj2 c hc
    rcases Nat.eq_or_lt_of_le hj1 with h0 | h0
    · subst h0
      rw [ht.1] at hc
      rw [List.mem_singleton.mp hc]
      exact path_entry.start
    · obtain ⟨v, hv1, _, hv3⟩ := ht.2 j h0 hj2
      rw [hv3] at hc
      obtain ⟨e, he, hte, hs, i, x, hx, hcx⟩ := (mem_dp_candidates gr t k1 j c).mp
        (hv1.subset ((List.take_sublist _ _).subset hc))
      have hlt := hdag e he
      rw [hcx, ← hte]
      exact path_entry.step e x.stack x.length he
        (ih e.source (by omega) hs (by omega) x (List.getElem?_mem hx))

/-- The table of the embedding is one that the loop can leave. -/
theorem dp_fill_rows_ok (gr : splice_graph) (cfg : parameters) (k1 k2 : Nat)
    (hdag : ∀ e ∈ gr.edges, e.source < e.target)
    (hk1 : k1 < gr.num_vertices) (hk2 : k2 < gr.num_vertices) :
    dp_rows_ok gr cfg k1 k2 (dp_fill gr cfg k1 k2) := by
  refine ⟨dp_fill_start_row gr cfg k1 k2 hk1, ?_⟩
  intro k h1 h2
  refine ⟨std_sort entry_compare (dp_candidates gr (dp_fill gr cfg k1 k2) k1 k),
    std_sort_perm _ _, ?_, ?_⟩
  · exact entry_compare_sorted gr cfg _ k1 k (fun j => dp_table_stack_length gr cfg k1 _ j)
  · rw [dp_fill_recurrence gr cfg k1 k2 k hdag hk2 ⟨h1, h2⟩, dp_row_eq_take]

/-- The first of the `K >= 1` greatest elements is at least every element. -/
theorem head_take_sort_ge {α β : Type} [LinearOrder α] (K : Nat) (hK : 1 ≤ K) (f : β → α)
    (row : List β) (l : List α) (h : row.map f = (l.insertionSort (· ≥ ·)).take K)
    (w : α) (hw : w ∈ l) : ∃ e0 rest, row = e0 :: rest ∧ f e0 ≥ w := by
  have hs := List.sorted_insertionSort (· ≥ · : α → α → Prop) l
  have hw1 : w ∈ l.insertionSort (· ≥ ·) := (List.perm_insertionSort _ l).symm.subset hw
  cases hl : l.insertionSort (· ≥ ·) with
  | nil => rw [hl] at hw1; simp at hw1
  | cons x xs =>
    rw [hl] at h hs hw1
    obtain ⟨K1, rfl⟩ : ∃ K1, K = K1 + 1 := ⟨K - 1, by omega⟩
    rw [List.take_succ_cons] at h
    cases row with
    | nil => simp at h
    | cons e0 rest =>
      refine ⟨e0, rest, rfl, ?_⟩
      rw [List.map_cons] at h
      have hx : f e0 = x := (List.cons.inj h).1
      rw [hx]
      rcases List.mem_cons.mp hw1 with h1 | h1
      · rw [h1]
      · exact (List.sorted_cons.mp hs).1 w h1


/-- C7 (top-K table meaning), amended.  After `dynamic_programming(k1, k2, table)` with
`K = bridge_dp_solution_size >= 1` on a graph whose edges all satisfy `s < t`, for every
`k` with `k1 < k <= k2`: the function returns a table that the loop can leave
(`dp_rows_ok`); `walks_to` lists the paths from `k1` to `k` (every path, and each once
when the edge list has no repetition); and for every table that the loop can leave,
whatever order the sort gives to entries that `entry_compare` does not separate, the
stacks of the row `T[k]` are the `min(K, m)` best stacks, in order, among the stacks of
all `m` paths from `k1` to `k` (lexicographically, the larger first); the row has
`min(K, m)` entries, stands in `entry_compare` order, and each of its entries is the
`(stack, length)` entry of a path from `k1` to `k`; and no path from `k1` to `k` has a
stack lexicographically greater than that of `T[k][0]`.  The length of an entry is that
of a path with its stack, not the smallest length among such paths. -/
theorem dynamic_programming_rows (gr : splice_graph) (cfg : parameters) (k1 k2 k : Nat)
    (hK : 1 ≤ cfg.bridge_dp_solution_size)
    (hdag : ∀ e ∈ gr.edges, e.source < e.target)
    (hk1 : k1 < gr.num_vertices) (hk2 : k2 < gr.num_vertices) (hk : k1 < k ∧ k ≤ k2) :
    (∃ table, dynamic_programming gr cfg k1 k2 = some table ∧
      dp_rows_ok gr cfg k1 k2 table) ∧
    (∀ es, es ∈ walks_to gr k1 gr.num_vertices k ↔ is_walk gr k1 k es = true) ∧
    (gr.edges.Nodup → (walks_to gr k1 gr.num_vertices k).Nodup) ∧
    ∀ table, dp_rows_ok gr cfg k1 k2 table →
      (table.getD k []).map (fun c => c.stack)
        = best_stacks cfg.bridge_dp_solution_size
            ((walks_to gr k1 gr.num_vertices k).map (walk_stack gr cfg)) ∧
      (table.getD k []).length
        = min cfg.bridge_dp_solution_size (walks_to gr k1 gr.num_vertices k).length ∧
      (table.getD k []).Pairwise (fun a b => entry_compare b a = false) ∧
      (∀ c ∈ table.getD k [], path_entry gr cfg k1 k c.stack c.length) ∧
      (∀ st len, path_entry gr cfg k1 k st len →
        ∃ e0 rest, table.getD k [] = e0 :: rest ∧ stack_ge e0.stack st) := by
  have hmem : ∀ es, es ∈ walks_to gr k1 gr.num_vertices k ↔ is_walk gr k1 k es = true := by
    intro es
    rw [mem_walks_to]
    constructor
    · exact fun h => h.1
    · intro h
      have := is_walk_length_le gr hdag es k1 k h
      exact ⟨h, by omega⟩
  refine ⟨⟨dp_fill gr cfg k1 k2, ?_, dp_fill_rows_ok gr cfg k1 k2 hdag hk1 hk2⟩, hmem,
    fun hnd => walks_to_nodup gr k1 hnd _ _, ?_⟩
  · unfold dynamic_programming
    rw [if_pos ⟨by omega, by omega, by omega, by omega⟩]
    simp
  · intro table ht
    have hb := dp_rows_best gr cfg k1 k2 hK hdag table ht gr.num_vertices k (by omega)
      (by omega) hk.2
    have hlen : ∀ x ∈ (walks_to gr k1 gr.num_vertices k).map (walk_stack gr cfg),
        x.length = cfg.bridge_dp_stack_size := by
      intro x hx
      obtain ⟨es, _, rfl⟩ := List.mem_map.mp hx
      exact walk_stack_length gr cfg es
    refine ⟨?_, ?_, ?_, ?_, ?_⟩
    · rw [best_stacks_eq cfg.bridge_dp_stack_size _ _ hlen]
      exact hb
    · have := congrArg List.length hb
      simpa using this
    · obtain ⟨v, _, hv2, hv3⟩ := ht.2 k hk.1 hk.2
      rw [hv3]
      exact hv2.sublist (List.take_sublist _ _)
    · exact dp_rows_sound gr cfg k1 k2 hdag table ht gr.num_vertices k (by omega) (by omega)
        hk.2
    · intro st len hp
      obtain ⟨es, hw, rfl⟩ := path_entry_walk gr cfg k1 k st len hp
      have hin : walk_stack gr cfg es
          ∈ (walks_to gr k1 gr.num_vertices k).map (walk_stack gr cfg) :=
        List.mem_map.mpr ⟨es, (hmem es).mpr hw, rfl⟩
      obtain ⟨e0, rest, hrow, hge⟩ := head_take_sort_ge cfg.bridge_dp_solution_size hK
        (fun c : entry => c.stack) _ _ hb _ hin
      refine ⟨e0, rest, hrow, ?_⟩
      have he0 : e0.stack ∈ (table.getD k []).map (fun c => c.stack) := by
        rw [hrow]; simp
      rw [hb] at he0
      have hl0 := hlen _ ((List.perm_insertionSort _ _).subset
        ((List.take_sublist _ _).subset he0))
      exact (stack_ge_iff_le _ _ (by rw [hl0, walk_stack_length])).mpr hge


/-- C7, an instance: on `skip_graph` with `K = 10` and stacks of five values the two
paths from vertex 1 to vertex 4 have the stacks `[2, 5, 5, 999999, 999999]` and
`[2, 3, 999999, 999999, 999999]`, and these are the stacks of row 4, in this order. -/
theorem dynamic_programming_rows_witness :
    (dynamic_programming skip_graph scenario_cfg 1 4).map
        (fun t => (t.getD 4 []).map (fun c => c.stack))
      = some [[2, 5, 5, 999999, 999999], [2, 3, 999999, 999999, 999999]] ∧
    best_stacks scenario_cfg.bridge_dp_solution_size
        ((walks_to skip_graph 1 skip_graph.num_vertices 4).map
          (walk_stack skip_graph scenario_cfg))
      = [[2, 5, 5, 999999, 999999], [2, 3, 999999, 999999, 999999]] ∧
    ((∃ table, dynamic_programming skip_graph scenario_cfg (1 : Nat) (4 : Nat) = some table ∧
      dp_rows_ok skip_graph scenario_cfg 1 4 table) ∧
    (∀ es, es ∈ walks_to skip_graph 1 skip_graph.num_vertices 4
      ↔ is_walk skip_graph 1 4 es = true) ∧
    (skip_graph.edges.Nodup → (walks_to skip_graph 1 skip_graph.num_vertices 4).Nodup) ∧
    ∀ table, dp_rows_ok skip_graph scenario_cfg 1 4 table →
      (table.getD 4 []).map (fun c => c.stack)
        = best_stacks scenario_cfg.bridge_dp_solution_size
            ((walks_to skip_graph 1 skip_graph.num_vertices 4).map
              (walk_stack skip_graph scenario_cfg)) ∧
      (table.getD 4 []).length
        = min scenario_cfg.bridge_dp_solution_size
            (walks_to skip_graph 1 skip_graph.num_vertices 4).length ∧
      (table.getD 4 []).Pairwise (fun a b => entry_compare b a = false) ∧
      (∀ c ∈ table.getD 4 [], path_entry skip_graph scenario_cfg 1 4 c.stack c.length) ∧
      (∀ st len, path_entry skip_graph scenario_cfg 1 4 st len →
        ∃ e0 rest, table.getD 4 [] = e0 :: rest ∧ stack_ge e0.stack st)) :=
  ⟨by decide, by decide,
   dynamic_programming_rows skip_graph scenario_cfg 1 4 4 (by decide) (by decide) (by decide)
    (by decide) (by decide)⟩

end MetaScallop
